import Mathlib

/-!
# formula-go: a verification development

A shallow embedding of the formula engine (lexer, parser, tree-walking interpreter and the
built-in function library) together with theorems about it.

## Numbers

Go's `float64` is modelled by `F64`: NaN, the two infinities, and the finite values.  Every
finite binary64 value is an integer multiple of `2^-1074` (the smallest subnormal), so a finite
value is stored as that integer `k` (value `k * 2^-1074`).  Arithmetic computes the exact
result and rounds it to nearest, ties to even, with 53 significant bits, overflowing to an
infinity at `2^1024`.  The two zeros are identified and NaN payloads are dropped; no operation
of the engine can tell them apart (every division of the engine is guarded against a zero
divisor or divides by a positive count).

Go's `int` is modelled by `Int`; the two places where a 64-bit wrap-around is reachable
(`n * (n + 1)` in WMA, `i - lastSignal` in FILTER) wrap explicitly.

## Strings

A Go string is a byte sequence; it is modelled by a `String` whose characters are the bytes
(each below 256).  `goBytes` turns source text into that form (its UTF-8 encoding).
-/

set_option exponentiation.threshold 4096
set_option maxRecDepth 100000

namespace FormulaGo

/-! ## float64 -/

/-- Values of Go's `float64`: `fin k` is the finite value `k * 2^-1074`. -/
inductive F64 where
  | nan : F64
  | inf (neg : Bool) : F64
  | fin (k : Int) : F64
deriving DecidableEq, Repr

namespace F64

/-- Floor of the binary logarithm of a number below `2^64` (`0` for `0`). -/
def log2Small (n : Nat) : Nat :=
  (List.foldl (fun (p : Nat × Nat) (e : Nat) => if 2 ^ e ≤ p.1 then (p.1 / 2 ^ e, p.2 + e) else p)
    (n, 0) [32, 16, 8, 4, 2, 1]).2

/-- Floor of the binary logarithm, 64 bits at a time. -/
def log2Aux : Nat → Nat → Nat
  | 0, _ => 0
  | fuel + 1, n => if n < 2 ^ 64 then log2Small n else log2Aux fuel (n / 2 ^ 64) + 64

/-- Floor of the binary logarithm of `n` (`0` for `0`). -/
def log2 (n : Nat) : Nat := log2Aux n n

/-- Round half to even on a quotient `q` with remainder `r2 / d2` compared with one half:
`r2` is twice the remainder, `d2` the divisor. -/
def tiesEven (q r2 d2 : Nat) : Nat :=
  if r2 < d2 then q else if d2 < r2 then q + 1 else if q % 2 = 0 then q else q + 1

/-- The positive rational `num / den`, in units of `2^-1074`, rounded to the nearest multiple
of its ulp (ties to even): below `2^53` units the ulp is one unit, above it the result keeps
53 significant bits. -/
def rne (num den : Nat) : Nat :=
  let sh := log2 (num / den) - 52
  let d := den * 2 ^ sh
  tiesEven (num / d) (2 * (num % d)) d * 2 ^ sh

/-- A rounded magnitude with its sign; magnitudes from `2^1024` on overflow to infinity. -/
def ofMag (neg : Bool) (mag : Nat) : F64 :=
  if 2 ^ 2098 ≤ mag then inf neg else fin (if neg then -(mag : Int) else (mag : Int))

/-- The rational `± num / den` (in units of `2^-1074`) as a `float64`. -/
def round (neg : Bool) (num den : Nat) : F64 := ofMag neg (rne num den)

/-- The real number `± num / den` as a `float64`. -/
def ofRatio (neg : Bool) (num den : Nat) : F64 := round neg (num * 2 ^ 1074) den

/-- Conversion `float64(n)` of an integer. -/
def ofInt (n : Int) : F64 := ofRatio (decide (n < 0)) n.natAbs 1

/-- The constant `0`. -/
def zero : F64 := fin 0

/-- The constant `1`. -/
def one : F64 := ofInt 1

/-- Predicate `math.IsNaN`. -/
def isNaN : F64 → Bool
  | nan => true
  | _ => false

/-- Sum `a + b`. -/
def add : F64 → F64 → F64
  | nan, _ => nan
  | _, nan => nan
  | inf s, inf t => if s = t then inf s else nan
  | inf s, fin _ => inf s
  | fin _, inf t => inf t
  | fin a, fin b => round (decide (a + b < 0)) (a + b).natAbs 1

/-- Negation `-a`. -/
def neg : F64 → F64
  | nan => nan
  | inf s => inf (!s)
  | fin a => fin (-a)

/-- Difference `a - b`. -/
def sub (a b : F64) : F64 := add a (neg b)

/-- Product `a * b`. -/
def mul : F64 → F64 → F64
  | nan, _ => nan
  | _, nan => nan
  | inf s, inf t => inf (s != t)
  | inf s, fin b => if b = 0 then nan else inf (s != decide (b < 0))
  | fin a, inf t => if a = 0 then nan else inf (decide (a < 0) != t)
  | fin a, fin b => round (decide (a * b < 0)) (a * b).natAbs (2 ^ 1074)

/-- Quotient `a / b`.  A zero divisor is taken as `+0`. -/
def div : F64 → F64 → F64
  | nan, _ => nan
  | _, nan => nan
  | inf _, inf _ => nan
  | inf s, fin b => inf (s != decide (b < 0))
  | fin _, inf _ => fin 0
  | fin a, fin b =>
    if b = 0 then (if a = 0 then nan else inf (decide (a < 0)))
    else round (decide (a < 0) != decide (b < 0)) (a.natAbs * 2 ^ 1074) b.natAbs

/-- Comparison `a < b` (false when either side is NaN). -/
def lt : F64 → F64 → Bool
  | nan, _ => false
  | _, nan => false
  | inf s, inf t => s && !t
  | inf s, fin _ => s
  | fin _, inf t => !t
  | fin a, fin b => decide (a < b)

/-- Comparison `a <= b` (false when either side is NaN). -/
def le : F64 → F64 → Bool
  | nan, _ => false
  | _, nan => false
  | inf s, inf t => s || !t
  | inf s, fin _ => s
  | fin _, inf t => !t
  | fin a, fin b => decide (a ≤ b)

/-- Comparison `a > b`. -/
def gt (a b : F64) : Bool := lt b a

/-- Comparison `a >= b`. -/
def ge (a b : F64) : Bool := le b a

/-- Comparison `a == b` (false when either side is NaN). -/
def eq : F64 → F64 → Bool
  | nan, _ => false
  | _, nan => false
  | a, b => decide (a = b)

/-- Comparison `a != b` (true when either side is NaN). -/
def ne (a b : F64) : Bool := !eq a b

/-- Function `math.Abs`. -/
def abs : F64 → F64
  | nan => nan
  | inf _ => inf false
  | fin a => fin (a.natAbs : Int)

/-- One Newton step per unit of fuel towards the integer square root, from above. -/
def isqrtAux : Nat → Nat → Nat → Nat
  | 0, _, x => x
  | fuel + 1, n, x =>
    let y := (x + n / x) / 2
    if x ≤ y then x else isqrtAux fuel n y

/-- Integer square root (floor). -/
def isqrt (n : Nat) : Nat :=
  if n = 0 then 0 else isqrtAux (log2 n + 8) n (2 ^ (log2 n / 2 + 1))

/-- The square root of `n` units-squared, rounded to nearest even: the magnitude, in units of
`2^-1074`, of `sqrt (k * 2^-1074)` is `sqrt (k * 2^1074)`. -/
def rneSqrt (n : Nat) : Nat :=
  let sh := log2 n / 2 - 52
  let q := isqrt (n / 4 ^ sh)
  tiesEven q (4 * n) (4 ^ sh * (2 * q + 1) ^ 2) * 2 ^ sh

/-- Function `math.Sqrt`. -/
def sqrt : F64 → F64
  | nan => nan
  | inf s => if s then nan else inf false
  | fin a => if a < 0 then nan else fin (rneSqrt (a.natAbs * 2 ^ 1074) : Nat)

/-- Function `math.Max`: `+Inf` wins over everything, then NaN. -/
def max (x y : F64) : F64 :=
  if x = inf false ∨ y = inf false then inf false
  else if x.isNaN ∨ y.isNaN then nan
  else if gt x y then x else y

/-- Function `math.Min`: `-Inf` wins over everything, then NaN. -/
def min (x y : F64) : F64 :=
  if x = inf true ∨ y = inf true then inf true
  else if x.isNaN ∨ y.isNaN then nan
  else if lt x y then x else y

/-- Conversion `int(f)` on amd64: truncation toward zero; NaN, the infinities and values
outside the `int64` range give `-2^63` (the conversion's result is implementation-dependent
there; this is what the `CVTTSD2SQ` instruction returns). -/
def toInt : F64 → Int
  | fin a =>
    let t := Int.tdiv a ((2 ^ 1074 : Nat) : Int)
    if -9223372036854775808 ≤ t ∧ t < 9223372036854775808 then t else -9223372036854775808
  | _ => -9223372036854775808

end F64

/-- Two's-complement wrap-around of a Go `int` (64 bits). -/
def wrap64 (x : Int) : Int :=
  (x + 9223372036854775808) % 18446744073709551616 - 9223372036854775808

/-! ## Errors, values and Go's loops -/

/-- The error kinds of package `errors`, each with the message passed to its constructor
(the constructors prepend a fixed prefix and, for the first two, the position).  Two more
outcomes are not errors the program returns: a Go run-time panic, and a recursion budget of
the parser model that ran out. -/
inductive FormulaError where
  | lexer (message : String) (line column : Int) (char : String)
  | parser (message : String) (line column : Int)
  | runtime (message : String)
  | goPanic (message : String)
  | outOfFuel
deriving DecidableEq, Repr

/-- The result of a fallible Go function: a value, or an error. -/
abbrev Res (α : Type) : Type := Except FormulaError α

/-- The call returned a `*errors.RuntimeError`. -/
def isRuntimeError {α : Type} : Res α → Bool
  | .error (.runtime _) => true
  | _ => false

/-- The call panicked. -/
def isPanic {α : Type} : Res α → Bool
  | .error (.goPanic _) => true
  | _ => false

/-- The call returned a value. -/
def isOk {α : Type} : Res α → Bool
  | .ok _ => true
  | _ => false

/-- A computed value: `Value{Single, Array, IsArray}`. -/
structure Value where
  Single : F64
  Array : List F64
  IsArray : Bool
deriving DecidableEq, Repr

/-- Constructor `NewSingleValue`. -/
def NewSingleValue (v : F64) : Value := { Single := v, Array := [], IsArray := false }

/-- Constructor `NewArrayValue`. -/
def NewArrayValue (arr : List F64) : Value := { Single := F64.zero, Array := arr, IsArray := true }

/-- One bar: `types.MarketData`. -/
structure MarketData where
  Open : F64
  Close : F64
  High : F64
  Low : F64
  Volume : F64
  Amount : F64
deriving DecidableEq, Repr

/-- Read `a[i]`; Go panics when the index is out of range. -/
def index (a : List F64) (i : Int) : Res F64 :=
  if 0 ≤ i ∧ i < (a.length : Int) then .ok (a.getD i.toNat F64.zero)
  else .error (.goPanic "index out of range")

/-- Write `a[i] = v`; Go panics when the index is out of range. -/
def store (a : List F64) (i : Int) (v : F64) : Res (List F64) :=
  if 0 ≤ i ∧ i < (a.length : Int) then .ok (a.set i.toNat v)
  else .error (.goPanic "index out of range")

/-- Allocation `make([]float64, n)`. -/
def makeSlice (n : Nat) : List F64 := List.replicate n F64.zero

/-- The iterations of a counted loop: `k` more rounds starting at index `i`. -/
def forLoopAux {σ : Type} (body : Int → σ → Res σ) : Nat → Int → σ → Res σ
  | 0, _, s => .ok s
  | k + 1, i, s =>
    match body i s with
    | .ok s1 => forLoopAux body k (i + 1) s1
    | .error e => .error e

/-- The loop `for i := lo; i < hi; i++ { s = body(i, s) }`. -/
def forLoop {σ : Type} (lo hi : Int) (body : Int → σ → Res σ) (init : σ) : Res σ :=
  forLoopAux body (hi - lo).toNat lo init

/-- The iterations of a counted loop whose body may `break`: the body returns the new state
and whether it broke out. -/
def forBreakAux {σ : Type} (body : Int → σ → Res (σ × Bool)) : Nat → Int → σ → Res σ
  | 0, _, s => .ok s
  | k + 1, i, s =>
    match body i s with
    | .ok (s1, true) => .ok s1
    | .ok (s1, false) => forBreakAux body k (i + 1) s1
    | .error e => .error e

/-- The loop `for i := lo; i < hi; i++ { ... break ... }`. -/
def forBreak {σ : Type} (lo hi : Int) (body : Int → σ → Res (σ × Bool)) (init : σ) : Res σ :=
  forBreakAux body (hi - lo).toNat lo init

/-! ## The built-in functions (`interpreter/functions.go`, `interpreter/functions_ext.go`) -/

/-- Built-in `MA(data, period)`: moving average. -/
def fnMA (args : List Value) (_marketData : List MarketData) : Res Value :=
  match args with
  | [data, period] =>
    if !data.IsArray then .error (.runtime "MA first argument must be an array")
    else if period.IsArray then .error (.runtime "MA second argument must be a number")
    else
      let n := F64.toInt period.Single
      if n ≤ 0 ∨ n > (data.Array.length : Int) then
        .error (.runtime ("MA period must be between 1 and " ++ toString data.Array.length))
      else do
        let result := makeSlice data.Array.length
        let result ← forLoop 0 (n - 1) (fun i r => store r i F64.nan) result
        let result ← forLoop (n - 1) data.Array.length (fun i r => do
          let sum ← forLoop 0 n (fun j s => do let x ← index data.Array (i - j); pure (F64.add s x)) F64.zero
          store r i (F64.div sum (F64.ofInt n))) result
        pure (NewArrayValue result)
  | _ => .error (.runtime "MA requires 2 arguments")

/-- Built-in `EMA(data, period)`: exponential moving average. -/
def fnEMA (args : List Value) (_marketData : List MarketData) : Res Value :=
  match args with
  | [data, period] =>
    if !data.IsArray then .error (.runtime "EMA first argument must be an array")
    else if period.IsArray then .error (.runtime "EMA second argument must be a number")
    else
      let n := F64.toInt period.Single
      if n ≤ 0 ∨ n > (data.Array.length : Int) then
        .error (.runtime ("EMA period must be between 1 and " ++ toString data.Array.length))
      else do
        let alpha := F64.div (F64.ofInt 2) (F64.ofInt (n + 1))
        let result := makeSlice data.Array.length
        let first ← index data.Array 0
        let result ← store result 0 first
        let result ← forLoop 1 data.Array.length (fun i r => do
          let x ← index data.Array i
          let prev ← index r (i - 1)
          store r i (F64.add (F64.mul alpha x) (F64.mul (F64.sub F64.one alpha) prev))) result
        pure (NewArrayValue result)
  | _ => .error (.runtime "EMA requires 2 arguments")

/-- Built-in `SUM(data, period)`: trailing sum. -/
def fnSUM (args : List Value) (_marketData : List MarketData) : Res Value :=
  match args with
  | [data, period] =>
    if !data.IsArray then .error (.runtime "SUM first argument must be an array")
    else if period.IsArray then .error (.runtime "SUM second argument must be a number")
    else
      let n := F64.toInt period.Single
      if n ≤ 0 ∨ n > (data.Array.length : Int) then
        .error (.runtime ("SUM period must be between 1 and " ++ toString data.Array.length))
      else do
        let result := makeSlice data.Array.length
        let result ← forLoop 0 (n - 1) (fun i r => store r i F64.nan) result
        let result ← forLoop (n - 1) data.Array.length (fun i r => do
          let sum ← forLoop 0 n (fun j s => do let x ← index data.Array (i - j); pure (F64.add s x)) F64.zero
          store r i sum) result
        pure (NewArrayValue result)
  | _ => .error (.runtime "SUM requires 2 arguments")

/-- Built-in `MAX(a, b)`. -/
def fnMAX (args : List Value) (_marketData : List MarketData) : Res Value :=
  match args with
  | [a, b] =>
    if !a.IsArray ∧ !b.IsArray then .ok (NewSingleValue (F64.max a.Single b.Single))
    else if a.IsArray ∧ b.IsArray then
      if a.Array.length ≠ b.Array.length then .error (.runtime "MAX: array length mismatch")
      else do
        let result ← forLoop 0 a.Array.length (fun i r => do
          let x ← index a.Array i
          let y ← index b.Array i
          store r i (F64.max x y)) (makeSlice a.Array.length)
        pure (NewArrayValue result)
    else .error (.runtime "MAX: incompatible argument types")
  | _ => .error (.runtime "MAX requires 2 arguments")

/-- Built-in `MIN(a, b)`. -/
def fnMIN (args : List Value) (_marketData : List MarketData) : Res Value :=
  match args with
  | [a, b] =>
    if !a.IsArray ∧ !b.IsArray then .ok (NewSingleValue (F64.min a.Single b.Single))
    else if a.IsArray ∧ b.IsArray then
      if a.Array.length ≠ b.Array.length then .error (.runtime "MIN: array length mismatch")
      else do
        let result ← forLoop 0 a.Array.length (fun i r => do
          let x ← index a.Array i
          let y ← index b.Array i
          store r i (F64.min x y)) (makeSlice a.Array.length)
        pure (NewArrayValue result)
    else .error (.runtime "MIN: incompatible argument types")
  | _ => .error (.runtime "MIN requires 2 arguments")

/-- Built-in `ABS(value)`. -/
def fnABS (args : List Value) (_marketData : List MarketData) : Res Value :=
  match args with
  | [val] =>
    if !val.IsArray then .ok (NewSingleValue (F64.abs val.Single))
    else do
      let result ← forLoop 0 val.Array.length (fun i r => do
        let v ← index val.Array i
        store r i (F64.abs v)) (makeSlice val.Array.length)
      pure (NewArrayValue result)
  | _ => .error (.runtime "ABS requires 1 argument")

/-- Built-in `SQRT(value)`. -/
def fnSQRT (args : List Value) (_marketData : List MarketData) : Res Value :=
  match args with
  | [val] =>
    if !val.IsArray then .ok (NewSingleValue (F64.sqrt val.Single))
    else do
      let result ← forLoop 0 val.Array.length (fun i r => do
        let v ← index val.Array i
        store r i (F64.sqrt v)) (makeSlice val.Array.length)
      pure (NewArrayValue result)
  | _ => .error (.runtime "SQRT requires 1 argument")

/-- Built-in `REF(data, n)`: the value `n` periods ago. -/
def fnREF (args : List Value) (_marketData : List MarketData) : Res Value :=
  match args with
  | [data, period] =>
    if !data.IsArray then .error (.runtime "REF first argument must be an array")
    else if period.IsArray then .error (.runtime "REF second argument must be a number")
    else
      let n := F64.toInt period.Single
      if n < 0 then .error (.runtime "REF period must be non-negative")
      else do
        let result := makeSlice data.Array.length
        let result ← forLoop 0 (min n result.length) (fun i r => store r i F64.nan) result
        let result ← forLoop n data.Array.length (fun i r => do
          let x ← index data.Array (i - n)
          store r i x) result
        pure (NewArrayValue result)
  | _ => .error (.runtime "REF requires 2 arguments")

/-- Built-in `HHV(data, period)`. -/
def fnHHV (args : List Value) (_marketData : List MarketData) : Res Value :=
  match args with
  | [data, period] =>
    if !data.IsArray then .error (.runtime "HHV first argument must be an array")
    else if period.IsArray then .error (.runtime "HHV second argument must be a number")
    else
      let n := F64.toInt period.Single
      if n ≤ 0 ∨ n > (data.Array.length : Int) then
        .error (.runtime ("HHV period must be between 1 and " ++ toString data.Array.length))
      else do
        let result := makeSlice data.Array.length
        let result ← forLoop 0 (n - 1) (fun i r => store r i F64.nan) result
        let result ← forLoop (n - 1) data.Array.length (fun i r => do
          let first ← index data.Array i
          let maxVal ← forLoop 1 n (fun j m => do
              let x ← index data.Array (i - j)
              pure (if F64.gt x m then x else m)) first
          store r i maxVal) result
        pure (NewArrayValue result)
  | _ => .error (.runtime "HHV requires 2 arguments")

/-- Built-in `LLV(data, period)`. -/
def fnLLV (args : List Value) (_marketData : List MarketData) : Res Value :=
  match args with
  | [data, period] =>
    if !data.IsArray then .error (.runtime "LLV first argument must be an array")
    else if period.IsArray then .error (.runtime "LLV second argument must be a number")
    else
      let n := F64.toInt period.Single
      if n ≤ 0 ∨ n > (data.Array.length : Int) then
        .error (.runtime ("LLV period must be between 1 and " ++ toString data.Array.length))
      else do
        let result := makeSlice data.Array.length
        let result ← forLoop 0 (n - 1) (fun i r => store r i F64.nan) result
        let result ← forLoop (n - 1) data.Array.length (fun i r => do
          let first ← index data.Array i
          let minVal ← forLoop 1 n (fun j m => do
              let x ← index data.Array (i - j)
              pure (if F64.lt x m then x else m)) first
          store r i minVal) result
        pure (NewArrayValue result)
  | _ => .error (.runtime "LLV requires 2 arguments")

/-- Built-in `IF(condition, trueValue, falseValue)`. -/
def fnIF (args : List Value) (_marketData : List MarketData) : Res Value :=
  match args with
  | [cond, trueVal, falseVal] =>
    if !cond.IsArray then
      if F64.ne cond.Single F64.zero then .ok trueVal else .ok falseVal
    else if !trueVal.IsArray ∨ !falseVal.IsArray then
      .error (.runtime "IF: when condition is array, both true/false values must be arrays")
    else if cond.Array.length ≠ trueVal.Array.length ∨ cond.Array.length ≠ falseVal.Array.length then
      .error (.runtime "IF: array length mismatch")
    else do
      let result ← forLoop 0 cond.Array.length (fun i r => do
        let c ← index cond.Array i
        if F64.ne c F64.zero then do
          let t ← index trueVal.Array i
          store r i t
        else do
          let f ← index falseVal.Array i
          store r i f) (makeSlice cond.Array.length)
      pure (NewArrayValue result)
  | _ => .error (.runtime "IF requires 3 arguments")

/-- Built-in `CROSS(a, b)`: 1 where `a` crosses above `b`. -/
def fnCROSS (args : List Value) (_marketData : List MarketData) : Res Value :=
  match args with
  | [a, b] =>
    if !a.IsArray ∨ !b.IsArray then .error (.runtime "CROSS requires array arguments")
    else if a.Array.length ≠ b.Array.length then .error (.runtime "CROSS: array length mismatch")
    else do
      let result := makeSlice a.Array.length
      let result ← store result 0 F64.zero
      let result ← forLoop 1 a.Array.length (fun i r => do
        let a0 ← index a.Array (i - 1)
        let b0 ← index b.Array (i - 1)
        let a1 ← index a.Array i
        let b1 ← index b.Array i
        if F64.le a0 b0 ∧ F64.gt a1 b1 then store r i F64.one else store r i F64.zero) result
      pure (NewArrayValue result)
  | _ => .error (.runtime "CROSS requires 2 arguments")

/-- Built-in `STD(data, period)`: population standard deviation. -/
def fnSTD (args : List Value) (_marketData : List MarketData) : Res Value :=
  match args with
  | [data, period] =>
    if !data.IsArray then .error (.runtime "STD first argument must be an array")
    else if period.IsArray then .error (.runtime "STD second argument must be a number")
    else
      let n := F64.toInt period.Single
      if n ≤ 0 ∨ n > (data.Array.length : Int) then
        .error (.runtime ("STD period must be between 1 and " ++ toString data.Array.length))
      else do
        let result := makeSlice data.Array.length
        let result ← forLoop 0 (n - 1) (fun i r => store r i F64.nan) result
        let result ← forLoop (n - 1) data.Array.length (fun i r => do
          let mean ← forLoop 0 n (fun j s => do let x ← index data.Array (i - j); pure (F64.add s x)) F64.zero
          let mean := F64.div mean (F64.ofInt n)
          let variance ← forLoop 0 n (fun j s => do
              let x ← index data.Array (i - j)
              pure (F64.add s (F64.mul (F64.sub x mean) (F64.sub x mean)))) F64.zero
          let variance := F64.div variance (F64.ofInt n)
          store r i (F64.sqrt variance)) result
        pure (NewArrayValue result)
  | _ => .error (.runtime "STD requires 2 arguments")

/-- Built-in `VAR(data, period)`: population variance. -/
def fnVAR (args : List Value) (_marketData : List MarketData) : Res Value :=
  match args with
  | [data, period] =>
    if !data.IsArray then .error (.runtime "VAR first argument must be an array")
    else if period.IsArray then .error (.runtime "VAR second argument must be a number")
    else
      let n := F64.toInt period.Single
      if n ≤ 0 ∨ n > (data.Array.length : Int) then
        .error (.runtime ("VAR period must be between 1 and " ++ toString data.Array.length))
      else do
        let result := makeSlice data.Array.length
        let result ← forLoop 0 (n - 1) (fun i r => store r i F64.nan) result
        let result ← forLoop (n - 1) data.Array.length (fun i r => do
          let mean ← forLoop 0 n (fun j s => do let x ← index data.Array (i - j); pure (F64.add s x)) F64.zero
          let mean := F64.div mean (F64.ofInt n)
          let variance ← forLoop 0 n (fun j s => do
              let x ← index data.Array (i - j)
              pure (F64.add s (F64.mul (F64.sub x mean) (F64.sub x mean)))) F64.zero
          store r i (F64.div variance (F64.ofInt n))) result
        pure (NewArrayValue result)
  | _ => .error (.runtime "VAR requires 2 arguments")

/-- Built-in `SMA(data, period)`: an alias of `MA`. -/
def fnSMA (args : List Value) (data : List MarketData) : Res Value := fnMA args data

/-- Built-in `WMA(data, period)`: linearly weighted moving average. -/
def fnWMA (args : List Value) (_marketData : List MarketData) : Res Value :=
  match args with
  | [data, period] =>
    if !data.IsArray then .error (.runtime "WMA first argument must be an array")
    else if period.IsArray then .error (.runtime "WMA second argument must be a number")
    else
      let n := F64.toInt period.Single
      if n ≤ 0 ∨ n > (data.Array.length : Int) then
        .error (.runtime ("WMA period must be between 1 and " ++ toString data.Array.length))
      else do
        let result := makeSlice data.Array.length
        let weightSum := F64.ofInt (Int.tdiv (wrap64 (n * (n + 1))) 2)
        let result ← forLoop 0 (n - 1) (fun i r => store r i F64.nan) result
        let result ← forLoop (n - 1) data.Array.length (fun i r => do
          let weightedSum ← forLoop 0 n (fun j s => do
              let x ← index data.Array (i - j)
              pure (F64.add s (F64.mul x (F64.ofInt (n - j))))) F64.zero
          store r i (F64.div weightedSum weightSum)) result
        pure (NewArrayValue result)
  | _ => .error (.runtime "WMA requires 2 arguments")

/-- Built-in `COUNT(condition, period)`: number of nonzero values in the window. -/
def fnCOUNT (args : List Value) (_marketData : List MarketData) : Res Value :=
  match args with
  | [data, period] =>
    if !data.IsArray then .error (.runtime "COUNT first argument must be an array")
    else if period.IsArray then .error (.runtime "COUNT second argument must be a number")
    else
      let n := F64.toInt period.Single
      if n ≤ 0 ∨ n > (data.Array.length : Int) then
        .error (.runtime ("COUNT period must be between 1 and " ++ toString data.Array.length))
      else do
        let result := makeSlice data.Array.length
        let result ← forLoop 0 (n - 1) (fun i r => store r i F64.nan) result
        let result ← forLoop (n - 1) data.Array.length (fun i r => do
          let count ← forLoop 0 n (fun j s => do
              let x ← index data.Array (i - j)
              pure (if F64.ne x F64.zero then F64.add s F64.one else s)) F64.zero
          store r i count) result
        pure (NewArrayValue result)
  | _ => .error (.runtime "COUNT requires 2 arguments")

/-- Built-in `EVERY(condition, period)`: 1 when the whole window is nonzero. -/
def fnEVERY (args : List Value) (_marketData : List MarketData) : Res Value :=
  match args with
  | [data, period] =>
    if !data.IsArray then .error (.runtime "EVERY first argument must be an array")
    else if period.IsArray then .error (.runtime "EVERY second argument must be a number")
    else
      let n := F64.toInt period.Single
      if n ≤ 0 ∨ n > (data.Array.length : Int) then
        .error (.runtime ("EVERY period must be between 1 and " ++ toString data.Array.length))
      else do
        let result := makeSlice data.Array.length
        let result ← forLoop 0 (n - 1) (fun i r => store r i F64.zero) result
        let result ← forLoop (n - 1) data.Array.length (fun i r => do
          let flag ← forBreak 0 n (fun j s => do
              let x ← index data.Array (i - j)
              pure (if F64.eq x F64.zero then (false, true) else (s, false))) true
          if flag then store r i F64.one else store r i F64.zero) result
        pure (NewArrayValue result)
  | _ => .error (.runtime "EVERY requires 2 arguments")

/-- Built-in `EXIST(condition, period)`: 1 when some value of the window is nonzero. -/
def fnEXIST (args : List Value) (_marketData : List MarketData) : Res Value :=
  match args with
  | [data, period] =>
    if !data.IsArray then .error (.runtime "EXIST first argument must be an array")
    else if period.IsArray then .error (.runtime "EXIST second argument must be a number")
    else
      let n := F64.toInt period.Single
      if n ≤ 0 ∨ n > (data.Array.length : Int) then
        .error (.runtime ("EXIST period must be between 1 and " ++ toString data.Array.length))
      else do
        let result := makeSlice data.Array.length
        let result ← forLoop 0 (n - 1) (fun i r => store r i F64.zero) result
        let result ← forLoop (n - 1) data.Array.length (fun i r => do
          let flag ← forBreak 0 n (fun j s => do
              let x ← index data.Array (i - j)
              pure (if F64.ne x F64.zero then (true, true) else (s, false))) false
          if flag then store r i F64.one else store r i F64.zero) result
        pure (NewArrayValue result)
  | _ => .error (.runtime "EXIST requires 2 arguments")

/-- Built-in `BARSLAST(condition)`: bars since the condition last held. -/
def fnBARSLAST (args : List Value) (_marketData : List MarketData) : Res Value :=
  match args with
  | [condition] =>
    if !condition.IsArray then .error (.runtime "BARSLAST argument must be an array")
    else do
      let st ← forLoop 0 condition.Array.length (fun i (st : List F64 × Int) => do
        let c ← index condition.Array i
        if F64.ne c F64.zero then do
          let r ← store st.1 i F64.zero
          pure (r, i)
        else if st.2 ≥ 0 then do
          let r ← store st.1 i (F64.ofInt (i - st.2))
          pure (r, st.2)
        else do
          let r ← store st.1 i F64.nan
          pure (r, st.2)) (makeSlice condition.Array.length, -1)
      pure (NewArrayValue st.1)
  | _ => .error (.runtime "BARSLAST requires 1 argument")

/-- Built-in `AVEDEV(data, period)`: mean absolute deviation. -/
def fnAVEDEV (args : List Value) (_marketData : List MarketData) : Res Value :=
  match args with
  | [data, period] =>
    if !data.IsArray then .error (.runtime "AVEDEV first argument must be an array")
    else if period.IsArray then .error (.runtime "AVEDEV second argument must be a number")
    else
      let n := F64.toInt period.Single
      if n ≤ 0 ∨ n > (data.Array.length : Int) then
        .error (.runtime ("AVEDEV period must be between 1 and " ++ toString data.Array.length))
      else do
        let result := makeSlice data.Array.length
        let result ← forLoop 0 (n - 1) (fun i r => store r i F64.nan) result
        let result ← forLoop (n - 1) data.Array.length (fun i r => do
          let mean ← forLoop 0 n (fun j s => do let x ← index data.Array (i - j); pure (F64.add s x)) F64.zero
          let mean := F64.div mean (F64.ofInt n)
          let devSum ← forLoop 0 n (fun j s => do
              let x ← index data.Array (i - j)
              pure (F64.add s (F64.abs (F64.sub x mean)))) F64.zero
          store r i (F64.div devSum (F64.ofInt n))) result
        pure (NewArrayValue result)
  | _ => .error (.runtime "AVEDEV requires 2 arguments")

/-- Built-in `FILTER(condition, period)`: a signal, then `period` bars of silence. -/
def fnFILTER (args : List Value) (_marketData : List MarketData) : Res Value :=
  match args with
  | [condition, period] =>
    if !condition.IsArray then .error (.runtime "FILTER first argument must be an array")
    else if period.IsArray then .error (.runtime "FILTER second argument must be a number")
    else
      let n := F64.toInt period.Single
      if n ≤ 0 then .error (.runtime "FILTER period must be positive")
      else do
        let st ← forLoop 0 condition.Array.length (fun i (st : List F64 × Int) => do
          let c ← index condition.Array i
          if F64.ne c F64.zero ∧ wrap64 (i - st.2) ≥ n then do
            let r ← store st.1 i F64.one
            pure (r, i)
          else do
            let r ← store st.1 i F64.zero
            pure (r, st.2)) (makeSlice condition.Array.length, wrap64 (wrap64 (-n) - 1))
        pure (NewArrayValue st.1)
  | _ => .error (.runtime "FILTER requires 2 arguments")

/-- Built-in `BETWEEN(value, lower, upper)`. -/
def fnBETWEEN (args : List Value) (_marketData : List MarketData) : Res Value :=
  match args with
  | [value, lower, upper] =>
    if !value.IsArray ∧ !lower.IsArray ∧ !upper.IsArray then
      if F64.ge value.Single lower.Single ∧ F64.le value.Single upper.Single then
        .ok (NewSingleValue F64.one)
      else .ok (NewSingleValue F64.zero)
    else if !value.IsArray then
      .error (.runtime "BETWEEN: value must be array when using array bounds")
    else do
      let result ← forLoop 0 value.Array.length (fun i r => do
        let lowerBound ← if lower.IsArray then index lower.Array i else pure lower.Single
        let upperBound ← if upper.IsArray then index upper.Array i else pure upper.Single
        let v ← index value.Array i
        if F64.ge v lowerBound ∧ F64.le v upperBound then store r i F64.one
        else store r i F64.zero) (makeSlice value.Array.length)
      pure (NewArrayValue result)
  | _ => .error (.runtime "BETWEEN requires 3 arguments")

/-! ## Strings -/

/-- The bytes of the UTF-8 encoding of a character, each as the character with that code. -/
def utf8Bytes (c : Char) : List Char :=
  let n := c.toNat
  if n < 128 then [c]
  else if n < 2048 then [Char.ofNat (192 + n / 64), Char.ofNat (128 + n % 64)]
  else if n < 65536 then
    [Char.ofNat (224 + n / 4096), Char.ofNat (128 + n / 64 % 64), Char.ofNat (128 + n % 64)]
  else
    [Char.ofNat (240 + n / 262144), Char.ofNat (128 + n / 4096 % 64),
     Char.ofNat (128 + n / 64 % 64), Char.ofNat (128 + n % 64)]

/-- The byte sequence of a source text. -/
def goBytes (s : String) : List Char := s.toList.flatMap utf8Bytes

/-- Function `strings.ToUpper` on a byte string, as far as its ASCII output goes: ASCII letters
are upper-cased, and the only two other characters whose upper case is ASCII, U+0131 (bytes C4
B1) and U+017F (bytes C5 BF), become `I` and `S`.  Every other non-ASCII byte is kept as it is
(Go maps it to some non-ASCII text); the result is only ever compared with ASCII names. -/
def goToUpperList : List Char → List Char
  | [] => []
  | [c] => [if 'a' ≤ c ∧ c ≤ 'z' then Char.ofNat (c.toNat - 32) else c]
  | c :: d :: rest =>
    if c.toNat = 196 ∧ d.toNat = 177 then 'I' :: goToUpperList rest
    else if c.toNat = 197 ∧ d.toNat = 191 then 'S' :: goToUpperList rest
    else (if 'a' ≤ c ∧ c ≤ 'z' then Char.ofNat (c.toNat - 32) else c) :: goToUpperList (d :: rest)

/-- Function `strings.ToUpper`. -/
def goToUpper (s : String) : String := String.mk (goToUpperList s.toList)

/-! ## Lexer (`lexer/lexer.go`) -/

/-- Token kinds. -/
inductive TokenType where
  | NUMBER | IDENTIFIER
  | PLUS | MINUS | MULTIPLY | DIVIDE
  | GT | LT | GTE | LTE | EQ | NEQ
  | AND | OR
  | LPAREN | RPAREN | COMMA | SEMICOLON | COLON
  | ASSIGN
  | IF
  | COLOR | LINETHICK | DOTLINE | STICK
  | NEWLINE | EOF
deriving DecidableEq, Repr

/-- The string a token kind is in Go (`TokenType` is a string type). -/
def TokenType.name : TokenType → String
  | .NUMBER => "NUMBER" | .IDENTIFIER => "IDENTIFIER"
  | .PLUS => "PLUS" | .MINUS => "MINUS" | .MULTIPLY => "MULTIPLY" | .DIVIDE => "DIVIDE"
  | .GT => "GT" | .LT => "LT" | .GTE => "GTE" | .LTE => "LTE" | .EQ => "EQ" | .NEQ => "NEQ"
  | .AND => "AND" | .OR => "OR"
  | .LPAREN => "LPAREN" | .RPAREN => "RPAREN" | .COMMA => "COMMA"
  | .SEMICOLON => "SEMICOLON" | .COLON => "COLON"
  | .ASSIGN => "ASSIGN"
  | .IF => "IF"
  | .COLOR => "COLOR" | .LINETHICK => "LINETHICK" | .DOTLINE => "DOTLINE" | .STICK => "STICK"
  | .NEWLINE => "NEWLINE" | .EOF => "EOF"

/-- A token: `Token{Type, Value, Line, Column}` (`Typ` is Go's field `Type`). -/
structure Token where
  Typ : TokenType
  Value : String
  Line : Int
  Column : Int
deriving DecidableEq, Repr

/-- The lexer's state.  The position `pos` in `input` is represented by `rest`, the input
from `pos` on. -/
structure Lexer where
  rest : List Char
  line : Int
  column : Int
  tokens : List Token
deriving DecidableEq, Repr

/-- Constructor `NewLexer`, on the bytes of the input. -/
def NewLexer (input : List Char) : Lexer := { rest := input, line := 1, column := 1, tokens := [] }

namespace Lexer

/-- Method `isAtEnd`. -/
def isAtEnd (l : Lexer) : Bool := l.rest.isEmpty

/-- Method `peek`: the current byte as a rune, `0` at the end. -/
def peek (l : Lexer) : Char := l.rest.headD (Char.ofNat 0)

/-- Method `advance`, for its effect on the state. -/
def advance (l : Lexer) : Lexer :=
  match l.rest with
  | [] => l
  | _ :: rest => { l with rest := rest, column := l.column + 1 }

/-- Method `isSpace`. -/
def isSpace (ch : Char) : Bool := ch = ' ' ∨ ch = '\t' ∨ ch = '\r'

/-- Function `unicode.IsDigit` on a rune below 256. -/
def isDigit (ch : Char) : Bool := '0' ≤ ch ∧ ch ≤ '9'

/-- Function `unicode.IsLetter` on a rune below 256 (the Latin-1 letters). -/
def isLetter (ch : Char) : Bool :=
  ('a' ≤ ch ∧ ch ≤ 'z') ∨ ('A' ≤ ch ∧ ch ≤ 'Z') ∨ ch.toNat = 170 ∨ ch.toNat = 181 ∨ ch.toNat = 186
    ∨ (192 ≤ ch.toNat ∧ ch.toNat ≤ 214) ∨ (216 ≤ ch.toNat ∧ ch.toNat ≤ 246)
    ∨ (248 ≤ ch.toNat ∧ ch.toNat ≤ 255)

/-- The loop `for !l.isAtEnd() && p(l.peek()) { l.advance() }`: the bytes passed over and the
state after them. -/
def advanceWhile (p : Char → Bool) (l : Lexer) : List Char × Lexer :=
  (l.rest.takeWhile p,
   { l with rest := l.rest.dropWhile p, column := l.column + (l.rest.takeWhile p).length })

/-- Method `addToken`. -/
def addToken (l : Lexer) (tokenType : TokenType) (value : String) : Lexer :=
  { l with tokens := l.tokens ++
      [{ Typ := tokenType, Value := value, Line := l.line, Column := l.column - value.length }] }

/-- Method `scanNumber`. -/
def scanNumber (l : Lexer) : Res Lexer :=
  let startCol := l.column
  let (intPart, l1) := advanceWhile isDigit l
  let (fracPart, l2) :=
    if !l1.isAtEnd ∧ l1.peek = '.' then
      let (ds, l2) := advanceWhile isDigit l1.advance
      ('.' :: ds, l2)
    else ([], l1)
  let (expPart, l3) :=
    if !l2.isAtEnd ∧ (l2.peek = 'e' ∨ l2.peek = 'E') then
      let e := l2.peek
      let l2a := l2.advance
      let (sign, l2b) :=
        if !l2a.isAtEnd ∧ (l2a.peek = '+' ∨ l2a.peek = '-') then ([l2a.peek], l2a.advance)
        else ([], l2a)
      let (ds, l3) := advanceWhile isDigit l2b
      (e :: (sign ++ ds), l3)
    else ([], l2)
  let value := String.mk (intPart ++ fracPart ++ expPart)
  .ok { l3 with tokens := l3.tokens ++
      [{ Typ := .NUMBER, Value := value, Line := l3.line, Column := startCol }] }

/-- Method `getKeywordType`. -/
def getKeywordType (upper : String) : TokenType :=
  if upper = "IF" then .IF
  else if upper = "AND" then .AND
  else if upper = "OR" then .OR
  else if upper = "COLOR" then .COLOR
  else if upper = "LINETHICK" then .LINETHICK
  else if upper = "DOTLINE" then .DOTLINE
  else if upper = "STICK" then .STICK
  else .IDENTIFIER

/-- Method `scanIdentifier`. -/
def scanIdentifier (l : Lexer) : Res Lexer :=
  let startCol := l.column
  let (chars, l1) := advanceWhile (fun ch => isLetter ch ∨ isDigit ch ∨ ch = '_') l
  let value := String.mk chars
  let upper := goToUpper value
  let tokenType := getKeywordType upper
  .ok { l1 with tokens := l1.tokens ++
      [{ Typ := tokenType, Value := value, Line := l1.line, Column := startCol }] }

/-- Method `scanOperator`. -/
def scanOperator (l : Lexer) : Res Lexer :=
  let startCol := l.column
  let ch := l.peek
  let l := l.advance
  if ch = '+' then .ok (l.addToken .PLUS "+")
  else if ch = '-' then .ok (l.addToken .MINUS "-")
  else if ch = '*' then .ok (l.addToken .MULTIPLY "*")
  else if ch = '/' then .ok (l.addToken .DIVIDE "/")
  else if ch = '(' then .ok (l.addToken .LPAREN "(")
  else if ch = ')' then .ok (l.addToken .RPAREN ")")
  else if ch = ',' then .ok (l.addToken .COMMA ",")
  else if ch = ';' then .ok (l.addToken .SEMICOLON ";")
  else if ch = ':' then
    if !l.isAtEnd ∧ l.peek = '=' then .ok (l.advance.addToken .ASSIGN ":=")
    else .ok (l.addToken .COLON ":")
  else if ch = '>' then
    if !l.isAtEnd ∧ l.peek = '=' then .ok (l.advance.addToken .GTE ">=")
    else .ok (l.addToken .GT ">")
  else if ch = '<' then
    if !l.isAtEnd ∧ l.peek = '=' then .ok (l.advance.addToken .LTE "<=")
    else if !l.isAtEnd ∧ l.peek = '>' then .ok (l.advance.addToken .NEQ "<>")
    else .ok (l.addToken .LT "<")
  else if ch = '=' then
    if !l.isAtEnd ∧ l.peek = '=' then .ok (l.advance.addToken .EQ "==")
    else .ok (l.addToken .EQ "=")
  else if ch = '!' then
    if !l.isAtEnd ∧ l.peek = '=' then .ok (l.advance.addToken .NEQ "!=")
    else .error (.lexer "unexpected character" l.line startCol (String.mk (utf8Bytes ch)))
  else
    .error (.lexer ("unexpected character: " ++ String.mk (utf8Bytes ch)) l.line startCol
      (String.mk (utf8Bytes ch)))

/-- Method `scanToken`. -/
def scanToken (l : Lexer) : Res Lexer :=
  let l := (advanceWhile isSpace l).2
  if l.isAtEnd then .ok l
  else
    let ch := l.peek
    if ch = '\n' then
      let l := l.addToken .NEWLINE "\n"
      let l := l.advance
      .ok { l with line := l.line + 1, column := 1 }
    else if isDigit ch then scanNumber l
    else if isLetter ch ∨ ch = '_' then scanIdentifier l
    else scanOperator l

/-- The loop of `Tokenize`, with one unit of fuel per round. -/
def tokenizeLoop : Nat → Lexer → Res Lexer
  | 0, _ => .error .outOfFuel
  | fuel + 1, l =>
    if l.isAtEnd then .ok l
    else
      match scanToken l with
      | .ok l1 => tokenizeLoop fuel l1
      | .error e => .error e

/-- Method `Tokenize`.  Every round of its loop consumes a byte, so one unit of fuel per byte
and one for the last test are enough. -/
def Tokenize (l : Lexer) : Res (List Token) :=
  match tokenizeLoop (l.rest.length + 1) l with
  | .ok l1 => .ok (l1.addToken .EOF "").tokens
  | .error e => .error e

end Lexer

/-! ## Syntax trees (`parser/ast/nodes.go`) -/

/-- Binary operators. -/
inductive BinaryOperator where
  | OpPlus | OpMinus | OpMultiply | OpDivide | OpModulo | OpPower
  | OpEqual | OpNotEqual | OpLessThan | OpLessThanOrEqual | OpGreaterThan | OpGreaterThanOrEqual
  | OpAnd | OpOr
deriving DecidableEq, Repr

/-- The string a binary operator is in Go. -/
def BinaryOperator.name : BinaryOperator → String
  | .OpPlus => "+" | .OpMinus => "-" | .OpMultiply => "*" | .OpDivide => "/"
  | .OpModulo => "%" | .OpPower => "^"
  | .OpEqual => "==" | .OpNotEqual => "!=" | .OpLessThan => "<" | .OpLessThanOrEqual => "<="
  | .OpGreaterThan => ">" | .OpGreaterThanOrEqual => ">="
  | .OpAnd => "&&" | .OpOr => "||"

/-- Unary operators. -/
inductive UnaryOperator where
  | OpUnaryMinus | OpNot
deriving DecidableEq, Repr

/-- The string a unary operator is in Go. -/
def UnaryOperator.name : UnaryOperator → String
  | .OpUnaryMinus => "-" | .OpNot => "!"

/-- Drawing style of an output declaration. -/
structure DrawingStyle where
  Color : Option String
  Size : Option Int
  Bold : Option Bool
  Italic : Option Bool
deriving DecidableEq, Repr

/-- Expression nodes. -/
inductive Expression where
  | BinaryExpression (Left : Expression) (Operator : BinaryOperator) (Right : Expression)
  | UnaryExpression (Operator : UnaryOperator) (Operand : Expression)
  | FunctionCall (Name : String) (Arguments : List Expression)
  | ConditionalExpression (Test Consequent Alternate : Expression)
  | Identifier (Name : String)
  | NumberLiteral (Value : F64)
deriving Repr

/-- Statement nodes (`Program` also implements the `Statement` interface). -/
inductive Statement where
  | Program (Body : List Statement)
  | VariableDeclaration (Name : String) (Value : Expression)
  | OutputDeclaration (Name : String) (Value : Expression) (Style : Option DrawingStyle)
  | ExpressionStatement (Expr : Expression)
deriving Repr

/-- The root of a syntax tree. -/
structure Program where
  Body : List Statement
deriving Repr

/-! ## Parser (`parser/parser.go`) -/

/-- Decimal value of a digit string, most significant digit first. -/
def digitsValue (ds : List Char) : Nat := ds.foldl (fun acc c => 10 * acc + (c.toNat - 48)) 0

/-- The exponent part of a decimal literal: nothing, or `e`/`E`, an optional sign and at
least one digit. -/
def parseExponent : List Char → Option Int
  | [] => some 0
  | e :: rest =>
    if e = 'e' ∨ e = 'E' then
      let (neg, ds) :=
        match rest with
        | '-' :: ds => (true, ds)
        | '+' :: ds => (false, ds)
        | ds => (false, ds)
      if ds ≠ [] ∧ ds.all Lexer.isDigit then
        some (if neg then -(digitsValue ds : Int) else (digitsValue ds : Int))
      else none
    else none

/-- Function `strconv.ParseFloat(s, 64)` on an unsigned decimal literal: digits with at most
one point among them and at least one digit, then an optional exponent; `none` is a returned
error (bad syntax, or a value that rounds to infinity).  Go also accepts a sign, `inf`, `nan`
and base-prefixed forms with underscores, none of which the lexer can put in a NUMBER token;
they are not modelled and count as errors here. -/
def ParseFloat (s : String) : Option F64 :=
  let cs := s.toList
  let intPart := cs.takeWhile Lexer.isDigit
  let r1 := cs.dropWhile Lexer.isDigit
  let (fracPart, r2) :=
    match r1 with
    | '.' :: r => (r.takeWhile Lexer.isDigit, r.dropWhile Lexer.isDigit)
    | r => ([], r)
  if intPart = [] ∧ fracPart = [] then none
  else
    match parseExponent r2 with
    | none => none
    | some e =>
      let mant := digitsValue (intPart ++ fracPart)
      let exp10 : Int := e - (fracPart.length : Int)
      let v := if exp10 < 0 then F64.ofRatio false mant (10 ^ exp10.natAbs)
               else F64.ofRatio false (mant * 10 ^ exp10.natAbs) 1
      match v with
      | .fin _ => some v
      | _ => none

/-- The parser's state: `Parser{tokens, pos, current}`. -/
structure Parser where
  tokens : List Token
  pos : Nat
  current : Option Token
deriving DecidableEq, Repr

/-- Constructor `NewParser`. -/
def NewParser (tokens : List Token) : Parser :=
  { tokens := tokens, pos := 0, current := tokens.head? }

namespace Parser

/-- Method `isAtEnd`. -/
def isAtEnd (p : Parser) : Bool :=
  match p.current with
  | none => true
  | some t => t.Typ = .EOF

/-- Method `advance`. -/
def advance (p : Parser) : Parser :=
  if !p.isAtEnd then
    if p.pos + 1 < p.tokens.length then
      { p with pos := p.pos + 1, current := p.tokens[p.pos + 1]? }
    else { p with pos := p.pos + 1 }
  else p

/-- Method `peek`. -/
def peek (p : Parser) : Option Token := p.tokens[p.pos + 1]?

/-- The kind of the current token (`p.current.Type`). -/
def curType (p : Parser) : Option TokenType := p.current.map (fun t => t.Typ)

/-- The literal of the current token (`p.current.Value`). -/
def curValue (p : Parser) : String := (p.current.map (fun t => t.Value)).getD ""

/-- Method `error`, named `fail` here. -/
def fail (p : Parser) (message : String) : FormulaError :=
  match p.current with
  | some t => .parser message t.Line t.Column
  | none => .parser message 0 0

/-- Method `parseNumber`. -/
def parseNumber (p : Parser) : Res (Expression × Parser) :=
  match ParseFloat p.curValue with
  | none => .error (p.fail ("invalid number: " ++ p.curValue))
  | some value => .ok (.NumberLiteral value, p.advance)

/-- The operator of a comparison token. -/
def comparisonOp : Option TokenType → Option BinaryOperator
  | some .GT => some .OpGreaterThan
  | some .LT => some .OpLessThan
  | some .GTE => some .OpGreaterThanOrEqual
  | some .LTE => some .OpLessThanOrEqual
  | some .EQ => some .OpEqual
  | some .NEQ => some .OpNotEqual
  | _ => none

mutual

/-- Method `parseExpression`.  The first argument of each parsing function bounds the depth
of the calls below it; a loop spends one unit per round. -/
def parseExpression : Nat → Parser → Res (Expression × Parser)
  | 0, _ => .error .outOfFuel
  | fuel + 1, p => parseLogicalOr fuel p

/-- Method `parseLogicalOr`. -/
def parseLogicalOr : Nat → Parser → Res (Expression × Parser)
  | 0, _ => .error .outOfFuel
  | fuel + 1, p =>
    match parseLogicalAnd fuel p with
    | .error e => .error e
    | .ok (left, p1) => parseLogicalOrLoop fuel left p1

/-- The loop of `parseLogicalOr`. -/
def parseLogicalOrLoop : Nat → Expression → Parser → Res (Expression × Parser)
  | 0, _, _ => .error .outOfFuel
  | fuel + 1, left, p =>
    if !p.isAtEnd ∧ p.curType = some .OR then
      match parseLogicalAnd fuel p.advance with
      | .error e => .error e
      | .ok (right, p1) => parseLogicalOrLoop fuel (.BinaryExpression left .OpOr right) p1
    else .ok (left, p)

/-- Method `parseLogicalAnd`. -/
def parseLogicalAnd : Nat → Parser → Res (Expression × Parser)
  | 0, _ => .error .outOfFuel
  | fuel + 1, p =>
    match parseComparison fuel p with
    | .error e => .error e
    | .ok (left, p1) => parseLogicalAndLoop fuel left p1

/-- The loop of `parseLogicalAnd`. -/
def parseLogicalAndLoop : Nat → Expression → Parser → Res (Expression × Parser)
  | 0, _, _ => .error .outOfFuel
  | fuel + 1, left, p =>
    if !p.isAtEnd ∧ p.curType = some .AND then
      match parseComparison fuel p.advance with
      | .error e => .error e
      | .ok (right, p1) => parseLogicalAndLoop fuel (.BinaryExpression left .OpAnd right) p1
    else .ok (left, p)

/-- Method `parseComparison`. -/
def parseComparison : Nat → Parser → Res (Expression × Parser)
  | 0, _ => .error .outOfFuel
  | fuel + 1, p =>
    match parseAdditive fuel p with
    | .error e => .error e
    | .ok (left, p1) => parseComparisonLoop fuel left p1

/-- The loop of `parseComparison`. -/
def parseComparisonLoop : Nat → Expression → Parser → Res (Expression × Parser)
  | 0, _, _ => .error .outOfFuel
  | fuel + 1, left, p =>
    if !p.isAtEnd then
      match comparisonOp p.curType with
      | none => .ok (left, p)
      | some op =>
        match parseAdditive fuel p.advance with
        | .error e => .error e
        | .ok (right, p1) => parseComparisonLoop fuel (.BinaryExpression left op right) p1
    else .ok (left, p)

/-- Method `parseAdditive`. -/
def parseAdditive : Nat → Parser → Res (Expression × Parser)
  | 0, _ => .error .outOfFuel
  | fuel + 1, p =>
    match parseMultiplicative fuel p with
    | .error e => .error e
    | .ok (left, p1) => parseAdditiveLoop fuel left p1

/-- The loop of `parseAdditive`. -/
def parseAdditiveLoop : Nat → Expression → Parser → Res (Expression × Parser)
  | 0, _, _ => .error .outOfFuel
  | fuel + 1, left, p =>
    if !p.isAtEnd ∧ (p.curType = some .PLUS ∨ p.curType = some .MINUS) then
      let op := if p.curType = some .MINUS then BinaryOperator.OpMinus else BinaryOperator.OpPlus
      match parseMultiplicative fuel p.advance with
      | .error e => .error e
      | .ok (right, p1) => parseAdditiveLoop fuel (.BinaryExpression left op right) p1
    else .ok (left, p)

/-- Method `parseMultiplicative`. -/
def parseMultiplicative : Nat → Parser → Res (Expression × Parser)
  | 0, _ => .error .outOfFuel
  | fuel + 1, p =>
    match parseUnary fuel p with
    | .error e => .error e
    | .ok (left, p1) => parseMultiplicativeLoop fuel left p1

/-- The loop of `parseMultiplicative`. -/
def parseMultiplicativeLoop : Nat → Expression → Parser → Res (Expression × Parser)
  | 0, _, _ => .error .outOfFuel
  | fuel + 1, left, p =>
    if !p.isAtEnd ∧ (p.curType = some .MULTIPLY ∨ p.curType = some .DIVIDE) then
      let op :=
        if p.curType = some .DIVIDE then BinaryOperator.OpDivide else BinaryOperator.OpMultiply
      match parseUnary fuel p.advance with
      | .error e => .error e
      | .ok (right, p1) => parseMultiplicativeLoop fuel (.BinaryExpression left op right) p1
    else .ok (left, p)

/-- Method `parseUnary`. -/
def parseUnary : Nat → Parser → Res (Expression × Parser)
  | 0, _ => .error .outOfFuel
  | fuel + 1, p =>
    if !p.isAtEnd ∧ p.curType = some .MINUS then
      match parseUnary fuel p.advance with
      | .error e => .error e
      | .ok (operand, p1) => .ok (.UnaryExpression .OpUnaryMinus operand, p1)
    else parsePrimary fuel p

/-- Method `parsePrimary`. -/
def parsePrimary : Nat → Parser → Res (Expression × Parser)
  | 0, _ => .error .outOfFuel
  | fuel + 1, p =>
    if p.isAtEnd then .error (p.fail "unexpected end of input")
    else
      match p.curType with
      | some .NUMBER => parseNumber p
      | some .IDENTIFIER => parseIdentifierOrCall fuel p
      | some .IF => parseIdentifierOrCall fuel p
      | some .LPAREN => parseGroupedExpression fuel p
      | some t => .error (p.fail ("unexpected token: " ++ t.name))
      | none => .error (p.fail "unexpected end of input")

/-- Method `parseIdentifierOrCall`. -/
def parseIdentifierOrCall : Nat → Parser → Res (Expression × Parser)
  | 0, _ => .error .outOfFuel
  | fuel + 1, p =>
    let name := p.curValue
    let p1 := p.advance
    if !p1.isAtEnd ∧ p1.curType = some .LPAREN then parseFunctionCall fuel name p1
    else .ok (.Identifier name, p1)

/-- Method `parseFunctionCall`. -/
def parseFunctionCall : Nat → String → Parser → Res (Expression × Parser)
  | 0, _, _ => .error .outOfFuel
  | fuel + 1, name, p =>
    match parseArguments fuel [] p.advance with
    | .error e => .error e
    | .ok (args, p1) =>
      if p1.curType ≠ some .RPAREN then .error (p1.fail "expected ')' after function arguments")
      else .ok (.FunctionCall name args, p1.advance)

/-- The argument loop of `parseFunctionCall`. -/
def parseArguments : Nat → List Expression → Parser → Res (List Expression × Parser)
  | 0, _, _ => .error .outOfFuel
  | fuel + 1, args, p =>
    if !p.isAtEnd ∧ p.curType ≠ some .RPAREN then
      match parseExpression fuel p with
      | .error e => .error e
      | .ok (arg, p1) =>
        if p1.curType = some .COMMA then parseArguments fuel (args ++ [arg]) p1.advance
        else if p1.curType ≠ some .RPAREN then
          .error (p1.fail "expected ',' or ')' in function call")
        else parseArguments fuel (args ++ [arg]) p1
    else .ok (args, p)

/-- Method `parseGroupedExpression`. -/
def parseGroupedExpression : Nat → Parser → Res (Expression × Parser)
  | 0, _ => .error .outOfFuel
  | fuel + 1, p =>
    match parseExpression fuel p.advance with
    | .error e => .error e
    | .ok (expr, p1) =>
      if p1.curType ≠ some .RPAREN then .error (p1.fail "expected ')' after expression")
      else .ok (expr, p1.advance)

end

/-- The skip of an optional `;` or newline after a statement. -/
def skipTerminator (p : Parser) : Parser :=
  if !p.isAtEnd ∧ (p.curType = some .SEMICOLON ∨ p.curType = some .NEWLINE) then p.advance
  else p

/-- Method `parseVariableDeclaration`. -/
def parseVariableDeclaration (fuel : Nat) (p : Parser) : Res (Statement × Parser) :=
  let name := p.curValue
  let p1 := p.advance
  if p1.curType ≠ some .ASSIGN then .error (p1.fail "expected :=")
  else
    match parseExpression fuel p1.advance with
    | .error e => .error e
    | .ok (value, p2) => .ok (.VariableDeclaration name value, skipTerminator p2)

/-- Method `parseStatement`. -/
def parseStatement (fuel : Nat) (p : Parser) : Res (Statement × Parser) :=
  if p.curType = some .IDENTIFIER ∧ (p.peek.map (fun t => t.Typ)) = some .ASSIGN then
    parseVariableDeclaration fuel p
  else
    match parseExpression fuel p with
    | .error e => .error e
    | .ok (expr, p1) => .ok (.ExpressionStatement expr, skipTerminator p1)

/-- The loop of `Parse`; `depth` is the budget handed to each statement. -/
def parseLoop (depth : Nat) : Nat → List Statement → Parser → Res (List Statement)
  | 0, _, _ => .error .outOfFuel
  | fuel + 1, statements, p =>
    if !p.isAtEnd then
      if p.curType = some .NEWLINE then parseLoop depth fuel statements p.advance
      else
        match parseStatement depth p with
        | .error e => .error e
        | .ok (stmt, p1) => parseLoop depth fuel (statements ++ [stmt]) p1
    else .ok statements

/-- Method `Parse`.  On tokens that end with EOF every round of every loop and every nested
call consumes a token, so a budget proportional to the number of tokens is never used up. -/
def Parse (p : Parser) : Res Program :=
  match parseLoop (16 * (p.tokens.length + 1)) (p.tokens.length + 1) [] p with
  | .error e => .error e
  | .ok statements => .ok { Body := statements }

end Parser

/-! ## Results (`types/formula_result.go`) -/

/-- Line style of an output line. -/
structure LineStyle where
  Color : String
  LineWidth : Int
  LineStyle : String
deriving DecidableEq, Repr

/-- One output line: `OutputLine{Name, Data, Style}`. -/
structure OutputLine where
  Name : String
  Data : List F64
  Style : Option LineStyle
deriving DecidableEq, Repr

/-- The result of a run: the output lines, and the scalar variables (a Go map, kept as an
association list whose first entry for a name is the current one). -/
structure FormulaResult where
  Outputs : List OutputLine
  Variables : List (String × F64)
deriving DecidableEq, Repr

/-- Constructor `NewFormulaResult`. -/
def NewFormulaResult : FormulaResult := { Outputs := [], Variables := [] }

namespace FormulaResult

/-- Method `AddOutput`. -/
def AddOutput (f : FormulaResult) (name : String) (data : List F64) (style : Option LineStyle) :
    FormulaResult :=
  { f with Outputs := f.Outputs ++ [{ Name := name, Data := data, Style := style }] }

/-- Method `SetVariable`. -/
def SetVariable (f : FormulaResult) (name : String) (value : F64) : FormulaResult :=
  { f with Variables := (name, value) :: f.Variables }

/-- Method `GetVariable`. -/
def GetVariable (f : FormulaResult) (name : String) : Option F64 := f.Variables.lookup name

end FormulaResult

/-! ## Function registry (`interpreter/registry.go`) -/

/-- A built-in function. -/
abbrev Function : Type := List Value → List MarketData → Res Value

/-- The registry: a Go map from upper-cased names to functions, kept as an association list
whose first entry for a name is the current one. -/
structure FunctionRegistry where
  functions : List (String × Function)

namespace FunctionRegistry

/-- Method `Register`. -/
def Register (r : FunctionRegistry) (name : String) (fn : Function) : FunctionRegistry :=
  { functions := (goToUpper name, fn) :: r.functions }

/-- Method `Call`. -/
def Call (r : FunctionRegistry) (name : String) (args : List Value) (marketData : List MarketData) :
    Res Value :=
  match r.functions.lookup (goToUpper name) with
  | none => .error (.runtime ("undefined function: " ++ name))
  | some fn => fn args marketData

/-- Method `registerBuiltinFunctions`. -/
def registerBuiltinFunctions (r : FunctionRegistry) : FunctionRegistry :=
  let r := r.Register "MA" fnMA
  let r := r.Register "EMA" fnEMA
  let r := r.Register "SUM" fnSUM
  let r := r.Register "MAX" fnMAX
  let r := r.Register "MIN" fnMIN
  let r := r.Register "ABS" fnABS
  let r := r.Register "SQRT" fnSQRT
  let r := r.Register "REF" fnREF
  let r := r.Register "HHV" fnHHV
  let r := r.Register "LLV" fnLLV
  let r := r.Register "IF" fnIF
  let r := r.Register "CROSS" fnCROSS
  let r := r.Register "STD" fnSTD
  let r := r.Register "VAR" fnVAR
  let r := r.Register "SMA" fnSMA
  let r := r.Register "WMA" fnWMA
  let r := r.Register "COUNT" fnCOUNT
  let r := r.Register "EVERY" fnEVERY
  let r := r.Register "EXIST" fnEXIST
  let r := r.Register "BARSLAST" fnBARSLAST
  let r := r.Register "AVEDEV" fnAVEDEV
  let r := r.Register "FILTER" fnFILTER
  r.Register "BETWEEN" fnBETWEEN

end FunctionRegistry

/-- Constructor `NewFunctionRegistry`. -/
def NewFunctionRegistry : FunctionRegistry :=
  FunctionRegistry.registerBuiltinFunctions { functions := [] }

/-! ## Interpreter (`interpreter/interpreter.go`) -/

/-- The constant `1e-10`. -/
def tolerance : F64 := F64.ofRatio false 1 (10 ^ 10)

/-- The scalar `1` or `0` of a truth value. -/
def boolValue (b : Bool) : F64 := if b then F64.one else F64.zero

/-- Method `binaryOpScalarScalar`. -/
def binaryOpScalarScalar (op : BinaryOperator) (a b : F64) : Res Value :=
  match op with
  | .OpPlus => .ok (NewSingleValue (F64.add a b))
  | .OpMinus => .ok (NewSingleValue (F64.sub a b))
  | .OpMultiply => .ok (NewSingleValue (F64.mul a b))
  | .OpDivide =>
    if F64.eq b F64.zero then .error (.runtime "division by zero")
    else .ok (NewSingleValue (F64.div a b))
  | .OpGreaterThan => .ok (NewSingleValue (boolValue (F64.gt a b)))
  | .OpLessThan => .ok (NewSingleValue (boolValue (F64.lt a b)))
  | .OpGreaterThanOrEqual => .ok (NewSingleValue (boolValue (F64.ge a b)))
  | .OpLessThanOrEqual => .ok (NewSingleValue (boolValue (F64.le a b)))
  | .OpEqual => .ok (NewSingleValue (boolValue (F64.lt (F64.abs (F64.sub a b)) tolerance)))
  | .OpNotEqual => .ok (NewSingleValue (boolValue (F64.ge (F64.abs (F64.sub a b)) tolerance)))
  | .OpAnd => .ok (NewSingleValue (boolValue (F64.ne a F64.zero && F64.ne b F64.zero)))
  | .OpOr => .ok (NewSingleValue (boolValue (F64.ne a F64.zero || F64.ne b F64.zero)))
  | op => .error (.runtime ("unknown binary operator: " ++ op.name))

/-- Method `binaryOpArrayArray`. -/
def binaryOpArrayArray (op : BinaryOperator) (a b : List F64) : Res Value :=
  if a.length ≠ b.length then .error (.runtime "array length mismatch")
  else do
    let result ← forLoop 0 a.length (fun i r => do
      let x ← index a i
      let y ← index b i
      let val ← binaryOpScalarScalar op x y
      store r i val.Single) (makeSlice a.length)
    pure (NewArrayValue result)

/-- Method `binaryOpArrayScalar`. -/
def binaryOpArrayScalar (op : BinaryOperator) (arr : List F64) (scalar : F64) : Res Value := do
  let result ← forLoop 0 arr.length (fun i r => do
    let v ← index arr i
    let val ← binaryOpScalarScalar op v scalar
    store r i val.Single) (makeSlice arr.length)
  pure (NewArrayValue result)

/-- Method `binaryOpScalarArray`. -/
def binaryOpScalarArray (op : BinaryOperator) (scalar : F64) (arr : List F64) : Res Value := do
  let result ← forLoop 0 arr.length (fun i r => do
    let v ← index arr i
    let val ← binaryOpScalarScalar op scalar v
    store r i val.Single) (makeSlice arr.length)
  pure (NewArrayValue result)

/-- The dispatch on operand shapes at the end of `evaluateBinaryExpression`. -/
def binaryOp (op : BinaryOperator) (left right : Value) : Res Value :=
  if left.IsArray ∧ right.IsArray then binaryOpArrayArray op left.Array right.Array
  else if left.IsArray then binaryOpArrayScalar op left.Array right.Single
  else if right.IsArray then binaryOpScalarArray op left.Single right.Array
  else binaryOpScalarScalar op left.Single right.Single

/-- The second half of `evaluateUnaryExpression`, on the evaluated operand. -/
def unaryOp (op : UnaryOperator) (operand : Value) : Res Value :=
  if op = .OpUnaryMinus then
    if operand.IsArray then do
      let result ← forLoop 0 operand.Array.length (fun i r => do
        let v ← index operand.Array i
        store r i (F64.neg v)) (makeSlice operand.Array.length)
      pure (NewArrayValue result)
    else .ok (NewSingleValue (F64.neg operand.Single))
  else .error (.runtime ("unknown unary operator: " ++ op.name))

/-- The interpreter: `Interpreter{marketData, variables, userVars, functions}`.  The field
`vars` is Go's map `variables` (a reserved word here), kept as an association list whose first
entry for a name is the current one. -/
structure Interpreter where
  marketData : List MarketData
  vars : List (String × Value)
  userVars : List String
  functions : FunctionRegistry

/-- Constructor `NewInterpreter`. -/
def NewInterpreter (marketData : List MarketData) : Interpreter :=
  { marketData := marketData, vars := [], userVars := [], functions := NewFunctionRegistry }

namespace Interpreter

/-- The assignment `interp.variables[name] = value`. -/
def setVariable (interp : Interpreter) (name : String) (value : Value) : Interpreter :=
  { interp with vars := (name, value) :: interp.vars }

/-- Method `initMarketDataVariables`. -/
def initMarketDataVariables (interp : Interpreter) : Interpreter :=
  if interp.marketData.length = 0 then interp
  else
    let interp := interp.setVariable "OPEN" (NewArrayValue (interp.marketData.map (fun d => d.Open)))
    let interp := interp.setVariable "CLOSE" (NewArrayValue (interp.marketData.map (fun d => d.Close)))
    let interp := interp.setVariable "HIGH" (NewArrayValue (interp.marketData.map (fun d => d.High)))
    let interp := interp.setVariable "LOW" (NewArrayValue (interp.marketData.map (fun d => d.Low)))
    let interp :=
      interp.setVariable "VOLUME" (NewArrayValue (interp.marketData.map (fun d => d.Volume)))
    interp.setVariable "AMOUNT" (NewArrayValue (interp.marketData.map (fun d => d.Amount)))

/-- Method `evaluateIdentifier`. -/
def evaluateIdentifier (interp : Interpreter) (name : String) : Res Value :=
  match interp.vars.lookup name with
  | none => .error (.runtime ("undefined variable: " ++ name))
  | some value => .ok value

mutual

/-- Method `evaluateExpression`, with the methods it dispatches to. -/
def evaluateExpression (interp : Interpreter) : Expression → Res Value
  | .NumberLiteral value => .ok (NewSingleValue value)
  | .Identifier name => interp.evaluateIdentifier name
  | .BinaryExpression left op right =>
    match evaluateExpression interp left with
    | .error e => .error e
    | .ok l =>
      match evaluateExpression interp right with
      | .error e => .error e
      | .ok r => binaryOp op l r
  | .UnaryExpression op operand =>
    match evaluateExpression interp operand with
    | .error e => .error e
    | .ok v => unaryOp op v
  | .FunctionCall name arguments =>
    match evaluateArguments interp arguments with
    | .error e => .error e
    | .ok args => interp.functions.Call name args interp.marketData
  | .ConditionalExpression _ _ _ =>
    .error (.runtime "unknown expression type: *ast.ConditionalExpression")

/-- The argument loop of `evaluateFunctionCall`. -/
def evaluateArguments (interp : Interpreter) : List Expression → Res (List Value)
  | [] => .ok []
  | arg :: rest =>
    match evaluateExpression interp arg with
    | .error e => .error e
    | .ok v =>
      match evaluateArguments interp rest with
      | .error e => .error e
      | .ok vs => .ok (v :: vs)

end

/-- Method `executeVariableDeclaration`. -/
def executeVariableDeclaration (interp : Interpreter) (name : String) (value : Expression) :
    Res Interpreter :=
  match interp.evaluateExpression value with
  | .error e => .error e
  | .ok v => .ok { interp.setVariable name v with userVars := interp.userVars ++ [name] }

/-- Method `executeOutputDeclaration`. -/
def executeOutputDeclaration (interp : Interpreter) (name : String) (value : Expression) :
    Res Interpreter :=
  match interp.evaluateExpression value with
  | .error e => .error e
  | .ok v => .ok (interp.setVariable name v)

/-- Method `executeStatement`. -/
def executeStatement (interp : Interpreter) : Statement → Res Interpreter
  | .VariableDeclaration name value => interp.executeVariableDeclaration name value
  | .OutputDeclaration name value _ => interp.executeOutputDeclaration name value
  | .ExpressionStatement expr =>
    match interp.evaluateExpression expr with
    | .error e => .error e
    | .ok v =>
      let name :=
        match expr with
        | .Identifier n => n
        | _ => "__expr__"
      .ok { interp.setVariable name v with userVars := interp.userVars ++ [name] }
  | .Program _ => .error (.runtime "unknown statement type: *ast.Program")

/-- Method `buildResult`.  A name of `userVars` that is not bound would be a nil dereference. -/
def buildResult (interp : Interpreter) : Res FormulaResult :=
  interp.userVars.foldlM (fun (result : FormulaResult) name =>
    match interp.vars.lookup name with
    | none => .error (.goPanic "nil pointer dereference")
    | some value =>
      if value.IsArray then .ok (result.AddOutput name value.Array none)
      else .ok (result.SetVariable name value.Single)) NewFormulaResult

/-- The statement loop of `Execute`: the state after the last statement run, and the error
of the first statement that failed. -/
def executeStatements (interp : Interpreter) : List Statement → Interpreter × Option FormulaError
  | [] => (interp, none)
  | stmt :: rest =>
    match interp.executeStatement stmt with
    | .error e => (interp, some e)
    | .ok interp1 => executeStatements interp1 rest

/-- Method `Execute`: the result, and the interpreter as the call leaves it. -/
def Execute (interp : Interpreter) (program : Program) : Res FormulaResult × Interpreter :=
  let interp := interp.initMarketDataVariables
  match executeStatements interp program.Body with
  | (interp1, some e) => (.error e, interp1)
  | (interp1, none) => (interp1.buildResult, interp1)

end Interpreter

/-! ## Engine (`engine/engine.go`) -/

/-- Method `FormulaEngine.Compile`. -/
def Compile (formula : String) : Res Program :=
  match (NewLexer (goBytes formula)).Tokenize with
  | .error e => .error e
  | .ok tokens => (NewParser tokens).Parse

/-- Method `FormulaEngine.Execute`. -/
def Execute (program : Program) (marketData : List MarketData) : Res FormulaResult :=
  ((NewInterpreter marketData).Execute program).1

/-- Method `FormulaEngine.Run`. -/
def Run (formula : String) (marketData : List MarketData) : Res FormulaResult :=
  match Compile formula with
  | .error e => .error e
  | .ok program => Execute program marketData

/-! ## Specification vocabulary -/

/-- The state after the loop `for j := lo; j < hi; j++ { s = g(j, s, x[i-j]) }` over the
window that ends at index `i`. -/
def windowFold {σ : Type} (g : Nat → σ → F64 → σ) (x : List F64) (i lo hi : Nat) (s0 : σ) : σ :=
  (List.range' lo (hi - lo)).foldl (fun s j => g j s (x.getD (i - j) F64.zero)) s0

/-- The sum `0 + x[i] + x[i-1] + ... + x[i-n+1]` of the `n` points that end at index `i`, added
in this order (each partial sum rounded). -/
def windowSum (x : List F64) (i n : Nat) : F64 :=
  windowFold (fun _ s v => F64.add s v) x i 0 n F64.zero

/-- The closes of the ten bars of the engine's tests. -/
def exampleCloses : List F64 :=
  [105, 103, 107, 110, 108, 111, 109, 112, 115, 113].map F64.ofInt

/-- A finite value: neither NaN nor an infinity. -/
def F64.isFinite : F64 → Bool
  | .fin _ => true
  | _ => false

/-- A value that is not NaN and is at least zero. -/
def F64.isNonneg : F64 → Bool
  | .fin k => decide (0 ≤ k)
  | .inf s => !s
  | .nan => false

/-- The mean `sum / float64(n)` of the window of `n` points that ends at index `i`. -/
def windowMean (x : List F64) (i n : Nat) : F64 := F64.div (windowSum x i n) (F64.ofInt n)

/-- The sum of the squared deviations from `mean` over the window. -/
def windowSqDev (x : List F64) (i n : Nat) (mean : F64) : F64 :=
  windowFold (fun _ s v => F64.add s (F64.mul (F64.sub v mean) (F64.sub v mean))) x i 0 n F64.zero

/-- The sum of the absolute deviations from `mean` over the window. -/
def windowAbsDev (x : List F64) (i n : Nat) (mean : F64) : F64 :=
  windowFold (fun _ s v => F64.add s (F64.abs (F64.sub v mean))) x i 0 n F64.zero

/-- The weighted sum of the window: weight `n - j` for the point `j` steps back. -/
def windowWeighted (x : List F64) (i n : Nat) : F64 :=
  windowFold (fun j s v => F64.add s (F64.mul v (F64.ofInt ((n : Int) - (j : Int))))) x i 0 n
    F64.zero

/-- The running maximum of the window, as HHV computes it. -/
def windowMax (x : List F64) (i n : Nat) : F64 :=
  windowFold (fun _ m v => if F64.gt v m then v else m) x i 1 n (x.getD i F64.zero)

/-- The running minimum of the window, as LLV computes it. -/
def windowMin (x : List F64) (i n : Nat) : F64 :=
  windowFold (fun _ m v => if F64.lt v m then v else m) x i 1 n (x.getD i F64.zero)

/-- The number of nonzero points of the window, as COUNT computes it. -/
def windowCount (x : List F64) (i n : Nat) : F64 :=
  windowFold (fun _ s v => if F64.ne v F64.zero then F64.add s F64.one else s) x i 0 n F64.zero

/-- The value each windowed built-in stores at an index `i` from `n - 1` on. -/
def maValue (x : List F64) (n i : Nat) : F64 := windowMean x i n

/-- See `maValue`. -/
def sumValue (x : List F64) (n i : Nat) : F64 := windowSum x i n

/-- See `maValue`. -/
def stdValue (x : List F64) (n i : Nat) : F64 :=
  F64.sqrt (F64.div (windowSqDev x i n (windowMean x i n)) (F64.ofInt n))

/-- See `maValue`. -/
def varValue (x : List F64) (n i : Nat) : F64 :=
  F64.div (windowSqDev x i n (windowMean x i n)) (F64.ofInt n)

/-- See `maValue`. -/
def wmaValue (x : List F64) (n i : Nat) : F64 :=
  F64.div (windowWeighted x i n) (F64.ofInt (Int.tdiv (wrap64 ((n : Int) * ((n : Int) + 1))) 2))

/-- See `maValue`. -/
def hhvValue (x : List F64) (n i : Nat) : F64 := windowMax x i n

/-- See `maValue`. -/
def llvValue (x : List F64) (n i : Nat) : F64 := windowMin x i n

/-- See `maValue`. -/
def avedevValue (x : List F64) (n i : Nat) : F64 :=
  F64.div (windowAbsDev x i n (windowMean x i n)) (F64.ofInt n)

/-- See `maValue`. -/
def countValue (x : List F64) (n i : Nat) : F64 := windowCount x i n

/-- What a windowed built-in `f` returns on the series `x` with period `p` (`n = int(p)`): a
series of the length of `x` that holds `w` at every index below `n - 1` and `c i` at every
index `i` from `n - 1` on. -/
def WindowedResult (f : Function) (w : F64) (c : Nat → F64) (x : List F64) (p : F64)
    (md : List MarketData) : Prop :=
  ∃ out, f [NewArrayValue x, NewSingleValue p] md = .ok (NewArrayValue out) ∧
    out.length = x.length ∧
    (∀ i : Nat, (i : Int) + 1 < p.toInt → out[i]? = some w) ∧
    (∀ i : Nat, p.toInt ≤ (i : Int) + 1 → i < x.length → out[i]? = some (c i))

/-- The NaN half of the warm-up convention: `f` returns a series of the length of `x` that is
NaN at every index in `[0, n-2]`. -/
def WarmUpNaN (f : Function) (x : List F64) (p : F64) (md : List MarketData) : Prop :=
  ∃ out, f [NewArrayValue x, NewSingleValue p] md = .ok (NewArrayValue out) ∧
    out.length = x.length ∧
    (∀ i : Nat, (i : Int) + 1 < p.toInt → out[i]? = some F64.nan)

/-- The warm-up convention: `f` returns a series of the length of `x` that is NaN at every
index in `[0, n-2]` and holds a defined value (not NaN) at index `n - 1`. -/
def WarmUp (f : Function) (x : List F64) (p : F64) (md : List MarketData) : Prop :=
  ∃ out, f [NewArrayValue x, NewSingleValue p] md = .ok (NewArrayValue out) ∧
    out.length = x.length ∧
    (∀ i : Nat, (i : Int) + 1 < p.toInt → out[i]? = some F64.nan) ∧
    ∃ v, out[(p.toInt - 1).toNat]? = some v ∧ v.isNaN = false

/-- The built-ins that take a series and a period checked against the series' length. -/
def periodFunctions : List Function :=
  [fnMA, fnSMA, fnEMA, fnSUM, fnSTD, fnVAR, fnWMA, fnAVEDEV, fnCOUNT, fnEVERY, fnEXIST, fnHHV,
   fnLLV]

/-- The value of `p` is at least the integer `m` (an exact comparison, false for NaN). -/
def F64.geInt : F64 → Int → Bool
  | .fin k, m => decide (m * ((2 ^ 1074 : Nat) : Int) ≤ k)
  | .inf s, _ => !s
  | .nan, _ => false

/-- The scalar of the value a call returned, `0` when it failed. -/
def singleOf (r : Res Value) : F64 :=
  match r with
  | .ok v => v.Single
  | .error _ => F64.zero

/-- A bar of integer prices: `types.NewMarketData(open, close, high, low, volume, amount)`. -/
def intBar (o c h l v a : Int) : MarketData :=
  { Open := F64.ofInt o, Close := F64.ofInt c, High := F64.ofInt h, Low := F64.ofInt l,
    Volume := F64.ofInt v, Amount := F64.ofInt a }

/-- The ten bars of the engine's tests (`createTestData`). -/
def exampleBars : List MarketData :=
  [intBar 100 105 107 99 1000 100000, intBar 105 103 108 102 1100 110000,
   intBar 103 107 109 101 1200 120000, intBar 107 110 112 106 1300 130000,
   intBar 110 108 113 107 1400 140000, intBar 108 111 114 107 1500 150000,
   intBar 111 109 115 108 1600 160000, intBar 109 112 116 108 1700 170000,
   intBar 112 115 117 110 1800 180000, intBar 115 113 118 112 1900 190000]

/-- The name under which a bare expression statement binds its value: the identifier's own
name, or `__expr__`. -/
def exprName : Expression → String
  | .Identifier n => n
  | _ => "__expr__"

/-- What executing a statement binds: the name, the expression evaluated, and whether the name
is appended to `userVars`. -/
def Statement.binding : Statement → Option (String × Expression × Bool)
  | .VariableDeclaration name value => some (name, value, true)
  | .OutputDeclaration name value _ => some (name, value, false)
  | .ExpressionStatement expr => some (exprName expr, expr, true)
  | .Program _ => none

/-- The bindings of a run from the state `interp`: for each statement executed, in order and
up to the first one that fails, the name it binds, the value its expression evaluated to, and
whether the name is appended to `userVars`. -/
def Interpreter.bindings (interp : Interpreter) : List Statement → List (String × Value × Bool)
  | [] => []
  | stmt :: rest =>
    match stmt.binding, interp.executeStatement stmt with
    | some (name, e, recorded), .ok interp1 =>
      match interp.evaluateExpression e with
      | .ok v => (name, v, recorded) :: bindings interp1 rest
      | .error _ => []
    | _, _ => []

/-- The names the statements bind, in order. -/
def boundNames (stmts : List Statement) : List String :=
  stmts.filterMap (fun s => s.binding.map (fun b => b.1))

/-- Whether a statement is an `OutputDeclaration`. -/
def Statement.isOutputDeclaration : Statement → Bool
  | .OutputDeclaration _ _ _ => true
  | _ => false

/-- The state in which the first statement of a run over the bars `md` is executed. -/
def startState (md : List MarketData) : Interpreter := (NewInterpreter md).initMarketDataVariables

/-- The output line a binding of a series stands for. -/
def lineOf (b : String × Value × Bool) : OutputLine :=
  { Name := b.1, Data := b.2.1.Array, Style := none }

/-- The names of the built-in series. -/
def builtinSeries : List String := ["OPEN", "CLOSE", "HIGH", "LOW", "VOLUME", "AMOUNT"]

mutual

/-- The identifiers an expression mentions. -/
def Expression.idents : Expression → List String
  | .BinaryExpression l _ r => l.idents ++ r.idents
  | .UnaryExpression _ e => e.idents
  | .FunctionCall _ args => identsOfList args
  | .ConditionalExpression c t e => c.idents ++ (t.idents ++ e.idents)
  | .Identifier n => [n]
  | .NumberLiteral _ => []

/-- The identifiers a list of expressions mentions. -/
def identsOfList : List Expression → List String
  | [] => []
  | e :: rest => e.idents ++ identsOfList rest

end

/-- The upper-cased names under which the built-ins are registered. -/
def registeredNames : List String := NewFunctionRegistry.functions.map Prod.fst

/-- A value that, when it is a series, has `N` entries. -/
def SeriesLen (N : Nat) (v : Value) : Prop := v.IsArray = true → v.Array.length = N

/-- A computation of a slice that, when it succeeds, returns `N` entries. -/
def ReturnsLen (N : Nat) (m : Res (List F64)) : Prop := ∀ r, m = .ok r → r.length = N

/-- A computation of a slice and a loop variable that, when it succeeds, returns `N`
entries. -/
def ReturnsLenState {σ : Type} (N : Nat) (m : Res (List F64 × σ)) : Prop :=
  ∀ st, m = .ok st → st.1.length = N

/-- A computation of a value that, when it succeeds with a series, returns `N` entries. -/
def ReturnsSeriesLen (N : Nat) (m : Res Value) : Prop := ∀ v, m = .ok v → SeriesLen N v

/-- A built-in that returns a series of `N` entries, if any, on arguments whose series all
have `N` entries. -/
def KeepsLen (N : Nat) (fn : Function) : Prop :=
  ∀ (args : List Value) (md : List MarketData), (∀ a ∈ args, SeriesLen N a) →
    ReturnsSeriesLen N (fn args md)

/-- The 1-indexed line of the byte that follows the bytes `pre` of a source: one more than
the number of newlines in `pre`. -/
def lineAt (pre : List Char) : Int := 1 + (pre.count '\n' : Nat)

/-- The 1-indexed column of the byte that follows the bytes `pre` of a source: one more than
the number of bytes of `pre` after its last newline. -/
def colAt (pre : List Char) : Int := 1 + ((pre.reverse.takeWhile (fun c => c ≠ '\n')).length : Nat)

/-- One scanning step that passes over the bytes `w`, none a newline, and appends the token
`t` with literal `w` and the position of the first byte of `w`. -/
def Consumes (l l1 : Lexer) (w : List Char) (t : Token) : Prop :=
  l.rest = w ++ l1.rest ∧ l1.line = l.line ∧ l1.column = l.column + (w.length : Nat) ∧
    l1.tokens = l.tokens ++ [t] ∧ t.Line = l.line ∧ t.Column = l.column ∧
    t.Value = String.mk w ∧ w ≠ [] ∧ (∀ c ∈ w, c ≠ '\n') ∧ t.Typ ≠ .EOF ∧ t.Typ ≠ .NEWLINE

/-- The longest run of an optional sign and digits at the start of `r`. -/
def signDigits : List Char → List Char
  | [] => []
  | s :: r => if s = '+' ∨ s = '-' then s :: r.takeWhile Lexer.isDigit
              else (s :: r).takeWhile Lexer.isDigit

/-- The longest exponent (`e` or `E`, an optional sign, digits) at the start of `r`. -/
def expLiteral : List Char → List Char
  | [] => []
  | e :: r => if e = 'e' ∨ e = 'E' then e :: signDigits r else []

/-- The longest fraction (`.` and digits) and exponent at the start of `r`. -/
def fracExpLiteral : List Char → List Char
  | [] => []
  | d :: r => if d = '.' then d :: (r.takeWhile Lexer.isDigit ++ expLiteral (r.dropWhile Lexer.isDigit))
              else expLiteral (d :: r)

/-- The longest prefix of `r` that is digits, then an optional fraction, then an optional
exponent. -/
def numberLiteral (r : List Char) : List Char :=
  r.takeWhile Lexer.isDigit ++ fracExpLiteral (r.dropWhile Lexer.isDigit)

/-- Whether `w` is an optional sign followed by digits: at least one digit when `strict`. -/
def signDigitsForm (strict : Bool) : List Char → Bool
  | [] => !strict
  | s :: r => if s = '+' ∨ s = '-' then r.all Lexer.isDigit && (!strict || !r.isEmpty)
              else (s :: r).all Lexer.isDigit

/-- Whether `w` is empty or an exponent. -/
def expForm (strict : Bool) : List Char → Bool
  | [] => true
  | e :: r => (e = 'e' || e = 'E') && signDigitsForm strict r

/-- Whether `w` is an optional fraction followed by an optional exponent; the fraction has at
least one digit when `strict`. -/
def fracExpForm (strict : Bool) : List Char → Bool
  | [] => true
  | d :: r => if d = '.' then (!strict || !(r.takeWhile Lexer.isDigit).isEmpty) &&
                expForm strict (r.dropWhile Lexer.isDigit)
              else expForm strict (d :: r)

/-- Whether `w` is a number literal: one or more digits, optionally `.` and digits, optionally
an exponent of `e` or `E`, an optional sign and digits.  With `strict` the fraction and the
exponent each need at least one digit; without it they may have none. -/
def isNumberForm (strict : Bool) (w : List Char) : Bool :=
  !(w.takeWhile Lexer.isDigit).isEmpty && fracExpForm strict (w.dropWhile Lexer.isDigit)

/-- The token `t` stands at a place of the source `input`: its literal occurs there, its line
is the line of the literal's first byte, its column is the column of that byte (for a NEWLINE
token: one less), and a NUMBER token's literal is the number literal that starts there, at
a digit. -/
def TokenAt (input : List Char) (t : Token) : Prop :=
  t.Typ ≠ .EOF ∧ t.Value.toList ≠ [] ∧
  ∃ pre post, input = pre ++ (t.Value.toList ++ post) ∧ t.Line = lineAt pre ∧
    t.Column = colAt pre - (if t.Typ = .NEWLINE then 1 else 0) ∧
    (t.Typ = .NUMBER → t.Value.toList = numberLiteral (t.Value.toList ++ post) ∧
      ∃ c r, t.Value.toList ++ post = c :: r ∧ Lexer.isDigit c = true)

/-- The lexer's state while it scans `input`: the bytes `pre` are behind it, `line` and
`column` are those of the next byte, and every token stands at a place of the source. -/
def LexInv (input : List Char) (l : Lexer) : Prop :=
  (∃ pre, input = pre ++ l.rest ∧ l.line = lineAt pre ∧ l.column = colAt pre) ∧
    ∀ t ∈ l.tokens, TokenAt input t

/-- The bytes with which a token may start, other than white space and the newline. -/
def startsToken (c : Char) : Bool :=
  Lexer.isDigit c || Lexer.isLetter c || c = '_' || c = '+' || c = '-' || c = '*' || c = '/' ||
    c = '(' || c = ')' || c = ',' || c = ';' || c = ':' || c = '>' || c = '<' || c = '=' ||
    c = '!'

/-- The input at a token start is rejected: its first byte starts no token, or it is a `!`
that is not followed by `=`. -/
def badStart : List Char → Bool
  | [] => false
  | c :: rest => c ≠ '\n' && (!startsToken c || (c = '!' && rest.head? ≠ some '='))

/-- The successful scanning rounds: `k` calls of `scanToken`, each on input that is not
exhausted. -/
def scanRounds : Nat → Lexer → Res Lexer
  | 0, l => .ok l
  | k + 1, l =>
    if l.isAtEnd then .error .outOfFuel
    else
      match l.scanToken with
      | .ok l1 => scanRounds k l1
      | .error e => .error e

/-- Whether the result `r` is the value `x`. -/
def isOkWith {α : Type} [DecidableEq α] (r : Res α) (x : α) : Bool :=
  match r with
  | .ok y => decide (y = x)
  | .error _ => false

/-- Whether two results are the same value or the same error. -/
def sameResult {α : Type} [DecidableEq α] (a b : Res α) : Bool :=
  match a, b with
  | .ok x, .ok y => decide (x = y)
  | .error e, .error f => decide (e = f)
  | _, _ => false

/-- Whether the result `r` is the error `e`. -/
def isErrorWith {α : Type} (r : Res α) (e : FormulaError) : Bool :=
  match r with
  | .ok _ => false
  | .error e1 => decide (e1 = e)

mutual

/-- Equality test on expressions. -/
def Expression.beq : Expression → Expression → Bool
  | .BinaryExpression l1 o1 r1, .BinaryExpression l2 o2 r2 =>
    l1.beq l2 && (decide (o1 = o2) && r1.beq r2)
  | .UnaryExpression o1 e1, .UnaryExpression o2 e2 => decide (o1 = o2) && e1.beq e2
  | .FunctionCall n1 a1, .FunctionCall n2 a2 => decide (n1 = n2) && beqExpressions a1 a2
  | .ConditionalExpression c1 t1 e1, .ConditionalExpression c2 t2 e2 =>
    c1.beq c2 && (t1.beq t2 && e1.beq e2)
  | .Identifier n1, .Identifier n2 => decide (n1 = n2)
  | .NumberLiteral v1, .NumberLiteral v2 => decide (v1 = v2)
  | _, _ => false

/-- Equality test on lists of expressions. -/
def beqExpressions : List Expression → List Expression → Bool
  | [], [] => true
  | a :: as, b :: bs => a.beq b && beqExpressions as bs
  | _, _ => false

end

mutual

/-- Equality test on statements. -/
def Statement.beq : Statement → Statement → Bool
  | .Program b1, .Program b2 => beqStatements b1 b2
  | .VariableDeclaration n1 v1, .VariableDeclaration n2 v2 => decide (n1 = n2) && v1.beq v2
  | .OutputDeclaration n1 v1 s1, .OutputDeclaration n2 v2 s2 =>
    decide (n1 = n2) && (v1.beq v2 && decide (s1 = s2))
  | .ExpressionStatement e1, .ExpressionStatement e2 => e1.beq e2
  | _, _ => false

/-- Equality test on lists of statements. -/
def beqStatements : List Statement → List Statement → Bool
  | [], [] => true
  | a :: as, b :: bs => a.beq b && beqStatements as bs
  | _, _ => false

end

/-- Whether the result of compiling is the program with the statements `body`. -/
def compilesTo (r : Res Program) (body : List Statement) : Bool :=
  match r with
  | .ok p => beqStatements p.Body body
  | .error _ => false

/-! ### The grammar of expressions -/

/-- The parser `p` stands before the tokens `r`: they are its tokens from its position on, and
its current token is the first of them. -/
def Parser.At (p : Parser) (r : List Token) : Prop :=
  p.tokens.drop p.pos = r ∧ p.current = r.head?

/-- The binary operator a token kind stands for at a level of the grammar: level 0 is
`logic-or`, 1 `logic-and`, 2 `comparison`, 3 `additive`, 4 `multiplicative`. -/
def levelOp : Nat → TokenType → Option BinaryOperator
  | 0, .OR => some .OpOr
  | 1, .AND => some .OpAnd
  | 2, .GT => some .OpGreaterThan
  | 2, .LT => some .OpLessThan
  | 2, .GTE => some .OpGreaterThanOrEqual
  | 2, .LTE => some .OpLessThanOrEqual
  | 2, .EQ => some .OpEqual
  | 2, .NEQ => some .OpNotEqual
  | 3, .PLUS => some .OpPlus
  | 3, .MINUS => some .OpMinus
  | 4, .MULTIPLY => some .OpMultiply
  | 4, .DIVIDE => some .OpDivide
  | _, _ => none

/-- A token that can stand for a name: an IDENTIFIER or the keyword IF. -/
def isNameToken (t : Token) : Bool := t.Typ = .IDENTIFIER || t.Typ = .IF

/-- The tokens of the arguments after the first one: for each a comma and the argument. -/
def moreTokens (more : List (Token × List Token × Expression)) : List Token :=
  more.flatMap (fun m => m.1 :: m.2.1)

/-- The grammar of expressions.  `Derives k ts e` says that the tokens `ts` are a phrase of
level `k` with the tree `e`; the levels are 0 `logic-or` (an expression), 1 `logic-and`,
2 `comparison`, 3 `additive`, 4 `multiplicative`, 5 `unary` and 6 `primary`.  A phrase of a
level is a phrase of the next level (`up`) or a phrase of the level, an operator of the level
and a phrase of the next level (`binary`); an argument list is empty (`call0`) or a first
argument and more arguments, each after a comma (`call`). -/
inductive Derives : Nat → List Token → Expression → Prop
  | number (t : Token) (v : F64) : t.Typ = .NUMBER → ParseFloat t.Value = some v →
      Derives 6 [t] (.NumberLiteral v)
  | name (t : Token) : isNameToken t = true → Derives 6 [t] (.Identifier t.Value)
  | call0 (t lp rp : Token) : isNameToken t = true → lp.Typ = .LPAREN → rp.Typ = .RPAREN →
      Derives 6 [t, lp, rp] (.FunctionCall t.Value [])
  | call (t lp rp : Token) (first : List Token) (e : Expression)
      (more : List (Token × List Token × Expression)) :
      isNameToken t = true → lp.Typ = .LPAREN → rp.Typ = .RPAREN →
      Derives 0 first e → (∀ m ∈ more, m.1.Typ = .COMMA) →
      (∀ m ∈ more, Derives 0 m.2.1 m.2.2) →
      Derives 6 (t :: lp :: (first ++ (moreTokens more ++ [rp])))
        (.FunctionCall t.Value (e :: more.map (fun m => m.2.2)))
  | group (lp rp : Token) (ts : List Token) (e : Expression) :
      lp.Typ = .LPAREN → rp.Typ = .RPAREN → Derives 0 ts e → Derives 6 (lp :: (ts ++ [rp])) e
  | neg (m : Token) (ts : List Token) (e : Expression) :
      m.Typ = .MINUS → Derives 5 ts e → Derives 5 (m :: ts) (.UnaryExpression .OpUnaryMinus e)
  | up (k : Nat) (ts : List Token) (e : Expression) :
      k < 6 → Derives (k + 1) ts e → Derives k ts e
  | binary (k : Nat) (l r : List Token) (o : Token) (op : BinaryOperator)
      (el er : Expression) :
      levelOp k o.Typ = some op → Derives k l el → Derives (k + 1) r er →
      Derives k (l ++ o :: r) (.BinaryExpression el op er)

/-- The parsing function of a level of the grammar. -/
def parseLevel : Nat → Nat → Parser → Res (Expression × Parser)
  | 0 => Parser.parseLogicalOr
  | 1 => Parser.parseLogicalAnd
  | 2 => Parser.parseComparison
  | 3 => Parser.parseAdditive
  | 4 => Parser.parseMultiplicative
  | 5 => Parser.parseUnary
  | _ => Parser.parsePrimary

/-- The loop of the parsing function of a level; the levels `unary` and `primary` have no
loop. -/
def loopLevel : Nat → Nat → Expression → Parser → Res (Expression × Parser)
  | 0 => Parser.parseLogicalOrLoop
  | 1 => Parser.parseLogicalAndLoop
  | 2 => Parser.parseComparisonLoop
  | 3 => Parser.parseAdditiveLoop
  | 4 => Parser.parseMultiplicativeLoop
  | _ => fun _ e p => .ok (e, p)

/-- The parsing function of level `k` reads the phrase `ts` as `e`: started before `ts`, with
fuel in proportion to the length of `ts`, and with a token after `ts` that is neither `(` nor
an operator of a higher level, it consumes exactly `ts` and goes on as the loop of the level
with the tree `e`, having spent at most one unit of fuel per token and one more. -/
def ParsesPhrase (k : Nat) (ts : List Token) (e : Expression) : Prop :=
  ∀ (fuel : Nat) (p : Parser) (t : Token) (r : List Token),
    p.At (ts ++ t :: r) → t.Typ ≠ .LPAREN → (∀ j, k < j → levelOp j t.Typ = none) →
    16 * ts.length + 14 ≤ fuel + k →
    ∃ p1 f1, parseLevel k fuel p = loopLevel k f1 e p1 ∧ p1.At (t :: r) ∧
      fuel ≤ f1 + ts.length + 1

/-! ### Termination of the parser -/

/-- The outcome `res` of a parsing function that stood before the tokens `r` and the end token
`eof`: it returned and stands before a suffix of `r` (a proper suffix when `strict`) and
`eof`, or it failed with a ParseError. -/
def Progress {α : Type} (strict : Bool) (r : List Token) (eof : Token)
    (res : Res (α × Parser)) : Prop :=
  (∃ x p1 w r1, res = .ok (x, p1) ∧ r = w ++ r1 ∧ (strict = true → w ≠ []) ∧
    p1.At (r1 ++ [eof])) ∨
  (∃ msg line col, res = .error (.parser msg line col))

/-- The parsing functions with the budget `fuel`: each of them, started before tokens `r` that
are followed by an end token and with a budget in proportion to the length of `r`, returns
after consuming tokens of `r` or fails with a ParseError; it does not use up the budget. -/
structure ParserTotal (fuel : Nat) : Prop where
  level : ∀ (k : Nat) (p : Parser) (r : List Token) (eof : Token), k ≤ 6 →
    p.At (r ++ [eof]) → eof.Typ = .EOF → 16 * r.length + 15 ≤ fuel + k →
    Progress true r eof (parseLevel k fuel p)
  loop : ∀ (k : Nat) (left : Expression) (p : Parser) (r : List Token) (eof : Token),
    p.At (r ++ [eof]) → eof.Typ = .EOF → 16 * r.length + 1 ≤ fuel →
    Progress false r eof (loopLevel k fuel left p)
  expr : ∀ (p : Parser) (r : List Token) (eof : Token),
    p.At (r ++ [eof]) → eof.Typ = .EOF → 16 * r.length + 16 ≤ fuel →
    Progress true r eof (Parser.parseExpression fuel p)
  ident : ∀ (p : Parser) (t : Token) (r : List Token) (eof : Token),
    p.At (t :: (r ++ [eof])) → eof.Typ = .EOF → isNameToken t = true →
    16 * (r.length + 1) + 8 ≤ fuel →
    Progress true (t :: r) eof (Parser.parseIdentifierOrCall fuel p)
  call : ∀ (name : String) (p : Parser) (lp : Token) (r : List Token) (eof : Token),
    p.At (lp :: (r ++ [eof])) → eof.Typ = .EOF → lp.Typ = .LPAREN →
    16 * (r.length + 1) + 2 ≤ fuel →
    Progress true (lp :: r) eof (Parser.parseFunctionCall fuel name p)
  args : ∀ (acc : List Expression) (p : Parser) (r : List Token) (eof : Token),
    p.At (r ++ [eof]) → eof.Typ = .EOF → 16 * r.length + 17 ≤ fuel →
    Progress false r eof (Parser.parseArguments fuel acc p)
  group : ∀ (p : Parser) (lp : Token) (r : List Token) (eof : Token),
    p.At (lp :: (r ++ [eof])) → eof.Typ = .EOF → lp.Typ = .LPAREN →
    16 * (r.length + 1) + 1 ≤ fuel →
    Progress true (lp :: r) eof (Parser.parseGroupedExpression fuel p)

/-- Whether no comma in the tokens is directly followed by `)` and the last token is no
comma; `prev` says that a comma stands directly before the tokens. -/
def commasFollowed : Bool → List Token → Bool
  | prev, [] => !prev
  | prev, t :: r => !(prev && t.Typ = .RPAREN) && commasFollowed (t.Typ = .COMMA) r

/-! ### The words of the source -/

/-- The bytes of an identifier: letters, digits and the underscore. -/
def isWordByte (ch : Char) : Bool := Lexer.isLetter ch ∨ Lexer.isDigit ch ∨ ch = '_'

/-- The operator at the start of the input: its kind and its literal, or nothing when the
first byte starts no operator. -/
def operatorWord : List Char → Option (TokenType × List Char)
  | [] => none
  | c :: r =>
    if c = '+' then some (.PLUS, ['+'])
    else if c = '-' then some (.MINUS, ['-'])
    else if c = '*' then some (.MULTIPLY, ['*'])
    else if c = '/' then some (.DIVIDE, ['/'])
    else if c = '(' then some (.LPAREN, ['('])
    else if c = ')' then some (.RPAREN, [')'])
    else if c = ',' then some (.COMMA, [','])
    else if c = ';' then some (.SEMICOLON, [';'])
    else if c = ':' then
      if r.head? = some '=' then some (.ASSIGN, [':', '=']) else some (.COLON, [':'])
    else if c = '>' then
      if r.head? = some '=' then some (.GTE, ['>', '=']) else some (.GT, ['>'])
    else if c = '<' then
      if r.head? = some '=' then some (.LTE, ['<', '='])
      else if r.head? = some '>' then some (.NEQ, ['<', '>'])
      else some (.LT, ['<'])
    else if c = '=' then
      if r.head? = some '=' then some (.EQ, ['=', '=']) else some (.EQ, ['='])
    else if c = '!' then
      if r.head? = some '=' then some (.NEQ, ['!', '=']) else none
    else none

/-- The token at the start of input that does not start with white space: its kind and its
literal, or nothing when the input is rejected there. -/
def tokenWord : List Char → Option (TokenType × List Char)
  | [] => none
  | c :: r =>
    if c = '\n' then some (.NEWLINE, ['\n'])
    else if Lexer.isDigit c then some (.NUMBER, numberLiteral (c :: r))
    else if Lexer.isLetter c ∨ c = '_' then
      some (Lexer.getKeywordType (goToUpper (String.mk ((c :: r).takeWhile isWordByte))),
        (c :: r).takeWhile isWordByte)
    else operatorWord (c :: r)

/-- The kinds and literals of the tokens of the input, in at most `fuel` rounds; nothing when
the input is rejected. -/
def lexWords : Nat → List Char → Option (List (TokenType × List Char))
  | 0, _ => none
  | fuel + 1, r =>
    match r.dropWhile Lexer.isSpace with
    | [] => some []
    | c :: r1 =>
      match tokenWord (c :: r1) with
      | none => none
      | some (ty, w) => (lexWords fuel ((c :: r1).drop w.length)).map (fun ws => (ty, w) :: ws)

/-- The kind and the literal of a token. -/
def Token.word (t : Token) : TokenType × List Char := (t.Typ, t.Value.toList)

/-- The input without its spaces, tabs and carriage returns. -/
def withoutSpaces (input : List Char) : List Char := input.filter (fun c => !Lexer.isSpace c)

/-- The input with the white space `gap` added after its first `k` tokens (before the first
token for `k = 0`); an input with fewer tokens is left as it is. -/
def spaceAfter (gap : List Char) : Nat → List Char → List Char
  | 0, r => gap ++ r
  | k + 1, r =>
    match r.dropWhile Lexer.isSpace with
    | [] => r
    | c :: r1 =>
      match tokenWord (c :: r1) with
      | none => r
      | some (_, w) =>
        r.takeWhile Lexer.isSpace ++ (w ++ spaceAfter gap k ((c :: r1).drop w.length))

/-! ### Safety -/

/-- A computation that does not panic: it returns a value with the property `P`, or it
fails with a RuntimeError. -/
def Safe {α : Type} (P : α → Prop) (m : Res α) : Prop :=
  (∃ x, m = .ok x ∧ P x) ∨ ∃ s, m = .error (.runtime s)

/-- A value that is a scalar or a series of `N` entries, `N` at least one: the values of a run
over `N` bars. -/
def Sized (N : Nat) (v : Value) : Prop := v.IsArray = true → v.Array.length = N ∧ 0 < N

/-- A built-in that does not panic on the values of a run over `N` bars, and returns such a
value. -/
def SafeFn (N : Nat) (fn : Function) : Prop :=
  ∀ (args : List Value) (md : List MarketData), (∀ a ∈ args, Sized N a) →
    Safe (Sized N) (fn args md)

/-! ### Statement terminators -/

/-- The byte `b` stands for the byte `a` when a `;` may have been replaced by a newline:
`b` is `a`, or `a` is `;` and `b` is a newline. -/
def swapChar (a b : Char) : Prop := a = b ∨ (a = ';' ∧ b = '\n')

/-- The input `y` is the input `x` with some of its `;` replaced by newlines. -/
def Swapped (x y : List Char) : Prop := List.Forall₂ swapChar x y

/-- The same for the words of an input: equal, or a SEMICOLON word and a NEWLINE word. -/
def swapWord (w w1 : TokenType × List Char) : Prop :=
  w = w1 ∨ (w = (.SEMICOLON, [';']) ∧ w1 = (.NEWLINE, ['\n']))

/-- The same for tokens, whatever their positions: equal kinds and literals, or a SEMICOLON
token and a NEWLINE token. -/
def swapToken (t t1 : Token) : Prop :=
  (t.Typ = t1.Typ ∧ t.Value = t1.Value) ∨ (t.Typ = .SEMICOLON ∧ t1.Typ = .NEWLINE)

/-- Two parsers that stand at the same place of two token lists that are alike up to
positions and up to SEMICOLON tokens replaced by NEWLINE tokens. -/
def Parser.Alike (p p1 : Parser) : Prop :=
  ∃ r r1 eof eof1, p.At (r ++ [eof]) ∧ p1.At (r1 ++ [eof1]) ∧ List.Forall₂ swapToken r r1 ∧
    eof.Typ = .EOF ∧ eof1.Typ = .EOF

/-- With the budget `fuel`, a parsing function that returns on one of two parsers that are
alike returns the same tree on the other, and leaves the two parsers alike. -/
structure ParserAlike (fuel : Nat) : Prop where
  level : ∀ k p q e p1, k ≤ 6 → Parser.Alike p q → parseLevel k fuel p = .ok (e, p1) →
    ∃ q1, parseLevel k fuel q = .ok (e, q1) ∧ Parser.Alike p1 q1
  loop : ∀ k left p q e p1, Parser.Alike p q → loopLevel k fuel left p = .ok (e, p1) →
    ∃ q1, loopLevel k fuel left q = .ok (e, q1) ∧ Parser.Alike p1 q1
  expr : ∀ p q e p1, Parser.Alike p q → Parser.parseExpression fuel p = .ok (e, p1) →
    ∃ q1, Parser.parseExpression fuel q = .ok (e, q1) ∧ Parser.Alike p1 q1
  ident : ∀ p q e p1, Parser.Alike p q → q.curValue = p.curValue →
    Parser.parseIdentifierOrCall fuel p = .ok (e, p1) →
    ∃ q1, Parser.parseIdentifierOrCall fuel q = .ok (e, q1) ∧ Parser.Alike p1 q1
  call : ∀ name p q e p1, Parser.Alike p q → Parser.parseFunctionCall fuel name p = .ok (e, p1) →
    ∃ q1, Parser.parseFunctionCall fuel name q = .ok (e, q1) ∧ Parser.Alike p1 q1
  args : ∀ acc p q out p1, Parser.Alike p q → Parser.parseArguments fuel acc p = .ok (out, p1) →
    ∃ q1, Parser.parseArguments fuel acc q = .ok (out, q1) ∧ Parser.Alike p1 q1
  group : ∀ p q e p1, Parser.Alike p q → Parser.parseGroupedExpression fuel p = .ok (e, p1) →
    ∃ q1, Parser.parseGroupedExpression fuel q = .ok (e, q1) ∧ Parser.Alike p1 q1

/-! ## Lemmas and theorems -/

theorem index_ok {a : List F64} {i : Int} (h0 : 0 ≤ i) (h1 : i < (a.length : Int)) :
    index a i = .ok (a.getD i.toNat F64.zero) := by
  simp [index, h0, h1]

theorem index_nat {a : List F64} {j : Nat} (h : j < a.length) :
    index a (j : Int) = .ok (a.getD j F64.zero) := by
  have h1 : ((j : Int)) < (a.length : Int) := by exact_mod_cast h
  rw [index_ok (Int.ofNat_nonneg j) h1]; simp

theorem store_ok {a : List F64} {i : Int} (v : F64) (h0 : 0 ≤ i) (h1 : i < (a.length : Int)) :
    store a i v = .ok (a.set i.toNat v) := by
  simp [store, h0, h1]

theorem forLoop_eq {σ : Type} (lo hi : Int) (body : Int → σ → Res σ) (s : σ) (k : Nat)
    (h : hi = lo + k) : forLoop lo hi body s = forLoopAux body k lo s := by
  subst h; simp [forLoop]

theorem forLoop_empty {σ : Type} (lo hi : Int) (body : Int → σ → Res σ) (s : σ)
    (h : hi ≤ lo) : forLoop lo hi body s = .ok s := by
  have : (hi - lo).toNat = 0 := by omega
  simp [forLoop, this, forLoopAux]

/-- Hoare rule for a counted loop. -/
theorem forLoopAux_inv {σ : Type} (body : Int → σ → Res σ) (P : Int → σ → Prop) :
    ∀ (k : Nat) (lo : Int) (s0 : σ), P lo s0 →
      (∀ i s, lo ≤ i → i < lo + k → P i s → ∃ s1, body i s = .ok s1 ∧ P (i + 1) s1) →
      ∃ s1, forLoopAux body k lo s0 = .ok s1 ∧ P (lo + k) s1 := by
  intro k
  induction k with
  | zero => intro lo s0 h0 _; exact ⟨s0, rfl, by simpa using h0⟩
  | succ k ih =>
    intro lo s0 h0 hstep
    obtain ⟨s1, hb, hP⟩ := hstep lo s0 (le_refl _) (by push_cast; omega) h0
    obtain ⟨s2, hl, hP2⟩ := ih (lo + 1) s1 hP (fun i s hi1 hi2 hPi =>
      hstep i s (by omega) (by push_cast; omega) hPi)
    refine ⟨s2, ?_, ?_⟩
    · simp only [forLoopAux, hb]; exact hl
    · have : lo + 1 + (k : Int) = lo + ((k + 1 : Nat) : Int) := by push_cast; ring
      rw [← this]; exact hP2

theorem forLoop_inv {σ : Type} (body : Int → σ → Res σ) (P : Int → σ → Prop)
    (lo hi : Int) (s0 : σ) (hle : lo ≤ hi) (h0 : P lo s0)
    (hstep : ∀ i s, lo ≤ i → i < hi → P i s → ∃ s1, body i s = .ok s1 ∧ P (i + 1) s1) :
    ∃ s1, forLoop lo hi body s0 = .ok s1 ∧ P hi s1 := by
  have hk : hi = lo + ((hi - lo).toNat : Int) := by omega
  obtain ⟨s1, h1, h2⟩ := forLoopAux_inv body P (hi - lo).toNat lo s0 h0
    (fun i s a b c => hstep i s a (by omega) c)
  exact ⟨s1, h1, by rw [hk]; exact h2⟩

/-- A loop that stores one computed value per index. -/
theorem forLoop_fill (body : Int → List F64 → Res (List F64)) (c : Nat → F64)
    (lo hi : Nat) (r0 : List F64) (hle : lo ≤ hi) (hlen : hi ≤ r0.length)
    (hbody : ∀ (i : Nat) (r : List F64), lo ≤ i → i < hi → r.length = r0.length →
      body i r = store r i (c i)) :
    ∃ r1, forLoop lo hi body r0 = .ok r1 ∧ r1.length = r0.length ∧
      ∀ j : Nat, r1[j]? = if lo ≤ j ∧ j < hi then some (c j) else r0[j]? := by
  obtain ⟨r1, h1, h2, h3⟩ := forLoop_inv body
    (fun i r => r.length = r0.length ∧
      ∀ j : Nat, r[j]? = if lo ≤ j ∧ j < i.toNat then some (c j) else r0[j]?)
    lo hi r0 (by exact_mod_cast hle) ⟨rfl, fun j => by
      rw [if_neg]; simp only [Int.toNat_ofNat]; omega⟩
    (fun i r hi1 hi2 ⟨hl, hg⟩ => by
      obtain ⟨m, rfl⟩ := Int.eq_ofNat_of_zero_le (by omega : 0 ≤ i)
      have hm1 : lo ≤ m := by exact_mod_cast hi1
      have hm2 : m < hi := by exact_mod_cast hi2
      rw [hbody m r hm1 hm2 hl, store_ok _ (by omega) (by omega)]
      refine ⟨_, rfl, by simp [hl], fun j => ?_⟩
      have e1 : ((m : Int) + 1).toNat = m + 1 := by omega
      have e2 : ((m : Int)).toNat = m := by omega
      have hgj := hg j
      rw [e2] at hgj
      rw [e1, e2, List.getElem?_set]
      by_cases hjm : m = j
      · subst hjm
        rw [if_pos rfl, if_pos (by omega), if_pos (by omega)]
      · rw [if_neg hjm, hgj]
        by_cases hc : lo ≤ j ∧ j < m
        · rw [if_pos hc, if_pos (by omega)]
        · rw [if_neg hc, if_neg (by omega)])
  refine ⟨r1, h1, h2, fun j => ?_⟩
  rw [h3 j]; simp only [Int.toNat_ofNat]


/-- A window loop whose body always succeeds computes `windowFold`. -/
theorem forLoop_window {σ : Type} (g : Nat → σ → F64 → σ) (x : List F64) (i lo hi : Nat)
    (s0 : σ) (body : Int → σ → Res σ) (hle : lo ≤ hi)
    (hbody : ∀ (j : Nat) (s : σ), lo ≤ j → j < hi →
      body j s = .ok (g j s (x.getD (i - j) F64.zero))) :
    forLoop lo hi body s0 = .ok (windowFold g x i lo hi s0) := by
  obtain ⟨s1, h1, h2⟩ := forLoop_inv body
    (fun j s => s = windowFold g x i lo j.toNat s0) lo hi s0 (by exact_mod_cast hle)
    (by simp [windowFold])
    (fun j s hj1 hj2 hs => by
      obtain ⟨m, rfl⟩ := Int.eq_ofNat_of_zero_le (by omega : 0 ≤ j)
      have hm1 : lo ≤ m := by exact_mod_cast hj1
      have hm2 : m < hi := by exact_mod_cast hj2
      refine ⟨_, hbody m s hm1 hm2, ?_⟩
      have e1 : ((m : Int) + 1).toNat = m + 1 := by omega
      have e2 : ((m : Int)).toNat = m := by omega
      rw [e2] at hs
      show _ = windowFold g x i lo ((m : Int) + 1).toNat s0
      rw [e1, hs]
      have e3 : m + 1 - lo = (m - lo) + 1 := by omega
      have e4 : lo + (m - lo) = m := by omega
      simp only [windowFold, e3, List.range'_1_concat, List.foldl_append, List.foldl_cons,
        List.foldl_nil, e4])
  rw [h1, h2]; simp

/-- Reading the window: `x[i-j]` is in range for `j ≤ i < len x`. -/
theorem index_window {x : List F64} {i j : Nat} (hj : j ≤ i) (hi : i < x.length) :
    index x ((i : Int) - (j : Int)) = .ok (x.getD (i - j) F64.zero) := by
  have e : ((i : Int) - (j : Int)) = ((i - j : Nat) : Int) := by omega
  rw [e]; exact index_nat (by omega)

theorem makeSlice_length (n : Nat) : (makeSlice n).length = n := by simp [makeSlice]

theorem ok_bind {α β : Type} (a : α) (f : α → Res β) : (Except.ok a >>= f) = f a := rfl

theorem toInt_eq_natCast {n : Int} (h : 0 ≤ n) : ((n.toNat : Nat) : Int) = n := by omega

/-- The shape shared by the windowed built-ins: a warm-up loop that stores `w` at the first
`n - 1` indices, then a loop that stores `c i` at every later index. -/
theorem windowed_loops (w : F64) (c : Nat → F64) (L n : Nat) (hn1 : 1 ≤ n) (hn2 : n ≤ L)
    (body : Int → List F64 → Res (List F64))
    (hbody : ∀ (i : Nat) (r : List F64), n - 1 ≤ i → i < L → r.length = L →
      body i r = store r i (c i)) :
    ∃ out, (do
        let result ← forLoop 0 ((n : Int) - 1) (fun i r => store r i w) (makeSlice L)
        let result ← forLoop ((n : Int) - 1) (L : Int) body result
        pure (NewArrayValue result) : Res Value) = .ok (NewArrayValue out) ∧
      out.length = L ∧
      (∀ i : Nat, i + 1 < n → out[i]? = some w) ∧
      (∀ i : Nat, n ≤ i + 1 → i < L → out[i]? = some (c i)) := by
  have e1 : ((n : Int) - 1) = ((n - 1 : Nat) : Int) := by omega
  obtain ⟨r1, h1, hl1, hg1⟩ := forLoop_fill (fun i r => store r i w) (fun _ => w) 0 (n - 1)
    (makeSlice L) (Nat.zero_le _) (by rw [makeSlice_length]; omega) (fun i r _ _ _ => rfl)
  rw [makeSlice_length] at hl1
  obtain ⟨r2, h2, hl2, hg2⟩ := forLoop_fill body c (n - 1) L r1 (by omega) (by omega)
    (fun i r a b hr => hbody i r a b (by omega))
  refine ⟨r2, ?_, by omega, fun i hi => ?_, fun i hi1 hi2 => ?_⟩
  · rw [e1]
    have h1' : forLoop ((0 : Nat) : Int) ((n - 1 : Nat) : Int) (fun i r => store r i w)
        (makeSlice L) = .ok r1 := h1
    simp only [Nat.cast_zero] at h1'
    rw [h1', ok_bind, h2, ok_bind]; rfl
  · rw [hg2 i, if_neg (by omega), hg1 i, if_pos (by omega)]
  · rw [hg2 i, if_pos (by omega)]


/-- A loop that folds the window `x[i-lo], ..., x[i-hi+1]` computes `windowFold`. -/
theorem forLoop_index_window {σ : Type} (g : Int → σ → F64 → σ) (x : List F64) (i lo hi : Nat)
    (s0 : σ) (hle : lo ≤ hi) (hhi : hi ≤ i + 1) (hi' : i < x.length) :
    forLoop (lo : Int) (hi : Int)
      (fun j s => do let v ← index x ((i : Int) - j); pure (g j s v)) s0
      = .ok (windowFold (fun j => g (j : Int)) x i lo hi s0) :=
  forLoop_window (fun j => g (j : Int)) x i lo hi s0 _ hle (fun j s _ hj2 => by
    show (index x ((i : Int) - (j : Int)) >>= fun v => pure (g j s v)) = _
    rw [index_window (by omega) hi', ok_bind]; rfl)

/-- The conclusion of `windowed_loops` with the index conditions stated on `Int`. -/
theorem windowed_loops_int (w : F64) (c : Nat → F64) (L n : Nat) (hn1 : 1 ≤ n) (hn2 : n ≤ L)
    (body : Int → List F64 → Res (List F64))
    (hbody : ∀ (i : Nat) (r : List F64), n - 1 ≤ i → i < L → r.length = L →
      body i r = store r i (c i)) :
    ∃ out, (do
        let result ← forLoop 0 ((n : Int) - 1) (fun i r => store r i w) (makeSlice L)
        let result ← forLoop ((n : Int) - 1) (L : Int) body result
        pure (NewArrayValue result) : Res Value) = .ok (NewArrayValue out) ∧
      out.length = L ∧
      (∀ i : Nat, (i : Int) + 1 < (n : Int) → out[i]? = some w) ∧
      (∀ i : Nat, (n : Int) ≤ (i : Int) + 1 → i < L → out[i]? = some (c i)) := by
  obtain ⟨out, e1, e2, e3, e4⟩ := windowed_loops w c L n hn1 hn2 body hbody
  exact ⟨out, e1, e2, fun i hi => e3 i (by omega), fun i hi hl => e4 i (by omega) hl⟩

namespace F64

theorem log2Small_step (n : Nat) (p : Nat × Nat) (e : Nat) (h1 : 1 ≤ p.1) (h2 : p.1 * 2 ^ p.2 ≤ n) :
    1 ≤ (if 2 ^ e ≤ p.1 then (p.1 / 2 ^ e, p.2 + e) else p).1 ∧
    (if 2 ^ e ≤ p.1 then (p.1 / 2 ^ e, p.2 + e) else p).1 *
      2 ^ (if 2 ^ e ≤ p.1 then (p.1 / 2 ^ e, p.2 + e) else p).2 ≤ n := by
  by_cases h : 2 ^ e ≤ p.1
  · simp only [if_pos h]
    refine ⟨(Nat.one_le_div_iff (pow_pos (by norm_num) _)).mpr h, ?_⟩
    calc p.1 / 2 ^ e * 2 ^ (p.2 + e) = (p.1 / 2 ^ e * 2 ^ e) * 2 ^ p.2 := by ring
      _ ≤ p.1 * 2 ^ p.2 := Nat.mul_le_mul_right _ (Nat.div_mul_le_self _ _)
      _ ≤ n := h2
  · simp only [if_neg h]; exact ⟨h1, h2⟩

theorem two_pow_log2Small_le (n : Nat) (h : 1 ≤ n) : 2 ^ log2Small n ≤ n := by
  have key : ∀ (l : List Nat) (p : Nat × Nat), 1 ≤ p.1 → p.1 * 2 ^ p.2 ≤ n →
      2 ^ (List.foldl (fun (p : Nat × Nat) (e : Nat) =>
        if 2 ^ e ≤ p.1 then (p.1 / 2 ^ e, p.2 + e) else p) p l).2 ≤ n := by
    intro l
    induction l with
    | nil =>
      intro p h1 h2
      exact le_trans (Nat.le_mul_of_pos_left _ h1) h2
    | cons e l ih =>
      intro p h1 h2
      have := log2Small_step n p e h1 h2
      exact ih _ this.1 this.2
  exact key _ (n, 0) h (by simp)

theorem two_pow_log2Aux_le : ∀ (fuel n : Nat), 1 ≤ n → 2 ^ log2Aux fuel n ≤ n := by
  intro fuel
  induction fuel with
  | zero => intro n h; simpa [log2Aux] using h
  | succ f ih =>
    intro n h
    by_cases hn : n < 2 ^ 64
    · simp only [log2Aux, if_pos hn]; exact two_pow_log2Small_le n h
    · simp only [log2Aux, if_neg hn]
      have h1 : 1 ≤ n / 2 ^ 64 := (Nat.one_le_div_iff (by norm_num)).mpr (by omega)
      calc 2 ^ (log2Aux f (n / 2 ^ 64) + 64) = 2 ^ log2Aux f (n / 2 ^ 64) * 2 ^ 64 := by ring
        _ ≤ n / 2 ^ 64 * 2 ^ 64 := Nat.mul_le_mul_right _ (ih _ h1)
        _ ≤ n := Nat.div_mul_le_self _ _

theorem two_pow_log2_le (n : Nat) (h : 1 ≤ n) : 2 ^ log2 n ≤ n := two_pow_log2Aux_le n n h

theorem tiesEven_ge (q r d : Nat) : q ≤ tiesEven q r d := by
  unfold tiesEven; split_ifs <;> omega

theorem tiesEven_le (q r d : Nat) : tiesEven q r d ≤ q + 1 := by
  unfold tiesEven; split_ifs <;> omega

/-- Rounding a number that is at least one unit gives at least one unit and at most twice
the number. -/
theorem rne_one_bounds (n : Nat) (h : 1 ≤ n) : 1 ≤ rne n 1 ∧ rne n 1 ≤ 2 * n := by
  unfold rne
  simp only [Nat.div_one, Nat.one_mul]
  generalize hsh : log2 n - 52 = sh
  have hpow : 2 ^ sh ≤ n :=
    le_trans (Nat.pow_le_pow_right (by norm_num) (by omega)) (two_pow_log2_le n h)
  have hq : 1 ≤ n / 2 ^ sh := (Nat.one_le_div_iff (pow_pos (by norm_num) _)).mpr hpow
  have hpos : 0 < 2 ^ sh := pow_pos (by norm_num) _
  constructor
  · exact Nat.one_le_iff_ne_zero.mpr (Nat.mul_ne_zero
      (by have := tiesEven_ge (n / 2 ^ sh) (2 * (n % 2 ^ sh)) (2 ^ sh); omega) (by omega))
  · calc tiesEven (n / 2 ^ sh) (2 * (n % 2 ^ sh)) (2 ^ sh) * 2 ^ sh
        ≤ (n / 2 ^ sh + 1) * 2 ^ sh := Nat.mul_le_mul_right _ (tiesEven_le _ _ _)
      _ = n / 2 ^ sh * 2 ^ sh + 2 ^ sh := by ring
      _ ≤ n + n := Nat.add_le_add (Nat.div_mul_le_self _ _) hpow
      _ = 2 * n := by ring

/-- The conversion of a nonzero `int64` is finite and nonzero, with the sign of the integer. -/
theorem ofInt_fin (m : Int) (h0 : m ≠ 0) (h1 : -9223372036854775808 ≤ m)
    (h2 : m < 9223372036854775808) :
    ∃ k : Int, ofInt m = fin k ∧ (0 < m → 0 < k) ∧ (m < 0 → k < 0) := by
  have hm : 1 ≤ m.natAbs := by omega
  have hN : 1 ≤ m.natAbs * 2 ^ 1074 := Nat.one_le_iff_ne_zero.mpr
    (Nat.mul_ne_zero (by omega) (by norm_num))
  obtain ⟨hb1, hb2⟩ := rne_one_bounds _ hN
  have hlt : ¬ (2 ^ 2098 ≤ rne (m.natAbs * 2 ^ 1074) 1) := by
    have : m.natAbs ≤ 2 ^ 63 := by omega
    have h3 : 2 * (m.natAbs * 2 ^ 1074) ≤ 2 * (2 ^ 63 * 2 ^ 1074) :=
      Nat.mul_le_mul_left _ (Nat.mul_le_mul_right _ this)
    have h4 : 2 * (2 ^ 63 * 2 ^ 1074) < 2 ^ 2098 := by norm_num
    omega
  have hb : (0 : Int) < (rne (m.natAbs * 2 ^ 1074) 1 : Nat) := by exact_mod_cast hb1
  by_cases hneg : m < 0
  · refine ⟨-((rne (m.natAbs * 2 ^ 1074) 1 : Nat) : Int), ?_, fun h => by omega, fun _ => by omega⟩
    simp only [ofInt, ofRatio, round, ofMag, if_neg hlt, hneg, decide_True, if_true]
  · refine ⟨((rne (m.natAbs * 2 ^ 1074) 1 : Nat) : Int), ?_, fun _ => hb, fun h => by omega⟩
    simp only [ofInt, ofRatio, round, ofMag, if_neg hlt, hneg, decide_False, Bool.false_eq_true,
      if_false]

theorem toInt_lt (p : F64) : p.toInt < 9223372036854775808 := by
  cases p with
  | nan => simp [toInt]
  | inf s => simp [toInt]
  | fin a => simp only [toInt]; split_ifs with h <;> omega

theorem toInt_ge (p : F64) : -9223372036854775808 ≤ p.toInt := by
  cases p with
  | nan => simp [toInt]
  | inf s => simp [toInt]
  | fin a => simp only [toInt]; split_ifs with h <;> omega

end F64

theorem fnMA_spec (x : List F64) (p : F64) (md : List MarketData)
    (h1 : 1 ≤ p.toInt) (h2 : p.toInt ≤ x.length) :
    WindowedResult fnMA F64.nan (maValue x p.toInt.toNat) x p md := by
  obtain ⟨n, hp⟩ := Int.eq_ofNat_of_zero_le (by omega : 0 ≤ p.toInt)
  have hn1 : 1 ≤ n := by omega
  have hn2 : n ≤ x.length := by omega
  have hg : ¬ ((n : Int) ≤ 0 ∨ (n : Int) > (x.length : Int)) := by omega
  simp only [WindowedResult, fnMA, NewArrayValue, NewSingleValue, hp, hg, Bool.not_true,
    Bool.false_eq_true, if_false, Int.toNat_ofNat]
  refine windowed_loops_int F64.nan (maValue x n) x.length n hn1 hn2 _
    (fun i r hi1 hi2 _ => ?_)
  · have hs := forLoop_index_window (fun _ s v => F64.add s v) x i 0 n F64.zero (Nat.zero_le _)
      (by omega) hi2
    simp only [Nat.cast_zero] at hs
    show (forLoop 0 (n : Int) _ F64.zero >>= fun sum => store r i _) = _
    rw [hs, ok_bind]; rfl

theorem fnSUM_spec (x : List F64) (p : F64) (md : List MarketData)
    (h1 : 1 ≤ p.toInt) (h2 : p.toInt ≤ x.length) :
    WindowedResult fnSUM F64.nan (sumValue x p.toInt.toNat) x p md := by
  obtain ⟨n, hp⟩ := Int.eq_ofNat_of_zero_le (by omega : 0 ≤ p.toInt)
  have hn1 : 1 ≤ n := by omega
  have hn2 : n ≤ x.length := by omega
  have hg : ¬ ((n : Int) ≤ 0 ∨ (n : Int) > (x.length : Int)) := by omega
  simp only [WindowedResult, fnSUM, NewArrayValue, NewSingleValue, hp, hg, Bool.not_true,
    Bool.false_eq_true, if_false, Int.toNat_ofNat]
  refine windowed_loops_int F64.nan (sumValue x n) x.length n hn1 hn2 _
    (fun i r hi1 hi2 _ => ?_)
  · have hs := forLoop_index_window (fun _ s v => F64.add s v) x i 0 n F64.zero (Nat.zero_le _)
      (by omega) hi2
    simp only [Nat.cast_zero] at hs
    show (forLoop 0 (n : Int) _ F64.zero >>= fun sum => store r i _) = _
    rw [hs, ok_bind]; rfl

theorem fnSTD_spec (x : List F64) (p : F64) (md : List MarketData)
    (h1 : 1 ≤ p.toInt) (h2 : p.toInt ≤ x.length) :
    WindowedResult fnSTD F64.nan (stdValue x p.toInt.toNat) x p md := by
  obtain ⟨n, hp⟩ := Int.eq_ofNat_of_zero_le (by omega : 0 ≤ p.toInt)
  have hn1 : 1 ≤ n := by omega
  have hn2 : n ≤ x.length := by omega
  have hg : ¬ ((n : Int) ≤ 0 ∨ (n : Int) > (x.length : Int)) := by omega
  simp only [WindowedResult, fnSTD, NewArrayValue, NewSingleValue, hp, hg, Bool.not_true,
    Bool.false_eq_true, if_false, Int.toNat_ofNat]
  refine windowed_loops_int F64.nan (stdValue x n) x.length n hn1 hn2 _
    (fun i r hi1 hi2 _ => ?_)
  · have hs := forLoop_index_window (fun _ s v => F64.add s v) x i 0 n F64.zero (Nat.zero_le _)
      (by omega) hi2
    simp only [Nat.cast_zero] at hs
    have hv := forLoop_index_window
      (fun _ s v => F64.add s (F64.mul (F64.sub v (windowMean x i n)) (F64.sub v (windowMean x i n)))) x i 0 n F64.zero
      (Nat.zero_le _) (by omega) hi2
    simp only [Nat.cast_zero, windowMean, windowSum] at hv
    show (forLoop 0 (n : Int) _ F64.zero >>= fun mean =>
      (forLoop 0 (n : Int) _ F64.zero >>= fun acc => store r i _)) = _
    rw [hs, ok_bind]
    show (forLoop 0 (n : Int) _ F64.zero >>= fun acc => store r i _) = _
    rw [hv, ok_bind]; rfl

theorem fnVAR_spec (x : List F64) (p : F64) (md : List MarketData)
    (h1 : 1 ≤ p.toInt) (h2 : p.toInt ≤ x.length) :
    WindowedResult fnVAR F64.nan (varValue x p.toInt.toNat) x p md := by
  obtain ⟨n, hp⟩ := Int.eq_ofNat_of_zero_le (by omega : 0 ≤ p.toInt)
  have hn1 : 1 ≤ n := by omega
  have hn2 : n ≤ x.length := by omega
  have hg : ¬ ((n : Int) ≤ 0 ∨ (n : Int) > (x.length : Int)) := by omega
  simp only [WindowedResult, fnVAR, NewArrayValue, NewSingleValue, hp, hg, Bool.not_true,
    Bool.false_eq_true, if_false, Int.toNat_ofNat]
  refine windowed_loops_int F64.nan (varValue x n) x.length n hn1 hn2 _
    (fun i r hi1 hi2 _ => ?_)
  · have hs := forLoop_index_window (fun _ s v => F64.add s v) x i 0 n F64.zero (Nat.zero_le _)
      (by omega) hi2
    simp only [Nat.cast_zero] at hs
    have hv := forLoop_index_window
      (fun _ s v => F64.add s (F64.mul (F64.sub v (windowMean x i n)) (F64.sub v (windowMean x i n)))) x i 0 n F64.zero
      (Nat.zero_le _) (by omega) hi2
    simp only [Nat.cast_zero, windowMean, windowSum] at hv
    show (forLoop 0 (n : Int) _ F64.zero >>= fun mean =>
      (forLoop 0 (n : Int) _ F64.zero >>= fun acc => store r i _)) = _
    rw [hs, ok_bind]
    show (forLoop 0 (n : Int) _ F64.zero >>= fun acc => store r i _) = _
    rw [hv, ok_bind]; rfl

theorem fnAVEDEV_spec (x : List F64) (p : F64) (md : List MarketData)
    (h1 : 1 ≤ p.toInt) (h2 : p.toInt ≤ x.length) :
    WindowedResult fnAVEDEV F64.nan (avedevValue x p.toInt.toNat) x p md := by
  obtain ⟨n, hp⟩ := Int.eq_ofNat_of_zero_le (by omega : 0 ≤ p.toInt)
  have hn1 : 1 ≤ n := by omega
  have hn2 : n ≤ x.length := by omega
  have hg : ¬ ((n : Int) ≤ 0 ∨ (n : Int) > (x.length : Int)) := by omega
  simp only [WindowedResult, fnAVEDEV, NewArrayValue, NewSingleValue, hp, hg, Bool.not_true,
    Bool.false_eq_true, if_false, Int.toNat_ofNat]
  refine windowed_loops_int F64.nan (avedevValue x n) x.length n hn1 hn2 _
    (fun i r hi1 hi2 _ => ?_)
  · have hs := forLoop_index_window (fun _ s v => F64.add s v) x i 0 n F64.zero (Nat.zero_le _)
      (by omega) hi2
    simp only [Nat.cast_zero] at hs
    have hv := forLoop_index_window
      (fun _ s v => F64.add s (F64.abs (F64.sub v (windowMean x i n)))) x i 0 n F64.zero
      (Nat.zero_le _) (by omega) hi2
    simp only [Nat.cast_zero, windowMean, windowSum] at hv
    show (forLoop 0 (n : Int) _ F64.zero >>= fun mean =>
      (forLoop 0 (n : Int) _ F64.zero >>= fun acc => store r i _)) = _
    rw [hs, ok_bind]
    show (forLoop 0 (n : Int) _ F64.zero >>= fun acc => store r i _) = _
    rw [hv, ok_bind]; rfl

theorem fnWMA_spec (x : List F64) (p : F64) (md : List MarketData)
    (h1 : 1 ≤ p.toInt) (h2 : p.toInt ≤ x.length) :
    WindowedResult fnWMA F64.nan (wmaValue x p.toInt.toNat) x p md := by
  obtain ⟨n, hp⟩ := Int.eq_ofNat_of_zero_le (by omega : 0 ≤ p.toInt)
  have hn1 : 1 ≤ n := by omega
  have hn2 : n ≤ x.length := by omega
  have hg : ¬ ((n : Int) ≤ 0 ∨ (n : Int) > (x.length : Int)) := by omega
  simp only [WindowedResult, fnWMA, NewArrayValue, NewSingleValue, hp, hg, Bool.not_true,
    Bool.false_eq_true, if_false, Int.toNat_ofNat]
  refine windowed_loops_int F64.nan (wmaValue x n) x.length n hn1 hn2 _
    (fun i r hi1 hi2 _ => ?_)
  · have hs := forLoop_index_window
      (fun j s v => F64.add s (F64.mul v (F64.ofInt ((n : Int) - j)))) x i 0 n F64.zero
      (Nat.zero_le _) (by omega) hi2
    simp only [Nat.cast_zero] at hs
    show (forLoop 0 (n : Int) _ F64.zero >>= fun sum => store r i _) = _
    rw [hs, ok_bind]; rfl

theorem fnCOUNT_spec (x : List F64) (p : F64) (md : List MarketData)
    (h1 : 1 ≤ p.toInt) (h2 : p.toInt ≤ x.length) :
    WindowedResult fnCOUNT F64.nan (countValue x p.toInt.toNat) x p md := by
  obtain ⟨n, hp⟩ := Int.eq_ofNat_of_zero_le (by omega : 0 ≤ p.toInt)
  have hn1 : 1 ≤ n := by omega
  have hn2 : n ≤ x.length := by omega
  have hg : ¬ ((n : Int) ≤ 0 ∨ (n : Int) > (x.length : Int)) := by omega
  simp only [WindowedResult, fnCOUNT, NewArrayValue, NewSingleValue, hp, hg, Bool.not_true,
    Bool.false_eq_true, if_false, Int.toNat_ofNat]
  refine windowed_loops_int F64.nan (countValue x n) x.length n hn1 hn2 _
    (fun i r hi1 hi2 _ => ?_)
  · have hs := forLoop_index_window
      (fun _ s v => if F64.ne v F64.zero then F64.add s F64.one else s) x i 0 n F64.zero
      (Nat.zero_le _) (by omega) hi2
    simp only [Nat.cast_zero] at hs
    show (forLoop 0 (n : Int) _ F64.zero >>= fun sum => store r i _) = _
    rw [hs, ok_bind]; rfl

theorem fnHHV_spec (x : List F64) (p : F64) (md : List MarketData)
    (h1 : 1 ≤ p.toInt) (h2 : p.toInt ≤ x.length) :
    WindowedResult fnHHV F64.nan (hhvValue x p.toInt.toNat) x p md := by
  obtain ⟨n, hp⟩ := Int.eq_ofNat_of_zero_le (by omega : 0 ≤ p.toInt)
  have hn1 : 1 ≤ n := by omega
  have hn2 : n ≤ x.length := by omega
  have hg : ¬ ((n : Int) ≤ 0 ∨ (n : Int) > (x.length : Int)) := by omega
  simp only [WindowedResult, fnHHV, NewArrayValue, NewSingleValue, hp, hg, Bool.not_true,
    Bool.false_eq_true, if_false, Int.toNat_ofNat]
  refine windowed_loops_int F64.nan (hhvValue x n) x.length n hn1 hn2 _
    (fun i r hi1 hi2 _ => ?_)
  · have hs := forLoop_index_window
      (fun _ m v => if F64.gt v m then v else m) x i 1 n (x.getD i F64.zero)
      hn1 (by omega) hi2
    simp only [Nat.cast_one] at hs
    show (index x (i : Int) >>= fun first =>
      (forLoop 1 (n : Int) _ first >>= fun m => store r i _)) = _
    rw [index_nat hi2, ok_bind]
    show (forLoop 1 (n : Int) _ _ >>= fun m => store r i _) = _
    rw [hs, ok_bind]; rfl

theorem fnLLV_spec (x : List F64) (p : F64) (md : List MarketData)
    (h1 : 1 ≤ p.toInt) (h2 : p.toInt ≤ x.length) :
    WindowedResult fnLLV F64.nan (llvValue x p.toInt.toNat) x p md := by
  obtain ⟨n, hp⟩ := Int.eq_ofNat_of_zero_le (by omega : 0 ≤ p.toInt)
  have hn1 : 1 ≤ n := by omega
  have hn2 : n ≤ x.length := by omega
  have hg : ¬ ((n : Int) ≤ 0 ∨ (n : Int) > (x.length : Int)) := by omega
  simp only [WindowedResult, fnLLV, NewArrayValue, NewSingleValue, hp, hg, Bool.not_true,
    Bool.false_eq_true, if_false, Int.toNat_ofNat]
  refine windowed_loops_int F64.nan (llvValue x n) x.length n hn1 hn2 _
    (fun i r hi1 hi2 _ => ?_)
  · have hs := forLoop_index_window
      (fun _ m v => if F64.lt v m then v else m) x i 1 n (x.getD i F64.zero)
      hn1 (by omega) hi2
    simp only [Nat.cast_one] at hs
    show (index x (i : Int) >>= fun first =>
      (forLoop 1 (n : Int) _ first >>= fun m => store r i _)) = _
    rw [index_nat hi2, ok_bind]
    show (forLoop 1 (n : Int) _ _ >>= fun m => store r i _) = _
    rw [hs, ok_bind]; rfl

theorem windowFold_inv {σ : Type} (P : σ → Prop) (g : Nat → σ → F64 → σ) (x : List F64)
    (i lo hi : Nat) (s0 : σ) (h0 : P s0)
    (hstep : ∀ (j : Nat) (s : σ), lo ≤ j → j < hi → P s → P (g j s (x.getD (i - j) F64.zero))) :
    P (windowFold g x i lo hi s0) := by
  have key : ∀ (l : List Nat) (s : σ), (∀ j ∈ l, lo ≤ j ∧ j < hi) → P s →
      P (l.foldl (fun s j => g j s (x.getD (i - j) F64.zero)) s) := by
    intro l
    induction l with
    | nil => intro s _ hs; exact hs
    | cons a l ih =>
      intro s hl hs
      have ha := hl a (List.mem_cons_self _ _)
      exact ih _ (fun j hj => hl j (List.mem_cons_of_mem _ hj)) (hstep a s ha.1 ha.2 hs)
  exact key _ s0 (fun j hj => by
    have := List.mem_range'_1.mp hj
    omega) h0

namespace F64

theorem isNaN_ofMag (neg : Bool) (mag : Nat) : (ofMag neg mag).isNaN = false := by
  unfold ofMag; split_ifs <;> rfl

theorem isNaN_round (neg : Bool) (num den : Nat) : (round neg num den).isNaN = false :=
  isNaN_ofMag _ _

theorem isNonneg_round (num den : Nat) : (round false num den).isNonneg = true := by
  unfold round ofMag
  by_cases h : 2 ^ 2098 ≤ rne num den
  · rw [if_pos h]; rfl
  · rw [if_neg h]
    simp only [Bool.false_eq_true, if_false, isNonneg, decide_eq_true_eq]
    exact Int.ofNat_nonneg _

theorem isNaN_of_isNonneg {a : F64} (h : a.isNonneg = true) : a.isNaN = false := by
  cases a <;> simp_all [isNonneg, isNaN]

theorem isNaN_of_isFinite {a : F64} (h : a.isFinite = true) : a.isNaN = false := by
  cases a <;> simp_all [isFinite, isNaN]

theorem isNaN_add_finite {s v : F64} (hs : s.isNaN = false) (hv : v.isFinite = true) :
    (add s v).isNaN = false := by
  cases s with
  | nan => simp [isNaN] at hs
  | inf t => cases v <;> simp_all [isFinite, add, isNaN]
  | fin a =>
    cases v with
    | fin b => exact isNaN_round _ _ _
    | nan => simp [isFinite] at hv
    | inf t => simp [isFinite] at hv

theorem isNonneg_add {s v : F64} (hs : s.isNonneg = true) (hv : v.isNonneg = true) :
    (add s v).isNonneg = true := by
  cases s with
  | nan => simp [isNonneg] at hs
  | inf t =>
    cases v with
    | nan => simp [isNonneg] at hv
    | inf u => simp_all [isNonneg, add]
    | fin b => simp_all [isNonneg, add]
  | fin a =>
    cases v with
    | nan => simp [isNonneg] at hv
    | inf u => simp_all [isNonneg, add]
    | fin b =>
      simp only [isNonneg, decide_eq_true_eq] at hs hv
      have : ¬ (a + b < 0) := by omega
      simp only [add, this, decide_False]
      exact isNonneg_round _ _

theorem isNaN_sub_finite {v m : F64} (hv : v.isFinite = true) (hm : m.isNaN = false) :
    (sub v m).isNaN = false := by
  cases v with
  | nan => simp [isFinite] at hv
  | inf t => simp [isFinite] at hv
  | fin a =>
    cases m with
    | nan => simp [isNaN] at hm
    | inf t => simp [sub, neg, add, isNaN]
    | fin b => exact isNaN_round _ _ _

theorem isNonneg_mul_self {d : F64} (hd : d.isNaN = false) : (mul d d).isNonneg = true := by
  cases d with
  | nan => simp [isNaN] at hd
  | inf t => simp [mul, isNonneg]
  | fin a =>
    have : ¬ (a * a < 0) := not_lt.mpr (mul_self_nonneg a)
    simp only [mul, this, decide_False]
    exact isNonneg_round _ _

theorem isNonneg_abs {d : F64} (hd : d.isNaN = false) : (abs d).isNonneg = true := by
  cases d with
  | nan => simp [isNaN] at hd
  | inf t => simp [abs, isNonneg]
  | fin a => simp [abs, isNonneg]

theorem isNaN_div_fin {s : F64} {k : Int} (hs : s.isNaN = false) (hk : k ≠ 0) :
    (div s (fin k)).isNaN = false := by
  cases s with
  | nan => simp [isNaN] at hs
  | inf t => simp [div, isNaN]
  | fin a => simp only [div, if_neg hk]; exact isNaN_round _ _ _

theorem isNonneg_div_pos {s : F64} {k : Int} (hs : s.isNonneg = true) (hk : 0 < k) :
    (div s (fin k)).isNonneg = true := by
  have hk0 : k ≠ 0 := by omega
  have hk1 : ¬ (k < 0) := by omega
  cases s with
  | nan => simp [isNonneg] at hs
  | inf t => simp_all [div, isNonneg]
  | fin a =>
    simp only [isNonneg, decide_eq_true_eq] at hs
    have ha : ¬ (a < 0) := by omega
    simp only [div, if_neg hk0, ha, hk1, decide_False, bne_self_eq_false]
    exact isNonneg_round _ _

theorem isNaN_sqrt_nonneg {s : F64} (hs : s.isNonneg = true) : (sqrt s).isNaN = false := by
  cases s with
  | nan => simp [isNonneg] at hs
  | inf t => simp_all [isNonneg, sqrt, isNaN]
  | fin a =>
    simp only [isNonneg, decide_eq_true_eq] at hs
    have ha : ¬ (a < 0) := by omega
    simp only [sqrt, if_neg ha, isNaN]

theorem isNonneg_mul_pos {v : F64} {k : Int} (hv : v.isFinite = true) (hn : v.isNonneg = true)
    (hk : 0 < k) : (mul v (fin k)).isNonneg = true := by
  cases v with
  | nan => simp [isFinite] at hv
  | inf t => simp [isFinite] at hv
  | fin a =>
    simp only [isNonneg, decide_eq_true_eq] at hn
    have : ¬ (a * k < 0) := not_lt.mpr (mul_nonneg hn (le_of_lt hk))
    simp only [mul, this, decide_False]
    exact isNonneg_round _ _

theorem one_eq_fin : ∃ k : Int, one = fin k ∧ 0 < k :=
  let ⟨k, h, hp, _⟩ := ofInt_fin 1 (by decide) (by decide) (by decide)
  ⟨k, h, hp (by decide)⟩

theorem isFinite_one : one.isFinite = true := by
  obtain ⟨k, h, _⟩ := one_eq_fin
  rw [h]; rfl

end F64

/-- The product `n * (n + 1)` of a positive `int64` is not a multiple of `2^64`. -/
theorem not_dvd_mul_succ (n : Nat) (h1 : 1 ≤ n) (h2 : n < 2 ^ 63) :
    ¬ (2 ^ 64 ∣ n * (n + 1)) := by
  intro hd
  rcases Nat.even_or_odd n with he | ho
  · have hodd : Odd (n + 1) := he.add_one
    have hc : Nat.Coprime (2 ^ 64) (n + 1) := Nat.Coprime.pow_left 64 (Nat.coprime_two_left.mpr hodd)
    have := Nat.le_of_dvd (by omega) (hc.dvd_of_dvd_mul_right hd)
    omega
  · have hc : Nat.Coprime (2 ^ 64) n := Nat.Coprime.pow_left 64 (Nat.coprime_two_left.mpr ho)
    have := Nat.le_of_dvd (by omega) (hc.dvd_of_dvd_mul_left hd)
    omega

/-- The weight sum of WMA, `n * (n + 1) / 2` in 64-bit arithmetic, is a nonzero `int64`. -/
theorem weightSum_ne_zero (n : Nat) (h1 : 1 ≤ n) (h2 : n < 2 ^ 63) :
    Int.tdiv (wrap64 ((n : Int) * ((n : Int) + 1))) 2 ≠ 0 ∧
    -9223372036854775808 ≤ Int.tdiv (wrap64 ((n : Int) * ((n : Int) + 1))) 2 ∧
    Int.tdiv (wrap64 ((n : Int) * ((n : Int) + 1))) 2 < 9223372036854775808 := by
  have hnd := not_dvd_mul_succ n h1 h2
  have hev : Even (n * (n + 1)) := Nat.even_mul_succ_self n
  obtain ⟨t, ht⟩ := hev
  have hy : ((n : Int) * ((n : Int) + 1)) = ((n * (n + 1) : Nat) : Int) := by push_cast; ring
  rw [hy]
  generalize hY : n * (n + 1) = y at *
  have hmod : ¬ (y % 18446744073709551616 = 0) := fun h => hnd (Nat.dvd_of_mod_eq_zero h)
  have h2dvd : (2 : Int) ∣ wrap64 (y : Int) := by
    unfold wrap64
    exact ⟨((y : Int) + 9223372036854775808) % 18446744073709551616 / 2 - 4611686018427387904,
      by omega⟩
  rw [Int.tdiv_eq_ediv_of_dvd h2dvd]
  unfold wrap64
  omega

theorem windowSum_notNaN (x : List F64) (i n : Nat)
    (hfin : ∀ j, j < n → (x.getD (i - j) F64.zero).isFinite = true) :
    (windowSum x i n).isNaN = false :=
  windowFold_inv (fun s => s.isNaN = false) _ x i 0 n F64.zero rfl
    (fun j _ _ hj hs => F64.isNaN_add_finite hs (hfin j hj))

theorem ofInt_period (n : Nat) (h1 : 1 ≤ n) (h2 : (n : Int) < 9223372036854775808) :
    ∃ k : Int, F64.ofInt (n : Int) = F64.fin k ∧ 0 < k := by
  obtain ⟨k, hk, hp, _⟩ := F64.ofInt_fin (n : Int) (by omega) (by omega) h2
  exact ⟨k, hk, hp (by omega)⟩

theorem windowMean_notNaN (x : List F64) (i n : Nat) (h1 : 1 ≤ n)
    (h2 : (n : Int) < 9223372036854775808)
    (hfin : ∀ j, j < n → (x.getD (i - j) F64.zero).isFinite = true) :
    (windowMean x i n).isNaN = false := by
  obtain ⟨k, hk, hp⟩ := ofInt_period n h1 h2
  unfold windowMean
  rw [hk]
  exact F64.isNaN_div_fin (windowSum_notNaN x i n hfin) (by omega)

theorem windowSqDev_nonneg (x : List F64) (i n : Nat) (mean : F64) (hm : mean.isNaN = false)
    (hfin : ∀ j, j < n → (x.getD (i - j) F64.zero).isFinite = true) :
    (windowSqDev x i n mean).isNonneg = true :=
  windowFold_inv (fun s => s.isNonneg = true) _ x i 0 n F64.zero rfl
    (fun j _ _ hj hs => F64.isNonneg_add hs
      (F64.isNonneg_mul_self (F64.isNaN_sub_finite (hfin j hj) hm)))

theorem windowAbsDev_nonneg (x : List F64) (i n : Nat) (mean : F64) (hm : mean.isNaN = false)
    (hfin : ∀ j, j < n → (x.getD (i - j) F64.zero).isFinite = true) :
    (windowAbsDev x i n mean).isNonneg = true :=
  windowFold_inv (fun s => s.isNonneg = true) _ x i 0 n F64.zero rfl
    (fun j _ _ hj hs => F64.isNonneg_add hs
      (F64.isNonneg_abs (F64.isNaN_sub_finite (hfin j hj) hm)))

theorem windowWeighted_nonneg (x : List F64) (i n : Nat) (h2 : (n : Int) < 9223372036854775808)
    (hfin : ∀ j, j < n → (x.getD (i - j) F64.zero).isFinite = true)
    (hnn : ∀ j, j < n → (x.getD (i - j) F64.zero).isNonneg = true) :
    (windowWeighted x i n).isNonneg = true :=
  windowFold_inv (fun s => s.isNonneg = true) _ x i 0 n F64.zero rfl
    (fun j _ _ hj hs => by
      obtain ⟨k, hk, hp⟩ := ofInt_period (n - j) (by omega) (by omega)
      have e : ((n : Int) - (j : Int)) = ((n - j : Nat) : Int) := by omega
      show (F64.add _ (F64.mul _ (F64.ofInt ((n : Int) - (j : Int))))).isNonneg = true
      rw [e, hk]
      exact F64.isNonneg_add hs (F64.isNonneg_mul_pos (hfin j hj) (hnn j hj) hp))

theorem windowMax_finite (x : List F64) (i n : Nat) (h1 : 1 ≤ n)
    (hfin : ∀ j, j < n → (x.getD (i - j) F64.zero).isFinite = true) :
    (windowMax x i n).isFinite = true :=
  windowFold_inv (fun (s : F64) => s.isFinite = true) _ x i 1 n _
    (by simpa using hfin 0 (by omega))
    (fun j s _ hj hs => by
      show (if F64.gt _ s then _ else s).isFinite = true
      split_ifs
      · exact hfin j hj
      · exact hs)

theorem windowMin_finite (x : List F64) (i n : Nat) (h1 : 1 ≤ n)
    (hfin : ∀ j, j < n → (x.getD (i - j) F64.zero).isFinite = true) :
    (windowMin x i n).isFinite = true :=
  windowFold_inv (fun (s : F64) => s.isFinite = true) _ x i 1 n _
    (by simpa using hfin 0 (by omega))
    (fun j s _ hj hs => by
      show (if F64.lt _ s then _ else s).isFinite = true
      split_ifs
      · exact hfin j hj
      · exact hs)

theorem windowCount_notNaN (x : List F64) (i n : Nat) : (windowCount x i n).isNaN = false :=
  windowFold_inv (fun s => s.isNaN = false) _ x i 0 n F64.zero rfl
    (fun j s _ _ hs => by
      show (if F64.ne _ F64.zero then F64.add s F64.one else s).isNaN = false
      split_ifs
      · exact F64.isNaN_add_finite hs F64.isFinite_one
      · exact hs)

theorem maValue_notNaN (x : List F64) (i n : Nat) (h1 : 1 ≤ n)
    (h2 : (n : Int) < 9223372036854775808)
    (hfin : ∀ j, j < n → (x.getD (i - j) F64.zero).isFinite = true) :
    (maValue x n i).isNaN = false := windowMean_notNaN x i n h1 h2 hfin

theorem varValue_nonneg (x : List F64) (i n : Nat) (h1 : 1 ≤ n)
    (h2 : (n : Int) < 9223372036854775808)
    (hfin : ∀ j, j < n → (x.getD (i - j) F64.zero).isFinite = true) :
    (varValue x n i).isNonneg = true := by
  obtain ⟨k, hk, hp⟩ := ofInt_period n h1 h2
  unfold varValue
  rw [hk]
  exact F64.isNonneg_div_pos
    (windowSqDev_nonneg x i n _ (windowMean_notNaN x i n h1 h2 hfin) hfin) hp

theorem stdValue_notNaN (x : List F64) (i n : Nat) (h1 : 1 ≤ n)
    (h2 : (n : Int) < 9223372036854775808)
    (hfin : ∀ j, j < n → (x.getD (i - j) F64.zero).isFinite = true) :
    (stdValue x n i).isNaN = false :=
  F64.isNaN_sqrt_nonneg (varValue_nonneg x i n h1 h2 hfin)

theorem avedevValue_notNaN (x : List F64) (i n : Nat) (h1 : 1 ≤ n)
    (h2 : (n : Int) < 9223372036854775808)
    (hfin : ∀ j, j < n → (x.getD (i - j) F64.zero).isFinite = true) :
    (avedevValue x n i).isNaN = false := by
  obtain ⟨k, hk, hp⟩ := ofInt_period n h1 h2
  unfold avedevValue
  rw [hk]
  exact F64.isNaN_of_isNonneg (F64.isNonneg_div_pos
    (windowAbsDev_nonneg x i n _ (windowMean_notNaN x i n h1 h2 hfin) hfin) hp)

theorem wmaValue_notNaN (x : List F64) (i n : Nat) (h1 : 1 ≤ n)
    (h2 : (n : Int) < 9223372036854775808)
    (hfin : ∀ j, j < n → (x.getD (i - j) F64.zero).isFinite = true)
    (hnn : ∀ j, j < n → (x.getD (i - j) F64.zero).isNonneg = true) :
    (wmaValue x n i).isNaN = false := by
  obtain ⟨hw0, hw1, hw2⟩ := weightSum_ne_zero n h1 (by omega)
  obtain ⟨k, hk, hp, hq⟩ := F64.ofInt_fin _ hw0 hw1 hw2
  unfold wmaValue
  rw [hk]
  refine F64.isNaN_div_fin (F64.isNaN_of_isNonneg (windowWeighted_nonneg x i n h2 hfin hnn)) ?_
  rcases lt_or_gt_of_ne hw0 with h | h
  · have := hq h; omega
  · have := hp h; omega

theorem windowWeighted_notNaN_terms (x : List F64) (i n : Nat)
    (hterm : ∀ j, j < n →
      (F64.mul (x.getD (i - j) F64.zero) (F64.ofInt ((n : Int) - (j : Int)))).isFinite = true) :
    (windowWeighted x i n).isNaN = false :=
  windowFold_inv (fun s => s.isNaN = false) _ x i 0 n F64.zero rfl
    (fun j _ _ hj hs => F64.isNaN_add_finite hs (hterm j hj))

theorem wmaValue_notNaN_terms (x : List F64) (i n : Nat) (h1 : 1 ≤ n)
    (h2 : (n : Int) < 9223372036854775808)
    (hterm : ∀ j, j < n →
      (F64.mul (x.getD (i - j) F64.zero) (F64.ofInt ((n : Int) - (j : Int)))).isFinite = true) :
    (wmaValue x n i).isNaN = false := by
  obtain ⟨hw0, hw1, hw2⟩ := weightSum_ne_zero n h1 (by omega)
  obtain ⟨k, hk, hp, hq⟩ := F64.ofInt_fin _ hw0 hw1 hw2
  unfold wmaValue
  rw [hk]
  refine F64.isNaN_div_fin (windowWeighted_notNaN_terms x i n hterm) ?_
  rcases lt_or_gt_of_ne hw0 with h | h
  · have := hq h; omega
  · have := hp h; omega

theorem warmUpNaN_of_windowed {f : Function} {c : Nat → F64} {x : List F64} {p : F64}
    {md : List MarketData} (hw : WindowedResult f F64.nan c x p md) : WarmUpNaN f x p md := by
  obtain ⟨out, e1, e2, e3, _⟩ := hw
  exact ⟨out, e1, e2, e3⟩

theorem warmUp_of_windowed {f : Function} {c : Nat → F64} {x : List F64} {p : F64}
    {md : List MarketData} (h1 : 1 ≤ p.toInt) (h2 : p.toInt ≤ x.length)
    (hw : WindowedResult f F64.nan c x p md) (hv : (c (p.toInt - 1).toNat).isNaN = false) :
    WarmUp f x p md := by
  obtain ⟨out, e1, e2, e3, e4⟩ := hw
  exact ⟨out, e1, e2, e3, _, e4 _ (by omega) (by omega), hv⟩

/-- The window that ends at index `n - 1` is the first `n` points. -/
theorem first_window {x : List F64} {p : F64} {P : F64 → Prop} (h1 : 1 ≤ p.toInt)
    (h : ∀ i : Nat, (i : Int) < p.toInt → P (x.getD i F64.zero)) :
    ∀ j, j < p.toInt.toNat → P (x.getD ((p.toInt - 1).toNat - j) F64.zero) :=
  fun j _ => h _ (by omega)

/-- C1. `MA(x, n)` and its alias `SMA(x, n)`, for `1 <= n <= L` (`n = int(p)` is the period
the call receives as the scalar `p`): the result is a series of length `L`, NaN at the indices
`0..n-2`, and at every index `i >= n-1` the sum of the `n` points `x[i-n+1..i]` (added from
`x[i]` backwards) divided by `float64(n)`.  On the closes of the test bars with `n = 5` the
result is NaN at indices 0..3 and the `float64` nearest to 106.6 at index 4. -/
theorem C1_ma_trailing_mean :
    (∀ (x : List F64) (p : F64) (md : List MarketData),
      1 ≤ p.toInt → p.toInt ≤ (x.length : Int) →
      ∃ out, fnMA [NewArrayValue x, NewSingleValue p] md = .ok (NewArrayValue out) ∧
        fnSMA [NewArrayValue x, NewSingleValue p] md = .ok (NewArrayValue out) ∧
        out.length = x.length ∧
        (∀ i : Nat, (i : Int) + 1 < p.toInt → out[i]? = some F64.nan) ∧
        (∀ i : Nat, p.toInt ≤ (i : Int) + 1 → i < x.length →
          out[i]? = some (F64.div (windowSum x i p.toInt.toNat) (F64.ofInt p.toInt)))) ∧
    (∃ out, fnMA [NewArrayValue exampleCloses, NewSingleValue (F64.ofInt 5)] [] =
        .ok (NewArrayValue out) ∧
      out[0]? = some F64.nan ∧ out[1]? = some F64.nan ∧ out[2]? = some F64.nan ∧
      out[3]? = some F64.nan ∧ out[4]? = some (F64.ofRatio false 1066 10)) := by
  refine ⟨fun x p md h1 h2 => ?_, ⟨_, rfl, by decide, by decide, by decide, by decide, by decide⟩⟩
  obtain ⟨out, e1, e2, e3, e4⟩ := fnMA_spec x p md h1 h2
  refine ⟨out, e1, e1, e2, e3, fun i hi hl => ?_⟩
  rw [e4 i hi hl]
  have : ((p.toInt.toNat : Nat) : Int) = p.toInt := by omega
  simp only [maValue, windowMean, this]

/-- Witness of C1 on the closes of the test bars with period 5. -/
theorem C1_ma_trailing_mean_witness :
    1 ≤ (F64.ofInt 5).toInt ∧ (F64.ofInt 5).toInt ≤ (exampleCloses.length : Int) ∧
    ∃ out, fnMA [NewArrayValue exampleCloses, NewSingleValue (F64.ofInt 5)] [] =
        .ok (NewArrayValue out) ∧
      fnSMA [NewArrayValue exampleCloses, NewSingleValue (F64.ofInt 5)] [] =
        .ok (NewArrayValue out) ∧
      out.length = exampleCloses.length ∧
      (∀ i : Nat, (i : Int) + 1 < (F64.ofInt 5).toInt → out[i]? = some F64.nan) ∧
      (∀ i : Nat, (F64.ofInt 5).toInt ≤ (i : Int) + 1 → i < exampleCloses.length →
        out[i]? = some (F64.div (windowSum exampleCloses i (F64.ofInt 5).toInt.toNat)
          (F64.ofInt (F64.ofInt 5).toInt))) :=
  ⟨by decide, by decide, C1_ma_trailing_mean.1 exampleCloses (F64.ofInt 5) [] (by decide)
    (by decide)⟩

/-- C2 (as amended).  For each of MA, SUM, STD, VAR, WMA, HHV, LLV, AVEDEV and COUNT, every
input series of length `L` and every period `n = int(p)` with `1 <= n <= L`: the output is NaN
at every index in `[0, n-2]`; and index `n - 1` holds a defined (non-NaN) value whenever the
first `n` input values are finite, where WMA needs in addition that they are not negative or,
instead of both, that no weighted term `x[i] * (i + 1)` overflows. -/
theorem C2_warmup_invariant (x : List F64) (p : F64) (md : List MarketData)
    (h1 : 1 ≤ p.toInt) (h2 : p.toInt ≤ (x.length : Int)) :
    (WarmUpNaN fnMA x p md ∧ WarmUpNaN fnSUM x p md ∧ WarmUpNaN fnSTD x p md ∧
      WarmUpNaN fnVAR x p md ∧ WarmUpNaN fnWMA x p md ∧ WarmUpNaN fnHHV x p md ∧
      WarmUpNaN fnLLV x p md ∧ WarmUpNaN fnAVEDEV x p md ∧ WarmUpNaN fnCOUNT x p md) ∧
    ((∀ i : Nat, (i : Int) < p.toInt → (x.getD i F64.zero).isFinite = true) →
      WarmUp fnMA x p md ∧ WarmUp fnSUM x p md ∧ WarmUp fnSTD x p md ∧
      WarmUp fnVAR x p md ∧ WarmUp fnHHV x p md ∧ WarmUp fnLLV x p md ∧
      WarmUp fnAVEDEV x p md ∧ WarmUp fnCOUNT x p md ∧
      ((∀ i : Nat, (i : Int) < p.toInt → (x.getD i F64.zero).isNonneg = true) →
        WarmUp fnWMA x p md)) ∧
    ((∀ i : Nat, (i : Int) < p.toInt →
        (F64.mul (x.getD i F64.zero) (F64.ofInt ((i : Int) + 1))).isFinite = true) →
      WarmUp fnWMA x p md) := by
  have hn1 : 1 ≤ p.toInt.toNat := by omega
  have hn2 : ((p.toInt.toNat : Nat) : Int) < 9223372036854775808 := by
    have := F64.toInt_lt p
    omega
  refine ⟨⟨warmUpNaN_of_windowed (fnMA_spec x p md h1 h2),
    warmUpNaN_of_windowed (fnSUM_spec x p md h1 h2),
    warmUpNaN_of_windowed (fnSTD_spec x p md h1 h2),
    warmUpNaN_of_windowed (fnVAR_spec x p md h1 h2),
    warmUpNaN_of_windowed (fnWMA_spec x p md h1 h2),
    warmUpNaN_of_windowed (fnHHV_spec x p md h1 h2),
    warmUpNaN_of_windowed (fnLLV_spec x p md h1 h2),
    warmUpNaN_of_windowed (fnAVEDEV_spec x p md h1 h2),
    warmUpNaN_of_windowed (fnCOUNT_spec x p md h1 h2)⟩, fun hfin => ?_, fun hterm => ?_⟩
  · have hw := first_window (P := fun v => v.isFinite = true) h1 hfin
    exact ⟨warmUp_of_windowed h1 h2 (fnMA_spec x p md h1 h2) (maValue_notNaN x _ _ hn1 hn2 hw),
      warmUp_of_windowed h1 h2 (fnSUM_spec x p md h1 h2) (windowSum_notNaN x _ _ hw),
      warmUp_of_windowed h1 h2 (fnSTD_spec x p md h1 h2) (stdValue_notNaN x _ _ hn1 hn2 hw),
      warmUp_of_windowed h1 h2 (fnVAR_spec x p md h1 h2)
        (F64.isNaN_of_isNonneg (varValue_nonneg x _ _ hn1 hn2 hw)),
      warmUp_of_windowed h1 h2 (fnHHV_spec x p md h1 h2)
        (F64.isNaN_of_isFinite (windowMax_finite x _ _ hn1 hw)),
      warmUp_of_windowed h1 h2 (fnLLV_spec x p md h1 h2)
        (F64.isNaN_of_isFinite (windowMin_finite x _ _ hn1 hw)),
      warmUp_of_windowed h1 h2 (fnAVEDEV_spec x p md h1 h2)
        (avedevValue_notNaN x _ _ hn1 hn2 hw),
      warmUp_of_windowed h1 h2 (fnCOUNT_spec x p md h1 h2) (windowCount_notNaN x _ _),
      fun hnn => warmUp_of_windowed h1 h2 (fnWMA_spec x p md h1 h2)
        (wmaValue_notNaN x _ _ hn1 hn2 hw
          (first_window (P := fun v => v.isNonneg = true) h1 hnn))⟩
  · refine warmUp_of_windowed h1 h2 (fnWMA_spec x p md h1 h2)
      (wmaValue_notNaN_terms x _ _ hn1 hn2 (fun j hj => ?_))
    have e : ((p.toInt.toNat : Nat) : Int) - (j : Int) =
        ((((p.toInt - 1).toNat - j : Nat)) : Int) + 1 := by omega
    rw [e]
    exact hterm _ (by omega)

/-- Witness of C2 on the closes of the test bars with period 5. -/
theorem C2_warmup_invariant_witness :
    1 ≤ (F64.ofInt 5).toInt ∧ (F64.ofInt 5).toInt ≤ (exampleCloses.length : Int) ∧
    WarmUpNaN fnSTD exampleCloses (F64.ofInt 5) [] ∧ WarmUp fnSUM exampleCloses (F64.ofInt 5) [] ∧
    WarmUp fnWMA exampleCloses (F64.ofInt 5) [] :=
  have h := C2_warmup_invariant exampleCloses (F64.ofInt 5) [] (by decide) (by decide)
  have hfin : ∀ i : Nat, (i : Int) < (F64.ofInt 5).toInt →
      (exampleCloses.getD i F64.zero).isFinite = true := by
    have e : (F64.ofInt 5).toInt = 5 := by decide
    intro i hi
    rw [e] at hi
    have hi5 : i < 5 := by omega
    interval_cases i <;> decide
  have hnn : ∀ i : Nat, (i : Int) < (F64.ofInt 5).toInt →
      (exampleCloses.getD i F64.zero).isNonneg = true := by
    have e : (F64.ofInt 5).toInt = 5 := by decide
    intro i hi
    rw [e] at hi
    have hi5 : i < 5 := by omega
    interval_cases i <;> decide
  ⟨by decide, by decide, h.1.2.2.1, (h.2.1 hfin).2.1, (h.2.1 hfin).2.2.2.2.2.2.2.2 hnn⟩

/-- C2 as stated fails: a series may itself hold NaN.  `REF` of the test closes by one bar
starts with NaN, and `MA` of that series with period 1 is NaN at index `n - 1 = 0`. -/
theorem C2_counterexample :
    ∃ x, fnREF [NewArrayValue exampleCloses, NewSingleValue (F64.ofInt 1)] [] =
        .ok (NewArrayValue x) ∧
      1 ≤ (F64.ofInt 1).toInt ∧ (F64.ofInt 1).toInt ≤ (x.length : Int) ∧
      ¬ WarmUp fnMA x (F64.ofInt 1) [] := by
  refine ⟨F64.nan :: exampleCloses.dropLast, by rfl, by decide, by decide, ?_⟩
  rintro ⟨out, h, _, _, v, hv, hn⟩
  have e : fnMA [NewArrayValue (F64.nan :: exampleCloses.dropLast),
      NewSingleValue (F64.ofInt 1)] [] =
      .ok (NewArrayValue (F64.nan :: exampleCloses.dropLast)) := by rfl
  rw [e] at h
  have ho : out = F64.nan :: exampleCloses.dropLast := by
    injection h with h
    injection h with _ h _
    exact h.symm
  subst ho
  have e2 : ((F64.ofInt 1).toInt - 1).toNat = 0 := by decide
  rw [e2] at hv
  simp only [List.getElem?_cons_zero, Option.some.injEq] at hv
  subst hv
  simp [F64.isNaN] at hn

theorem getD_set_ne (r : List F64) (i j : Nat) (v : F64) (h : i ≠ j) :
    (r.set i v).getD j F64.zero = r.getD j F64.zero := by
  simp [List.getD_eq_getElem?_getD, List.getElem?_set, h]

theorem getD_set_self (r : List F64) (i : Nat) (v : F64) (h : i < r.length) :
    (r.set i v).getD i F64.zero = v := by
  simp [List.getD_eq_getElem?_getD, List.getElem?_set, h]

/-- C3. `EMA(x, n)` for `1 <= n <= L` (`n = int(p)`): the result is a series of length `L`
whose entry 0 is `x[0]` itself and whose entry `i >= 1` is `a * x[i] + (1 - a) * out[i-1]`
with `a = 2 / float64(n + 1)`; every entry comes from this recurrence, none is a NaN fill. -/
theorem C3_ema_recurrence (x : List F64) (p : F64) (md : List MarketData)
    (h1 : 1 ≤ p.toInt) (h2 : p.toInt ≤ (x.length : Int)) :
    ∃ out, fnEMA [NewArrayValue x, NewSingleValue p] md = .ok (NewArrayValue out) ∧
      out.length = x.length ∧
      out[0]? = x[0]? ∧
      ∀ i : Nat, 1 ≤ i → i < x.length →
        out[i]? = some (F64.add
          (F64.mul (F64.div (F64.ofInt 2) (F64.ofInt (p.toInt + 1))) (x.getD i F64.zero))
          (F64.mul (F64.sub F64.one (F64.div (F64.ofInt 2) (F64.ofInt (p.toInt + 1))))
            (out.getD (i - 1) F64.zero))) := by
  have hL : 0 < x.length := by omega
  have hg : ¬ (p.toInt ≤ 0 ∨ p.toInt > (x.length : Int)) := by omega
  simp only [fnEMA, NewArrayValue, NewSingleValue, hg, Bool.not_true, Bool.false_eq_true,
    if_false]
  generalize F64.div (F64.ofInt 2) (F64.ofInt (p.toInt + 1)) = a
  have hi0 : index x 0 = .ok (x.getD 0 F64.zero) := index_nat hL
  have hs0 : store (makeSlice x.length) 0 (x.getD 0 F64.zero) =
      .ok ((makeSlice x.length).set 0 (x.getD 0 F64.zero)) :=
    store_ok _ (le_refl _) (by rw [makeSlice_length]; exact_mod_cast hL)
  obtain ⟨out, e1, e2, e3, e4⟩ := forLoop_inv
    (fun i r => do
      let xi ← index x i
      let prev ← index r (i - 1)
      store r i (F64.add (F64.mul a xi) (F64.mul (F64.sub F64.one a) prev)))
    (fun i r => r.length = x.length ∧ r.getD 0 F64.zero = x.getD 0 F64.zero ∧
      ∀ j : Nat, 1 ≤ j → (j : Int) < i →
        r.getD j F64.zero = F64.add (F64.mul a (x.getD j F64.zero))
          (F64.mul (F64.sub F64.one a) (r.getD (j - 1) F64.zero)))
    1 x.length ((makeSlice x.length).set 0 (x.getD 0 F64.zero)) (by omega)
    ⟨by simp [makeSlice_length], getD_set_self _ _ _ (by rw [makeSlice_length]; exact hL),
      fun j hj1 hj2 => by omega⟩
    (fun i r hi1 hi2 ⟨hl, hr0, hrec⟩ => by
      obtain ⟨m, rfl⟩ := Int.eq_ofNat_of_zero_le (by omega : 0 ≤ i)
      have hm1 : 1 ≤ m := by exact_mod_cast hi1
      have hm2 : m < x.length := by exact_mod_cast hi2
      have e : ((m : Int) - 1) = ((m - 1 : Nat) : Int) := by omega
      refine ⟨r.set m (F64.add (F64.mul a (x.getD m F64.zero))
        (F64.mul (F64.sub F64.one a) (r.getD (m - 1) F64.zero))), ?_, by simp [hl], ?_, ?_⟩
      · show (index x (m : Int) >>= fun xi => index r ((m : Int) - 1) >>= fun prev =>
          store r (m : Int) _) = _
        rw [index_nat hm2, ok_bind, e, index_nat (by omega), ok_bind,
          store_ok _ (by omega) (by omega)]
        simp
      · rw [getD_set_ne _ _ _ _ (by omega)]; exact hr0
      · intro j hj1 hj2
        have hjm : j ≤ m := by omega
        rcases Nat.lt_or_eq_of_le hjm with hlt | heq
        · rw [getD_set_ne _ _ _ _ (by omega), getD_set_ne _ _ _ _ (by omega)]
          exact hrec j hj1 (by omega)
        · subst heq
          rw [getD_set_self _ _ _ (by omega), getD_set_ne _ _ _ _ (by omega)])
  refine ⟨out, ?_, e2, ?_, fun i hi1 hi2 => ?_⟩
  · show (index x 0 >>= fun first => store (makeSlice x.length) 0 first >>= fun result =>
      forLoop 1 (x.length : Int) _ result >>= fun result => pure _) = _
    rw [hi0, ok_bind, hs0, ok_bind, e1, ok_bind]; rfl
  · have h0 : 0 < out.length := by omega
    rw [List.getElem?_eq_getElem h0, List.getElem?_eq_getElem hL]
    have := e3
    simp only [List.getD_eq_getElem?_getD, List.getElem?_eq_getElem h0,
      List.getElem?_eq_getElem hL, Option.getD_some] at this
    rw [this]
  · have hlt : i < out.length := by omega
    have := e4 i hi1 (by exact_mod_cast hi2)
    rw [List.getElem?_eq_getElem hlt]
    rw [List.getD_eq_getElem?_getD, List.getElem?_eq_getElem hlt, Option.getD_some] at this
    rw [this]

/-- Witness of C3 on the closes of the test bars with period 5. -/
theorem C3_ema_recurrence_witness :
    1 ≤ (F64.ofInt 5).toInt ∧ (F64.ofInt 5).toInt ≤ (exampleCloses.length : Int) ∧
    ∃ out, fnEMA [NewArrayValue exampleCloses, NewSingleValue (F64.ofInt 5)] [] =
        .ok (NewArrayValue out) ∧
      out.length = exampleCloses.length ∧
      out[0]? = exampleCloses[0]? ∧
      ∀ i : Nat, 1 ≤ i → i < exampleCloses.length →
        out[i]? = some (F64.add
          (F64.mul (F64.div (F64.ofInt 2) (F64.ofInt ((F64.ofInt 5).toInt + 1)))
            (exampleCloses.getD i F64.zero))
          (F64.mul (F64.sub F64.one (F64.div (F64.ofInt 2) (F64.ofInt ((F64.ofInt 5).toInt + 1))))
            (out.getD (i - 1) F64.zero))) :=
  ⟨by decide, by decide, C3_ema_recurrence exampleCloses (F64.ofInt 5) [] (by decide) (by decide)⟩

theorem toInt_nonpos_of_le_zero {p : F64} (h : F64.le p F64.zero = true) : p.toInt ≤ 0 := by
  cases p with
  | nan => simp [F64.le] at h
  | inf s => simp [F64.toInt]
  | fin k =>
    simp only [F64.le, F64.zero, decide_eq_true_eq] at h
    simp only [F64.toInt]
    split_ifs with hr
    · have h0 : 0 ≤ (-k).tdiv ((2 ^ 1074 : Nat) : Int) :=
        Int.tdiv_nonneg (by omega) (Int.ofNat_nonneg _)
      rw [Int.neg_tdiv] at h0
      omega
    · omega

theorem toInt_out_of_range_of_geInt {p : F64} {L : Nat} (h : F64.geInt p ((L : Int) + 1) = true) :
    p.toInt ≤ 0 ∨ (L : Int) < p.toInt := by
  cases p with
  | nan => simp [F64.geInt] at h
  | inf s => left; simp [F64.toInt]
  | fin k =>
    simp only [F64.geInt, decide_eq_true_eq] at h
    simp only [F64.toInt]
    have hd : (0 : Int) < ((2 ^ 1074 : Nat) : Int) := by
      have : 0 < 2 ^ 1074 := pow_pos (by norm_num) _
      exact_mod_cast this
    split_ifs with hr
    · right
      have hk : 0 ≤ k := le_trans (mul_nonneg (by omega) (le_of_lt hd)) h
      rw [Int.tdiv_eq_ediv hk (le_of_lt hd)]
      have := Int.le_ediv_of_mul_le hd h
      omega
    · left; omega

theorem isRuntimeError_period (f : Function) (hf : f ∈ periodFunctions) (x : List F64) (p : F64)
    (md : List MarketData) (h : p.toInt ≤ 0 ∨ (x.length : Int) < p.toInt) :
    isRuntimeError (f [NewArrayValue x, NewSingleValue p] md) = true := by
  have hg : (p.toInt ≤ 0 ∨ p.toInt > (x.length : Int)) := h
  simp only [periodFunctions, List.mem_cons, List.mem_singleton, List.not_mem_nil, or_false] at hf
  rcases hf with rfl | rfl | rfl | rfl | rfl | rfl | rfl | rfl | rfl | rfl | rfl | rfl | rfl <;>
    simp only [fnMA, fnSMA, fnEMA, fnSUM, fnSTD, fnVAR, fnWMA, fnAVEDEV, fnCOUNT, fnEVERY, fnEXIST,
      fnHHV, fnLLV, NewArrayValue, NewSingleValue, hg, Bool.not_true, Bool.false_eq_true,
      if_false, if_true, isRuntimeError]

theorem isRuntimeError_period_series (f : Function) (hf : f ∈ periodFunctions) (x q : List F64)
    (md : List MarketData) :
    isRuntimeError (f [NewArrayValue x, NewArrayValue q] md) = true := by
  simp only [periodFunctions, List.mem_cons, List.mem_singleton, List.not_mem_nil, or_false] at hf
  rcases hf with rfl | rfl | rfl | rfl | rfl | rfl | rfl | rfl | rfl | rfl | rfl | rfl | rfl <;>
    simp only [fnMA, fnSMA, fnEMA, fnSUM, fnSTD, fnVAR, fnWMA, fnAVEDEV, fnCOUNT, fnEVERY, fnEXIST,
      fnHHV, fnLLV, NewArrayValue, Bool.not_true, Bool.false_eq_true,
      if_false, if_true, isRuntimeError]

/-- C4 (as amended).  For every windowed built-in that takes a period (MA, SMA, EMA, SUM, STD,
VAR, WMA, AVEDEV, COUNT, EVERY, EXIST, HHV, LLV), every series `x` of length `L` and every
scalar `p`: the call fails with a RuntimeError whenever `int(p)`, the period truncated toward
zero, is `<= 0` or exceeds `L`, hence whenever `p <= 0` or `p >= L + 1`; and it fails with a
RuntimeError whenever the period argument is a series. -/
theorem C4_period_guard (f : Function) (hf : f ∈ periodFunctions) (x q : List F64) (p : F64)
    (md : List MarketData) :
    ((p.toInt ≤ 0 ∨ (x.length : Int) < p.toInt) →
      isRuntimeError (f [NewArrayValue x, NewSingleValue p] md) = true) ∧
    ((F64.le p F64.zero = true ∨ F64.geInt p ((x.length : Int) + 1) = true) →
      isRuntimeError (f [NewArrayValue x, NewSingleValue p] md) = true) ∧
    isRuntimeError (f [NewArrayValue x, NewArrayValue q] md) = true := by
  refine ⟨isRuntimeError_period f hf x p md, fun h => ?_, isRuntimeError_period_series f hf x q md⟩
  apply isRuntimeError_period f hf x p md
  rcases h with h | h
  · exact Or.inl (toInt_nonpos_of_le_zero h)
  · exact toInt_out_of_range_of_geInt h

/-- Witness of C4: `EVERY` on a series of two points with the periods 3, 0 and a series. -/
theorem C4_period_guard_witness :
    fnEVERY ∈ periodFunctions ∧
    F64.geInt (F64.ofInt 3) ((([F64.ofInt 1, F64.ofInt 2] : List F64).length : Int) + 1) = true ∧
    isRuntimeError (fnEVERY [NewArrayValue [F64.ofInt 1, F64.ofInt 2],
      NewSingleValue (F64.ofInt 3)] []) = true ∧
    isRuntimeError (fnEVERY [NewArrayValue [F64.ofInt 1, F64.ofInt 2],
      NewArrayValue [F64.ofInt 1]] []) = true :=
  have hf : fnEVERY ∈ periodFunctions := by simp [periodFunctions]
  have hge : F64.geInt (F64.ofInt 3)
      ((([F64.ofInt 1, F64.ofInt 2] : List F64).length : Int) + 1) = true := by decide
  have h := C4_period_guard fnEVERY hf [F64.ofInt 1, F64.ofInt 2] [F64.ofInt 1] (F64.ofInt 3) []
  ⟨hf, hge, h.2.1 (Or.inr hge), h.2.2⟩

/-- C4 as stated fails for a period that is not an integer: 1.5 exceeds the length 1 of the
series, yet `MA` truncates it to 1 and succeeds. -/
theorem C4_counterexample :
    F64.gt (F64.ofRatio false 3 2) (F64.ofInt (([F64.ofInt 7] : List F64).length : Int)) = true ∧
    fnMA [NewArrayValue [F64.ofInt 7], NewSingleValue (F64.ofRatio false 3 2)] [] =
      .ok (NewArrayValue [F64.ofInt 7]) :=
  ⟨by decide, by rfl⟩

theorem list_eq_of_getElem? {out l : List F64} (hl : out.length = l.length)
    (h : ∀ i : Nat, i < l.length → out[i]? = l[i]?) : out = l := by
  apply List.ext_getElem? 
  intro i
  by_cases hi : i < l.length
  · exact h i hi
  · rw [List.getElem?_eq_none (by omega), List.getElem?_eq_none (by omega)]

/-- A loop over a whole fresh slice that stores one computed value per index returns the
list of these values. -/
theorem forLoop_fill_all (body : Int → List F64 → Res (List F64)) (c : Nat → F64) (L : Nat)
    (hbody : ∀ (i : Nat) (r : List F64), i < L → r.length = L → body i r = store r i (c i)) :
    ∃ out, forLoop 0 (L : Int) body (makeSlice L) = .ok out ∧ out.length = L ∧
      ∀ i : Nat, i < L → out[i]? = some (c i) := by
  obtain ⟨out, e1, e2, e3⟩ := forLoop_fill body c 0 L (makeSlice L) (Nat.zero_le _)
    (by rw [makeSlice_length]) (fun i r _ hi hr => hbody i r hi (by rw [hr, makeSlice_length]))
  rw [makeSlice_length] at e2
  have e1' : forLoop 0 (L : Int) body (makeSlice L) = .ok out := by
    have := e1
    simp only [Nat.cast_zero] at this
    exact this
  exact ⟨out, e1', e2, fun i hi => by rw [e3 i, if_pos ⟨Nat.zero_le _, hi⟩]⟩

/-- A loop that stores one value per index fails with the error of the first index whose
value fails, when every failure is the same error `e`. -/
theorem forLoop_fail {σ : Type} (body : Int → σ → Res σ) (P : σ → Prop) (e : FormulaError)
    (bad : Int → Prop) :
    ∀ (k : Nat) (lo : Int) (s0 : σ), P s0 →
      (∀ i s, lo ≤ i → i < lo + k → P s → ¬ bad i → ∃ s1, body i s = .ok s1 ∧ P s1) →
      (∀ i s, lo ≤ i → i < lo + k → P s → bad i → body i s = .error e) →
      (∃ i, lo ≤ i ∧ i < lo + k ∧ bad i) →
      forLoopAux body k lo s0 = .error e := by
  intro k
  induction k with
  | zero =>
    intro lo s0 _ _ _ ⟨i, h1, h2, _⟩
    simp at h2; omega
  | succ k ih =>
    intro lo s0 h0 hgood hbad ⟨i, h1, h2, h3⟩
    by_cases hb : bad lo
    · simp only [forLoopAux, hbad lo s0 (le_refl _) (by push_cast; omega) h0 hb]
    · obtain ⟨s1, hs1, hP1⟩ := hgood lo s0 (le_refl _) (by push_cast; omega) h0 hb
      simp only [forLoopAux, hs1]
      have hne : i ≠ lo := fun h => hb (h ▸ h3)
      exact ih (lo + 1) s1 hP1
        (fun j s a b c d => hgood j s (by omega) (by push_cast; omega) c d)
        (fun j s a b c d => hbad j s (by omega) (by push_cast; omega) c d)
        ⟨i, by omega, by push_cast at h2; omega, h3⟩

theorem error_bind {α β : Type} (e : FormulaError) (f : α → Res β) :
    ((Except.error e : Res α) >>= f) = .error e := rfl

/-- The element-wise loop of the array operations: when the element operation succeeds at
every index, the result holds its values. -/
theorem elementwise_ok (f : Nat → Res Value) (c : Nat → F64) (L : Nat)
    (body : Int → List F64 → Res (List F64))
    (hbody : ∀ (i : Nat) (r : List F64), i < L → body i r = (f i >>= fun val => store r i val.Single))
    (hf : ∀ i : Nat, i < L → ∃ v, f i = .ok v ∧ v.Single = c i) :
    ∃ out, (do let result ← forLoop 0 (L : Int) body (makeSlice L)
               pure (NewArrayValue result) : Res Value) = .ok (NewArrayValue out) ∧
      out.length = L ∧ ∀ i : Nat, i < L → out[i]? = some (c i) := by
  obtain ⟨out, e1, e2, e3⟩ := forLoop_fill_all body c L (fun i r hi _ => by
    obtain ⟨v, hv, hc⟩ := hf i hi
    rw [hbody i r hi, hv, ok_bind, hc])
  exact ⟨out, by rw [e1, ok_bind]; rfl, e2, e3⟩

/-- The element-wise loop of the array operations fails with `e` when the element operation
fails with `e` at some index and succeeds or fails with `e` at every other. -/
theorem elementwise_fail (f : Nat → Res Value) (e : FormulaError) (L : Nat)
    (body : Int → List F64 → Res (List F64))
    (hbody : ∀ (i : Nat) (r : List F64), i < L → body i r = (f i >>= fun val => store r i val.Single))
    (hf : ∀ i : Nat, i < L → (∃ v, f i = .ok v) ∨ f i = .error e)
    (hbad : ∃ i : Nat, i < L ∧ f i = .error e) :
    (do let result ← forLoop 0 (L : Int) body (makeSlice L)
        pure (NewArrayValue result) : Res Value) = .error e := by
  have key : forLoop 0 (L : Int) body (makeSlice L) = .error e := by
    have hk : (L : Int) = 0 + ((L : Nat) : Int) := by omega
    rw [forLoop_eq 0 (L : Int) body _ L hk]
    refine forLoop_fail body (fun r => r.length = L) e
      (fun i => ∃ m : Nat, i = m ∧ m < L ∧ f m = .error e) L 0 (makeSlice L)
      (makeSlice_length L) ?_ ?_ ?_
    · intro i r hi1 hi2 hr hnb
      obtain ⟨m, rfl⟩ := Int.eq_ofNat_of_zero_le hi1
      have hm : m < L := by omega
      rcases hf m hm with ⟨v, hv⟩ | hv
      · rw [hbody m r hm, hv, ok_bind, store_ok _ (by omega) (by omega)]
        exact ⟨_, rfl, by simp [hr]⟩
      · exact absurd ⟨m, rfl, hm, hv⟩ hnb
    · rintro i r hi1 hi2 hr ⟨m, rfl, hm, hv⟩
      rw [hbody m r hm, hv, error_bind]
    · obtain ⟨m, hm, hv⟩ := hbad
      exact ⟨m, by omega, by omega, m, rfl, hm, hv⟩
  rw [key, error_bind]

theorem binaryOpArrayArray_body (op : BinaryOperator) (a b : List F64) (i : Nat)
    (r : List F64) (ha : i < a.length) (hb : i < b.length) :
    (do let x ← index a (i : Int)
        let y ← index b (i : Int)
        let val ← binaryOpScalarScalar op x y
        store r (i : Int) val.Single) =
    (binaryOpScalarScalar op (a.getD i F64.zero) (b.getD i F64.zero) >>= fun val =>
      store r (i : Int) val.Single) := by
  show (index a (i : Int) >>= fun x => index b (i : Int) >>= fun y => _) = _
  rw [index_nat ha, ok_bind, index_nat hb, ok_bind]

theorem binaryOpArrayScalar_body (op : BinaryOperator) (a : List F64) (c : F64) (i : Nat)
    (r : List F64) (ha : i < a.length) :
    (do let v ← index a (i : Int)
        let val ← binaryOpScalarScalar op v c
        store r (i : Int) val.Single) =
    (binaryOpScalarScalar op (a.getD i F64.zero) c >>= fun val =>
      store r (i : Int) val.Single) := by
  show (index a (i : Int) >>= fun x => _) = _
  rw [index_nat ha, ok_bind]

theorem binaryOpScalarArray_body (op : BinaryOperator) (c : F64) (a : List F64) (i : Nat)
    (r : List F64) (ha : i < a.length) :
    (do let v ← index a (i : Int)
        let val ← binaryOpScalarScalar op c v
        store r (i : Int) val.Single) =
    (binaryOpScalarScalar op c (a.getD i F64.zero) >>= fun val =>
      store r (i : Int) val.Single) := by
  show (index a (i : Int) >>= fun x => _) = _
  rw [index_nat ha, ok_bind]

/-- Series with series, element by element, when every element operation succeeds. -/
theorem binaryOpArrayArray_ok (op : BinaryOperator) (a b : List F64) (c : Nat → F64)
    (hlen : a.length = b.length)
    (hf : ∀ i : Nat, i < a.length → ∃ v,
      binaryOpScalarScalar op (a.getD i F64.zero) (b.getD i F64.zero) = .ok v ∧ v.Single = c i) :
    ∃ out, binaryOpArrayArray op a b = .ok (NewArrayValue out) ∧ out.length = a.length ∧
      ∀ i : Nat, i < a.length → out[i]? = some (c i) := by
  simp only [binaryOpArrayArray, hlen, ne_eq, not_true_eq_false, if_false]
  rw [← hlen]
  exact elementwise_ok _ c a.length _
    (fun i r hi => binaryOpArrayArray_body op a b i r hi (by omega)) hf

/-- Series with scalar, element by element, when every element operation succeeds. -/
theorem binaryOpArrayScalar_ok (op : BinaryOperator) (a : List F64) (s : F64) (c : Nat → F64)
    (hf : ∀ i : Nat, i < a.length → ∃ v,
      binaryOpScalarScalar op (a.getD i F64.zero) s = .ok v ∧ v.Single = c i) :
    ∃ out, binaryOpArrayScalar op a s = .ok (NewArrayValue out) ∧ out.length = a.length ∧
      ∀ i : Nat, i < a.length → out[i]? = some (c i) :=
  elementwise_ok _ c a.length _ (fun i r hi => binaryOpArrayScalar_body op a s i r hi) hf

/-- Scalar with series, element by element, when every element operation succeeds. -/
theorem binaryOpScalarArray_ok (op : BinaryOperator) (s : F64) (a : List F64) (c : Nat → F64)
    (hf : ∀ i : Nat, i < a.length → ∃ v,
      binaryOpScalarScalar op s (a.getD i F64.zero) = .ok v ∧ v.Single = c i) :
    ∃ out, binaryOpScalarArray op s a = .ok (NewArrayValue out) ∧ out.length = a.length ∧
      ∀ i : Nat, i < a.length → out[i]? = some (c i) :=
  elementwise_ok _ c a.length _ (fun i r hi => binaryOpScalarArray_body op s a i r hi) hf

theorem scalar_value_exists (r : Res Value) (h : ∃ v, r = .ok v) :
    ∃ v, r = .ok v ∧ v.Single = singleOf r := by
  obtain ⟨v, rfl⟩ := h
  exact ⟨v, rfl, rfl⟩

/-- C7. Broadcasting: for every binary operator `op`, series `s` and scalar `c`, when no
element operation fails, `s op c` is a series of the length of `s` whose element `i` is
`s[i] op c`, and `c op s` is a series of that length whose element `i` is `c op s[i]`, the
scalar staying the left operand; `[3] - 1` is `[2]` and `1 - [3]` is `[-2]`. -/
theorem C7_broadcast (op : BinaryOperator) (s : List F64) (c : F64) :
    ((∀ i : Nat, i < s.length → ∃ v, binaryOpScalarScalar op (s.getD i F64.zero) c = .ok v) →
      ∃ out, binaryOp op (NewArrayValue s) (NewSingleValue c) = .ok (NewArrayValue out) ∧
        out.length = s.length ∧
        ∀ i : Nat, i < s.length → ∃ v,
          binaryOpScalarScalar op (s.getD i F64.zero) c = .ok v ∧ out[i]? = some v.Single) ∧
    ((∀ i : Nat, i < s.length → ∃ v, binaryOpScalarScalar op c (s.getD i F64.zero) = .ok v) →
      ∃ out, binaryOp op (NewSingleValue c) (NewArrayValue s) = .ok (NewArrayValue out) ∧
        out.length = s.length ∧
        ∀ i : Nat, i < s.length → ∃ v,
          binaryOpScalarScalar op c (s.getD i F64.zero) = .ok v ∧ out[i]? = some v.Single) ∧
    binaryOp .OpMinus (NewArrayValue [F64.ofInt 3]) (NewSingleValue (F64.ofInt 1)) =
      .ok (NewArrayValue [F64.ofInt 2]) ∧
    binaryOp .OpMinus (NewSingleValue (F64.ofInt 1)) (NewArrayValue [F64.ofInt 3]) =
      .ok (NewArrayValue [F64.ofInt (-2)]) := by
  refine ⟨fun hok => ?_, fun hok => ?_, by rfl, by rfl⟩
  · obtain ⟨out, e1, e2, e3⟩ := binaryOpArrayScalar_ok op s c
      (fun i => singleOf (binaryOpScalarScalar op (s.getD i F64.zero) c))
      (fun i hi => scalar_value_exists _ (hok i hi))
    refine ⟨out, ?_, e2, fun i hi => ?_⟩
    · simpa [binaryOp, NewArrayValue, NewSingleValue] using e1
    · obtain ⟨v, hv⟩ := hok i hi
      refine ⟨v, hv, ?_⟩
      rw [e3 i hi, hv]; rfl
  · obtain ⟨out, e1, e2, e3⟩ := binaryOpScalarArray_ok op c s
      (fun i => singleOf (binaryOpScalarScalar op c (s.getD i F64.zero)))
      (fun i hi => scalar_value_exists _ (hok i hi))
    refine ⟨out, ?_, e2, fun i hi => ?_⟩
    · simpa [binaryOp, NewArrayValue, NewSingleValue] using e1
    · obtain ⟨v, hv⟩ := hok i hi
      refine ⟨v, hv, ?_⟩
      rw [e3 i hi, hv]; rfl

/-- Witness of C7: adding the scalar 1 to the closes of the test bars, on either side. -/
theorem C7_broadcast_witness :
    (∃ out, binaryOp .OpPlus (NewArrayValue exampleCloses) (NewSingleValue F64.one) =
        .ok (NewArrayValue out) ∧ out.length = exampleCloses.length ∧
      ∀ i : Nat, i < exampleCloses.length → ∃ v,
        binaryOpScalarScalar .OpPlus (exampleCloses.getD i F64.zero) F64.one = .ok v ∧
        out[i]? = some v.Single) ∧
    (∃ out, binaryOp .OpPlus (NewSingleValue F64.one) (NewArrayValue exampleCloses) =
        .ok (NewArrayValue out) ∧ out.length = exampleCloses.length ∧
      ∀ i : Nat, i < exampleCloses.length → ∃ v,
        binaryOpScalarScalar .OpPlus F64.one (exampleCloses.getD i F64.zero) = .ok v ∧
        out[i]? = some v.Single) :=
  ⟨(C7_broadcast .OpPlus exampleCloses F64.one).1 (fun _ _ => ⟨_, rfl⟩),
   (C7_broadcast .OpPlus exampleCloses F64.one).2.1 (fun _ _ => ⟨_, rfl⟩)⟩

/-- C8. Two series of different lengths: every binary operator fails with a RuntimeError
(no truncated or padded result), and so do MAX, MIN and CROSS; IF with a series condition
fails with a RuntimeError when a series branch has another length than the condition. -/
theorem C8_shape_mismatch (a b : List F64) (md : List MarketData) (h : a.length ≠ b.length) :
    (∀ op : BinaryOperator,
      binaryOp op (NewArrayValue a) (NewArrayValue b) = .error (.runtime "array length mismatch")) ∧
    fnMAX [NewArrayValue a, NewArrayValue b] md = .error (.runtime "MAX: array length mismatch") ∧
    fnMIN [NewArrayValue a, NewArrayValue b] md = .error (.runtime "MIN: array length mismatch") ∧
    fnCROSS [NewArrayValue a, NewArrayValue b] md =
      .error (.runtime "CROSS: array length mismatch") ∧
    (∀ t : List F64, fnIF [NewArrayValue a, NewArrayValue b, NewArrayValue t] md =
      .error (.runtime "IF: array length mismatch")) ∧
    (∀ t : List F64, fnIF [NewArrayValue a, NewArrayValue t, NewArrayValue b] md =
      .error (.runtime "IF: array length mismatch")) := by
  refine ⟨fun op => ?_, ?_, ?_, ?_, fun t => ?_, fun t => ?_⟩
  · simp [binaryOp, binaryOpArrayArray, NewArrayValue, h]
  · simp [fnMAX, NewArrayValue, h]
  · simp [fnMIN, NewArrayValue, h]
  · simp [fnCROSS, NewArrayValue, h]
  · simp [fnIF, NewArrayValue, h]
  · simp [fnIF, NewArrayValue, h]

/-- Witness of C8 on series of lengths 1 and 2. -/
theorem C8_shape_mismatch_witness :
    ([F64.one] : List F64).length ≠ ([F64.one, F64.zero] : List F64).length ∧
    binaryOp .OpPlus (NewArrayValue [F64.one]) (NewArrayValue [F64.one, F64.zero]) =
      .error (.runtime "array length mismatch") ∧
    fnCROSS [NewArrayValue [F64.one], NewArrayValue [F64.one, F64.zero]] [] =
      .error (.runtime "CROSS: array length mismatch") :=
  have h := C8_shape_mismatch [F64.one] [F64.one, F64.zero] [] (by decide)
  ⟨by decide, h.1 .OpPlus, h.2.2.2.1⟩

/-- C9 (the code breaks it).  BETWEEN never compares the lengths of its series arguments:
called through the registry with a bound shorter than the value series it panics on an index
out of range instead of returning a RuntimeError, and a longer bound is silently truncated to
the value's length. -/
theorem C9_between_lengths_unchecked :
    NewFunctionRegistry.Call "BETWEEN" [NewArrayValue [F64.ofInt 1, F64.ofInt 2],
      NewArrayValue [F64.ofInt 0], NewSingleValue (F64.ofInt 5)] [] =
      .error (.goPanic "index out of range") ∧
    NewFunctionRegistry.Call "BETWEEN" [NewArrayValue [F64.ofInt 1],
      NewArrayValue [F64.ofInt 0, F64.ofInt 9], NewSingleValue (F64.ofInt 5)] [] =
      .ok (NewArrayValue [F64.one]) :=
  ⟨by rfl, by rfl⟩

/-- An operator that never fails, applied to two columns of the bars. -/
theorem binaryOpArrayArray_columns (op : BinaryOperator) (f : F64 → F64 → F64)
    (hop : ∀ x y, binaryOpScalarScalar op x y = .ok (NewSingleValue (f x y)))
    (md : List MarketData) (g h : MarketData → F64) :
    binaryOpArrayArray op (md.map g) (md.map h) =
      .ok (NewArrayValue (md.map (fun d => f (g d) (h d)))) := by
  obtain ⟨out, e1, e2, e3⟩ := binaryOpArrayArray_ok op (md.map g) (md.map h)
    (fun i => f ((md.map g).getD i F64.zero) ((md.map h).getD i F64.zero)) (by simp)
    (fun i _ => ⟨_, hop _ _, rfl⟩)
  rw [e1]
  congr 2
  apply list_eq_of_getElem? (by simpa using e2)
  intro i hi
  have hi' : i < md.length := by simpa using hi
  rw [e3 i (by simpa using hi')]
  simp [List.getD_eq_getElem?_getD, List.getElem?_map, List.getElem?_eq_getElem hi']

theorem compile_diff :
    Compile "DIFF := HIGH - LOW" = .ok { Body := [.VariableDeclaration "DIFF"
      (.BinaryExpression (.Identifier "HIGH") .OpMinus (.Identifier "LOW"))] } := by rfl

theorem compile_signal :
    Compile "SIGNAL := CLOSE > OPEN" = .ok { Body := [.VariableDeclaration "SIGNAL"
      (.BinaryExpression (.Identifier "CLOSE") .OpGreaterThan (.Identifier "OPEN"))] } := by rfl

theorem userVars_init (md : List MarketData) :
    ((NewInterpreter md).initMarketDataVariables).userVars = [] := by
  unfold Interpreter.initMarketDataVariables
  split_ifs <;> rfl

/-- Running a single declaration `name := left op right` of two built-in columns. -/
theorem run_declaration_columns (name l r : String) (op : BinaryOperator)
    (f : F64 → F64 → F64) (g h : MarketData → F64) (md : List MarketData)
    (hop : ∀ x y, binaryOpScalarScalar op x y = .ok (NewSingleValue (f x y)))
    (hl : ((NewInterpreter md).initMarketDataVariables).vars.lookup l =
      some (NewArrayValue (md.map g)))
    (hr : ((NewInterpreter md).initMarketDataVariables).vars.lookup r =
      some (NewArrayValue (md.map h))) :
    Execute { Body := [.VariableDeclaration name
      (.BinaryExpression (.Identifier l) op (.Identifier r))] } md =
    .ok { Outputs := [{ Name := name, Data := md.map (fun d => f (g d) (h d)), Style := none }],
          Variables := [] } := by
  have hb := binaryOpArrayArray_columns op f hop md g h
  simp only [Execute, Interpreter.Execute, Interpreter.executeStatements,
    Interpreter.executeStatement, Interpreter.executeVariableDeclaration,
    Interpreter.evaluateExpression, Interpreter.evaluateIdentifier, hl, hr, binaryOp,
    NewArrayValue, and_self, if_true] at hb ⊢
  rw [hb]
  simp [Interpreter.buildResult, Interpreter.setVariable, List.lookup, NewFormulaResult,
    FormulaResult.AddOutput, userVars_init]

theorem lookup_columns (md : List MarketData) (h : md ≠ []) :
    ((NewInterpreter md).initMarketDataVariables).vars.lookup "HIGH" =
      some (NewArrayValue (md.map (fun d => d.High))) ∧
    ((NewInterpreter md).initMarketDataVariables).vars.lookup "LOW" =
      some (NewArrayValue (md.map (fun d => d.Low))) ∧
    ((NewInterpreter md).initMarketDataVariables).vars.lookup "CLOSE" =
      some (NewArrayValue (md.map (fun d => d.Close))) ∧
    ((NewInterpreter md).initMarketDataVariables).vars.lookup "OPEN" =
      some (NewArrayValue (md.map (fun d => d.Open))) := by
  have hl : ¬ (md.length = 0) := by
    intro h0; exact h (List.length_eq_zero.mp h0)
  simp only [Interpreter.initMarketDataVariables, NewInterpreter, hl, if_false,
    Interpreter.setVariable]
  refine ⟨?_, ?_, ?_, ?_⟩ <;> rfl

/-- C5 (as amended).  For every non-empty bar sequence, running `DIFF := HIGH - LOW` through
the whole pipeline succeeds and returns exactly one output line, named DIFF, with one entry
per bar, `output[i] = bars[i].high - bars[i].low`, and no scalar variable. -/
theorem C5_diff_high_low (md : List MarketData) (h : md ≠ []) :
    Run "DIFF := HIGH - LOW" md =
      .ok { Outputs := [{ Name := "DIFF", Data := md.map (fun d => F64.sub d.High d.Low),
                          Style := none }],
            Variables := [] } := by
  obtain ⟨hh, hl, _, _⟩ := lookup_columns md h
  simp only [Run, compile_diff]
  exact run_declaration_columns "DIFF" "HIGH" "LOW" .OpMinus F64.sub _ _ md (fun _ _ => rfl) hh hl

/-- Witness of C5 on the ten bars of the engine's tests. -/
theorem C5_diff_high_low_witness :
    exampleBars ≠ [] ∧
    Run "DIFF := HIGH - LOW" exampleBars =
      .ok { Outputs := [{ Name := "DIFF",
                          Data := exampleBars.map (fun d => F64.sub d.High d.Low),
                          Style := none }],
            Variables := [] } :=
  ⟨by simp [exampleBars], C5_diff_high_low exampleBars (by simp [exampleBars])⟩

/-- C5 as stated fails on the empty bar sequence: no built-in series is seeded, and the run
fails with an undefined-variable error. -/
theorem C5_counterexample :
    Run "DIFF := HIGH - LOW" [] = .error (.runtime "undefined variable: HIGH") := by rfl

theorem boolValue_cases (b : Bool) : boolValue b = F64.one ∨ boolValue b = F64.zero := by
  cases b
  · right; rfl
  · left; rfl

/-- A comparison or logical operator never fails on scalars and yields 1 or 0. -/
theorem comparison_scalar (op : BinaryOperator)
    (hop : op ∈ [BinaryOperator.OpGreaterThan, .OpLessThan, .OpGreaterThanOrEqual,
      .OpLessThanOrEqual, .OpEqual, .OpNotEqual, .OpAnd, .OpOr]) :
    ∃ t : F64 → F64 → Bool, ∀ a b,
      binaryOpScalarScalar op a b = .ok (NewSingleValue (boolValue (t a b))) := by
  simp only [List.mem_cons, List.mem_singleton, List.not_mem_nil, or_false] at hop
  rcases hop with rfl | rfl | rfl | rfl | rfl | rfl | rfl | rfl
  · exact ⟨fun a b => F64.gt a b, fun _ _ => rfl⟩
  · exact ⟨fun a b => F64.lt a b, fun _ _ => rfl⟩
  · exact ⟨fun a b => F64.ge a b, fun _ _ => rfl⟩
  · exact ⟨fun a b => F64.le a b, fun _ _ => rfl⟩
  · exact ⟨fun a b => F64.lt (F64.abs (F64.sub a b)) tolerance, fun _ _ => rfl⟩
  · exact ⟨fun a b => F64.ge (F64.abs (F64.sub a b)) tolerance, fun _ _ => rfl⟩
  · exact ⟨fun a b => F64.ne a F64.zero && F64.ne b F64.zero, fun _ _ => rfl⟩
  · exact ⟨fun a b => F64.ne a F64.zero || F64.ne b F64.zero, fun _ _ => rfl⟩

theorem elements_zero_one (out : List F64) (c : Nat → F64)
    (hc : ∀ i, c i = F64.one ∨ c i = F64.zero)
    (h : ∀ i : Nat, i < out.length → out[i]? = some (c i)) :
    ∀ e ∈ out, e = F64.one ∨ e = F64.zero := by
  intro e he
  obtain ⟨n, hn⟩ := List.mem_iff_getElem?.mp he
  have hlt : n < out.length := by
    by_contra hge
    rw [List.getElem?_eq_none (by omega)] at hn
    exact absurd hn (by simp)
  rw [h n hlt] at hn
  have := hc n
  simp only [Option.some.injEq] at hn
  rw [← hn]; exact this

theorem value_of_ok_eq {out : List F64} {v : Value}
    (h : (Except.ok (NewArrayValue out) : Res Value) = .ok v) :
    v.IsArray = true ∧ v.Array = out := by
  injection h with h
  subst h
  exact ⟨rfl, rfl⟩

/-- C6. For every non-empty bar sequence, running `SIGNAL := CLOSE > OPEN` returns one output
line named SIGNAL whose entry `i` is 1 when `bars[i].close > bars[i].open` and 0 otherwise;
and whatever a comparison (`> < >= <= == !=`) or a logical operator (AND, OR) produces, for
scalar or series operands, every element of it is exactly 1 or 0, neither of which is NaN. -/
theorem C6_comparison_zero_one :
    (∀ md : List MarketData, md ≠ [] →
      Run "SIGNAL := CLOSE > OPEN" md =
        .ok { Outputs := [{ Name := "SIGNAL",
                            Data := md.map (fun d => if F64.gt d.Close d.Open then F64.one
                                                     else F64.zero),
                            Style := none }],
              Variables := [] }) ∧
    (∀ (op : BinaryOperator) (l r v : Value),
      op ∈ [BinaryOperator.OpGreaterThan, .OpLessThan, .OpGreaterThanOrEqual,
            .OpLessThanOrEqual, .OpEqual, .OpNotEqual, .OpAnd, .OpOr] →
      binaryOp op l r = .ok v →
      (v.IsArray = false → v.Single = F64.one ∨ v.Single = F64.zero) ∧
      (v.IsArray = true → ∀ e ∈ v.Array, e = F64.one ∨ e = F64.zero)) ∧
    F64.one.isNaN = false ∧ F64.zero.isNaN = false := by
  refine ⟨fun md h => ?_, fun op l r v hop hv => ?_, by decide, by decide⟩
  · obtain ⟨_, _, hc, ho⟩ := lookup_columns md h
    simp only [Run, compile_signal]
    exact run_declaration_columns "SIGNAL" "CLOSE" "OPEN" .OpGreaterThan
      (fun x y => boolValue (F64.gt x y)) _ _ md (fun _ _ => rfl) hc ho
  · obtain ⟨t, ht⟩ := comparison_scalar op hop
    unfold binaryOp at hv
    by_cases hl : l.IsArray = true <;> by_cases hr : r.IsArray = true
    · simp only [hl, hr, and_self, if_true] at hv
      by_cases hlen : l.Array.length = r.Array.length
      · obtain ⟨out, e1, e2, e3⟩ := binaryOpArrayArray_ok op l.Array r.Array
          (fun i => boolValue (t (l.Array.getD i F64.zero) (r.Array.getD i F64.zero))) hlen
          (fun i _ => ⟨_, ht _ _, rfl⟩)
        rw [e1] at hv
        obtain ⟨h1, h2⟩ := value_of_ok_eq hv
        refine ⟨fun hf => by rw [h1] at hf; exact absurd hf (by simp), fun _ => ?_⟩
        rw [h2]
        exact elements_zero_one out _ (fun i => boolValue_cases _) (fun i hi => e3 i (by omega))
      · simp [binaryOpArrayArray, hlen] at hv
    · simp only [hl, hr, and_false, if_false, if_true] at hv
      obtain ⟨out, e1, e2, e3⟩ := binaryOpArrayScalar_ok op l.Array r.Single
        (fun i => boolValue (t (l.Array.getD i F64.zero) r.Single))
        (fun i _ => ⟨_, ht _ _, rfl⟩)
      rw [e1] at hv
      obtain ⟨h1, h2⟩ := value_of_ok_eq hv
      refine ⟨fun hf => by rw [h1] at hf; exact absurd hf (by simp), fun _ => ?_⟩
      rw [h2]
      exact elements_zero_one out _ (fun i => boolValue_cases _) (fun i hi => e3 i (by omega))
    · simp only [hl, hr, false_and, if_false, if_true] at hv
      obtain ⟨out, e1, e2, e3⟩ := binaryOpScalarArray_ok op l.Single r.Array
        (fun i => boolValue (t l.Single (r.Array.getD i F64.zero)))
        (fun i _ => ⟨_, ht _ _, rfl⟩)
      rw [e1] at hv
      obtain ⟨h1, h2⟩ := value_of_ok_eq hv
      refine ⟨fun hf => by rw [h1] at hf; exact absurd hf (by simp), fun _ => ?_⟩
      rw [h2]
      exact elements_zero_one out _ (fun i => boolValue_cases _) (fun i hi => e3 i (by omega))
    · simp only [hl, hr, and_self, if_false] at hv
      rw [ht] at hv
      injection hv with hv
      subst hv
      exact ⟨fun _ => boolValue_cases _, fun hf => by simp [NewSingleValue] at hf⟩

/-- Witness of C6 on the ten bars of the engine's tests, and on `NaN > 1`. -/
theorem C6_comparison_zero_one_witness :
    exampleBars ≠ [] ∧
    Run "SIGNAL := CLOSE > OPEN" exampleBars =
      .ok { Outputs := [{ Name := "SIGNAL",
                          Data := exampleBars.map (fun d => if F64.gt d.Close d.Open then F64.one
                                                            else F64.zero),
                          Style := none }],
            Variables := [] } ∧
    ((NewSingleValue F64.zero).IsArray = false →
      (NewSingleValue F64.zero).Single = F64.one ∨ (NewSingleValue F64.zero).Single = F64.zero) :=
  ⟨by simp [exampleBars], C6_comparison_zero_one.1 exampleBars (by simp [exampleBars]),
   (C6_comparison_zero_one.2.1 .OpGreaterThan (NewSingleValue F64.nan) (NewSingleValue F64.one)
      (NewSingleValue F64.zero) (by simp) (by rfl)).1⟩

theorem divide_scalar (x y : F64) :
    (∃ v, binaryOpScalarScalar .OpDivide x y = .ok v) ∨
      binaryOpScalarScalar .OpDivide x y = .error (.runtime "division by zero") := by
  unfold binaryOpScalarScalar
  by_cases h : F64.eq y F64.zero = true
  · right; simp [h]
  · left; simp [h]

theorem divide_by_zero (x : F64) :
    binaryOpScalarScalar .OpDivide x F64.zero = .error (.runtime "division by zero") := by rfl

theorem compile_one_over_zero :
    Compile "X := 1 / 0" = .ok { Body := [.VariableDeclaration "X"
      (.BinaryExpression (.NumberLiteral (F64.ofInt 1)) .OpDivide
        (.NumberLiteral F64.zero))] } := by rfl

/-- C10. Division by exact zero is a RuntimeError at every shape: `X := 1 / 0` compiles, and
its run fails with the RuntimeError "division by zero" on every bar sequence; a division of
two series, of a series by a scalar, or of a scalar by a series in which the divisor is zero
at some index fails as a whole with a RuntimeError, with no partial series. -/
theorem C10_division_by_zero :
    isOk (Compile "X := 1 / 0") = true ∧
    (∀ md : List MarketData, Run "X := 1 / 0" md = .error (.runtime "division by zero")) ∧
    (∀ a b : List F64, (∃ k : Nat, k < b.length ∧ b.getD k F64.zero = F64.zero) →
      isRuntimeError (binaryOp .OpDivide (NewArrayValue a) (NewArrayValue b)) = true) ∧
    (∀ a b : List F64, a.length = b.length →
      (∃ k : Nat, k < b.length ∧ b.getD k F64.zero = F64.zero) →
      binaryOp .OpDivide (NewArrayValue a) (NewArrayValue b) =
        .error (.runtime "division by zero")) ∧
    (∀ a : List F64, a ≠ [] →
      binaryOp .OpDivide (NewArrayValue a) (NewSingleValue F64.zero) =
        .error (.runtime "division by zero")) ∧
    (∀ (c : F64) (b : List F64), (∃ k : Nat, k < b.length ∧ b.getD k F64.zero = F64.zero) →
      binaryOp .OpDivide (NewSingleValue c) (NewArrayValue b) =
        .error (.runtime "division by zero")) := by
  have hAA : ∀ a b : List F64, a.length = b.length →
      (∃ k : Nat, k < b.length ∧ b.getD k F64.zero = F64.zero) →
      binaryOp .OpDivide (NewArrayValue a) (NewArrayValue b) =
        .error (.runtime "division by zero") := by
    rintro a b hlen ⟨k, hk, hz⟩
    simp only [binaryOp, NewArrayValue, and_self, if_true, binaryOpArrayArray, hlen, ne_eq,
      not_true_eq_false, if_false]
    rw [← hlen]
    exact elementwise_fail _ _ a.length _
      (fun i r hi => binaryOpArrayArray_body .OpDivide a b i r hi (by omega))
      (fun i _ => divide_scalar _ _)
      ⟨k, by omega, by rw [hz]; exact divide_by_zero _⟩
  refine ⟨by rfl, fun md => ?_, fun a b hz => ?_, hAA, fun a ha => ?_, fun c b hz => ?_⟩
  · simp only [Run, compile_one_over_zero]
    rfl
  · by_cases hlen : a.length = b.length
    · rw [hAA a b hlen hz]; rfl
    · simp [binaryOp, binaryOpArrayArray, NewArrayValue, hlen, isRuntimeError]
  · simp only [binaryOp, NewArrayValue, NewSingleValue, Bool.false_eq_true, and_false,
      if_false, if_true, binaryOpArrayScalar]
    exact elementwise_fail _ _ a.length _
      (fun i r hi => binaryOpArrayScalar_body .OpDivide a F64.zero i r hi)
      (fun i _ => divide_scalar _ _)
      ⟨0, List.length_pos.mpr ha, divide_by_zero _⟩
  · obtain ⟨k, hk, hz⟩ := hz
    simp only [binaryOp, NewArrayValue, NewSingleValue, Bool.false_eq_true, false_and,
      if_false, if_true, binaryOpScalarArray]
    exact elementwise_fail _ _ b.length _
      (fun i r hi => binaryOpScalarArray_body .OpDivide c b i r hi)
      (fun i _ => divide_scalar _ _)
      ⟨k, hk, by rw [hz]; exact divide_by_zero _⟩

/-- Witness of C10: the closes of the test bars divided by a series that is zero at its last
index, by the scalar zero, and the scalar 1 divided by such a series. -/
theorem C10_division_by_zero_witness :
    (∃ k : Nat, k < (List.replicate 9 F64.one ++ [F64.zero]).length ∧
      (List.replicate 9 F64.one ++ [F64.zero]).getD k F64.zero = F64.zero) ∧
    exampleCloses ≠ [] ∧
    isRuntimeError (binaryOp .OpDivide (NewArrayValue exampleCloses)
      (NewArrayValue (List.replicate 9 F64.one ++ [F64.zero]))) = true ∧
    binaryOp .OpDivide (NewArrayValue exampleCloses) (NewSingleValue F64.zero) =
      .error (.runtime "division by zero") ∧
    binaryOp .OpDivide (NewSingleValue F64.one)
      (NewArrayValue (List.replicate 9 F64.one ++ [F64.zero])) =
      .error (.runtime "division by zero") :=
  have hz : ∃ k : Nat, k < (List.replicate 9 F64.one ++ [F64.zero]).length ∧
      (List.replicate 9 F64.one ++ [F64.zero]).getD k F64.zero = F64.zero :=
    ⟨9, by decide, by rfl⟩
  have hne : exampleCloses ≠ [] := by simp [exampleCloses]
  ⟨hz, hne, C10_division_by_zero.2.2.1 exampleCloses _ hz,
   C10_division_by_zero.2.2.2.2.1 exampleCloses hne,
   C10_division_by_zero.2.2.2.2.2 F64.one _ hz⟩

/-! ### Runs of the interpreter -/

theorem executeStatement_binding (interp : Interpreter) (stmt : Statement) :
    interp.executeStatement stmt =
      match stmt.binding with
      | none => .error (.runtime "unknown statement type: *ast.Program")
      | some (name, e, recorded) =>
        match interp.evaluateExpression e with
        | .error err => .error err
        | .ok v => .ok { interp.setVariable name v with
            userVars := if recorded then interp.userVars ++ [name] else interp.userVars } := by
  cases stmt with
  | Program body => rfl
  | VariableDeclaration name value =>
    simp only [Interpreter.executeStatement, Interpreter.executeVariableDeclaration,
      Statement.binding]
    cases interp.evaluateExpression value <;> rfl
  | OutputDeclaration name value style =>
    simp only [Interpreter.executeStatement, Interpreter.executeOutputDeclaration,
      Statement.binding]
    cases interp.evaluateExpression value <;> rfl
  | ExpressionStatement expr =>
    simp only [Interpreter.executeStatement, Statement.binding]
    cases interp.evaluateExpression expr with
    | error err => rfl
    | ok v => cases expr <;> rfl

/-- A statement that executes binds a name to the value of its expression. -/
theorem executeStatement_ok (interp interp1 : Interpreter) (stmt : Statement)
    (h : interp.executeStatement stmt = .ok interp1) :
    ∃ name e recorded v, stmt.binding = some (name, e, recorded) ∧
      interp.evaluateExpression e = .ok v ∧
      interp1 = { interp.setVariable name v with
        userVars := if recorded then interp.userVars ++ [name] else interp.userVars } := by
  rw [executeStatement_binding] at h
  cases hb : stmt.binding with
  | none => rw [hb] at h; cases h
  | some b =>
    obtain ⟨name, e, recorded⟩ := b
    rw [hb] at h
    simp only at h
    cases hv : interp.evaluateExpression e with
    | error err => rw [hv] at h; cases h
    | ok v =>
      rw [hv] at h
      simp only [Except.ok.injEq] at h
      exact ⟨name, e, recorded, v, rfl, hv, h.symm⟩

theorem bindings_cons (interp interp1 : Interpreter) (stmt : Statement) (rest : List Statement)
    (name : String) (e : Expression) (recorded : Bool) (v : Value)
    (hb : stmt.binding = some (name, e, recorded)) (hv : interp.evaluateExpression e = .ok v)
    (h : interp.executeStatement stmt = .ok interp1) :
    interp.bindings (stmt :: rest) = (name, v, recorded) :: interp1.bindings rest := by
  simp only [Interpreter.bindings, hb, h, hv]

/-- The state a successful run of statements leaves: the bindings in front of the variables,
the recorded names behind `userVars`. -/
theorem executeStatements_bindings (stmts : List Statement) :
    ∀ interp interp1 : Interpreter, interp.executeStatements stmts = (interp1, none) →
      interp1.vars = ((interp.bindings stmts).reverse.map (fun b => (b.1, b.2.1))) ++ interp.vars ∧
      interp1.userVars =
        interp.userVars ++ ((interp.bindings stmts).filter (fun b => b.2.2)).map (fun b => b.1) ∧
      (interp.bindings stmts).map (fun b => some b.1) =
        stmts.map (fun s => s.binding.map (fun b => b.1)) ∧
      interp1.marketData = interp.marketData ∧ interp1.functions = interp.functions := by
  induction stmts with
  | nil =>
    intro interp interp1 h
    simp only [Interpreter.executeStatements, Prod.mk.injEq, and_true] at h
    subst h
    simp [Interpreter.bindings]
  | cons stmt rest ih =>
    intro interp interp1 h
    simp only [Interpreter.executeStatements] at h
    cases hs : interp.executeStatement stmt with
    | error err => rw [hs] at h; simp at h
    | ok interp2 =>
      rw [hs] at h
      simp only at h
      obtain ⟨name, e, recorded, v, hb, hv, h2⟩ := executeStatement_ok interp interp2 stmt hs
      obtain ⟨i1, i2, i3, i4, i5⟩ := ih interp2 interp1 h
      rw [bindings_cons interp interp2 stmt rest name e recorded v hb hv hs]
      have hvars : interp2.vars = (name, v) :: interp.vars := by rw [h2]; rfl
      have huv : interp2.userVars =
          if recorded then interp.userVars ++ [name] else interp.userVars := by rw [h2]
      have hmd : interp2.marketData = interp.marketData := by rw [h2]; rfl
      have hfn : interp2.functions = interp.functions := by rw [h2]; rfl
      refine ⟨?_, ?_, ?_, ?_, ?_⟩
      · rw [i1, hvars]; simp
      · rw [i2, huv]
        cases recorded <;> simp
      · simp [i3, hb]
      · rw [i4, hmd]
      · rw [i5, hfn]

/-- A run that fails leaves an error, never a result. -/
theorem executeStatements_cases (interp : Interpreter) (stmts : List Statement) :
    (∃ interp1, interp.executeStatements stmts = (interp1, none)) ∨
    (∃ interp1 err, interp.executeStatements stmts = (interp1, some err)) := by
  rcases h : interp.executeStatements stmts with ⟨interp1, _ | err⟩
  · exact Or.inl ⟨interp1, rfl⟩
  · exact Or.inr ⟨interp1, err, rfl⟩

theorem lookup_append_of_mem {β : Type} (l1 l2 : List (String × β)) (n : String) (v : β)
    (hnd : (l1.map Prod.fst).Nodup) (hm : (n, v) ∈ l1) : (l1 ++ l2).lookup n = some v := by
  induction l1 with
  | nil => cases hm
  | cons a rest ih =>
    obtain ⟨k, w⟩ := a
    simp only [List.map_cons, List.nodup_cons] at hnd
    rcases List.mem_cons.mp hm with h | h
    · simp only [Prod.mk.injEq] at h
      obtain ⟨rfl, rfl⟩ := h
      simp [List.lookup]
    · have hne : n ≠ k := by
        intro he
        apply hnd.1
        rw [← he]
        exact List.mem_map.mpr ⟨(n, v), h, rfl⟩
      have hbeq : (n == k) = false := by simpa using hne
      simp only [List.cons_append, List.lookup, hbeq]
      exact ih hnd.2 h

/-- The fold of `buildResult` over names that are all bound. -/
theorem buildResult_fold (vars : List (String × Value)) (entries : List (String × Value × Bool))
    (h : ∀ b ∈ entries, vars.lookup b.1 = some b.2.1) :
    ∀ acc : FormulaResult,
      (entries.map (fun b => b.1)).foldlM (fun (result : FormulaResult) name =>
        match vars.lookup name with
        | none => (.error (.goPanic "nil pointer dereference") : Res FormulaResult)
        | some value =>
          if value.IsArray then .ok (result.AddOutput name value.Array none)
          else .ok (result.SetVariable name value.Single)) acc =
      .ok { Outputs := acc.Outputs ++ (entries.filter (fun b => b.2.1.IsArray)).map lineOf,
            Variables := ((entries.filter (fun b => !b.2.1.IsArray)).map
              (fun b => (b.1, b.2.1.Single))).reverse ++ acc.Variables } := by
  induction entries with
  | nil => intro acc; simp [List.foldlM, pure, Except.pure]
  | cons b rest ih =>
    intro acc
    have hb := h b (List.mem_cons_self _ _)
    have hrest : ∀ c ∈ rest, vars.lookup c.1 = some c.2.1 :=
      fun c hc => h c (List.mem_cons_of_mem _ hc)
    simp only [List.map_cons, List.foldlM, hb]
    by_cases ha : b.2.1.IsArray = true
    · simp only [ha, if_true]
      show (Except.ok _ >>= _) = _
      simp only [bind, Except.bind]
      rw [ih hrest]
      simp [FormulaResult.AddOutput, List.filter, ha, lineOf]
    · have ha' : b.2.1.IsArray = false := by simpa using ha
      simp only [ha', Bool.false_eq_true, if_false]
      show (Except.ok _ >>= _) = _
      simp only [bind, Except.bind]
      rw [ih hrest]
      simp [FormulaResult.SetVariable, List.filter, ha']

theorem lookup_eq_none_of_not_mem {β : Type} (l : List (String × β)) (n : String)
    (h : n ∉ l.map Prod.fst) : l.lookup n = none := by
  induction l with
  | nil => rfl
  | cons a rest ih =>
    obtain ⟨k, w⟩ := a
    simp only [List.map_cons, List.mem_cons, not_or] at h
    have hbeq : (n == k) = false := by simpa using h.1
    simp only [List.lookup, hbeq]
    exact ih h.2

theorem lookup_isSome_of_mem {β : Type} (l : List (String × β)) (n : String)
    (h : n ∈ l.map Prod.fst) : ∃ v, l.lookup n = some v := by
  induction l with
  | nil => simp at h
  | cons a rest ih =>
    obtain ⟨k, w⟩ := a
    by_cases hk : n = k
    · subst hk
      exact ⟨w, by simp [List.lookup]⟩
    · have hbeq : (n == k) = false := by simpa using hk
      simp only [List.lookup, hbeq]
      apply ih
      simp only [List.map_cons, List.mem_cons] at h
      rcases h with h | h
      · exact absurd h hk
      · exact h

/-! ### Closed evaluations -/

theorem isOkWith_sound {α : Type} [DecidableEq α] (r : Res α) (x : α)
    (h : isOkWith r x = true) : r = .ok x := by
  cases r with
  | error e => simp [isOkWith] at h
  | ok y =>
    simp only [isOkWith, decide_eq_true_eq] at h
    rw [h]

theorem isErrorWith_sound {α : Type} (r : Res α) (e : FormulaError)
    (h : isErrorWith r e = true) : r = .error e := by
  cases r with
  | ok y => simp [isErrorWith] at h
  | error e1 =>
    simp only [isErrorWith, decide_eq_true_eq] at h
    rw [h]

theorem sameResult_sound {α : Type} [DecidableEq α] (a b : Res α)
    (h : sameResult a b = true) : a = b := by
  cases a with
  | error e =>
    cases b with
    | error f =>
      simp only [sameResult, decide_eq_true_eq] at h
      rw [h]
    | ok y => simp [sameResult] at h
  | ok x =>
    cases b with
    | error f => simp [sameResult] at h
    | ok y =>
      simp only [sameResult, decide_eq_true_eq] at h
      rw [h]

mutual

theorem expression_eq_of_beq : ∀ a b : Expression, a.beq b = true → a = b
  | .BinaryExpression l1 o1 r1, .BinaryExpression l2 o2 r2, h => by
    simp only [Expression.beq, Bool.and_eq_true, decide_eq_true_eq] at h
    rw [expression_eq_of_beq l1 l2 h.1, h.2.1, expression_eq_of_beq r1 r2 h.2.2]
  | .UnaryExpression o1 e1, .UnaryExpression o2 e2, h => by
    simp only [Expression.beq, Bool.and_eq_true, decide_eq_true_eq] at h
    rw [h.1, expression_eq_of_beq e1 e2 h.2]
  | .FunctionCall n1 a1, .FunctionCall n2 a2, h => by
    simp only [Expression.beq, Bool.and_eq_true, decide_eq_true_eq] at h
    rw [h.1, eq_of_beqExpressions a1 a2 h.2]
  | .ConditionalExpression c1 t1 e1, .ConditionalExpression c2 t2 e2, h => by
    simp only [Expression.beq, Bool.and_eq_true] at h
    rw [expression_eq_of_beq c1 c2 h.1, expression_eq_of_beq t1 t2 h.2.1,
      expression_eq_of_beq e1 e2 h.2.2]
  | .Identifier n1, .Identifier n2, h => by
    simp only [Expression.beq, decide_eq_true_eq] at h
    rw [h]
  | .NumberLiteral v1, .NumberLiteral v2, h => by
    simp only [Expression.beq, decide_eq_true_eq] at h
    rw [h]
  | .BinaryExpression _ _ _, .UnaryExpression _ _, h => by simp [Expression.beq] at h
  | .BinaryExpression _ _ _, .FunctionCall _ _, h => by simp [Expression.beq] at h
  | .BinaryExpression _ _ _, .ConditionalExpression _ _ _, h => by simp [Expression.beq] at h
  | .BinaryExpression _ _ _, .Identifier _, h => by simp [Expression.beq] at h
  | .BinaryExpression _ _ _, .NumberLiteral _, h => by simp [Expression.beq] at h
  | .UnaryExpression _ _, .BinaryExpression _ _ _, h => by simp [Expression.beq] at h
  | .UnaryExpression _ _, .FunctionCall _ _, h => by simp [Expression.beq] at h
  | .UnaryExpression _ _, .ConditionalExpression _ _ _, h => by simp [Expression.beq] at h
  | .UnaryExpression _ _, .Identifier _, h => by simp [Expression.beq] at h
  | .UnaryExpression _ _, .NumberLiteral _, h => by simp [Expression.beq] at h
  | .FunctionCall _ _, .BinaryExpression _ _ _, h => by simp [Expression.beq] at h
  | .FunctionCall _ _, .UnaryExpression _ _, h => by simp [Expression.beq] at h
  | .FunctionCall _ _, .ConditionalExpression _ _ _, h => by simp [Expression.beq] at h
  | .FunctionCall _ _, .Identifier _, h => by simp [Expression.beq] at h
  | .FunctionCall _ _, .NumberLiteral _, h => by simp [Expression.beq] at h
  | .ConditionalExpression _ _ _, .BinaryExpression _ _ _, h => by simp [Expression.beq] at h
  | .ConditionalExpression _ _ _, .UnaryExpression _ _, h => by simp [Expression.beq] at h
  | .ConditionalExpression _ _ _, .FunctionCall _ _, h => by simp [Expression.beq] at h
  | .ConditionalExpression _ _ _, .Identifier _, h => by simp [Expression.beq] at h
  | .ConditionalExpression _ _ _, .NumberLiteral _, h => by simp [Expression.beq] at h
  | .Identifier _, .BinaryExpression _ _ _, h => by simp [Expression.beq] at h
  | .Identifier _, .UnaryExpression _ _, h => by simp [Expression.beq] at h
  | .Identifier _, .FunctionCall _ _, h => by simp [Expression.beq] at h
  | .Identifier _, .ConditionalExpression _ _ _, h => by simp [Expression.beq] at h
  | .Identifier _, .NumberLiteral _, h => by simp [Expression.beq] at h
  | .NumberLiteral _, .BinaryExpression _ _ _, h => by simp [Expression.beq] at h
  | .NumberLiteral _, .UnaryExpression _ _, h => by simp [Expression.beq] at h
  | .NumberLiteral _, .FunctionCall _ _, h => by simp [Expression.beq] at h
  | .NumberLiteral _, .ConditionalExpression _ _ _, h => by simp [Expression.beq] at h
  | .NumberLiteral _, .Identifier _, h => by simp [Expression.beq] at h

theorem eq_of_beqExpressions : ∀ as bs : List Expression, beqExpressions as bs = true → as = bs
  | [], [], _ => rfl
  | a :: as, b :: bs, h => by
    simp only [beqExpressions, Bool.and_eq_true] at h
    rw [expression_eq_of_beq a b h.1, eq_of_beqExpressions as bs h.2]
  | [], _ :: _, h => by simp [beqExpressions] at h
  | _ :: _, [], h => by simp [beqExpressions] at h

end

mutual

theorem statement_eq_of_beq : ∀ a b : Statement, a.beq b = true → a = b
  | .Program b1, .Program b2, h => by
    simp only [Statement.beq] at h
    rw [eq_of_beqStatements b1 b2 h]
  | .VariableDeclaration n1 v1, .VariableDeclaration n2 v2, h => by
    simp only [Statement.beq, Bool.and_eq_true, decide_eq_true_eq] at h
    rw [h.1, expression_eq_of_beq v1 v2 h.2]
  | .OutputDeclaration n1 v1 s1, .OutputDeclaration n2 v2 s2, h => by
    simp only [Statement.beq, Bool.and_eq_true, decide_eq_true_eq] at h
    rw [h.1, expression_eq_of_beq v1 v2 h.2.1, h.2.2]
  | .ExpressionStatement e1, .ExpressionStatement e2, h => by
    simp only [Statement.beq] at h
    rw [expression_eq_of_beq e1 e2 h]
  | .Program _, .VariableDeclaration _ _, h => by simp [Statement.beq] at h
  | .Program _, .OutputDeclaration _ _ _, h => by simp [Statement.beq] at h
  | .Program _, .ExpressionStatement _, h => by simp [Statement.beq] at h
  | .VariableDeclaration _ _, .Program _, h => by simp [Statement.beq] at h
  | .VariableDeclaration _ _, .OutputDeclaration _ _ _, h => by simp [Statement.beq] at h
  | .VariableDeclaration _ _, .ExpressionStatement _, h => by simp [Statement.beq] at h
  | .OutputDeclaration _ _ _, .Program _, h => by simp [Statement.beq] at h
  | .OutputDeclaration _ _ _, .VariableDeclaration _ _, h => by simp [Statement.beq] at h
  | .OutputDeclaration _ _ _, .ExpressionStatement _, h => by simp [Statement.beq] at h
  | .ExpressionStatement _, .Program _, h => by simp [Statement.beq] at h
  | .ExpressionStatement _, .VariableDeclaration _ _, h => by simp [Statement.beq] at h
  | .ExpressionStatement _, .OutputDeclaration _ _ _, h => by simp [Statement.beq] at h

theorem eq_of_beqStatements : ∀ as bs : List Statement, beqStatements as bs = true → as = bs
  | [], [], _ => rfl
  | a :: as, b :: bs, h => by
    simp only [beqStatements, Bool.and_eq_true] at h
    rw [statement_eq_of_beq a b h.1, eq_of_beqStatements as bs h.2]
  | [], _ :: _, h => by simp [beqStatements] at h
  | _ :: _, [], h => by simp [beqStatements] at h

end

/-- A closed compilation, checked by evaluation. -/
theorem compilesTo_sound (r : Res Program) (body : List Statement)
    (h : compilesTo r body = true) : r = .ok { Body := body } := by
  cases r with
  | error e => simp [compilesTo] at h
  | ok p =>
    simp only [compilesTo] at h
    rw [← eq_of_beqStatements p.Body body h]

theorem execute_eq (program : Program) (md : List MarketData) :
    Execute program md =
      match (startState md).executeStatements program.Body with
      | (_, some e) => .error e
      | (interp1, none) => interp1.buildResult := by
  simp only [Execute, Interpreter.Execute, startState]
  rcases (NewInterpreter md).initMarketDataVariables.executeStatements program.Body with
    ⟨interp1, _ | err⟩ <;> rfl

/-- A successful run: every statement was executed, and the result is built from the recorded
bindings, provided no name is bound twice. -/
theorem run_result (program : Program) (md : List MarketData) (result : FormulaResult)
    (hrun : Execute program md = .ok result)
    (hnd : (((startState md).bindings program.Body).map (fun b => b.1)).Nodup) :
    result.Outputs =
      (((startState md).bindings program.Body).filter
        (fun b => b.2.2 && b.2.1.IsArray)).map lineOf ∧
    result.Variables =
      ((((startState md).bindings program.Body).filter
        (fun b => b.2.2 && !b.2.1.IsArray)).map (fun b => (b.1, b.2.1.Single))).reverse ∧
    ((startState md).bindings program.Body).map (fun b => some b.1) =
      program.Body.map (fun s => s.binding.map (fun b => b.1)) := by
  rw [execute_eq] at hrun
  rcases executeStatements_cases (startState md) program.Body with ⟨interp1, h⟩ | ⟨interp1, err, h⟩
  · rw [h] at hrun
    simp only at hrun
    obtain ⟨i1, i2, i3, _, _⟩ := executeStatements_bindings program.Body _ _ h
    have huv : interp1.userVars =
        (((startState md).bindings program.Body).filter (fun b => b.2.2)).map (fun b => b.1) := by
      rw [i2]
      simp [startState, userVars_init]
    have hlook : ∀ b ∈ ((startState md).bindings program.Body).filter (fun b => b.2.2),
        interp1.vars.lookup b.1 = some b.2.1 := by
      intro b hb
      rw [i1]
      apply lookup_append_of_mem
      · rw [List.map_map, List.map_reverse]
        exact (List.nodup_reverse.mpr hnd)
      · refine List.mem_map.mpr ⟨b, ?_, rfl⟩
        exact List.mem_reverse.mpr (List.mem_of_mem_filter hb)
    have hf := buildResult_fold interp1.vars _ hlook NewFormulaResult
    rw [← huv] at hf
    have hres : interp1.buildResult = .ok _ := hf
    rw [hres] at hrun
    simp only [Except.ok.injEq] at hrun
    subst hrun
    refine ⟨?_, ?_, i3⟩
    · simp [NewFormulaResult, List.filter_filter, Bool.and_comm]
    · simp [NewFormulaResult, List.filter_filter, Bool.and_comm]
  · rw [h] at hrun
    cases hrun

/-- A successful run executed every statement: the bindings carry the statements' names. -/
theorem run_names (program : Program) (md : List MarketData) (result : FormulaResult)
    (hrun : Execute program md = .ok result) :
    ((startState md).bindings program.Body).map (fun b => b.1) = boundNames program.Body ∧
    ((startState md).bindings program.Body).length = program.Body.length := by
  rw [execute_eq] at hrun
  rcases executeStatements_cases (startState md) program.Body with ⟨interp1, h⟩ | ⟨interp1, err, h⟩
  · obtain ⟨_, _, i3, _, _⟩ := executeStatements_bindings program.Body _ _ h
    constructor
    · have h2 := congrArg (List.filterMap id) i3
      simp only [List.filterMap_map, Function.comp_def, id] at h2
      rw [boundNames, ← h2]
      generalize (startState md).bindings program.Body = l
      induction l with
      | nil => rfl
      | cons b rest ih => simp only [List.map_cons, List.filterMap_cons, ih]
    · have h2 := congrArg List.length i3
      simpa using h2
  · rw [h] at hrun
    cases hrun

theorem boundNames_declarations (decls : List (String × Expression)) :
    boundNames (decls.map (fun d => Statement.VariableDeclaration d.1 d.2)) =
      decls.map Prod.fst := by
  induction decls with
  | nil => rfl
  | cons d rest ih =>
    simp only [boundNames, List.map_cons, List.filterMap_cons, Statement.binding,
      Option.map_some'] at ih ⊢
    rw [ih]

theorem bindings_declarations_recorded (decls : List (String × Expression)) :
    ∀ interp : Interpreter, ∀ b ∈ interp.bindings
      (decls.map (fun d => Statement.VariableDeclaration d.1 d.2)), b.2.2 = true := by
  induction decls with
  | nil => intro interp b hb; simp [Interpreter.bindings] at hb
  | cons d rest ih =>
    intro interp b hb
    simp only [List.map_cons, Interpreter.bindings, Statement.binding] at hb
    cases hs : interp.executeStatement (Statement.VariableDeclaration d.1 d.2) with
    | error err => rw [hs] at hb; simp at hb
    | ok interp1 =>
      rw [hs] at hb
      simp only at hb
      cases hv : interp.evaluateExpression d.2 with
      | error err => rw [hv] at hb; simp at hb
      | ok v =>
        rw [hv] at hb
        rcases List.mem_cons.mp hb with h | h
        · rw [h]
        · exact ih interp1 b h

/-- C11.  For every program made of variable declarations with pairwise distinct names that
executes successfully over the bars `md`, each declaration evaluating to a series, the names of
the result's output lines are exactly the declared names, in source order, whatever the
expressions are (so whatever earlier names they refer to). -/
theorem C11_declaration_order (decls : List (String × Expression)) (md : List MarketData)
    (result : FormulaResult) (hnames : (decls.map Prod.fst).Nodup)
    (hrun : Execute { Body := decls.map (fun d => Statement.VariableDeclaration d.1 d.2) } md =
      .ok result)
    (hseries : ((startState md).bindings
      (decls.map (fun d => Statement.VariableDeclaration d.1 d.2))).all
        (fun b => b.2.1.IsArray) = true) :
    result.Outputs.map (fun l => l.Name) = decls.map Prod.fst := by
  obtain ⟨hn, _⟩ := run_names _ md result hrun
  simp only at hn
  rw [boundNames_declarations] at hn
  obtain ⟨ho, _, _⟩ := run_result _ md result hrun (by simp only; rw [hn]; exact hnames)
  simp only at ho
  rw [ho, ← hn, List.map_map]
  have hall : ∀ b ∈ (startState md).bindings
      (decls.map (fun d => Statement.VariableDeclaration d.1 d.2)),
      (b.2.2 && b.2.1.IsArray) = true := by
    intro b hb
    rw [bindings_declarations_recorded decls _ b hb, List.all_eq_true.mp hseries b hb]
    rfl
  rw [List.filter_eq_self.mpr hall]
  rfl

/-- A witness for C11: `A := CLOSE`, `B := A - OPEN`, `C := B > A` over the ten test bars. -/
theorem C11_declaration_order_witness :
    ∃ result, Execute { Body := [.VariableDeclaration "A" (.Identifier "CLOSE"),
        .VariableDeclaration "B" (.BinaryExpression (.Identifier "A") .OpMinus (.Identifier "OPEN")),
        .VariableDeclaration "C"
          (.BinaryExpression (.Identifier "B") .OpGreaterThan (.Identifier "A"))] }
        exampleBars = .ok result ∧
      result.Outputs.map (fun l => l.Name) = ["A", "B", "C"] :=
  ⟨_, rfl, C11_declaration_order
    [("A", .Identifier "CLOSE"),
     ("B", .BinaryExpression (.Identifier "A") .OpMinus (.Identifier "OPEN")),
     ("C", .BinaryExpression (.Identifier "B") .OpGreaterThan (.Identifier "A"))]
    exampleBars _ (by decide) rfl (by rfl)⟩

/-- In a run without `OutputDeclaration` every binding is recorded. -/
theorem bindings_recorded (stmts : List Statement) :
    ∀ interp : Interpreter, (∀ s ∈ stmts, s.isOutputDeclaration = false) →
      ∀ b ∈ interp.bindings stmts, b.2.2 = true := by
  induction stmts with
  | nil => intro interp _ b hb; simp [Interpreter.bindings] at hb
  | cons stmt rest ih =>
    intro interp hout b hb
    cases hs : interp.executeStatement stmt with
    | error err => simp [Interpreter.bindings, hs] at hb
    | ok interp1 =>
      obtain ⟨name, e, recorded, v, hbind, hv, _⟩ := executeStatement_ok interp interp1 stmt hs
      rw [bindings_cons interp interp1 stmt rest name e recorded v hbind hv hs] at hb
      rcases List.mem_cons.mp hb with h | h
      · rw [h]
        have h1 := hout stmt (List.mem_cons_self _ _)
        cases stmt <;> simp_all [Statement.binding, Statement.isOutputDeclaration]
      · exact ih interp1 (fun s hs1 => hout s (List.mem_cons_of_mem _ hs1)) b h

/-- C12 (as amended).  For every program without an `OutputDeclaration` that binds no name
twice and executes successfully, every statement was executed, the output lines are, in
order, the statements whose expression evaluated to a series, each line with the statement's
name and the series the statement evaluated to, and a statement that evaluated to a scalar
appears in the name-to-scalar map with that scalar and in no output line, while no output line's
name is in the map. -/
theorem C12_outputs_follow_series_statements (program : Program) (md : List MarketData)
    (result : FormulaResult) (hrun : Execute program md = .ok result)
    (hnames : (boundNames program.Body).Nodup)
    (hout : ∀ s ∈ program.Body, s.isOutputDeclaration = false) :
    ((startState md).bindings program.Body).length = program.Body.length ∧
    ((startState md).bindings program.Body).map (fun b => b.1) = boundNames program.Body ∧
    result.Outputs =
      (((startState md).bindings program.Body).filter (fun b => b.2.1.IsArray)).map lineOf ∧
    (∀ b ∈ (startState md).bindings program.Body, b.2.1.IsArray = false →
      result.GetVariable b.1 = some b.2.1.Single ∧ ∀ l ∈ result.Outputs, l.Name ≠ b.1) ∧
    (∀ l ∈ result.Outputs, result.GetVariable l.Name = none) := by
  obtain ⟨hn, hlen⟩ := run_names program md result hrun
  have hnd : (((startState md).bindings program.Body).map (fun b => b.1)).Nodup := by
    rw [hn]; exact hnames
  obtain ⟨ho, hv, _⟩ := run_result program md result hrun hnd
  have hrec := bindings_recorded program.Body (startState md) hout
  have hinj := List.inj_on_of_nodup_map hnd
  have hfa : ((startState md).bindings program.Body).filter (fun b => b.2.2 && b.2.1.IsArray) =
      ((startState md).bindings program.Body).filter (fun b => b.2.1.IsArray) := by
    apply List.filter_congr
    intro b hb
    rw [hrec b hb, Bool.true_and]
  have hfs : ((startState md).bindings program.Body).filter (fun b => b.2.2 && !b.2.1.IsArray) =
      ((startState md).bindings program.Body).filter (fun b => !b.2.1.IsArray) := by
    apply List.filter_congr
    intro b hb
    rw [hrec b hb, Bool.true_and]
  rw [hfa] at ho
  rw [hfs] at hv
  have hline : ∀ l ∈ result.Outputs, ∃ b ∈ (startState md).bindings program.Body,
      b.2.1.IsArray = true ∧ l.Name = b.1 := by
    intro l hl
    rw [ho] at hl
    obtain ⟨b, hb, rfl⟩ := List.mem_map.mp hl
    obtain ⟨hb1, hb2⟩ := List.mem_filter.mp hb
    exact ⟨b, hb1, hb2, rfl⟩
  refine ⟨hlen, hn, ho, ?_, ?_⟩
  · intro b hb hs
    constructor
    · rw [FormulaResult.GetVariable, hv]
      have h1 := lookup_append_of_mem
        ((((startState md).bindings program.Body).filter (fun b => !b.2.1.IsArray)).map
          (fun b => (b.1, b.2.1.Single))).reverse [] b.1 b.2.1.Single ?_ ?_
      · simpa using h1
      · rw [List.map_reverse, List.map_map]
        apply List.nodup_reverse.mpr
        exact (List.Nodup.sublist ((List.filter_sublist _).map _) hnd)
      · apply List.mem_reverse.mpr
        refine List.mem_map.mpr ⟨b, List.mem_filter.mpr ⟨hb, by simp [hs]⟩, rfl⟩
    · intro l hl he
      obtain ⟨b1, hb1, ha, hname⟩ := hline l hl
      have := hinj hb1 hb (hname.symm.trans he)
      rw [this, hs] at ha
      cases ha
  · intro l hl
    obtain ⟨b1, hb1, ha, hname⟩ := hline l hl
    rw [FormulaResult.GetVariable, hv]
    apply lookup_eq_none_of_not_mem
    intro hmem
    rw [List.map_reverse, List.map_map] at hmem
    obtain ⟨b2, hb2, he⟩ := List.mem_map.mp (List.mem_reverse.mp hmem)
    obtain ⟨hb3, hb4⟩ := List.mem_filter.mp hb2
    have := hinj hb3 hb1 (he.trans hname)
    rw [this, ha] at hb4
    cases hb4

/-- A witness for C12: `A := CLOSE`, `N := 2`, `A > N` over the ten test bars. -/
theorem C12_outputs_follow_series_statements_witness :
    ∃ program result, Compile "A := CLOSE\nN := 2\nA > N" = .ok program ∧
      Execute program exampleBars = .ok result ∧
      result.Outputs.map (fun l => l.Name) = ["A", "__expr__"] ∧
      result.Variables = [("N", F64.ofInt 2)] ∧
      result.Outputs = (((startState exampleBars).bindings program.Body).filter
        (fun b => b.2.1.IsArray)).map lineOf :=
  ⟨{ Body := [.VariableDeclaration "A" (.Identifier "CLOSE"),
              .VariableDeclaration "N" (.NumberLiteral (F64.ofInt 2)),
              .ExpressionStatement
                (.BinaryExpression (.Identifier "A") .OpGreaterThan (.Identifier "N"))] },
   { Outputs := [{ Name := "A", Data := exampleBars.map (fun d => d.Close), Style := none },
                 { Name := "__expr__", Data := exampleBars.map (fun _ => F64.one),
                   Style := none }],
     Variables := [("N", F64.ofInt 2)] },
   compilesTo_sound _ _ (by decide!), isOkWith_sound _ _ (by decide!), by decide, rfl,
   (C12_outputs_follow_series_statements _ exampleBars _ (isOkWith_sound _ _ (by decide!))
      (by decide) (by decide)).2.2.1⟩

/-- C12 as stated fails when a name is bound twice: in `A := 1` followed by `A := CLOSE`
only the second statement evaluates to a series, and the result has two output lines, both
named A and both holding the closes. -/
theorem C12_counterexample :
    Compile "A := 1\nA := CLOSE" =
      .ok { Body := [.VariableDeclaration "A" (.NumberLiteral F64.one),
                     .VariableDeclaration "A" (.Identifier "CLOSE")] } ∧
    ((startState exampleBars).bindings
      [.VariableDeclaration "A" (.NumberLiteral F64.one),
       .VariableDeclaration "A" (.Identifier "CLOSE")]).map (fun b => (b.1, b.2.1.IsArray)) =
      [("A", false), ("A", true)] ∧
    Run "A := 1\nA := CLOSE" exampleBars =
      .ok { Outputs := [{ Name := "A", Data := exampleBars.map (fun d => d.Close), Style := none },
                        { Name := "A", Data := exampleBars.map (fun d => d.Close), Style := none }],
            Variables := [] } :=
  ⟨compilesTo_sound _ _ (by decide!), by decide!, isOkWith_sound _ _ (by decide!)⟩

/-- A run of one statement that binds `name` to the value `v` of its expression. -/
theorem run_single (stmt : Statement) (md : List MarketData) (name : String) (e : Expression)
    (recorded : Bool) (v : Value) (hb : stmt.binding = some (name, e, recorded))
    (hv : (startState md).evaluateExpression e = .ok v) :
    Execute { Body := [stmt] } md =
      .ok (if recorded then
            (if v.IsArray then { Outputs := [{ Name := name, Data := v.Array, Style := none }],
                                 Variables := [] }
             else { Outputs := [], Variables := [(name, v.Single)] })
           else NewFormulaResult) := by
  rw [execute_eq]
  simp only [Interpreter.executeStatements, executeStatement_binding, hb, hv]
  cases recorded with
  | false =>
    simp [Interpreter.buildResult, Interpreter.setVariable, startState, userVars_init,
      List.foldlM, pure, Except.pure]
  | true =>
    by_cases ha : v.IsArray = true
    · simp [Interpreter.buildResult, Interpreter.setVariable, startState, userVars_init,
        List.foldlM, List.lookup, ha, NewFormulaResult, FormulaResult.AddOutput, pure,
        Except.pure, bind, Except.bind]
    · simp [Interpreter.buildResult, Interpreter.setVariable, startState, userVars_init,
        List.foldlM, List.lookup, ha, NewFormulaResult, FormulaResult.SetVariable, pure,
        Except.pure, bind, Except.bind]

/-- A run of one statement whose expression fails. -/
theorem run_single_error (stmt : Statement) (md : List MarketData) (name : String)
    (e : Expression) (recorded : Bool) (err : FormulaError)
    (hb : stmt.binding = some (name, e, recorded))
    (hv : (startState md).evaluateExpression e = .error err) :
    Execute { Body := [stmt] } md = .error err := by
  rw [execute_eq]
  simp only [Interpreter.executeStatements, executeStatement_binding, hb, hv]

/-- C13 (what the code does).  `executeOutputDeclaration` binds the name as
`executeVariableDeclaration` does but does not append it to `userVars`, so a program that is one
`OutputDeclaration` returns the empty result whenever it succeeds: over the ten test bars
`OutputDeclaration X = CLOSE` yields no output line, where `VariableDeclaration X = CLOSE`
yields the line X. -/
theorem C13_output_declaration_unrecorded :
    (∀ (interp : Interpreter) (name : String) (e : Expression) (style : Option DrawingStyle)
      (v : Value), interp.evaluateExpression e = .ok v →
      interp.executeStatement (.OutputDeclaration name e style) =
        .ok (interp.setVariable name v) ∧
      interp.executeStatement (.VariableDeclaration name e) =
        .ok { interp.setVariable name v with userVars := interp.userVars ++ [name] }) ∧
    (∀ (md : List MarketData) (name : String) (e : Expression) (style : Option DrawingStyle),
      Execute { Body := [.OutputDeclaration name e style] } md = .ok NewFormulaResult ∨
      ∃ err, Execute { Body := [.OutputDeclaration name e style] } md = .error err) ∧
    Execute { Body := [.OutputDeclaration "X" (.Identifier "CLOSE") none] } exampleBars =
      .ok { Outputs := [], Variables := [] } ∧
    Execute { Body := [.VariableDeclaration "X" (.Identifier "CLOSE")] } exampleBars =
      .ok { Outputs := [{ Name := "X", Data := exampleBars.map (fun d => d.Close),
                          Style := none }],
            Variables := [] } := by
  refine ⟨fun interp name e style v hv => ?_, fun md name e style => ?_,
    isOkWith_sound _ _ (by decide!), isOkWith_sound _ _ (by decide!)⟩
  · simp [Interpreter.executeStatement, Interpreter.executeOutputDeclaration,
      Interpreter.executeVariableDeclaration, hv]
  · cases hv : (startState md).evaluateExpression e with
    | error err => exact Or.inr ⟨err, run_single_error (.OutputDeclaration name e style) md name e false err rfl hv⟩
    | ok v =>
      left
      rw [run_single (.OutputDeclaration name e style) md name e false v rfl hv]
      rfl

theorem compile_close :
    Compile "CLOSE" = .ok { Body := [.ExpressionStatement (.Identifier "CLOSE")] } :=
  compilesTo_sound _ _ (by decide!)

/-- C14.  A bare expression statement whose expression evaluates to `v` binds `v` to the
identifier's own name when the expression is a plain identifier and to `__expr__` otherwise,
and appends that name to `userVars`; a program that is one such statement returns one output
line of that name when `v` is a series and one scalar of that name otherwise.  For every
non-empty bar sequence the formula `CLOSE` compiles to one bare identifier and its run returns
exactly one output line, named CLOSE, whose data are the bars' closes, one per bar. -/
theorem C14_bare_expression (md : List MarketData) (h : md ≠ []) :
    (∀ (interp : Interpreter) (e : Expression) (v : Value),
      interp.evaluateExpression e = .ok v →
      interp.executeStatement (.ExpressionStatement e) =
        .ok { interp.setVariable (exprName e) v with
              userVars := interp.userVars ++ [exprName e] }) ∧
    (∀ n : String, exprName (.Identifier n) = n) ∧
    (∀ e : Expression, (∀ n : String, e ≠ .Identifier n) → exprName e = "__expr__") ∧
    (∀ (e : Expression) (v : Value), (startState md).evaluateExpression e = .ok v →
      v.IsArray = true →
      Execute { Body := [.ExpressionStatement e] } md =
        .ok { Outputs := [{ Name := exprName e, Data := v.Array, Style := none }],
              Variables := [] }) ∧
    (∀ (e : Expression) (v : Value), (startState md).evaluateExpression e = .ok v →
      v.IsArray = false →
      Execute { Body := [.ExpressionStatement e] } md =
        .ok { Outputs := [], Variables := [(exprName e, v.Single)] }) ∧
    Compile "CLOSE" = .ok { Body := [.ExpressionStatement (.Identifier "CLOSE")] } ∧
    Run "CLOSE" md =
      .ok { Outputs := [{ Name := "CLOSE", Data := md.map (fun d => d.Close), Style := none }],
            Variables := [] } ∧
    (md.map (fun d => d.Close)).length = md.length := by
  refine ⟨fun interp e v hv => ?_, fun n => rfl, fun e he => ?_, fun e v hv ha => ?_,
    fun e v hv ha => ?_, compile_close, ?_, by simp⟩
  · have hb := executeStatement_binding interp (.ExpressionStatement e)
    simp only [Statement.binding, hv] at hb
    rw [hb]
    rfl
  · cases e with
    | Identifier n => exact absurd rfl (he n)
    | _ => rfl
  · rw [run_single (.ExpressionStatement e) md (exprName e) e true v rfl hv]
    simp [ha]
  · rw [run_single (.ExpressionStatement e) md (exprName e) e true v rfl hv]
    simp [ha]
  · have hc := (lookup_columns md h).2.2.1
    simp only [Run, compile_close]
    rw [run_single (.ExpressionStatement (.Identifier "CLOSE")) md "CLOSE" (.Identifier "CLOSE") true
      (NewArrayValue (md.map (fun d => d.Close))) rfl
      (by simp only [Interpreter.evaluateExpression, Interpreter.evaluateIdentifier, startState,
            hc])]
    rfl

/-- A witness for C14: the ten test bars. -/
theorem C14_bare_expression_witness :
    exampleBars ≠ [] ∧
    Run "CLOSE" exampleBars =
      .ok { Outputs := [{ Name := "CLOSE", Data := exampleBars.map (fun d => d.Close),
                          Style := none }],
            Variables := [] } :=
  ⟨by simp [exampleBars], (C14_bare_expression exampleBars (by simp [exampleBars])).2.2.2.2.2.2.1⟩

/-! ### Identifiers -/

theorem bindings_names (stmts : List Statement) (interp interp1 : Interpreter)
    (h : interp.executeStatements stmts = (interp1, none)) :
    (interp.bindings stmts).map (fun b => b.1) = boundNames stmts := by
  obtain ⟨_, _, i3, _, _⟩ := executeStatements_bindings stmts _ _ h
  have h2 := congrArg (List.filterMap id) i3
  simp only [List.filterMap_map, Function.comp_def, id] at h2
  rw [boundNames, ← h2]
  generalize interp.bindings stmts = l
  induction l with
  | nil => rfl
  | cons b rest ih => simp only [List.map_cons, List.filterMap_cons, ih]

/-- The names bound after a successful run of statements. -/
theorem vars_keys (stmts : List Statement) (interp interp1 : Interpreter)
    (h : interp.executeStatements stmts = (interp1, none)) :
    interp1.vars.map Prod.fst = (boundNames stmts).reverse ++ interp.vars.map Prod.fst := by
  obtain ⟨i1, _, _, _, _⟩ := executeStatements_bindings stmts _ _ h
  rw [i1, List.map_append, List.map_map, List.map_reverse, ← bindings_names stmts interp interp1 h]
  rfl

/-- The names seeded before the first statement. -/
theorem startState_keys (md : List MarketData) :
    (startState md).vars.map Prod.fst = if md = [] then [] else builtinSeries.reverse := by
  by_cases h : md = []
  · subst h
    rfl
  · have hl : ¬ (md.length = 0) := fun h0 => h (List.length_eq_zero.mp h0)
    simp only [startState, Interpreter.initMarketDataVariables, NewInterpreter, hl, if_false,
      Interpreter.setVariable, h]
    rfl

theorem lookup_some_iff {β : Type} (l : List (String × β)) (n : String) :
    (∃ v, l.lookup n = some v) ↔ n ∈ l.map Prod.fst := by
  constructor
  · rintro ⟨v, hv⟩
    by_contra hn
    rw [lookup_eq_none_of_not_mem l n hn] at hv
    cases hv
  · exact lookup_isSome_of_mem l n

theorem executeStatements_append (s1 s2 : List Statement) :
    ∀ interp interp1 : Interpreter, interp.executeStatements s1 = (interp1, none) →
      interp.executeStatements (s1 ++ s2) = interp1.executeStatements s2 := by
  induction s1 with
  | nil =>
    intro interp interp1 h
    simp only [Interpreter.executeStatements, Prod.mk.injEq, and_true] at h
    rw [h]
    rfl
  | cons stmt rest ih =>
    intro interp interp1 h
    simp only [Interpreter.executeStatements, List.cons_append] at h ⊢
    cases hs : interp.executeStatement stmt with
    | error err => rw [hs] at h; simp at h
    | ok interp2 =>
      rw [hs] at h
      simp only at h ⊢
      exact ih interp2 interp1 h

mutual

/-- An expression that mentions a name that is not bound does not evaluate. -/
theorem evaluateExpression_unbound (interp : Interpreter) (name : String)
    (h : interp.vars.lookup name = none) :
    ∀ e : Expression, name ∈ e.idents → ∃ err, interp.evaluateExpression e = .error err
  | .NumberLiteral _, hm => by simp [Expression.idents] at hm
  | .Identifier n, hm => by
    simp only [Expression.idents, List.mem_singleton] at hm
    subst hm
    refine ⟨.runtime ("undefined variable: " ++ name), ?_⟩
    simp only [Interpreter.evaluateExpression, Interpreter.evaluateIdentifier, h]
  | .BinaryExpression l op r, hm => by
    simp only [Expression.idents, List.mem_append] at hm
    simp only [Interpreter.evaluateExpression]
    cases hl : interp.evaluateExpression l with
    | error err => exact ⟨err, rfl⟩
    | ok lv =>
      rcases hm with hm | hm
      · obtain ⟨err, he⟩ := evaluateExpression_unbound interp name h l hm
        rw [he] at hl
        cases hl
      · obtain ⟨err, he⟩ := evaluateExpression_unbound interp name h r hm
        exact ⟨err, by simp only [he]⟩
  | .UnaryExpression op e, hm => by
    simp only [Expression.idents] at hm
    obtain ⟨err, he⟩ := evaluateExpression_unbound interp name h e hm
    exact ⟨err, by simp only [Interpreter.evaluateExpression, he]⟩
  | .FunctionCall fname args, hm => by
    simp only [Expression.idents] at hm
    obtain ⟨err, he⟩ := evaluateArguments_unbound interp name h args hm
    exact ⟨err, by simp only [Interpreter.evaluateExpression, he]⟩
  | .ConditionalExpression _ _ _, _ =>
    ⟨.runtime "unknown expression type: *ast.ConditionalExpression", by
      simp only [Interpreter.evaluateExpression]⟩

/-- See `evaluateExpression_unbound`. -/
theorem evaluateArguments_unbound (interp : Interpreter) (name : String)
    (h : interp.vars.lookup name = none) :
    ∀ args : List Expression, name ∈ identsOfList args →
      ∃ err, interp.evaluateArguments args = .error err
  | [], hm => by simp [identsOfList] at hm
  | a :: rest, hm => by
    simp only [identsOfList, List.mem_append] at hm
    simp only [Interpreter.evaluateArguments]
    cases ha : interp.evaluateExpression a with
    | error err => exact ⟨err, rfl⟩
    | ok v =>
      rcases hm with hm | hm
      · obtain ⟨err, he⟩ := evaluateExpression_unbound interp name h a hm
        rw [he] at ha
        cases ha
      · obtain ⟨err, he⟩ := evaluateArguments_unbound interp name h rest hm
        exact ⟨err, by simp only [he]⟩

end

/-- Whether a name is bound after the statements `stmts` ran over the bars `md`. -/
theorem lookup_after_run (md : List MarketData) (stmts : List Statement) (interp : Interpreter)
    (name : String) (hrun : (startState md).executeStatements stmts = (interp, none)) :
    (∃ v, interp.vars.lookup name = some v) ↔
      (md ≠ [] ∧ name ∈ builtinSeries) ∨ name ∈ boundNames stmts := by
  rw [lookup_some_iff, vars_keys stmts _ _ hrun, startState_keys, List.mem_append,
    List.mem_reverse]
  by_cases h : md = []
  · simp [h]
  · simp only [h, if_false, List.mem_reverse, ne_eq, not_false_eq_true, true_and]
    exact Or.comm

/-- A statement that fails ends the run with its error. -/
theorem run_fails_at (md : List MarketData) (stmts rest : List Statement) (stmt : Statement)
    (interp : Interpreter) (err : FormulaError)
    (hrun : (startState md).executeStatements stmts = (interp, none))
    (hs : interp.executeStatement stmt = .error err) :
    Execute { Body := stmts ++ stmt :: rest } md = .error err := by
  rw [execute_eq]
  simp only [executeStatements_append stmts (stmt :: rest) _ _ hrun,
    Interpreter.executeStatements, hs]

/-- C15.  After the statements `stmts` ran successfully over the bars `md`, the identifier
`name` evaluates to a value if and only if the bars are not empty and `name` is exactly one of
OPEN, CLOSE, HIGH, LOW, VOLUME, AMOUNT, or one of the statements bound exactly that name.
Otherwise its evaluation is the RuntimeError "undefined variable: name", a next statement that
is this identifier ends the run with that error, and a next statement whose expression
mentions the name anywhere ends the run with an error.  So `A := B` before `B := CLOSE` fails,
`close` is not CLOSE, and over no bars `X := CLOSE + 1` fails. -/
theorem C15_identifier_lookup (md : List MarketData) (stmts : List Statement)
    (interp : Interpreter) (name : String)
    (hrun : (startState md).executeStatements stmts = (interp, none)) :
    ((∃ v, interp.evaluateExpression (.Identifier name) = .ok v) ↔
      (md ≠ [] ∧ name ∈ builtinSeries) ∨ name ∈ boundNames stmts) ∧
    (¬ ((md ≠ [] ∧ name ∈ builtinSeries) ∨ name ∈ boundNames stmts) →
      interp.evaluateExpression (.Identifier name) =
        .error (.runtime ("undefined variable: " ++ name)) ∧
      (∀ (stmt : Statement) (rest : List Statement) (n : String) (r : Bool),
        stmt.binding = some (n, .Identifier name, r) →
        Execute { Body := stmts ++ stmt :: rest } md =
          .error (.runtime ("undefined variable: " ++ name))) ∧
      (∀ (stmt : Statement) (rest : List Statement) (n : String) (e : Expression) (r : Bool),
        stmt.binding = some (n, e, r) → name ∈ e.idents →
        ∃ err, Execute { Body := stmts ++ stmt :: rest } md = .error err)) ∧
    Run "A := B\nB := CLOSE" exampleBars = .error (.runtime "undefined variable: B") ∧
    Run "X := close" exampleBars = .error (.runtime "undefined variable: close") ∧
    Run "X := CLOSE + 1" [] = .error (.runtime "undefined variable: CLOSE") := by
  have hiff := lookup_after_run md stmts interp name hrun
  have hev1 : interp.vars.lookup name = none → interp.evaluateExpression (.Identifier name) =
      .error (.runtime ("undefined variable: " ++ name)) := by
    intro h
    simp only [Interpreter.evaluateExpression, Interpreter.evaluateIdentifier, h]
  have hev2 : ∀ v, interp.vars.lookup name = some v →
      interp.evaluateExpression (.Identifier name) = .ok v := by
    intro v h
    simp only [Interpreter.evaluateExpression, Interpreter.evaluateIdentifier, h]
  refine ⟨?_, fun hnot => ?_, isErrorWith_sound _ _ (by decide!),
    isErrorWith_sound _ _ (by decide!), isErrorWith_sound _ _ (by decide!)⟩
  · rw [← hiff]
    cases hl : interp.vars.lookup name with
    | none => simp [hev1 hl]
    | some v => simp [hev2 v hl]
  · have hnone : interp.vars.lookup name = none := by
      cases hl : interp.vars.lookup name with
      | none => rfl
      | some v => exact absurd (hiff.mp ⟨v, hl⟩) hnot
    have herr : interp.evaluateExpression (.Identifier name) =
        .error (.runtime ("undefined variable: " ++ name)) := hev1 hnone
    refine ⟨herr, fun stmt rest n r hb => ?_, fun stmt rest n e r hb hm => ?_⟩
    · apply run_fails_at md stmts rest stmt interp _ hrun
      rw [executeStatement_binding, hb]
      simp only [herr]
    · obtain ⟨err, he⟩ := evaluateExpression_unbound interp name hnone e hm
      refine ⟨err, run_fails_at md stmts rest stmt interp _ hrun ?_⟩
      rw [executeStatement_binding, hb]
      simp only [he]

/-- A witness for C15: the identifier `A` after `A := CLOSE` ran over the ten test bars. -/
theorem C15_identifier_lookup_witness :
    ((∃ v, ((startState exampleBars).executeStatements
        [.VariableDeclaration "A" (.Identifier "CLOSE")]).1.evaluateExpression
          (.Identifier "A") = .ok v) ↔
      (exampleBars ≠ [] ∧ "A" ∈ builtinSeries) ∨
        "A" ∈ boundNames [.VariableDeclaration "A" (.Identifier "CLOSE")]) :=
  (C15_identifier_lookup exampleBars [.VariableDeclaration "A" (.Identifier "CLOSE")]
    ((startState exampleBars).executeStatements
      [.VariableDeclaration "A" (.Identifier "CLOSE")]).1 "A" (by rfl)).1

/-! ### Function calls -/

/-- The arguments of a call evaluate, in order, to the values `vs`. -/
theorem evaluateArguments_ok (interp : Interpreter) :
    ∀ (args : List Expression) (vs : List Value),
      List.Forall₂ (fun a v => interp.evaluateExpression a = .ok v) args vs →
      interp.evaluateArguments args = .ok vs := by
  intro args vs h
  induction h with
  | nil => simp only [Interpreter.evaluateArguments]
  | cons ha _ ih => simp only [Interpreter.evaluateArguments, ha, ih]

/-- The first argument that fails ends the evaluation of the arguments with its error. -/
theorem evaluateArguments_error (interp : Interpreter) (a : Expression) (post : List Expression)
    (err : FormulaError) (ha : interp.evaluateExpression a = .error err) :
    ∀ pre : List Expression, (∀ p ∈ pre, ∃ v, interp.evaluateExpression p = .ok v) →
      interp.evaluateArguments (pre ++ a :: post) = .error err := by
  intro pre
  induction pre with
  | nil => intro _; simp only [List.nil_append, Interpreter.evaluateArguments, ha]
  | cons p rest ih =>
    intro h
    obtain ⟨v, hv⟩ := h p (List.mem_cons_self _ _)
    have hrest := ih (fun q hq => h q (List.mem_cons_of_mem _ hq))
    simp only [List.cons_append, Interpreter.evaluateArguments, hv]
    rw [show rest.append (a :: post) = rest ++ a :: post from rfl, hrest]

theorem registeredNames_eq :
    registeredNames =
      ["BETWEEN", "FILTER", "AVEDEV", "BARSLAST", "EXIST", "EVERY", "COUNT", "WMA", "SMA",
       "VAR", "STD", "CROSS", "IF", "LLV", "HHV", "REF", "SQRT", "ABS", "MIN", "MAX", "SUM",
       "EMA", "MA"] := by decide

/-- Dispatch looks at the upper-cased name only. -/
theorem call_registered (r : FunctionRegistry) (name name2 : String) (vs : List Value)
    (md : List MarketData) (hcase : goToUpper name = goToUpper name2)
    (hreg : goToUpper name ∈ r.functions.map Prod.fst) :
    r.Call name vs md = r.Call name2 vs md := by
  obtain ⟨fn, hfn⟩ := lookup_isSome_of_mem _ _ hreg
  have h2 : r.functions.lookup (goToUpper name2) = some fn := by rw [← hcase]; exact hfn
  simp only [FunctionRegistry.Call, hfn, h2]

theorem call_unregistered (r : FunctionRegistry) (name : String) (vs : List Value)
    (md : List MarketData) (hreg : goToUpper name ∉ r.functions.map Prod.fst) :
    r.Call name vs md = .error (.runtime ("undefined function: " ++ name)) := by
  simp only [FunctionRegistry.Call, lookup_eq_none_of_not_mem _ _ hreg]

/-- C16 (as amended).  A call evaluates its arguments in order and only then dispatches: when
the arguments evaluate to `vs` the call is `Call name vs`, and when an argument fails after
all the arguments before it evaluated, the call fails with that argument's error.  Dispatch
looks up the upper-cased name: two spellings with the same upper-cased, registered name give
the same result on the same arguments, and a name whose upper-cased form is not registered
fails with the RuntimeError "undefined function: " followed by the name as written. -/
theorem C16_function_call (interp : Interpreter) (name name2 : String) (args : List Expression)
    (hcase : goToUpper name = goToUpper name2) :
    (∀ vs : List Value,
      List.Forall₂ (fun a v => interp.evaluateExpression a = .ok v) args vs →
      interp.evaluateExpression (.FunctionCall name args) =
        interp.functions.Call name vs interp.marketData) ∧
    (∀ (pre : List Expression) (a : Expression) (post : List Expression) (err : FormulaError),
      args = pre ++ a :: post → (∀ p ∈ pre, ∃ v, interp.evaluateExpression p = .ok v) →
      interp.evaluateExpression a = .error err →
      interp.evaluateExpression (.FunctionCall name args) = .error err) ∧
    (goToUpper name ∈ registeredNames →
      ∀ (vs : List Value) (md : List MarketData),
        NewFunctionRegistry.Call name vs md = NewFunctionRegistry.Call name2 vs md) ∧
    (goToUpper name ∉ registeredNames →
      ∀ (vs : List Value) (md : List MarketData),
        NewFunctionRegistry.Call name vs md =
          .error (.runtime ("undefined function: " ++ name)) ∧
        NewFunctionRegistry.Call name2 vs md =
          .error (.runtime ("undefined function: " ++ name2))) ∧
    (NewInterpreter interp.marketData).functions = NewFunctionRegistry ∧
    registeredNames =
      ["BETWEEN", "FILTER", "AVEDEV", "BARSLAST", "EXIST", "EVERY", "COUNT", "WMA", "SMA",
       "VAR", "STD", "CROSS", "IF", "LLV", "HHV", "REF", "SQRT", "ABS", "MIN", "MAX", "SUM",
       "EMA", "MA"] := by
  refine ⟨fun vs h => ?_, fun pre a post err hargs hpre ha => ?_, fun hreg vs md => ?_,
    fun hreg vs md => ⟨?_, ?_⟩, rfl, registeredNames_eq⟩
  · simp only [Interpreter.evaluateExpression, evaluateArguments_ok interp args vs h]
  · subst hargs
    simp only [Interpreter.evaluateExpression,
      evaluateArguments_error interp a post err ha pre hpre]
  · exact call_registered _ name name2 vs md hcase hreg
  · exact call_unregistered _ name vs md hreg
  · exact call_unregistered _ name2 vs md (by rw [← hcase]; exact hreg)

/-- A witness for C16: `ma(CLOSE, 5)` and `MA(CLOSE, 5)` over the ten test bars. -/
theorem C16_function_call_witness :
    goToUpper "ma" = goToUpper "MA" ∧ goToUpper "ma" ∈ registeredNames ∧
    (∀ (vs : List Value) (md : List MarketData),
      NewFunctionRegistry.Call "ma" vs md = NewFunctionRegistry.Call "MA" vs md) ∧
    Run "X := ma(CLOSE, 5)" exampleBars = Run "X := MA(CLOSE, 5)" exampleBars ∧
    isOk (Run "X := MA(CLOSE, 5)" exampleBars) = true :=
  ⟨by decide, by decide,
   (C16_function_call (NewInterpreter exampleBars) "ma" "MA" [] (by decide)).2.2.1 (by decide),
   sameResult_sound _ _ (by decide!), by decide!⟩

/-- C16 as stated fails for a name that is not registered: `foo(1)` and `FOO(1)` differ only
in letter case and both fail, but with different errors, each naming the function as written. -/
theorem C16_counterexample :
    goToUpper "foo" = goToUpper "FOO" ∧
    Run "X := foo(1)" exampleBars = .error (.runtime "undefined function: foo") ∧
    Run "X := FOO(1)" exampleBars = .error (.runtime "undefined function: FOO") ∧
    Run "X := foo(1)" exampleBars ≠ Run "X := FOO(1)" exampleBars := by
  have h1 : Run "X := foo(1)" exampleBars = .error (.runtime "undefined function: foo") :=
    isErrorWith_sound _ _ (by decide!)
  have h2 : Run "X := FOO(1)" exampleBars = .error (.runtime "undefined function: FOO") :=
    isErrorWith_sound _ _ (by decide!)
  refine ⟨by decide, h1, h2, ?_⟩
  rw [h1, h2]
  intro h
  injection h with h
  injection h with h
  exact absurd h (by decide)

/-! ### REF -/

/-- The two loops of `fnREF`. -/
theorem ref_loops (x : List F64) (m : Nat) :
    ∃ out, (do
        let result ← forLoop 0 (min (m : Int) (x.length : Int)) (fun i r => store r i F64.nan)
          (makeSlice x.length)
        let result ← forLoop (m : Int) (x.length : Int) (fun i r => do
          let v ← index x (i - (m : Int))
          store r i v) result
        pure (NewArrayValue result) : Res Value) = .ok (NewArrayValue out) ∧
      out.length = x.length ∧
      (∀ i : Nat, i < m → i < x.length → out[i]? = some F64.nan) ∧
      (∀ i : Nat, m ≤ i → i < x.length → out[i]? = x[i - m]?) := by
  have e1 : min (m : Int) (x.length : Int) = ((min m x.length : Nat) : Int) := by
    rw [Nat.cast_min]
  obtain ⟨r1, h1, hl1, hg1⟩ := forLoop_fill (fun i r => store r i F64.nan) (fun _ => F64.nan) 0
    (min m x.length) (makeSlice x.length) (Nat.zero_le _)
    (by rw [makeSlice_length]; exact Nat.min_le_right _ _) (fun i r _ _ _ => rfl)
  rw [makeSlice_length] at hl1
  rw [e1]
  simp only [Nat.cast_zero] at h1
  rw [h1, ok_bind]
  by_cases hm : m ≤ x.length
  · obtain ⟨r2, h2, hl2, hg2⟩ := forLoop_fill (fun i r => do
        let v ← index x (i - (m : Int))
        store r i v) (fun i => x.getD (i - m) F64.zero) m x.length r1 hm (by omega)
      (fun i r hi1 hi2 _ => by
        show (index x ((i : Int) - (m : Int)) >>= fun v => store r i v) = _
        rw [index_window hi1 hi2, ok_bind])
    rw [h2, ok_bind]
    refine ⟨r2, rfl, by omega, fun i hi1 hi2 => ?_, fun i hi1 hi2 => ?_⟩
    · rw [hg2 i, if_neg (by omega), hg1 i, if_pos ⟨Nat.zero_le _, by omega⟩]
    · rw [hg2 i, if_pos ⟨hi1, hi2⟩, List.getD_eq_getElem?_getD,
        List.getElem?_eq_getElem (by omega : i - m < x.length)]
      rfl
  · rw [forLoop_empty _ _ _ _ (by omega), ok_bind]
    refine ⟨r1, rfl, hl1, fun i hi1 hi2 => ?_, fun i hi1 hi2 => by omega⟩
    rw [hg1 i, if_pos ⟨Nat.zero_le _, by omega⟩]

/-- C17 (amended).  With `n = int(p)` the shift the call receives: when `n >= 0`, `REF(x, p)`
returns a series of the length of `x` that is NaN at every index below `n` and holds `x[i - n]`
at every index `i >= n`, and is `x` itself when `n = 0`; when `n < 0` the call fails with the
RuntimeError "REF period must be non-negative".  For a `p` that holds the integer `m`,
`int(p) = m` when `0 <= m < 2^63`, and `int(p) < 0` when `m < 0` and also when `m >= 2^63`:
the shifts served are the integers from `0` up to, and not including, `2^63`. -/
theorem C17_ref_shift (x : List F64) (p : F64) (md : List MarketData) :
    (0 ≤ p.toInt →
      ∃ out, fnREF [NewArrayValue x, NewSingleValue p] md = .ok (NewArrayValue out) ∧
        out.length = x.length ∧
        (∀ i : Nat, (i : Int) < p.toInt → i < x.length → out[i]? = some F64.nan) ∧
        (∀ i : Nat, p.toInt ≤ (i : Int) → i < x.length → out[i]? = x[i - p.toInt.toNat]?) ∧
        (p.toInt = 0 → out = x)) ∧
    (p.toInt < 0 →
      fnREF [NewArrayValue x, NewSingleValue p] md =
        .error (.runtime "REF period must be non-negative")) ∧
    (∀ m : Int, p = F64.fin (m * ((2 ^ 1074 : Nat) : Int)) →
      (0 ≤ m → m < 9223372036854775808 → p.toInt = m) ∧
      (m < 0 → p.toInt < 0) ∧
      (9223372036854775808 ≤ m → p.toInt < 0)) := by
  refine ⟨?_, ?_, ?_⟩
  · intro h0
    obtain ⟨m, hp⟩ := Int.eq_ofNat_of_zero_le h0
    have hg : ¬ ((m : Int) < 0) := by omega
    simp only [fnREF, NewArrayValue, NewSingleValue, hp, hg, Bool.not_true,
      Bool.false_eq_true, if_false, Int.toNat_ofNat, makeSlice_length]
    obtain ⟨out, e1, e2, e3, e4⟩ := ref_loops x m
    refine ⟨out, e1, e2, fun i hi1 hi2 => e3 i (by omega) hi2,
      fun i hi1 hi2 => e4 i (by omega) hi2, fun hz => ?_⟩
    have hm : m = 0 := by omega
    subst hm
    exact list_eq_of_getElem? e2 (fun i hi => by simpa using e4 i (Nat.zero_le _) hi)
  · intro hneg
    simp only [fnREF, NewArrayValue, NewSingleValue, hneg, Bool.not_true, Bool.false_eq_true,
      if_false, if_true]
  · intro m hp
    have hk : ((2 ^ 1074 : Nat) : Int) ≠ 0 := Int.natCast_ne_zero.mpr (by positivity)
    have ht : p.toInt = if -9223372036854775808 ≤ m ∧ m < 9223372036854775808 then m
        else -9223372036854775808 := by
      rw [hp]
      show (if -9223372036854775808 ≤ Int.tdiv (m * ((2 ^ 1074 : Nat) : Int))
          ((2 ^ 1074 : Nat) : Int) ∧ Int.tdiv (m * ((2 ^ 1074 : Nat) : Int))
          ((2 ^ 1074 : Nat) : Int) < 9223372036854775808 then
          Int.tdiv (m * ((2 ^ 1074 : Nat) : Int)) ((2 ^ 1074 : Nat) : Int)
        else -9223372036854775808) = _
      rw [Int.mul_tdiv_cancel m hk]
    rw [ht]
    refine ⟨fun h1 h2 => ?_, fun h1 => ?_, fun h1 => ?_⟩
    · rw [if_pos ⟨by omega, h2⟩]
    · split_ifs <;> omega
    · rw [if_neg (by omega)]
      omega

/-- A witness for C17: `REF([100, 105, 103], 1) = [NaN, 100, 105]` and `REF(x, -1)` fails. -/
theorem C17_ref_shift_witness :
    fnREF [NewArrayValue [F64.ofInt 100, F64.ofInt 105, F64.ofInt 103],
      NewSingleValue (F64.ofInt 1)] [] =
      .ok (NewArrayValue [F64.nan, F64.ofInt 100, F64.ofInt 105]) ∧
    (∃ out, fnREF [NewArrayValue [F64.ofInt 100, F64.ofInt 105, F64.ofInt 103],
        NewSingleValue (F64.ofInt 1)] [] = .ok (NewArrayValue out) ∧
      out.length = 3 ∧
      (∀ i : Nat, (i : Int) < 1 → i < 3 → out[i]? = some F64.nan)) ∧
    fnREF [NewArrayValue [F64.ofInt 100], NewSingleValue (F64.ofInt (-1))] [] =
      .error (.runtime "REF period must be non-negative") := by
  refine ⟨isOkWith_sound _ _ (by decide!), ?_, ?_⟩
  · obtain ⟨out, e1, e2, e3, _, _⟩ := (C17_ref_shift
      [F64.ofInt 100, F64.ofInt 105, F64.ofInt 103] (F64.ofInt 1) []).1 (by decide)
    exact ⟨out, e1, e2, fun i hi1 hi2 => e3 i (by
      have h1 : (F64.ofInt 1).toInt = 1 := by decide
      rw [h1]; exact hi1) hi2⟩
  · exact (C17_ref_shift [F64.ofInt 100] (F64.ofInt (-1)) []).2.1 (by decide)

/-- C17 as stated fails for the integers from `2^63` on: `2^63` is an integer
`>= 0` and a `float64`, its conversion `int(2^63)` is the negative `-2^63`, and `REF(x, 2^63)`
is the RuntimeError "REF period must be non-negative" instead of a series of NaN; the literals
`9223372036854775808`, `10000000000000000000` and `9223372036854775807` (which is read as the
`float64` `2^63`) all fail so, while `REF(CLOSE, 9223372036854774784)`, the largest `float64`
below `2^63`, returns the all-NaN series. -/
theorem C17_counterexample :
    (0 : Int) ≤ 9223372036854775808 ∧
    F64.ofInt 9223372036854775808 = F64.fin (9223372036854775808 * ((2 ^ 1074 : Nat) : Int)) ∧
    (F64.ofInt 9223372036854775808).toInt = -9223372036854775808 ∧
    fnREF [NewArrayValue [F64.ofInt 100, F64.ofInt 105, F64.ofInt 103],
      NewSingleValue (F64.ofInt 9223372036854775808)] [] =
      .error (.runtime "REF period must be non-negative") ∧
    Run "R := REF(CLOSE, 9223372036854775808)" exampleBars =
      .error (.runtime "REF period must be non-negative") ∧
    Run "R := REF(CLOSE, 10000000000000000000)" exampleBars =
      .error (.runtime "REF period must be non-negative") ∧
    Run "R := REF(CLOSE, 9223372036854775807)" exampleBars =
      .error (.runtime "REF period must be non-negative") ∧
    Run "R := REF(CLOSE, 9223372036854774784)" exampleBars =
      Run "R := REF(CLOSE, 10)" exampleBars ∧
    fnREF [NewArrayValue [F64.ofInt 100, F64.ofInt 105, F64.ofInt 103],
      NewSingleValue (F64.ofInt 9223372036854774784)] [] =
      .ok (NewArrayValue [F64.nan, F64.nan, F64.nan]) :=
  ⟨by decide, by decide!, by decide!, isErrorWith_sound _ _ (by decide!),
   isErrorWith_sound _ _ (by decide!), isErrorWith_sound _ _ (by decide!),
   isErrorWith_sound _ _ (by decide!), sameResult_sound _ _ (by decide!),
   isOkWith_sound _ _ (by decide!)⟩

/-! ### CROSS -/

/-- The value `fnCROSS` stores at index `i >= 1`. -/
theorem cross_body (a b : List F64) (i : Nat) (r : List F64) (h1 : 1 ≤ i) (ha : i < a.length)
    (hb : i < b.length) :
    (do
      let a0 ← index a ((i : Int) - 1)
      let b0 ← index b ((i : Int) - 1)
      let a1 ← index a (i : Int)
      let b1 ← index b (i : Int)
      if F64.le a0 b0 ∧ F64.gt a1 b1 then store r i F64.one else store r i F64.zero) =
    store r i (if F64.le (a.getD (i - 1) F64.zero) (b.getD (i - 1) F64.zero) = true ∧
        F64.gt (a.getD i F64.zero) (b.getD i F64.zero) = true then F64.one else F64.zero) := by
  have e : ((i : Int) - 1) = ((i - 1 : Nat) : Int) := by omega
  rw [e, index_nat (by omega : i - 1 < a.length), ok_bind,
    index_nat (by omega : i - 1 < b.length), ok_bind, index_nat ha, ok_bind, index_nat hb,
    ok_bind]
  split_ifs <;> rfl

/-- C18 (what the code does).  On two series of equal length `L >= 1`, `CROSS(a, b)` returns a
series of length `L` with `0` at index 0 and, at every index `i >= 1`, `1` when
`a[i-1] <= b[i-1]` and `a[i] > b[i]` and `0` otherwise; `CROSS([5,6], [5,5]) = [0,1]`; a scalar
in either argument is a RuntimeError.  On two empty series the unguarded write `result[0] = 0`
panics. -/
theorem C18_cross (a b : List F64) (md : List MarketData) :
    (a.length = b.length → 1 ≤ a.length →
      ∃ out, fnCROSS [NewArrayValue a, NewArrayValue b] md = .ok (NewArrayValue out) ∧
        out.length = a.length ∧ out[0]? = some F64.zero ∧
        (∀ i : Nat, 1 ≤ i → i < a.length →
          out[i]? = some (if F64.le (a.getD (i - 1) F64.zero) (b.getD (i - 1) F64.zero) = true ∧
            F64.gt (a.getD i F64.zero) (b.getD i F64.zero) = true then F64.one else F64.zero))) ∧
    F64.one ≠ F64.zero ∧
    fnCROSS [NewArrayValue [F64.ofInt 5, F64.ofInt 6],
      NewArrayValue [F64.ofInt 5, F64.ofInt 5]] md = .ok (NewArrayValue [F64.zero, F64.one]) ∧
    (∀ (s : F64) (v : Value),
      fnCROSS [NewSingleValue s, v] md = .error (.runtime "CROSS requires array arguments") ∧
      fnCROSS [v, NewSingleValue s] md = .error (.runtime "CROSS requires array arguments")) ∧
    fnCROSS [NewArrayValue [], NewArrayValue []] md = .error (.goPanic "index out of range") := by
  refine ⟨fun hlen hpos => ?_, by decide, by rfl, fun s v => ⟨?_, ?_⟩, by rfl⟩
  · have hg : ¬ (a.length ≠ b.length) := by simpa using hlen
    simp only [fnCROSS, NewArrayValue, hg, Bool.not_true, Bool.false_eq_true, or_self, if_false]
    have hs : store (makeSlice a.length) 0 F64.zero = .ok (makeSlice a.length) := by
      rw [store_ok F64.zero (le_refl _) (by rw [makeSlice_length]; exact_mod_cast hpos)]
      congr 1
      apply list_eq_of_getElem? (by simp)
      intro i hi
      rw [makeSlice_length] at hi
      by_cases h0 : i = 0
      · subst h0
        simp [makeSlice, List.getElem?_replicate, hi]
      · rw [List.getElem?_set_ne (by simpa using (Ne.symm h0))]
    rw [hs, ok_bind]
    obtain ⟨r1, h1, hl1, hg1⟩ := forLoop_fill (fun i r => do
        let a0 ← index a (i - 1)
        let b0 ← index b (i - 1)
        let a1 ← index a i
        let b1 ← index b i
        if F64.le a0 b0 ∧ F64.gt a1 b1 then store r i F64.one else store r i F64.zero)
      (fun i => if F64.le (a.getD (i - 1) F64.zero) (b.getD (i - 1) F64.zero) = true ∧
        F64.gt (a.getD i F64.zero) (b.getD i F64.zero) = true then F64.one else F64.zero)
      1 a.length (makeSlice a.length) hpos (by rw [makeSlice_length])
      (fun i r hi1 hi2 _ => cross_body a b i r hi1 hi2 (by omega))
    simp only [Nat.cast_one] at h1
    rw [h1, ok_bind]
    rw [makeSlice_length] at hl1
    refine ⟨r1, rfl, hl1, ?_, fun i hi1 hi2 => ?_⟩
    · rw [hg1 0, if_neg (by omega)]
      have hp : 0 < a.length := hpos
      simp [makeSlice, List.getElem?_replicate, hp]
    · rw [hg1 i, if_pos ⟨hi1, hi2⟩]
  · simp [fnCROSS, NewSingleValue]
  · by_cases hv : v.IsArray = true
    · simp [fnCROSS, NewSingleValue, hv]
    · simp [fnCROSS, NewSingleValue, hv]

/-! ### FILTER -/

theorem wrap64_le (v : Int) (hv : 0 ≤ v) : wrap64 v ≤ v := by
  unfold wrap64
  omega

theorem wrap64_id (v : Int) (h1 : -9223372036854775808 ≤ v) (h2 : v < 9223372036854775808) :
    wrap64 v = v := by
  unfold wrap64
  omega

theorem set_get_self (r : List F64) (m : Nat) (v : F64) (h : m < r.length) :
    (r.set m v)[m]? = some v := by
  rw [List.getElem?_set, if_pos rfl, if_pos h]

theorem set_get_ne (r : List F64) (m j : Nat) (v : F64) (h : m ≠ j) :
    (r.set m v)[j]? = r[j]? := by
  rw [List.getElem?_set, if_neg h]

theorem one_ne_zero_f64 : F64.one ≠ F64.zero := by decide

/-- The loop of `fnFILTER`: the state is the result slice and `lastSignal`. -/
theorem filter_loop (c : List F64) (n : Int) (hn : 1 ≤ n)
    (body : Int → List F64 × Int → Res (List F64 × Int))
    (hbody : ∀ (i : Nat) (st : List F64 × Int), i < c.length → st.1.length = c.length →
      body i st =
        if F64.ne (c.getD i F64.zero) F64.zero = true ∧ wrap64 ((i : Int) - st.2) ≥ n
        then .ok (st.1.set i F64.one, (i : Int)) else .ok (st.1.set i F64.zero, st.2)) :
    ∃ st, forLoop 0 (c.length : Int) body (makeSlice c.length, -n - 1) = .ok st ∧
      st.1.length = c.length ∧
      (∀ j : Nat, j < c.length → st.1[j]? = some F64.one ∨ st.1[j]? = some F64.zero) ∧
      (∀ j : Nat, st.1[j]? = some F64.one → F64.ne (c.getD j F64.zero) F64.zero = true) ∧
      (∀ j1 j2 : Nat, j1 < j2 → st.1[j1]? = some F64.one → st.1[j2]? = some F64.one →
        (j1 : Int) + n ≤ j2) ∧
      (∀ j : Nat, j < c.length →
        (∀ k : Nat, k < j → F64.ne (c.getD k F64.zero) F64.zero = false) →
        F64.ne (c.getD j F64.zero) F64.zero = true →
        (j : Int) + n + 1 < 9223372036854775808 → st.1[j]? = some F64.one) ∧
      (∀ j : Nat, j < c.length →
        (∀ k : Nat, k < j → F64.ne (c.getD k F64.zero) F64.zero = false) →
        9223372036854775808 ≤ (j : Int) + n + 1 → (j : Int) < 9223372036854775808 →
        n < 9223372036854775808 → st.1[j]? = some F64.zero) := by
  obtain ⟨st, h1, hP⟩ := forLoop_inv body
    (fun i st => st.1.length = c.length ∧
      (st.2 = -n - 1 ∨ (0 ≤ st.2 ∧ st.2 < i ∧ st.1[st.2.toNat]? = some F64.one)) ∧
      (∀ j : Nat, (j : Int) < i → st.1[j]? = some F64.one ∨ st.1[j]? = some F64.zero) ∧
      (∀ j : Nat, (j : Int) < i → st.1[j]? = some F64.one →
        F64.ne (c.getD j F64.zero) F64.zero = true ∧ 0 ≤ st.2 ∧ (j : Int) ≤ st.2) ∧
      (∀ j1 j2 : Nat, j1 < j2 → (j2 : Int) < i → st.1[j1]? = some F64.one →
        st.1[j2]? = some F64.one → (j1 : Int) + n ≤ j2) ∧
      (∀ j : Nat, (j : Int) < i →
        (∀ k : Nat, k < j → F64.ne (c.getD k F64.zero) F64.zero = false) →
        F64.ne (c.getD j F64.zero) F64.zero = true →
        (j : Int) + n + 1 < 9223372036854775808 → st.1[j]? = some F64.one) ∧
      (∀ j : Nat, (j : Int) < i →
        (∀ k : Nat, k < j → F64.ne (c.getD k F64.zero) F64.zero = false) →
        9223372036854775808 ≤ (j : Int) + n + 1 → (j : Int) < 9223372036854775808 →
        n < 9223372036854775808 → st.1[j]? = some F64.zero))
    0 (c.length : Int) (makeSlice c.length, -n - 1) (by omega)
    ⟨makeSlice_length _, Or.inl rfl, fun j hj => by omega, fun j hj => by omega,
      fun j1 j2 _ hj => by omega, fun j hj => by omega, fun j hj => by omega⟩
    (fun i st hi1 hi2 ⟨hl, hlast, h01, hone, hapart, hfirst, hover⟩ => by
      obtain ⟨m, rfl⟩ := Int.eq_ofNat_of_zero_le hi1
      have hm : m < c.length := by exact_mod_cast hi2
      have hml : m < st.1.length := by omega
      have hinit : (∀ k : Nat, k < m → F64.ne (c.getD k F64.zero) F64.zero = false) →
          st.2 = -n - 1 := by
        intro hz
        rcases hlast with hl0 | ⟨hl1, hl2, hl3⟩
        · exact hl0
        · exfalso
          have hk : st.2.toNat < m := by omega
          obtain ⟨a1, _, _⟩ := hone st.2.toNat (by omega) hl3
          rw [hz st.2.toNat hk] at a1
          cases a1
      rw [hbody m st hm hl]
      by_cases hsig : F64.ne (c.getD m F64.zero) F64.zero = true ∧ wrap64 ((m : Int) - st.2) ≥ n
      · rw [if_pos hsig]
        refine ⟨_, rfl, by simp [hl], Or.inr ⟨by omega, by omega, ?_⟩, fun j hj => ?_,
          fun j hj h => ?_, fun j1 j2 h12 hj h1 h2 => ?_, fun j hj hz hnz hov => ?_,
          fun j hj hz hov hj63 hn63 => ?_⟩
        · simp only [Int.toNat_ofNat]
          exact set_get_self _ _ _ hml
        · by_cases hjm : m = j
          · subst hjm
            exact Or.inl (set_get_self _ _ _ hml)
          · simp only [set_get_ne _ _ _ _ hjm]
            exact h01 j (by omega)
        · by_cases hjm : m = j
          · subst hjm
            exact ⟨hsig.1, by omega, le_refl _⟩
          · simp only [set_get_ne _ _ _ _ hjm] at h
            obtain ⟨a1, a2, a3⟩ := hone j (by omega) h
            exact ⟨a1, by omega, by omega⟩
        · by_cases hjm : m = j2
          · subst hjm
            simp only [set_get_ne _ _ _ _ (by omega : m ≠ j1)] at h1
            obtain ⟨_, a2, a3⟩ := hone j1 (by omega) h1
            have hw := wrap64_le ((m : Int) - st.2) (by
              rcases hlast with hl0 | ⟨_, hl2, _⟩
              · omega
              · omega)
            have := hsig.2
            omega
          · simp only [set_get_ne _ _ _ _ hjm,
              set_get_ne _ _ _ _ (by omega : m ≠ j1)] at h1 h2
            exact hapart j1 j2 h12 (by omega) h1 h2
        · by_cases hjm : m = j
          · subst hjm
            exact set_get_self _ _ _ hml
          · simp only [set_get_ne _ _ _ _ hjm]
            exact hfirst j (by omega) hz hnz hov
        · by_cases hjm : m = j
          · subst hjm
            exfalso
            have h2 := hsig.2
            rw [hinit hz] at h2
            unfold wrap64 at h2
            omega
          · simp only [set_get_ne _ _ _ _ hjm]
            exact hover j (by omega) hz hov hj63 hn63
      · rw [if_neg hsig]
        refine ⟨_, rfl, by simp [hl], ?_, fun j hj => ?_,
          fun j hj h => ?_, fun j1 j2 h12 hj h1 h2 => ?_, fun j hj hz hnz hov => ?_,
          fun j hj hz hov hj63 hn63 => ?_⟩
        · rcases hlast with hl0 | ⟨hl1, hl2, hl3⟩
          · exact Or.inl hl0
          · refine Or.inr ⟨hl1, by omega, ?_⟩
            show (st.1.set m F64.zero)[st.2.toNat]? = some F64.one
            rw [set_get_ne _ _ _ _ (by omega)]
            exact hl3
        · by_cases hjm : m = j
          · subst hjm
            exact Or.inr (set_get_self _ _ _ hml)
          · simp only [set_get_ne _ _ _ _ hjm]
            exact h01 j (by omega)
        · by_cases hjm : m = j
          · subst hjm
            simp only [set_get_self _ _ _ hml, Option.some.injEq] at h
            exact absurd h.symm one_ne_zero_f64
          · simp only [set_get_ne _ _ _ _ hjm] at h
            exact hone j (by omega) h
        · by_cases hjm : m = j2
          · subst hjm
            simp only [set_get_self _ _ _ hml, Option.some.injEq] at h2
            exact absurd h2.symm one_ne_zero_f64
          · simp only [set_get_ne _ _ _ _ hjm,
              set_get_ne _ _ _ _ (by omega : m ≠ j1)] at h1 h2
            exact hapart j1 j2 h12 (by omega) h1 h2
        · by_cases hjm : m = j
          · subst hjm
            exfalso
            apply hsig
            refine ⟨hnz, ?_⟩
            rw [hinit hz, wrap64_id _ (by omega) (by omega)]
            omega
          · simp only [set_get_ne _ _ _ _ hjm]
            exact hfirst j (by omega) hz hnz hov
        · by_cases hjm : m = j
          · subst hjm
            exact set_get_self _ _ _ hml
          · simp only [set_get_ne _ _ _ _ hjm]
            exact hover j (by omega) hz hov hj63 hn63)
  obtain ⟨hl, _, h01, hone, hapart, hfirst, hover⟩ := hP
  refine ⟨st, h1, hl, fun j hj => h01 j (by exact_mod_cast hj), fun j h => ?_,
    fun j1 j2 h12 a1 a2 => ?_, fun j hj => hfirst j (by exact_mod_cast hj),
    fun j hj => hover j (by exact_mod_cast hj)⟩
  · have hj : j < st.1.length := by
      by_contra hc
      rw [List.getElem?_eq_none (by omega)] at h
      cases h
    exact (hone j (by omega) h).1
  · have hj : j2 < st.1.length := by
      by_contra hc
      rw [List.getElem?_eq_none (by omega)] at a2
      cases a2
    exact hapart j1 j2 h12 (by omega) a1 a2

/-- What `fnFILTER` returns for a period `n = int(p) >= 1`: a series of the length of `c` of
ones and zeros, with a one only where `c` is not zero, any two ones at least `n` apart, and a
one at the first index where `c` is not zero unless `i - lastSignal` overflows there. -/
theorem fnFILTER_spec (c : List F64) (p : F64) (md : List MarketData) (hn : 1 ≤ p.toInt) :
    ∃ out, fnFILTER [NewArrayValue c, NewSingleValue p] md = .ok (NewArrayValue out) ∧
      out.length = c.length ∧
      (∀ j : Nat, j < c.length → out[j]? = some F64.one ∨ out[j]? = some F64.zero) ∧
      (∀ j : Nat, out[j]? = some F64.one → F64.ne (c.getD j F64.zero) F64.zero = true) ∧
      (∀ j1 j2 : Nat, j1 < j2 → out[j1]? = some F64.one → out[j2]? = some F64.one →
        (j1 : Int) + p.toInt ≤ j2) ∧
      (∀ j : Nat, j < c.length →
        (∀ k : Nat, k < j → F64.ne (c.getD k F64.zero) F64.zero = false) →
        F64.ne (c.getD j F64.zero) F64.zero = true →
        (j : Int) + p.toInt + 1 < 9223372036854775808 → out[j]? = some F64.one) ∧
      (∀ j : Nat, j < c.length →
        (∀ k : Nat, k < j → F64.ne (c.getD k F64.zero) F64.zero = false) →
        9223372036854775808 ≤ (j : Int) + p.toInt + 1 → (j : Int) < 9223372036854775808 →
        out[j]? = some F64.zero) := by
  have hlt := F64.toInt_lt p
  have hg : ¬ (p.toInt ≤ 0) := by omega
  have hinit : wrap64 (wrap64 (-p.toInt) - 1) = -p.toInt - 1 := by
    rw [wrap64_id (-p.toInt) (by omega) (by omega), wrap64_id _ (by omega) (by omega)]
  simp only [fnFILTER, NewArrayValue, NewSingleValue, hg, Bool.not_true, Bool.false_eq_true,
    if_false, hinit]
  obtain ⟨st, h1, h2, h3, h4, h5, h6, h7⟩ := filter_loop c p.toInt hn
    (fun i (st : List F64 × Int) => do
      let x ← index c i
      if F64.ne x F64.zero ∧ wrap64 (i - st.2) ≥ p.toInt then do
        let r ← store st.1 i F64.one
        pure (r, i)
      else do
        let r ← store st.1 i F64.zero
        pure (r, st.2))
    (fun i st hi hl => by
      show (index c (i : Int) >>= fun x => _) = _
      rw [index_nat hi, ok_bind]
      by_cases hc : F64.ne (c.getD i F64.zero) F64.zero = true ∧
          wrap64 ((i : Int) - st.2) ≥ p.toInt
      · rw [if_pos hc, if_pos hc, store_ok _ (by omega) (by omega), ok_bind]
        simp only [Int.toNat_ofNat]
        rfl
      · rw [if_neg hc, if_neg hc, store_ok _ (by omega) (by omega), ok_bind]
        simp only [Int.toNat_ofNat]
        rfl)
  rw [h1, ok_bind]
  exact ⟨st.1, rfl, h2, h3, h4, h5, h6, fun j hj hz hov hj63 => h7 j hj hz hov hj63 hlt⟩

theorem getD_zeros_then_one (m k : Nat) :
    (List.replicate m F64.zero ++ [F64.one]).getD k F64.zero =
      if k = m then F64.one else F64.zero := by
  rw [List.getD_eq_getElem?_getD]
  by_cases h1 : k < m
  · rw [List.getElem?_append_left (by simpa using h1), List.getElem?_replicate, if_pos h1,
      if_neg (by omega)]
    rfl
  · rw [List.getElem?_append_right (by simpa using h1)]
    simp only [List.length_replicate]
    by_cases h2 : k = m
    · subst h2
      simp
    · have h3 : k - m = (k - m - 1) + 1 := by omega
      rw [if_neg h2, h3]
      rfl

/-- C19 (what the code does).  For every condition series `c` and period `n = int(p) >= 1`,
`FILTER(c, p)` returns a series of the length of `c` whose entries are `1` or `0`, with a `1`
only where `c` is not zero and any two `1`s at least `n` indices apart; the first index `j`
where `c` is not zero holds `1` provided `j + n + 1 < 2^63`, and `FILTER([1,1,0,0,1], 3)` is
`[1,0,0,0,1]`.  When `j + n + 1` reaches `2^63` the difference `i - lastSignal` overflows and
that index holds `0`: with `n = 2^63 - 1024` and a condition that is zero at the indices
`0 .. 1022` and one at index 1023, the output at index 1023 is `0`. -/
theorem C19_filter_first_signal :
    (∀ (c : List F64) (p : F64) (md : List MarketData), 1 ≤ p.toInt →
      ∃ out, fnFILTER [NewArrayValue c, NewSingleValue p] md = .ok (NewArrayValue out) ∧
        out.length = c.length ∧
        (∀ j : Nat, j < c.length → out[j]? = some F64.one ∨ out[j]? = some F64.zero) ∧
        (∀ j : Nat, out[j]? = some F64.one → F64.ne (c.getD j F64.zero) F64.zero = true) ∧
        (∀ j1 j2 : Nat, j1 < j2 → out[j1]? = some F64.one → out[j2]? = some F64.one →
          (j1 : Int) + p.toInt ≤ j2) ∧
        (∀ j : Nat, j < c.length →
          (∀ k : Nat, k < j → F64.ne (c.getD k F64.zero) F64.zero = false) →
          F64.ne (c.getD j F64.zero) F64.zero = true →
          (j : Int) + p.toInt + 1 < 9223372036854775808 → out[j]? = some F64.one)) ∧
    fnFILTER [NewArrayValue [F64.one, F64.one, F64.zero, F64.zero, F64.one],
      NewSingleValue (F64.ofInt 3)] [] =
      .ok (NewArrayValue [F64.one, F64.zero, F64.zero, F64.zero, F64.one]) ∧
    (F64.ofInt 9223372036854774784).toInt = 9223372036854774784 ∧
    (∃ out, fnFILTER [NewArrayValue (List.replicate 1023 F64.zero ++ [F64.one]),
        NewSingleValue (F64.ofInt 9223372036854774784)] [] = .ok (NewArrayValue out) ∧
      (∀ k : Nat, k < 1023 →
        F64.ne ((List.replicate 1023 F64.zero ++ [F64.one]).getD k F64.zero) F64.zero = false) ∧
      F64.ne ((List.replicate 1023 F64.zero ++ [F64.one]).getD 1023 F64.zero) F64.zero = true ∧
      out[1023]? = some F64.zero) := by
  have hp : (F64.ofInt 9223372036854774784).toInt = 9223372036854774784 := by decide
  have hz : ∀ k : Nat, k < 1023 →
      F64.ne ((List.replicate 1023 F64.zero ++ [F64.one]).getD k F64.zero) F64.zero = false := by
    intro k hk
    rw [getD_zeros_then_one, if_neg (by omega)]
    rfl
  refine ⟨fun c p md hn => ?_, isOkWith_sound _ _ (by decide!), hp, ?_⟩
  · obtain ⟨out, e1, e2, e3, e4, e5, e6, _⟩ := fnFILTER_spec c p md hn
    exact ⟨out, e1, e2, e3, e4, e5, e6⟩
  · obtain ⟨out, e1, _, _, _, _, _, e7⟩ := fnFILTER_spec
      (List.replicate 1023 F64.zero ++ [F64.one]) (F64.ofInt 9223372036854774784) []
      (by rw [hp]; omega)
    refine ⟨out, e1, hz, ?_, ?_⟩
    · rw [getD_zeros_then_one, if_pos rfl]
      decide
    · exact e7 1023 (by simp) hz (by rw [hp]; omega) (by omega)

/-- C20 (as amended).  For every condition series `c` and period `n = int(p) >= 1`, whenever
`FILTER(c, p)` holds `1` at index `i`, it holds `0` at each of the following `n - 1` indices
`i+1, ..., i+n-1` that lie inside the series, whatever `c` holds there. -/
theorem C20_filter_refractory (c : List F64) (p : F64) (md : List MarketData)
    (hn : 1 ≤ p.toInt) :
    ∃ out, fnFILTER [NewArrayValue c, NewSingleValue p] md = .ok (NewArrayValue out) ∧
      out.length = c.length ∧
      ∀ i j : Nat, out[i]? = some F64.one → i < j → (j : Int) < (i : Int) + p.toInt →
        j < c.length → out[j]? = some F64.zero := by
  obtain ⟨out, e1, e2, e3, _, e5, _, _⟩ := fnFILTER_spec c p md hn
  refine ⟨out, e1, e2, fun i j hi hij hjn hj => ?_⟩
  rcases e3 j hj with h | h
  · have := e5 i j hij hi h
    omega
  · exact h

/-- A witness for C20: `FILTER([1,1,0,0,1], 3) = [1,0,0,0,1]`. -/
theorem C20_filter_refractory_witness :
    1 ≤ (F64.ofInt 3).toInt ∧
    fnFILTER [NewArrayValue [F64.one, F64.one, F64.zero, F64.zero, F64.one],
      NewSingleValue (F64.ofInt 3)] [] =
      .ok (NewArrayValue [F64.one, F64.zero, F64.zero, F64.zero, F64.one]) ∧
    ∃ out, fnFILTER [NewArrayValue [F64.one, F64.one, F64.zero, F64.zero, F64.one],
        NewSingleValue (F64.ofInt 3)] [] = .ok (NewArrayValue out) ∧
      out.length = [F64.one, F64.one, F64.zero, F64.zero, F64.one].length ∧
      ∀ i j : Nat, out[i]? = some F64.one → i < j →
        (j : Int) < (i : Int) + (F64.ofInt 3).toInt →
        j < [F64.one, F64.one, F64.zero, F64.zero, F64.one].length → out[j]? = some F64.zero :=
  ⟨by decide, isOkWith_sound _ _ (by decide!),
   C20_filter_refractory [F64.one, F64.one, F64.zero, F64.zero, F64.one] (F64.ofInt 3) []
     (by decide)⟩

/-- C20 as stated fails at the last of the `n` following indices: `FILTER([1,0,0,1], 3)` is
`[1,0,0,1]`, with a `1` at index 0 and a `1` again at index `0 + 3`. -/
theorem C20_counterexample :
    (F64.ofInt 3).toInt = 3 ∧
    fnFILTER [NewArrayValue [F64.one, F64.zero, F64.zero, F64.one],
      NewSingleValue (F64.ofInt 3)] [] =
      .ok (NewArrayValue [F64.one, F64.zero, F64.zero, F64.one]) ∧
    [F64.one, F64.zero, F64.zero, F64.one][0]? = some F64.one ∧
    [F64.one, F64.zero, F64.zero, F64.one][0 + 3]? = some F64.one ∧ F64.one ≠ F64.zero :=
  ⟨by decide, isOkWith_sound _ _ (by decide!), rfl, rfl, by decide⟩

/-! ### HHV and LLV -/

/-- A loop invariant that depends on the loop index, for `windowFold`. -/
theorem windowFold_inv_idx {σ : Type} (P : Nat → σ → Prop) (g : Nat → σ → F64 → σ)
    (x : List F64) (i : Nat) :
    ∀ (k lo : Nat) (s0 : σ), P lo s0 →
      (∀ (j : Nat) (s : σ), lo ≤ j → j < lo + k → P j s →
        P (j + 1) (g j s (x.getD (i - j) F64.zero))) →
      P (lo + k) (windowFold g x i lo (lo + k) s0) := by
  intro k
  induction k with
  | zero => intro lo s0 h0 _; simpa [windowFold] using h0
  | succ k ih =>
    intro lo s0 h0 hstep
    have h1 := hstep lo s0 (le_refl _) (by omega) h0
    have h2 := ih (lo + 1) _ h1 (fun j s hj1 hj2 hP => hstep j s (by omega) (by omega) hP)
    have e : lo + 1 + k = lo + (k + 1) := by omega
    rw [e] at h2
    have e2 : windowFold g x i lo (lo + (k + 1)) s0 =
        windowFold g x i (lo + 1) (lo + (k + 1)) (g lo s0 (x.getD (i - lo) F64.zero)) := by
      simp only [windowFold]
      have e3 : lo + (k + 1) - lo = (lo + (k + 1) - (lo + 1)) + 1 := by omega
      rw [e3, List.range'_succ, List.foldl_cons]
    rw [e2]
    exact h2

theorem F64.le_self (a : F64) (h : a.isNaN = false) : F64.le a a = true := by
  cases a with
  | nan => simp [F64.isNaN] at h
  | inf s => cases s <;> rfl
  | fin k => simp [F64.le]

theorem F64.le_of_not_lt (a b : F64) (ha : a.isNaN = false) (hb : b.isNaN = false)
    (h : F64.lt b a = false) : F64.le a b = true := by
  cases a with
  | nan => simp [F64.isNaN] at ha
  | inf s =>
    cases b with
    | nan => simp [F64.isNaN] at hb
    | inf t => cases s <;> cases t <;> simp_all [F64.lt, F64.le]
    | fin k => cases s <;> simp_all [F64.lt, F64.le]
  | fin k =>
    cases b with
    | nan => simp [F64.isNaN] at hb
    | inf t => cases t <;> simp_all [F64.lt, F64.le]
    | fin m =>
      simp only [F64.lt, decide_eq_false_iff_not] at h
      simp only [F64.le, decide_eq_true_eq]
      omega

theorem F64.le_of_le_of_lt (a b c : F64) (h1 : F64.le a b = true) (h2 : F64.lt b c = true) :
    F64.le a c = true := by
  cases a with
  | nan => simp [F64.le] at h1
  | inf s =>
    cases b with
    | nan => simp [F64.le] at h1
    | inf t =>
      cases c with
      | nan => simp [F64.lt] at h2
      | inf u => cases s <;> cases t <;> cases u <;> simp_all [F64.lt, F64.le]
      | fin m => cases s <;> cases t <;> simp_all [F64.lt, F64.le]
    | fin k =>
      cases c with
      | nan => simp [F64.lt] at h2
      | inf u => cases s <;> cases u <;> simp_all [F64.lt, F64.le]
      | fin m => cases s <;> simp_all [F64.lt, F64.le]
  | fin j =>
    cases b with
    | nan => simp [F64.le] at h1
    | inf t =>
      cases c with
      | nan => simp [F64.lt] at h2
      | inf u => cases t <;> cases u <;> simp_all [F64.lt, F64.le]
      | fin m => cases t <;> simp_all [F64.lt, F64.le]
    | fin k =>
      cases c with
      | nan => simp [F64.lt] at h2
      | inf u => cases u <;> simp_all [F64.lt, F64.le]
      | fin m =>
        simp only [F64.lt, F64.le, decide_eq_true_eq] at h1 h2 ⊢
        omega

theorem F64.le_of_lt_of_le (a b c : F64) (h1 : F64.lt a b = true) (h2 : F64.le b c = true) :
    F64.le a c = true := by
  cases a with
  | nan => simp [F64.lt] at h1
  | inf s =>
    cases b with
    | nan => simp [F64.lt] at h1
    | inf t =>
      cases c with
      | nan => simp [F64.le] at h2
      | inf u => cases s <;> cases t <;> cases u <;> simp_all [F64.lt, F64.le]
      | fin m => cases s <;> cases t <;> simp_all [F64.lt, F64.le]
    | fin k =>
      cases c with
      | nan => simp [F64.le] at h2
      | inf u => cases s <;> cases u <;> simp_all [F64.lt, F64.le]
      | fin m => cases s <;> simp_all [F64.lt, F64.le]
  | fin j =>
    cases b with
    | nan => simp [F64.lt] at h1
    | inf t =>
      cases c with
      | nan => simp [F64.le] at h2
      | inf u => cases t <;> cases u <;> simp_all [F64.lt, F64.le]
      | fin m => cases t <;> simp_all [F64.lt, F64.le]
    | fin k =>
      cases c with
      | nan => simp [F64.le] at h2
      | inf u => cases u <;> simp_all [F64.lt, F64.le]
      | fin m =>
        simp only [F64.lt, F64.le, decide_eq_true_eq] at h1 h2 ⊢
        omega

/-- The running maximum of a window without NaN is one of its elements and is at least every
element. -/
theorem windowMax_spec (x : List F64) (i n : Nat) (h1 : 1 ≤ n)
    (hnan : ∀ k, k < n → (x.getD (i - k) F64.zero).isNaN = false) :
    (∃ k, k < n ∧ windowMax x i n = x.getD (i - k) F64.zero) ∧
    ∀ k, k < n → F64.ge (windowMax x i n) (x.getD (i - k) F64.zero) = true := by
  have h := windowFold_inv_idx
    (fun j (s : F64) => j ≤ n → (s.isNaN = false ∧ (∃ k, k < j ∧ s = x.getD (i - k) F64.zero) ∧
      ∀ k, k < j → F64.ge s (x.getD (i - k) F64.zero) = true))
    (fun _ m v => if F64.gt v m then v else m) x i (n - 1) 1 (x.getD i F64.zero)
    (fun _ => ⟨by simpa using hnan 0 (by omega), ⟨0, by omega, rfl⟩, fun k hk => by
      have hk0 : k = 0 := by omega
      subst hk0
      exact F64.le_self _ (by simpa using hnan 0 (by omega))⟩)
    (fun j s hj1 hj2 hP hjn => by
      obtain ⟨hs, ⟨k0, hk0, hk1⟩, hall⟩ := hP (by omega)
      have hv := hnan j (by omega)
      by_cases hgt : F64.gt (x.getD (i - j) F64.zero) s = true
      · simp only [hgt, if_true]
        refine ⟨hv, ⟨j, by omega, rfl⟩, fun k hk => ?_⟩
        by_cases hkj : k = j
        · subst hkj
          exact F64.le_self _ hv
        · exact F64.le_of_le_of_lt _ _ _ (hall k (by omega)) hgt
      · have hgt2 : F64.lt s (x.getD (i - j) F64.zero) = false := by simpa [F64.gt] using hgt
        simp only [hgt, Bool.false_eq_true, if_false]
        refine ⟨hs, ⟨k0, by omega, hk1⟩, fun k hk => ?_⟩
        by_cases hkj : k = j
        · subst hkj
          exact F64.le_of_not_lt _ _ hv hs hgt2
        · exact hall k (by omega))
  have e : 1 + (n - 1) = n := by omega
  rw [e] at h
  exact (h (le_refl _)).2

/-- The running minimum of a window without NaN is one of its elements and is at most every
element. -/
theorem windowMin_spec (x : List F64) (i n : Nat) (h1 : 1 ≤ n)
    (hnan : ∀ k, k < n → (x.getD (i - k) F64.zero).isNaN = false) :
    (∃ k, k < n ∧ windowMin x i n = x.getD (i - k) F64.zero) ∧
    ∀ k, k < n → F64.le (windowMin x i n) (x.getD (i - k) F64.zero) = true := by
  have h := windowFold_inv_idx
    (fun j (s : F64) => j ≤ n → (s.isNaN = false ∧ (∃ k, k < j ∧ s = x.getD (i - k) F64.zero) ∧
      ∀ k, k < j → F64.le s (x.getD (i - k) F64.zero) = true))
    (fun _ m v => if F64.lt v m then v else m) x i (n - 1) 1 (x.getD i F64.zero)
    (fun _ => ⟨by simpa using hnan 0 (by omega), ⟨0, by omega, rfl⟩, fun k hk => by
      have hk0 : k = 0 := by omega
      subst hk0
      exact F64.le_self _ (by simpa using hnan 0 (by omega))⟩)
    (fun j s hj1 hj2 hP hjn => by
      obtain ⟨hs, ⟨k0, hk0, hk1⟩, hall⟩ := hP (by omega)
      have hv := hnan j (by omega)
      by_cases hlt : F64.lt (x.getD (i - j) F64.zero) s = true
      · simp only [hlt, if_true]
        refine ⟨hv, ⟨j, by omega, rfl⟩, fun k hk => ?_⟩
        by_cases hkj : k = j
        · subst hkj
          exact F64.le_self _ hv
        · exact F64.le_of_lt_of_le _ _ _ hlt (hall k (by omega))
      · have hlt2 : F64.lt (x.getD (i - j) F64.zero) s = false := by simpa using hlt
        simp only [hlt, Bool.false_eq_true, if_false]
        refine ⟨hs, ⟨k0, by omega, hk1⟩, fun k hk => ?_⟩
        by_cases hkj : k = j
        · subst hkj
          exact F64.le_of_not_lt _ _ hs hv hlt2
        · exact hall k (by omega))
  have e : 1 + (n - 1) = n := by omega
  rw [e] at h
  exact (h (le_refl _)).2

/-- C21.  For every series `x` without NaN and every period `n = int(p)` with
`1 <= n <= L`, `HHV(x, p)` and `LLV(x, p)` return series of the length of `x` whose entry at
every index `i >= n - 1` is an element `x[i-k]`, `0 <= k < n`, of the trailing window: for HHV
one that is `>=` every element of the window, for LLV one that is `<=` every element. -/
theorem C21_hhv_llv_extremes (x : List F64) (p : F64) (md : List MarketData)
    (h1 : 1 ≤ p.toInt) (h2 : p.toInt ≤ (x.length : Int))
    (hnan : ∀ j : Nat, j < x.length → (x.getD j F64.zero).isNaN = false) :
    (∃ out, fnHHV [NewArrayValue x, NewSingleValue p] md = .ok (NewArrayValue out) ∧
      out.length = x.length ∧
      ∀ i : Nat, p.toInt ≤ (i : Int) + 1 → i < x.length →
        ∃ v, out[i]? = some v ∧
          (∃ k : Nat, (k : Int) < p.toInt ∧ v = x.getD (i - k) F64.zero) ∧
          ∀ k : Nat, (k : Int) < p.toInt → F64.ge v (x.getD (i - k) F64.zero) = true) ∧
    (∃ out, fnLLV [NewArrayValue x, NewSingleValue p] md = .ok (NewArrayValue out) ∧
      out.length = x.length ∧
      ∀ i : Nat, p.toInt ≤ (i : Int) + 1 → i < x.length →
        ∃ v, out[i]? = some v ∧
          (∃ k : Nat, (k : Int) < p.toInt ∧ v = x.getD (i - k) F64.zero) ∧
          ∀ k : Nat, (k : Int) < p.toInt → F64.le v (x.getD (i - k) F64.zero) = true) := by
  have hw : ∀ i : Nat, i < x.length → ∀ k, k < p.toInt.toNat →
      (x.getD (i - k) F64.zero).isNaN = false := fun i hi k _ => hnan (i - k) (by omega)
  constructor
  · obtain ⟨out, e1, e2, _, e4⟩ := fnHHV_spec x p md h1 h2
    refine ⟨out, e1, e2, fun i hi1 hi2 => ?_⟩
    obtain ⟨⟨k, hk1, hk2⟩, hall⟩ := windowMax_spec x i p.toInt.toNat (by omega) (hw i hi2)
    exact ⟨_, e4 i hi1 hi2, ⟨k, by omega, hk2⟩, fun k hk => hall k (by omega)⟩
  · obtain ⟨out, e1, e2, _, e4⟩ := fnLLV_spec x p md h1 h2
    refine ⟨out, e1, e2, fun i hi1 hi2 => ?_⟩
    obtain ⟨⟨k, hk1, hk2⟩, hall⟩ := windowMin_spec x i p.toInt.toNat (by omega) (hw i hi2)
    exact ⟨_, e4 i hi1 hi2, ⟨k, by omega, hk2⟩, fun k hk => hall k (by omega)⟩

/-- A witness for C21: `HHV([107, 108, 109, 112], 3)` and `LLV` of the same series. -/
theorem C21_hhv_llv_extremes_witness :
    fnHHV [NewArrayValue [F64.ofInt 107, F64.ofInt 108, F64.ofInt 109, F64.ofInt 112],
      NewSingleValue (F64.ofInt 3)] [] =
      .ok (NewArrayValue [F64.nan, F64.nan, F64.ofInt 109, F64.ofInt 112]) ∧
    fnLLV [NewArrayValue [F64.ofInt 107, F64.ofInt 108, F64.ofInt 109, F64.ofInt 112],
      NewSingleValue (F64.ofInt 3)] [] =
      .ok (NewArrayValue [F64.nan, F64.nan, F64.ofInt 107, F64.ofInt 108]) ∧
    ∃ out, fnHHV [NewArrayValue [F64.ofInt 107, F64.ofInt 108, F64.ofInt 109, F64.ofInt 112],
        NewSingleValue (F64.ofInt 3)] [] = .ok (NewArrayValue out) ∧
      out.length = [F64.ofInt 107, F64.ofInt 108, F64.ofInt 109, F64.ofInt 112].length :=
  ⟨isOkWith_sound _ _ (by decide!), isOkWith_sound _ _ (by decide!),
   (C21_hhv_llv_extremes [F64.ofInt 107, F64.ofInt 108, F64.ofInt 109, F64.ofInt 112]
      (F64.ofInt 3) [] (by decide) (by decide) (by decide)).1.imp
        (fun _ h => ⟨h.1, h.2.1⟩)⟩

/-! ### IF -/

/-- The loop of `fnIF` over a series condition. -/
theorem if_loop (c a b : List F64) (ha : a.length = c.length) (hb : b.length = c.length) :
    ∃ out, forLoop 0 (c.length : Int) (fun i r => do
        let x ← index c i
        if F64.ne x F64.zero then do
          let t ← index a i
          store r i t
        else do
          let f ← index b i
          store r i f) (makeSlice c.length) = .ok out ∧
      out.length = c.length ∧
      ∀ i : Nat, i < c.length →
        out[i]? = some (if F64.ne (c.getD i F64.zero) F64.zero = true then a.getD i F64.zero
          else b.getD i F64.zero) := by
  obtain ⟨out, h1, h2, h3⟩ := forLoop_fill_all (fun i r => do
        let x ← index c i
        if F64.ne x F64.zero then do
          let t ← index a i
          store r i t
        else do
          let f ← index b i
          store r i f)
    (fun i => if F64.ne (c.getD i F64.zero) F64.zero = true then a.getD i F64.zero
      else b.getD i F64.zero) c.length
    (fun i r hi _ => by
      show (index c (i : Int) >>= fun x => _) = _
      rw [index_nat hi, ok_bind]
      by_cases hc : F64.ne (c.getD i F64.zero) F64.zero = true
      · simp only [hc, if_true]
        show (index a (i : Int) >>= fun t => store r i t) = _
        rw [index_nat (by omega), ok_bind]
      · simp only [hc, Bool.false_eq_true, if_false]
        show (index b (i : Int) >>= fun f => store r i f) = _
        rw [index_nat (by omega), ok_bind])
  exact ⟨out, h1, h2, h3⟩

/-- C22.  With a scalar condition `IF(cond, a, b)` is `a` itself when `cond != 0` and `b`
itself otherwise, whatever `a` and `b` are.  With a series condition it is a RuntimeError
unless `a` and `b` are both series of the condition's length, and then it is the series of
that length with `a[i]` where `cond[i] != 0` and `b[i]` where `cond[i]` is zero.  Over the ten
test bars `IF(CLOSE > OPEN, 1, 0)` is rejected and `IF(CLOSE > OPEN, HIGH, LOW)` selects the
high or the low bar by bar. -/
theorem C22_if_selection (cond a b : Value) (md : List MarketData) :
    (cond.IsArray = false →
      fnIF [cond, a, b] md = .ok (if F64.ne cond.Single F64.zero = true then a else b)) ∧
    (cond.IsArray = true →
      (a.IsArray = false ∨ b.IsArray = false ∨ a.Array.length ≠ cond.Array.length ∨
        b.Array.length ≠ cond.Array.length) →
      isRuntimeError (fnIF [cond, a, b] md) = true) ∧
    (cond.IsArray = true → a.IsArray = true → b.IsArray = true →
      a.Array.length = cond.Array.length → b.Array.length = cond.Array.length →
      ∃ out, fnIF [cond, a, b] md = .ok (NewArrayValue out) ∧
        out.length = cond.Array.length ∧
        ∀ i : Nat, i < cond.Array.length →
          out[i]? = some (if F64.ne (cond.Array.getD i F64.zero) F64.zero = true
            then a.Array.getD i F64.zero else b.Array.getD i F64.zero)) ∧
    Run "X := IF(CLOSE > OPEN, 1, 0)" exampleBars =
      .error (.runtime "IF: when condition is array, both true/false values must be arrays") ∧
    Run "RESULT := IF(CLOSE > OPEN, HIGH, LOW)" exampleBars =
      .ok { Outputs := [{ Name := "RESULT",
                          Data := exampleBars.map
                            (fun d => if F64.gt d.Close d.Open = true then d.High else d.Low),
                          Style := none }],
            Variables := [] } := by
  refine ⟨fun hc => ?_, fun hc hbad => ?_, fun hc ha hb hla hlb => ?_,
    isErrorWith_sound _ _ (by decide!), isOkWith_sound _ _ (by decide!)⟩
  · by_cases h : F64.ne cond.Single F64.zero = true
    · simp [fnIF, hc, h]
    · simp [fnIF, hc, h]
  · by_cases ha : a.IsArray = true
    · by_cases hb : b.IsArray = true
      · have hlen : cond.Array.length ≠ a.Array.length ∨ cond.Array.length ≠ b.Array.length := by
          rcases hbad with h | h | h | h
          · rw [ha] at h; cases h
          · rw [hb] at h; cases h
          · exact Or.inl (Ne.symm h)
          · exact Or.inr (Ne.symm h)
        simp only [fnIF, hc, ha, hb, Bool.not_true, Bool.false_eq_true, or_self, if_false,
          hlen, if_true, isRuntimeError]
      · simp [fnIF, hc, ha, hb, isRuntimeError]
    · simp [fnIF, hc, ha, isRuntimeError]
  · have hlen : ¬ (cond.Array.length ≠ a.Array.length ∨ cond.Array.length ≠ b.Array.length) := by
      rw [hla, hlb]; simp
    simp only [fnIF, hc, ha, hb, Bool.not_true, Bool.false_eq_true, or_self, if_false, hlen]
    obtain ⟨out, h1, h2, h3⟩ := if_loop cond.Array a.Array b.Array hla hlb
    rw [h1, ok_bind]
    exact ⟨out, rfl, h2, h3⟩

/-- A witness for C22: `IF(1, 2, 3)` is the scalar 2 and `IF(0, 2, 3)` is the scalar 3. -/
theorem C22_if_selection_witness :
    fnIF [NewSingleValue F64.one, NewSingleValue (F64.ofInt 2), NewSingleValue (F64.ofInt 3)] [] =
      .ok (NewSingleValue (F64.ofInt 2)) ∧
    fnIF [NewSingleValue F64.zero, NewSingleValue (F64.ofInt 2), NewSingleValue (F64.ofInt 3)] [] =
      .ok (NewSingleValue (F64.ofInt 3)) :=
  ⟨(C22_if_selection (NewSingleValue F64.one) (NewSingleValue (F64.ofInt 2))
      (NewSingleValue (F64.ofInt 3)) []).1 rfl,
   (C22_if_selection (NewSingleValue F64.zero) (NewSingleValue (F64.ofInt 2))
      (NewSingleValue (F64.ofInt 3)) []).1 rfl⟩

/-! ### Lengths of series -/

theorem returnsLen_store (N : Nat) (r : List F64) (i : Int) (v : F64) (h : r.length = N) :
    ReturnsLen N (store r i v) := by
  intro r1 h1
  unfold store at h1
  split_ifs at h1
  simp only [Except.ok.injEq] at h1
  rw [← h1, List.length_set, h]

theorem returnsLen_bind {α : Type} (N : Nat) (x : Res α) (f : α → Res (List F64))
    (h : ∀ a, ReturnsLen N (f a)) : ReturnsLen N (x >>= f) := by
  intro r h1
  cases x with
  | error e => cases h1
  | ok a => exact h a r h1

theorem returnsLen_ite (N : Nat) (c : Prop) [Decidable c] (a b : Res (List F64))
    (ha : ReturnsLen N a) (hb : ReturnsLen N b) : ReturnsLen N (if c then a else b) := by
  split_ifs
  · exact ha
  · exact hb

theorem returnsLen_forLoopAux (N : Nat) (body : Int → List F64 → Res (List F64))
    (hb : ∀ i r, r.length = N → ReturnsLen N (body i r)) :
    ∀ (k : Nat) (lo : Int) (r0 : List F64), r0.length = N →
      ReturnsLen N (forLoopAux body k lo r0) := by
  intro k
  induction k with
  | zero =>
    intro lo r0 h0 r h
    simp only [forLoopAux, Except.ok.injEq] at h
    rw [← h, h0]
  | succ k ih =>
    intro lo r0 h0 r h
    simp only [forLoopAux] at h
    cases hb1 : body lo r0 with
    | error e => rw [hb1] at h; cases h
    | ok r1 =>
      rw [hb1] at h
      exact ih (lo + 1) r1 (hb lo r0 h0 r1 hb1) r h

theorem returnsLen_forLoop (N : Nat) (lo hi : Int) (body : Int → List F64 → Res (List F64))
    (r0 : List F64) (h0 : r0.length = N)
    (hb : ∀ i r, r.length = N → ReturnsLen N (body i r)) :
    ReturnsLen N (forLoop lo hi body r0) :=
  returnsLen_forLoopAux N body hb _ lo r0 h0

theorem returnsLenState_forLoopAux {σ : Type} (N : Nat)
    (body : Int → List F64 × σ → Res (List F64 × σ))
    (hb : ∀ i st, st.1.length = N → ReturnsLenState N (body i st)) :
    ∀ (k : Nat) (lo : Int) (s0 : List F64 × σ), s0.1.length = N →
      ReturnsLenState N (forLoopAux body k lo s0) := by
  intro k
  induction k with
  | zero =>
    intro lo s0 h0 s h
    simp only [forLoopAux, Except.ok.injEq] at h
    rw [← h, h0]
  | succ k ih =>
    intro lo s0 h0 s h
    simp only [forLoopAux] at h
    cases hb1 : body lo s0 with
    | error e => rw [hb1] at h; cases h
    | ok s1 =>
      rw [hb1] at h
      exact ih (lo + 1) s1 (hb lo s0 h0 s1 hb1) s h

theorem returnsLenState_forLoop {σ : Type} (N : Nat) (lo hi : Int)
    (body : Int → List F64 × σ → Res (List F64 × σ)) (s0 : List F64 × σ)
    (h0 : s0.1.length = N) (hb : ∀ i st, st.1.length = N → ReturnsLenState N (body i st)) :
    ReturnsLenState N (forLoop lo hi body s0) :=
  returnsLenState_forLoopAux N body hb _ lo s0 h0

theorem returnsLenState_bind {α σ : Type} (N : Nat) (x : Res α) (f : α → Res (List F64 × σ))
    (h : ∀ a, ReturnsLenState N (f a)) : ReturnsLenState N (x >>= f) := by
  intro r h1
  cases x with
  | error e => cases h1
  | ok a => exact h a r h1

theorem returnsLenState_ite {σ : Type} (N : Nat) (c : Prop) [Decidable c]
    (a b : Res (List F64 × σ)) (ha : ReturnsLenState N a) (hb : ReturnsLenState N b) :
    ReturnsLenState N (if c then a else b) := by
  split_ifs
  · exact ha
  · exact hb

/-- A store followed by `pure (r, s)`. -/
theorem returnsLenState_store {σ : Type} (N : Nat) (r : List F64) (i : Int) (v : F64) (s : σ)
    (h : r.length = N) :
    ReturnsLenState N (store r i v >>= fun r1 => (pure (r1, s) : Res (List F64 × σ))) := by
  intro st h1
  cases hs : store r i v with
  | error e => rw [hs] at h1; cases h1
  | ok r1 =>
    rw [hs] at h1
    have h2 : st = (r1, s) := by
      have : (Except.ok (r1, s) : Res (List F64 × σ)) = .ok st := h1
      simp only [Except.ok.injEq] at this
      exact this.symm
    rw [h2]
    exact returnsLen_store N r i v h r1 hs

theorem returnsSeriesLen_error (N : Nat) (e : FormulaError) :
    ReturnsSeriesLen N (.error e) := by
  intro v h; cases h

theorem returnsSeriesLen_single (N : Nat) (x : F64) :
    ReturnsSeriesLen N (.ok (NewSingleValue x)) := by
  intro v h
  simp only [Except.ok.injEq] at h
  rw [← h]
  intro h2
  simp [NewSingleValue] at h2

theorem returnsSeriesLen_ok (N : Nat) (v : Value) (h : SeriesLen N v) :
    ReturnsSeriesLen N (.ok v) := by
  intro w hw
  simp only [Except.ok.injEq] at hw
  rw [← hw]
  exact h

theorem returnsSeriesLen_ite (N : Nat) (c : Prop) [Decidable c] (a b : Res Value)
    (ha : ReturnsSeriesLen N a) (hb : ReturnsSeriesLen N b) :
    ReturnsSeriesLen N (if c then a else b) := by
  split_ifs
  · exact ha
  · exact hb

/-- A slice computation wrapped by `NewArrayValue`. -/
theorem returnsSeriesLen_array (N : Nat) (x : Res (List F64)) (h : ReturnsLen N x) :
    ReturnsSeriesLen N (x >>= fun r => (pure (NewArrayValue r) : Res Value)) := by
  intro v hv
  cases x with
  | error e => cases hv
  | ok r =>
    have h2 : v = NewArrayValue r := by
      have : (Except.ok (NewArrayValue r) : Res Value) = .ok v := hv
      simp only [Except.ok.injEq] at this
      exact this.symm
    rw [h2]
    intro _
    exact h r rfl

/-- A loop over a slice and a loop variable, wrapped by `NewArrayValue`. -/
theorem returnsSeriesLen_state {σ : Type} (N : Nat) (x : Res (List F64 × σ))
    (h : ReturnsLenState N x) :
    ReturnsSeriesLen N (x >>= fun st => (pure (NewArrayValue st.1) : Res Value)) := by
  intro v hv
  cases x with
  | error e => cases hv
  | ok st =>
    have h2 : v = NewArrayValue st.1 := by
      have : (Except.ok (NewArrayValue st.1) : Res Value) = .ok v := hv
      simp only [Except.ok.injEq] at this
      exact this.symm
    rw [h2]
    intro _
    exact h st rfl

theorem makeSlice_returns (N : Nat) : (makeSlice N).length = N := makeSlice_length N

theorem returnsSeriesLen_iteH (N : Nat) (c : Prop) [Decidable c] (a b : Res Value)
    (ha : c → ReturnsSeriesLen N a) (hb : ¬ c → ReturnsSeriesLen N b) :
    ReturnsSeriesLen N (if c then a else b) := by
  split_ifs with h
  · exact ha h
  · exact hb h

theorem returnsSeriesLen_bind {α : Type} (N : Nat) (x : Res α) (f : α → Res Value)
    (h : ∀ a, ReturnsSeriesLen N (f a)) : ReturnsSeriesLen N (x >>= f) := by
  intro v hv
  cases x with
  | error e => cases hv
  | ok a => exact h a v hv

/-- A slice computation whose result a later step works on. -/
theorem returnsSeriesLen_bindLen (N : Nat) (x : Res (List F64)) (f : List F64 → Res Value)
    (hx : ReturnsLen N x) (h : ∀ r, r.length = N → ReturnsSeriesLen N (f r)) :
    ReturnsSeriesLen N (x >>= f) := by
  intro v hv
  cases x with
  | error e => cases hv
  | ok r => exact h r (hx r rfl) v hv

theorem makeSlice_len_of (L N : Nat) (h : L = N) : (makeSlice L).length = N := by
  rw [makeSlice_length, h]

/-! Every built-in keeps the length of its series arguments. -/

theorem keepsLen_fnMA (N : Nat) : KeepsLen N fnMA := by
  intro args md hargs
  rcases args with _ | ⟨a, _ | ⟨b, _ | ⟨c, _ | ⟨d, rest⟩⟩⟩⟩ <;> simp only [fnMA] <;>
    (try with_reducible exact returnsSeriesLen_error _ _)
  repeat' (first
    | with_reducible exact returnsSeriesLen_error _ _
    | with_reducible exact returnsSeriesLen_single _ _
    | with_reducible exact returnsLen_store _ _ _ _ (by assumption)
    | with_reducible exact returnsLenState_store _ _ _ _ _ (by assumption)
    | with_reducible apply returnsSeriesLen_array
    | with_reducible apply returnsSeriesLen_state
    | with_reducible apply returnsSeriesLen_bindLen
    | with_reducible apply returnsSeriesLen_bind
    | with_reducible apply returnsSeriesLen_iteH
    | with_reducible apply returnsSeriesLen_ok
    | with_reducible apply returnsLen_forLoop
    | with_reducible apply returnsLenState_forLoop
    | with_reducible apply returnsLen_bind
    | with_reducible apply returnsLenState_bind
    | with_reducible apply returnsLen_ite
    | with_reducible apply returnsLenState_ite
    | with_reducible apply returnsLen_store
    | intro _
    | assumption
    | simp_all [SeriesLen, makeSlice_length])

theorem keepsLen_fnEMA (N : Nat) : KeepsLen N fnEMA := by
  intro args md hargs
  rcases args with _ | ⟨a, _ | ⟨b, _ | ⟨c, _ | ⟨d, rest⟩⟩⟩⟩ <;> simp only [fnEMA] <;>
    (try with_reducible exact returnsSeriesLen_error _ _)
  repeat' (first
    | with_reducible exact returnsSeriesLen_error _ _
    | with_reducible exact returnsSeriesLen_single _ _
    | with_reducible exact returnsLen_store _ _ _ _ (by assumption)
    | with_reducible exact returnsLenState_store _ _ _ _ _ (by assumption)
    | with_reducible apply returnsSeriesLen_array
    | with_reducible apply returnsSeriesLen_state
    | with_reducible apply returnsSeriesLen_bindLen
    | with_reducible apply returnsSeriesLen_bind
    | with_reducible apply returnsSeriesLen_iteH
    | with_reducible apply returnsSeriesLen_ok
    | with_reducible apply returnsLen_forLoop
    | with_reducible apply returnsLenState_forLoop
    | with_reducible apply returnsLen_bind
    | with_reducible apply returnsLenState_bind
    | with_reducible apply returnsLen_ite
    | with_reducible apply returnsLenState_ite
    | with_reducible apply returnsLen_store
    | intro _
    | assumption
    | simp_all [SeriesLen, makeSlice_length])

theorem keepsLen_fnSUM (N : Nat) : KeepsLen N fnSUM := by
  intro args md hargs
  rcases args with _ | ⟨a, _ | ⟨b, _ | ⟨c, _ | ⟨d, rest⟩⟩⟩⟩ <;> simp only [fnSUM] <;>
    (try with_reducible exact returnsSeriesLen_error _ _)
  repeat' (first
    | with_reducible exact returnsSeriesLen_error _ _
    | with_reducible exact returnsSeriesLen_single _ _
    | with_reducible exact returnsLen_store _ _ _ _ (by assumption)
    | with_reducible exact returnsLenState_store _ _ _ _ _ (by assumption)
    | with_reducible apply returnsSeriesLen_array
    | with_reducible apply returnsSeriesLen_state
    | with_reducible apply returnsSeriesLen_bindLen
    | with_reducible apply returnsSeriesLen_bind
    | with_reducible apply returnsSeriesLen_iteH
    | with_reducible apply returnsSeriesLen_ok
    | with_reducible apply returnsLen_forLoop
    | with_reducible apply returnsLenState_forLoop
    | with_reducible apply returnsLen_bind
    | with_reducible apply returnsLenState_bind
    | with_reducible apply returnsLen_ite
    | with_reducible apply returnsLenState_ite
    | with_reducible apply returnsLen_store
    | intro _
    | assumption
    | simp_all [SeriesLen, makeSlice_length])

theorem keepsLen_fnMAX (N : Nat) : KeepsLen N fnMAX := by
  intro args md hargs
  rcases args with _ | ⟨a, _ | ⟨b, _ | ⟨c, _ | ⟨d, rest⟩⟩⟩⟩ <;> simp only [fnMAX] <;>
    (try with_reducible exact returnsSeriesLen_error _ _)
  repeat' (first
    | with_reducible exact returnsSeriesLen_error _ _
    | with_reducible exact returnsSeriesLen_single _ _
    | with_reducible exact returnsLen_store _ _ _ _ (by assumption)
    | with_reducible exact returnsLenState_store _ _ _ _ _ (by assumption)
    | with_reducible apply returnsSeriesLen_array
    | with_reducible apply returnsSeriesLen_state
    | with_reducible apply returnsSeriesLen_bindLen
    | with_reducible apply returnsSeriesLen_bind
    | with_reducible apply returnsSeriesLen_iteH
    | with_reducible apply returnsSeriesLen_ok
    | with_reducible apply returnsLen_forLoop
    | with_reducible apply returnsLenState_forLoop
    | with_reducible apply returnsLen_bind
    | with_reducible apply returnsLenState_bind
    | with_reducible apply returnsLen_ite
    | with_reducible apply returnsLenState_ite
    | with_reducible apply returnsLen_store
    | intro _
    | assumption
    | simp_all [SeriesLen, makeSlice_length])

theorem keepsLen_fnMIN (N : Nat) : KeepsLen N fnMIN := by
  intro args md hargs
  rcases args with _ | ⟨a, _ | ⟨b, _ | ⟨c, _ | ⟨d, rest⟩⟩⟩⟩ <;> simp only [fnMIN] <;>
    (try with_reducible exact returnsSeriesLen_error _ _)
  repeat' (first
    | with_reducible exact returnsSeriesLen_error _ _
    | with_reducible exact returnsSeriesLen_single _ _
    | with_reducible exact returnsLen_store _ _ _ _ (by assumption)
    | with_reducible exact returnsLenState_store _ _ _ _ _ (by assumption)
    | with_reducible apply returnsSeriesLen_array
    | with_reducible apply returnsSeriesLen_state
    | with_reducible apply returnsSeriesLen_bindLen
    | with_reducible apply returnsSeriesLen_bind
    | with_reducible apply returnsSeriesLen_iteH
    | with_reducible apply returnsSeriesLen_ok
    | with_reducible apply returnsLen_forLoop
    | with_reducible apply returnsLenState_forLoop
    | with_reducible apply returnsLen_bind
    | with_reducible apply returnsLenState_bind
    | with_reducible apply returnsLen_ite
    | with_reducible apply returnsLenState_ite
    | with_reducible apply returnsLen_store
    | intro _
    | assumption
    | simp_all [SeriesLen, makeSlice_length])

theorem keepsLen_fnABS (N : Nat) : KeepsLen N fnABS := by
  intro args md hargs
  rcases args with _ | ⟨a, _ | ⟨b, _ | ⟨c, _ | ⟨d, rest⟩⟩⟩⟩ <;> simp only [fnABS] <;>
    (try with_reducible exact returnsSeriesLen_error _ _)
  repeat' (first
    | with_reducible exact returnsSeriesLen_error _ _
    | with_reducible exact returnsSeriesLen_single _ _
    | with_reducible exact returnsLen_store _ _ _ _ (by assumption)
    | with_reducible exact returnsLenState_store _ _ _ _ _ (by assumption)
    | with_reducible apply returnsSeriesLen_array
    | with_reducible apply returnsSeriesLen_state
    | with_reducible apply returnsSeriesLen_bindLen
    | with_reducible apply returnsSeriesLen_bind
    | with_reducible apply returnsSeriesLen_iteH
    | with_reducible apply returnsSeriesLen_ok
    | with_reducible apply returnsLen_forLoop
    | with_reducible apply returnsLenState_forLoop
    | with_reducible apply returnsLen_bind
    | with_reducible apply returnsLenState_bind
    | with_reducible apply returnsLen_ite
    | with_reducible apply returnsLenState_ite
    | with_reducible apply returnsLen_store
    | intro _
    | assumption
    | simp_all [SeriesLen, makeSlice_length])

theorem keepsLen_fnSQRT (N : Nat) : KeepsLen N fnSQRT := by
  intro args md hargs
  rcases args with _ | ⟨a, _ | ⟨b, _ | ⟨c, _ | ⟨d, rest⟩⟩⟩⟩ <;> simp only [fnSQRT] <;>
    (try with_reducible exact returnsSeriesLen_error _ _)
  repeat' (first
    | with_reducible exact returnsSeriesLen_error _ _
    | with_reducible exact returnsSeriesLen_single _ _
    | with_reducible exact returnsLen_store _ _ _ _ (by assumption)
    | with_reducible exact returnsLenState_store _ _ _ _ _ (by assumption)
    | with_reducible apply returnsSeriesLen_array
    | with_reducible apply returnsSeriesLen_state
    | with_reducible apply returnsSeriesLen_bindLen
    | with_reducible apply returnsSeriesLen_bind
    | with_reducible apply returnsSeriesLen_iteH
    | with_reducible apply returnsSeriesLen_ok
    | with_reducible apply returnsLen_forLoop
    | with_reducible apply returnsLenState_forLoop
    | with_reducible apply returnsLen_bind
    | with_reducible apply returnsLenState_bind
    | with_reducible apply returnsLen_ite
    | with_reducible apply returnsLenState_ite
    | with_reducible apply returnsLen_store
    | intro _
    | assumption
    | simp_all [SeriesLen, makeSlice_length])

theorem keepsLen_fnREF (N : Nat) : KeepsLen N fnREF := by
  intro args md hargs
  rcases args with _ | ⟨a, _ | ⟨b, _ | ⟨c, _ | ⟨d, rest⟩⟩⟩⟩ <;> simp only [fnREF] <;>
    (try with_reducible exact returnsSeriesLen_error _ _)
  repeat' (first
    | with_reducible exact returnsSeriesLen_error _ _
    | with_reducible exact returnsSeriesLen_single _ _
    | with_reducible exact returnsLen_store _ _ _ _ (by assumption)
    | with_reducible exact returnsLenState_store _ _ _ _ _ (by assumption)
    | with_reducible apply returnsSeriesLen_array
    | with_reducible apply returnsSeriesLen_state
    | with_reducible apply returnsSeriesLen_bindLen
    | with_reducible apply returnsSeriesLen_bind
    | with_reducible apply returnsSeriesLen_iteH
    | with_reducible apply returnsSeriesLen_ok
    | with_reducible apply returnsLen_forLoop
    | with_reducible apply returnsLenState_forLoop
    | with_reducible apply returnsLen_bind
    | with_reducible apply returnsLenState_bind
    | with_reducible apply returnsLen_ite
    | with_reducible apply returnsLenState_ite
    | with_reducible apply returnsLen_store
    | intro _
    | assumption
    | simp_all [SeriesLen, makeSlice_length])

theorem keepsLen_fnHHV (N : Nat) : KeepsLen N fnHHV := by
  intro args md hargs
  rcases args with _ | ⟨a, _ | ⟨b, _ | ⟨c, _ | ⟨d, rest⟩⟩⟩⟩ <;> simp only [fnHHV] <;>
    (try with_reducible exact returnsSeriesLen_error _ _)
  repeat' (first
    | with_reducible exact returnsSeriesLen_error _ _
    | with_reducible exact returnsSeriesLen_single _ _
    | with_reducible exact returnsLen_store _ _ _ _ (by assumption)
    | with_reducible exact returnsLenState_store _ _ _ _ _ (by assumption)
    | with_reducible apply returnsSeriesLen_array
    | with_reducible apply returnsSeriesLen_state
    | with_reducible apply returnsSeriesLen_bindLen
    | with_reducible apply returnsSeriesLen_bind
    | with_reducible apply returnsSeriesLen_iteH
    | with_reducible apply returnsSeriesLen_ok
    | with_reducible apply returnsLen_forLoop
    | with_reducible apply returnsLenState_forLoop
    | with_reducible apply returnsLen_bind
    | with_reducible apply returnsLenState_bind
    | with_reducible apply returnsLen_ite
    | with_reducible apply returnsLenState_ite
    | with_reducible apply returnsLen_store
    | intro _
    | assumption
    | simp_all [SeriesLen, makeSlice_length])

theorem keepsLen_fnLLV (N : Nat) : KeepsLen N fnLLV := by
  intro args md hargs
  rcases args with _ | ⟨a, _ | ⟨b, _ | ⟨c, _ | ⟨d, rest⟩⟩⟩⟩ <;> simp only [fnLLV] <;>
    (try with_reducible exact returnsSeriesLen_error _ _)
  repeat' (first
    | with_reducible exact returnsSeriesLen_error _ _
    | with_reducible exact returnsSeriesLen_single _ _
    | with_reducible exact returnsLen_store _ _ _ _ (by assumption)
    | with_reducible exact returnsLenState_store _ _ _ _ _ (by assumption)
    | with_reducible apply returnsSeriesLen_array
    | with_reducible apply returnsSeriesLen_state
    | with_reducible apply returnsSeriesLen_bindLen
    | with_reducible apply returnsSeriesLen_bind
    | with_reducible apply returnsSeriesLen_iteH
    | with_reducible apply returnsSeriesLen_ok
    | with_reducible apply returnsLen_forLoop
    | with_reducible apply returnsLenState_forLoop
    | with_reducible apply returnsLen_bind
    | with_reducible apply returnsLenState_bind
    | with_reducible apply returnsLen_ite
    | with_reducible apply returnsLenState_ite
    | with_reducible apply returnsLen_store
    | intro _
    | assumption
    | simp_all [SeriesLen, makeSlice_length])

theorem keepsLen_fnIF (N : Nat) : KeepsLen N fnIF := by
  intro args md hargs
  rcases args with _ | ⟨a, _ | ⟨b, _ | ⟨c, _ | ⟨d, rest⟩⟩⟩⟩ <;> simp only [fnIF] <;>
    (try with_reducible exact returnsSeriesLen_error _ _)
  repeat' (first
    | with_reducible exact returnsSeriesLen_error _ _
    | with_reducible exact returnsSeriesLen_single _ _
    | with_reducible exact returnsLen_store _ _ _ _ (by assumption)
    | with_reducible exact returnsLenState_store _ _ _ _ _ (by assumption)
    | with_reducible apply returnsSeriesLen_array
    | with_reducible apply returnsSeriesLen_state
    | with_reducible apply returnsSeriesLen_bindLen
    | with_reducible apply returnsSeriesLen_bind
    | with_reducible apply returnsSeriesLen_iteH
    | with_reducible apply returnsSeriesLen_ok
    | with_reducible apply returnsLen_forLoop
    | with_reducible apply returnsLenState_forLoop
    | with_reducible apply returnsLen_bind
    | with_reducible apply returnsLenState_bind
    | with_reducible apply returnsLen_ite
    | with_reducible apply returnsLenState_ite
    | with_reducible apply returnsLen_store
    | intro _
    | assumption
    | simp_all [SeriesLen, makeSlice_length])

theorem keepsLen_fnCROSS (N : Nat) : KeepsLen N fnCROSS := by
  intro args md hargs
  rcases args with _ | ⟨a, _ | ⟨b, _ | ⟨c, _ | ⟨d, rest⟩⟩⟩⟩ <;> simp only [fnCROSS] <;>
    (try with_reducible exact returnsSeriesLen_error _ _)
  repeat' (first
    | with_reducible exact returnsSeriesLen_error _ _
    | with_reducible exact returnsSeriesLen_single _ _
    | with_reducible exact returnsLen_store _ _ _ _ (by assumption)
    | with_reducible exact returnsLenState_store _ _ _ _ _ (by assumption)
    | with_reducible apply returnsSeriesLen_array
    | with_reducible apply returnsSeriesLen_state
    | with_reducible apply returnsSeriesLen_bindLen
    | with_reducible apply returnsSeriesLen_bind
    | with_reducible apply returnsSeriesLen_iteH
    | with_reducible apply returnsSeriesLen_ok
    | with_reducible apply returnsLen_forLoop
    | with_reducible apply returnsLenState_forLoop
    | with_reducible apply returnsLen_bind
    | with_reducible apply returnsLenState_bind
    | with_reducible apply returnsLen_ite
    | with_reducible apply returnsLenState_ite
    | with_reducible apply returnsLen_store
    | intro _
    | assumption
    | simp_all [SeriesLen, makeSlice_length])

theorem keepsLen_fnSTD (N : Nat) : KeepsLen N fnSTD := by
  intro args md hargs
  rcases args with _ | ⟨a, _ | ⟨b, _ | ⟨c, _ | ⟨d, rest⟩⟩⟩⟩ <;> simp only [fnSTD] <;>
    (try with_reducible exact returnsSeriesLen_error _ _)
  repeat' (first
    | with_reducible exact returnsSeriesLen_error _ _
    | with_reducible exact returnsSeriesLen_single _ _
    | with_reducible exact returnsLen_store _ _ _ _ (by assumption)
    | with_reducible exact returnsLenState_store _ _ _ _ _ (by assumption)
    | with_reducible apply returnsSeriesLen_array
    | with_reducible apply returnsSeriesLen_state
    | with_reducible apply returnsSeriesLen_bindLen
    | with_reducible apply returnsSeriesLen_bind
    | with_reducible apply returnsSeriesLen_iteH
    | with_reducible apply returnsSeriesLen_ok
    | with_reducible apply returnsLen_forLoop
    | with_reducible apply returnsLenState_forLoop
    | with_reducible apply returnsLen_bind
    | with_reducible apply returnsLenState_bind
    | with_reducible apply returnsLen_ite
    | with_reducible apply returnsLenState_ite
    | with_reducible apply returnsLen_store
    | intro _
    | assumption
    | simp_all [SeriesLen, makeSlice_length])

theorem keepsLen_fnVAR (N : Nat) : KeepsLen N fnVAR := by
  intro args md hargs
  rcases args with _ | ⟨a, _ | ⟨b, _ | ⟨c, _ | ⟨d, rest⟩⟩⟩⟩ <;> simp only [fnVAR] <;>
    (try with_reducible exact returnsSeriesLen_error _ _)
  repeat' (first
    | with_reducible exact returnsSeriesLen_error _ _
    | with_reducible exact returnsSeriesLen_single _ _
    | with_reducible exact returnsLen_store _ _ _ _ (by assumption)
    | with_reducible exact returnsLenState_store _ _ _ _ _ (by assumption)
    | with_reducible apply returnsSeriesLen_array
    | with_reducible apply returnsSeriesLen_state
    | with_reducible apply returnsSeriesLen_bindLen
    | with_reducible apply returnsSeriesLen_bind
    | with_reducible apply returnsSeriesLen_iteH
    | with_reducible apply returnsSeriesLen_ok
    | with_reducible apply returnsLen_forLoop
    | with_reducible apply returnsLenState_forLoop
    | with_reducible apply returnsLen_bind
    | with_reducible apply returnsLenState_bind
    | with_reducible apply returnsLen_ite
    | with_reducible apply returnsLenState_ite
    | with_reducible apply returnsLen_store
    | intro _
    | assumption
    | simp_all [SeriesLen, makeSlice_length])

theorem keepsLen_fnWMA (N : Nat) : KeepsLen N fnWMA := by
  intro args md hargs
  rcases args with _ | ⟨a, _ | ⟨b, _ | ⟨c, _ | ⟨d, rest⟩⟩⟩⟩ <;> simp only [fnWMA] <;>
    (try with_reducible exact returnsSeriesLen_error _ _)
  repeat' (first
    | with_reducible exact returnsSeriesLen_error _ _
    | with_reducible exact returnsSeriesLen_single _ _
    | with_reducible exact returnsLen_store _ _ _ _ (by assumption)
    | with_reducible exact returnsLenState_store _ _ _ _ _ (by assumption)
    | with_reducible apply returnsSeriesLen_array
    | with_reducible apply returnsSeriesLen_state
    | with_reducible apply returnsSeriesLen_bindLen
    | with_reducible apply returnsSeriesLen_bind
    | with_reducible apply returnsSeriesLen_iteH
    | with_reducible apply returnsSeriesLen_ok
    | with_reducible apply returnsLen_forLoop
    | with_reducible apply returnsLenState_forLoop
    | with_reducible apply returnsLen_bind
    | with_reducible apply returnsLenState_bind
    | with_reducible apply returnsLen_ite
    | with_reducible apply returnsLenState_ite
    | with_reducible apply returnsLen_store
    | intro _
    | assumption
    | simp_all [SeriesLen, makeSlice_length])

theorem keepsLen_fnCOUNT (N : Nat) : KeepsLen N fnCOUNT := by
  intro args md hargs
  rcases args with _ | ⟨a, _ | ⟨b, _ | ⟨c, _ | ⟨d, rest⟩⟩⟩⟩ <;> simp only [fnCOUNT] <;>
    (try with_reducible exact returnsSeriesLen_error _ _)
  repeat' (first
    | with_reducible exact returnsSeriesLen_error _ _
    | with_reducible exact returnsSeriesLen_single _ _
    | with_reducible exact returnsLen_store _ _ _ _ (by assumption)
    | with_reducible exact returnsLenState_store _ _ _ _ _ (by assumption)
    | with_reducible apply returnsSeriesLen_array
    | with_reducible apply returnsSeriesLen_state
    | with_reducible apply returnsSeriesLen_bindLen
    | with_reducible apply returnsSeriesLen_bind
    | with_reducible apply returnsSeriesLen_iteH
    | with_reducible apply returnsSeriesLen_ok
    | with_reducible apply returnsLen_forLoop
    | with_reducible apply returnsLenState_forLoop
    | with_reducible apply returnsLen_bind
    | with_reducible apply returnsLenState_bind
    | with_reducible apply returnsLen_ite
    | with_reducible apply returnsLenState_ite
    | with_reducible apply returnsLen_store
    | intro _
    | assumption
    | simp_all [SeriesLen, makeSlice_length])

theorem keepsLen_fnEVERY (N : Nat) : KeepsLen N fnEVERY := by
  intro args md hargs
  rcases args with _ | ⟨a, _ | ⟨b, _ | ⟨c, _ | ⟨d, rest⟩⟩⟩⟩ <;> simp only [fnEVERY] <;>
    (try with_reducible exact returnsSeriesLen_error _ _)
  repeat' (first
    | with_reducible exact returnsSeriesLen_error _ _
    | with_reducible exact returnsSeriesLen_single _ _
    | with_reducible exact returnsLen_store _ _ _ _ (by assumption)
    | with_reducible exact returnsLenState_store _ _ _ _ _ (by assumption)
    | with_reducible apply returnsSeriesLen_array
    | with_reducible apply returnsSeriesLen_state
    | with_reducible apply returnsSeriesLen_bindLen
    | with_reducible apply returnsSeriesLen_bind
    | with_reducible apply returnsSeriesLen_iteH
    | with_reducible apply returnsSeriesLen_ok
    | with_reducible apply returnsLen_forLoop
    | with_reducible apply returnsLenState_forLoop
    | with_reducible apply returnsLen_bind
    | with_reducible apply returnsLenState_bind
    | with_reducible apply returnsLen_ite
    | with_reducible apply returnsLenState_ite
    | with_reducible apply returnsLen_store
    | intro _
    | assumption
    | simp_all [SeriesLen, makeSlice_length])

theorem keepsLen_fnEXIST (N : Nat) : KeepsLen N fnEXIST := by
  intro args md hargs
  rcases args with _ | ⟨a, _ | ⟨b, _ | ⟨c, _ | ⟨d, rest⟩⟩⟩⟩ <;> simp only [fnEXIST] <;>
    (try with_reducible exact returnsSeriesLen_error _ _)
  repeat' (first
    | with_reducible exact returnsSeriesLen_error _ _
    | with_reducible exact returnsSeriesLen_single _ _
    | with_reducible exact returnsLen_store _ _ _ _ (by assumption)
    | with_reducible exact returnsLenState_store _ _ _ _ _ (by assumption)
    | with_reducible apply returnsSeriesLen_array
    | with_reducible apply returnsSeriesLen_state
    | with_reducible apply returnsSeriesLen_bindLen
    | with_reducible apply returnsSeriesLen_bind
    | with_reducible apply returnsSeriesLen_iteH
    | with_reducible apply returnsSeriesLen_ok
    | with_reducible apply returnsLen_forLoop
    | with_reducible apply returnsLenState_forLoop
    | with_reducible apply returnsLen_bind
    | with_reducible apply returnsLenState_bind
    | with_reducible apply returnsLen_ite
    | with_reducible apply returnsLenState_ite
    | with_reducible apply returnsLen_store
    | intro _
    | assumption
    | simp_all [SeriesLen, makeSlice_length])

theorem keepsLen_fnBARSLAST (N : Nat) : KeepsLen N fnBARSLAST := by
  intro args md hargs
  rcases args with _ | ⟨a, _ | ⟨b, _ | ⟨c, _ | ⟨d, rest⟩⟩⟩⟩ <;> simp only [fnBARSLAST] <;>
    (try with_reducible exact returnsSeriesLen_error _ _)
  repeat' (first
    | with_reducible exact returnsSeriesLen_error _ _
    | with_reducible exact returnsSeriesLen_single _ _
    | with_reducible exact returnsLen_store _ _ _ _ (by assumption)
    | with_reducible exact returnsLenState_store _ _ _ _ _ (by assumption)
    | with_reducible apply returnsSeriesLen_array
    | with_reducible apply returnsSeriesLen_state
    | with_reducible apply returnsSeriesLen_bindLen
    | with_reducible apply returnsSeriesLen_bind
    | with_reducible apply returnsSeriesLen_iteH
    | with_reducible apply returnsSeriesLen_ok
    | with_reducible apply returnsLen_forLoop
    | with_reducible apply returnsLenState_forLoop
    | with_reducible apply returnsLen_bind
    | with_reducible apply returnsLenState_bind
    | with_reducible apply returnsLen_ite
    | with_reducible apply returnsLenState_ite
    | with_reducible apply returnsLen_store
    | intro _
    | assumption
    | simp_all [SeriesLen, makeSlice_length])

theorem keepsLen_fnAVEDEV (N : Nat) : KeepsLen N fnAVEDEV := by
  intro args md hargs
  rcases args with _ | ⟨a, _ | ⟨b, _ | ⟨c, _ | ⟨d, rest⟩⟩⟩⟩ <;> simp only [fnAVEDEV] <;>
    (try with_reducible exact returnsSeriesLen_error _ _)
  repeat' (first
    | with_reducible exact returnsSeriesLen_error _ _
    | with_reducible exact returnsSeriesLen_single _ _
    | with_reducible exact returnsLen_store _ _ _ _ (by assumption)
    | with_reducible exact returnsLenState_store _ _ _ _ _ (by assumption)
    | with_reducible apply returnsSeriesLen_array
    | with_reducible apply returnsSeriesLen_state
    | with_reducible apply returnsSeriesLen_bindLen
    | with_reducible apply returnsSeriesLen_bind
    | with_reducible apply returnsSeriesLen_iteH
    | with_reducible apply returnsSeriesLen_ok
    | with_reducible apply returnsLen_forLoop
    | with_reducible apply returnsLenState_forLoop
    | with_reducible apply returnsLen_bind
    | with_reducible apply returnsLenState_bind
    | with_reducible apply returnsLen_ite
    | with_reducible apply returnsLenState_ite
    | with_reducible apply returnsLen_store
    | intro _
    | assumption
    | simp_all [SeriesLen, makeSlice_length])

theorem keepsLen_fnFILTER (N : Nat) : KeepsLen N fnFILTER := by
  intro args md hargs
  rcases args with _ | ⟨a, _ | ⟨b, _ | ⟨c, _ | ⟨d, rest⟩⟩⟩⟩ <;> simp only [fnFILTER] <;>
    (try with_reducible exact returnsSeriesLen_error _ _)
  repeat' (first
    | with_reducible exact returnsSeriesLen_error _ _
    | with_reducible exact returnsSeriesLen_single _ _
    | with_reducible exact returnsLen_store _ _ _ _ (by assumption)
    | with_reducible exact returnsLenState_store _ _ _ _ _ (by assumption)
    | with_reducible apply returnsSeriesLen_array
    | with_reducible apply returnsSeriesLen_state
    | with_reducible apply returnsSeriesLen_bindLen
    | with_reducible apply returnsSeriesLen_bind
    | with_reducible apply returnsSeriesLen_iteH
    | with_reducible apply returnsSeriesLen_ok
    | with_reducible apply returnsLen_forLoop
    | with_reducible apply returnsLenState_forLoop
    | with_reducible apply returnsLen_bind
    | with_reducible apply returnsLenState_bind
    | with_reducible apply returnsLen_ite
    | with_reducible apply returnsLenState_ite
    | with_reducible apply returnsLen_store
    | intro _
    | assumption
    | simp_all [SeriesLen, makeSlice_length])

theorem keepsLen_fnBETWEEN (N : Nat) : KeepsLen N fnBETWEEN := by
  intro args md hargs
  rcases args with _ | ⟨a, _ | ⟨b, _ | ⟨c, _ | ⟨d, rest⟩⟩⟩⟩ <;> simp only [fnBETWEEN] <;>
    (try with_reducible exact returnsSeriesLen_error _ _)
  repeat' (first
    | with_reducible exact returnsSeriesLen_error _ _
    | with_reducible exact returnsSeriesLen_single _ _
    | with_reducible exact returnsLen_store _ _ _ _ (by assumption)
    | with_reducible exact returnsLenState_store _ _ _ _ _ (by assumption)
    | with_reducible apply returnsSeriesLen_array
    | with_reducible apply returnsSeriesLen_state
    | with_reducible apply returnsSeriesLen_bindLen
    | with_reducible apply returnsSeriesLen_bind
    | with_reducible apply returnsSeriesLen_iteH
    | with_reducible apply returnsSeriesLen_ok
    | with_reducible apply returnsLen_forLoop
    | with_reducible apply returnsLenState_forLoop
    | with_reducible apply returnsLen_bind
    | with_reducible apply returnsLenState_bind
    | with_reducible apply returnsLen_ite
    | with_reducible apply returnsLenState_ite
    | with_reducible apply returnsLen_store
    | intro _
    | assumption
    | simp_all [SeriesLen, makeSlice_length])

theorem keepsLen_fnSMA (N : Nat) : KeepsLen N fnSMA :=
  fun args md h => keepsLen_fnMA N args md h

theorem binaryOp_len (N : Nat) (op : BinaryOperator) (l r : Value) (hl : SeriesLen N l)
    (hr : SeriesLen N r) : ReturnsSeriesLen N (binaryOp op l r) := by
  simp only [binaryOp, binaryOpArrayArray, binaryOpArrayScalar, binaryOpScalarArray]
  have hs : ∀ a b, ReturnsSeriesLen N (binaryOpScalarScalar op a b) := by
    intro a b v hv
    cases op <;> simp only [binaryOpScalarScalar] at hv <;>
      first
        | exact returnsSeriesLen_single N _ v hv
        | (split_ifs at hv
           exact returnsSeriesLen_single N _ v hv)
        | cases hv
  repeat' (first
    | with_reducible exact returnsSeriesLen_error _ _
    | with_reducible exact returnsLen_store _ _ _ _ (by assumption)
    | with_reducible exact hs _ _
    | with_reducible apply returnsSeriesLen_array
    | with_reducible apply returnsSeriesLen_iteH
    | with_reducible apply returnsLen_forLoop
    | with_reducible apply returnsLen_bind
    | with_reducible apply returnsLen_store
    | intro _
    | assumption
    | simp_all [SeriesLen, makeSlice_length])

theorem unaryOp_len (N : Nat) (op : UnaryOperator) (v : Value) (hv : SeriesLen N v) :
    ReturnsSeriesLen N (unaryOp op v) := by
  simp only [unaryOp]
  repeat' (first
    | with_reducible exact returnsSeriesLen_error _ _
    | with_reducible exact returnsSeriesLen_single _ _
    | with_reducible exact returnsLen_store _ _ _ _ (by assumption)
    | with_reducible apply returnsSeriesLen_array
    | with_reducible apply returnsSeriesLen_iteH
    | with_reducible apply returnsLen_forLoop
    | with_reducible apply returnsLen_bind
    | with_reducible apply returnsLen_store
    | intro _
    | assumption
    | simp_all [SeriesLen, makeSlice_length])

/-- Every registered built-in keeps the length of its series arguments. -/
theorem registry_keepsLen (N : Nat) :
    ∀ e ∈ NewFunctionRegistry.functions, KeepsLen N e.2 := by
  intro e he
  simp only [NewFunctionRegistry, FunctionRegistry.registerBuiltinFunctions,
    FunctionRegistry.Register, List.mem_cons, List.mem_nil_iff, or_false] at he
  rcases he with h | h | h | h | h | h | h | h | h | h | h | h | h | h | h | h | h | h | h | h |
    h | h | h <;> rw [h]
  · exact keepsLen_fnBETWEEN N
  · exact keepsLen_fnFILTER N
  · exact keepsLen_fnAVEDEV N
  · exact keepsLen_fnBARSLAST N
  · exact keepsLen_fnEXIST N
  · exact keepsLen_fnEVERY N
  · exact keepsLen_fnCOUNT N
  · exact keepsLen_fnWMA N
  · exact keepsLen_fnSMA N
  · exact keepsLen_fnVAR N
  · exact keepsLen_fnSTD N
  · exact keepsLen_fnCROSS N
  · exact keepsLen_fnIF N
  · exact keepsLen_fnLLV N
  · exact keepsLen_fnHHV N
  · exact keepsLen_fnREF N
  · exact keepsLen_fnSQRT N
  · exact keepsLen_fnABS N
  · exact keepsLen_fnMIN N
  · exact keepsLen_fnMAX N
  · exact keepsLen_fnSUM N
  · exact keepsLen_fnEMA N
  · exact keepsLen_fnMA N

theorem mem_of_lookup {β : Type} (l : List (String × β)) (n : String) (v : β)
    (h : l.lookup n = some v) : (n, v) ∈ l := by
  induction l with
  | nil => cases h
  | cons a rest ih =>
    obtain ⟨k, w⟩ := a
    by_cases hk : n = k
    · subst hk
      simp only [List.lookup, beq_self_eq_true, Option.some.injEq] at h
      rw [h]
      exact List.mem_cons_self _ _
    · have hbeq : (n == k) = false := by simpa using hk
      simp only [List.lookup, hbeq] at h
      exact List.mem_cons_of_mem _ (ih h)

theorem call_len (N : Nat) (r : FunctionRegistry) (hr : ∀ e ∈ r.functions, KeepsLen N e.2)
    (name : String) (args : List Value) (md : List MarketData)
    (hargs : ∀ a ∈ args, SeriesLen N a) : ReturnsSeriesLen N (r.Call name args md) := by
  simp only [FunctionRegistry.Call]
  cases hl : r.functions.lookup (goToUpper name) with
  | none => exact returnsSeriesLen_error _ _
  | some fn => exact hr _ (mem_of_lookup _ _ _ hl) args md hargs

mutual

/-- Every series an expression evaluates to has as many entries as the series bound in the
environment. -/
theorem evaluateExpression_len (N : Nat) (interp : Interpreter)
    (hv : ∀ e ∈ interp.vars, SeriesLen N e.2)
    (hf : ∀ e ∈ interp.functions.functions, KeepsLen N e.2) :
    ∀ (e : Expression), ReturnsSeriesLen N (interp.evaluateExpression e)
  | .NumberLiteral x => by
    simp only [Interpreter.evaluateExpression]
    exact returnsSeriesLen_single N x
  | .Identifier n => by
    simp only [Interpreter.evaluateExpression, Interpreter.evaluateIdentifier]
    cases hl : interp.vars.lookup n with
    | none => exact returnsSeriesLen_error _ _
    | some v => exact returnsSeriesLen_ok N v (hv _ (mem_of_lookup _ _ _ hl))
  | .BinaryExpression l op r => by
    simp only [Interpreter.evaluateExpression]
    cases h1 : interp.evaluateExpression l with
    | error e => exact returnsSeriesLen_error _ _
    | ok lv =>
      cases h2 : interp.evaluateExpression r with
      | error e => exact returnsSeriesLen_error _ _
      | ok rv =>
        exact binaryOp_len N op lv rv (evaluateExpression_len N interp hv hf l lv h1)
          (evaluateExpression_len N interp hv hf r rv h2)
  | .UnaryExpression op e => by
    simp only [Interpreter.evaluateExpression]
    cases h1 : interp.evaluateExpression e with
    | error e => exact returnsSeriesLen_error _ _
    | ok v => exact unaryOp_len N op v (evaluateExpression_len N interp hv hf e v h1)
  | .FunctionCall name args => by
    simp only [Interpreter.evaluateExpression]
    cases h1 : interp.evaluateArguments args with
    | error e => exact returnsSeriesLen_error _ _
    | ok vs =>
      exact call_len N interp.functions hf name vs interp.marketData
        (evaluateArguments_len N interp hv hf args vs h1)
  | .ConditionalExpression _ _ _ => by
    simp only [Interpreter.evaluateExpression]
    exact returnsSeriesLen_error _ _

/-- See `evaluateExpression_len`. -/
theorem evaluateArguments_len (N : Nat) (interp : Interpreter)
    (hv : ∀ e ∈ interp.vars, SeriesLen N e.2)
    (hf : ∀ e ∈ interp.functions.functions, KeepsLen N e.2) :
    ∀ (args : List Expression) (vs : List Value), interp.evaluateArguments args = .ok vs →
      ∀ a ∈ vs, SeriesLen N a
  | [], vs, h => by
    simp only [Interpreter.evaluateArguments, Except.ok.injEq] at h
    subst h
    intro a ha
    cases ha
  | e :: rest, vs, h => by
    simp only [Interpreter.evaluateArguments] at h
    cases h1 : interp.evaluateExpression e with
    | error err => rw [h1] at h; cases h
    | ok v =>
      rw [h1] at h
      cases h2 : interp.evaluateArguments rest with
      | error err => rw [h2] at h; cases h
      | ok ws =>
        rw [h2] at h
        simp only [Except.ok.injEq] at h
        subst h
        intro a ha
        rcases List.mem_cons.mp ha with h3 | h3
        · rw [h3]
          exact evaluateExpression_len N interp hv hf e v h1
        · exact evaluateArguments_len N interp hv hf rest ws h2 a h3

end

theorem startState_len (md : List MarketData) :
    (∀ e ∈ (startState md).vars, SeriesLen md.length e.2) ∧
    (startState md).functions = NewFunctionRegistry := by
  by_cases h : md.length = 0
  · simp [startState, Interpreter.initMarketDataVariables, NewInterpreter, h]
  · constructor
    · intro e he
      simp only [startState, Interpreter.initMarketDataVariables, NewInterpreter, h, if_false,
        Interpreter.setVariable, List.mem_cons, List.mem_nil_iff, or_false] at he
      rcases he with h1 | h1 | h1 | h1 | h1 | h1 <;> rw [h1] <;> intro _ <;>
        simp [NewArrayValue]
    · simp [startState, Interpreter.initMarketDataVariables, NewInterpreter, h,
        Interpreter.setVariable]

/-- The statements of a run keep every bound series at the length of the bars. -/
theorem executeStatements_len (N : Nat) (stmts : List Statement) :
    ∀ interp interp1 : Interpreter, interp.executeStatements stmts = (interp1, none) →
      (∀ e ∈ interp.vars, SeriesLen N e.2) →
      (∀ e ∈ interp.functions.functions, KeepsLen N e.2) →
      (∀ e ∈ interp1.vars, SeriesLen N e.2) ∧ interp1.functions = interp.functions := by
  induction stmts with
  | nil =>
    intro interp interp1 h hv _
    simp only [Interpreter.executeStatements, Prod.mk.injEq, and_true] at h
    subst h
    exact ⟨hv, rfl⟩
  | cons stmt rest ih =>
    intro interp interp1 h hv hf
    simp only [Interpreter.executeStatements] at h
    cases hs : interp.executeStatement stmt with
    | error err => rw [hs] at h; simp at h
    | ok interp2 =>
      rw [hs] at h
      simp only at h
      obtain ⟨name, e, recorded, v, _, hev, h2⟩ := executeStatement_ok interp interp2 stmt hs
      have hvars : interp2.vars = (name, v) :: interp.vars := by rw [h2]; rfl
      have hfn : interp2.functions = interp.functions := by rw [h2]; rfl
      have hv2 : ∀ e ∈ interp2.vars, SeriesLen N e.2 := by
        intro x hx
        rw [hvars] at hx
        rcases List.mem_cons.mp hx with h3 | h3
        · rw [h3]
          exact evaluateExpression_len N interp hv hf e v hev
        · exact hv x h3
      obtain ⟨i1, i2⟩ := ih interp2 interp1 h hv2 (by rw [hfn]; exact hf)
      exact ⟨i1, by rw [i2, hfn]⟩

/-- The output lines `buildResult` adds hold series bound in the environment. -/
theorem buildResult_len (N : Nat) (vars : List (String × Value))
    (hv : ∀ e ∈ vars, SeriesLen N e.2) :
    ∀ (names : List String) (acc result : FormulaResult),
      (∀ l ∈ acc.Outputs, l.Data.length = N) →
      names.foldlM (fun (result : FormulaResult) name =>
        match vars.lookup name with
        | none => (.error (.goPanic "nil pointer dereference") : Res FormulaResult)
        | some value =>
          if value.IsArray then .ok (result.AddOutput name value.Array none)
          else .ok (result.SetVariable name value.Single)) acc = .ok result →
      ∀ l ∈ result.Outputs, l.Data.length = N := by
  intro names
  induction names with
  | nil =>
    intro acc result hacc h
    simp only [List.foldlM, pure, Except.pure, Except.ok.injEq] at h
    subst h
    exact hacc
  | cons name rest ih =>
    intro acc result hacc h
    simp only [List.foldlM] at h
    cases hl : vars.lookup name with
    | none =>
      rw [hl] at h
      cases h
    | some value =>
      rw [hl] at h
      by_cases ha : value.IsArray = true
      · simp only [ha, if_true] at h
        refine ih _ result ?_ h
        intro l hl2
        simp only [FormulaResult.AddOutput, List.mem_append, List.mem_singleton] at hl2
        rcases hl2 with h3 | h3
        · exact hacc l h3
        · rw [h3]
          exact hv _ (mem_of_lookup _ _ _ hl) ha
      · simp only [ha, Bool.false_eq_true, if_false] at h
        exact ih _ result (by simpa [FormulaResult.SetVariable] using hacc) h

/-- C23.  After any statements that ran successfully over the bars `md`, every series bound in
the environment has one entry per bar, every series that any expression evaluates to in that
environment (with the built-in registry) has one entry per bar, and every output line of a
successful run of the statements has one entry per bar. -/
theorem C23_series_length (md : List MarketData) (stmts : List Statement)
    (interp : Interpreter) (hrun : (startState md).executeStatements stmts = (interp, none)) :
    (∀ e ∈ interp.vars, e.2.IsArray = true → e.2.Array.length = md.length) ∧
    (∀ (e : Expression) (v : Value), interp.evaluateExpression e = .ok v →
      v.IsArray = true → v.Array.length = md.length) ∧
    (∀ result : FormulaResult, Execute { Body := stmts } md = .ok result →
      ∀ l ∈ result.Outputs, l.Data.length = md.length) := by
  obtain ⟨h0, hf0⟩ := startState_len md
  have hreg : ∀ e ∈ (startState md).functions.functions, KeepsLen md.length e.2 := by
    rw [hf0]
    exact registry_keepsLen md.length
  obtain ⟨h1, h2⟩ := executeStatements_len md.length stmts _ _ hrun h0 hreg
  refine ⟨h1, fun e v hev => ?_, fun result hres => ?_⟩
  · exact evaluateExpression_len md.length interp h1 (by rw [h2]; exact hreg) e v hev
  · rw [execute_eq, hrun] at hres
    exact buildResult_len md.length interp.vars h1 interp.userVars NewFormulaResult result
      (by simp [NewFormulaResult]) hres

/-- A witness for C23: the series `A - LOW` evaluates to after `A := CLOSE - OPEN` ran over
the ten test bars. -/
theorem C23_series_length_witness :
    ((startState exampleBars).executeStatements
      [.VariableDeclaration "A"
        (.BinaryExpression (.Identifier "CLOSE") .OpMinus (.Identifier "OPEN"))]).1.evaluateExpression
          (.BinaryExpression (.Identifier "A") .OpMinus (.Identifier "LOW")) =
      .ok (NewArrayValue (exampleBars.map (fun d => F64.sub (F64.sub d.Close d.Open) d.Low))) ∧
    (NewArrayValue (exampleBars.map
      (fun d => F64.sub (F64.sub d.Close d.Open) d.Low))).Array.length = exampleBars.length :=
  ⟨isOkWith_sound _ _ (by decide!),
    (C23_series_length exampleBars
      [.VariableDeclaration "A"
        (.BinaryExpression (.Identifier "CLOSE") .OpMinus (.Identifier "OPEN"))]
      ((startState exampleBars).executeStatements
        [.VariableDeclaration "A"
          (.BinaryExpression (.Identifier "CLOSE") .OpMinus (.Identifier "OPEN"))]).1
      (by rfl)).2.1 (.BinaryExpression (.Identifier "A") .OpMinus (.Identifier "LOW")) _
        (isOkWith_sound _ _ (by decide!)) rfl⟩

/-! ### The lexer -/

theorem consumes_one (l : Lexer) (c : Char) (r : List Char) (ty : TokenType) (v : String)
    (hr : l.rest = c :: r) (hc : c ≠ '\n') (hv : v = String.mk [c]) (h1 : ty ≠ .EOF)
    (h2 : ty ≠ .NEWLINE) :
    ∃ w t, Consumes l (l.advance.addToken ty v) w t ∧ t.Typ = ty := by
  refine ⟨[c], { Typ := ty, Value := v, Line := l.line, Column := l.column }, ?_, rfl⟩
  subst hv
  simp only [Consumes, Lexer.advance, hr, Lexer.addToken, List.singleton_append,
    List.length_singleton, Nat.cast_one, true_and, ne_eq, List.cons_ne_self, not_false_eq_true,
    List.mem_singleton, forall_eq, hc, h1, h2, and_true, List.append_cancel_left_eq,
    List.cons.injEq, Token.mk.injEq]
  have h3 : (String.mk [c]).length = 1 := rfl
  rw [h3]
  omega

theorem consumes_two (l : Lexer) (c d : Char) (r : List Char) (ty : TokenType) (v : String)
    (hr : l.rest = c :: d :: r) (hc : c ≠ '\n') (hd : d ≠ '\n') (hv : v = String.mk [c, d])
    (h1 : ty ≠ .EOF) (h2 : ty ≠ .NEWLINE) :
    ∃ w t, Consumes l (l.advance.advance.addToken ty v) w t ∧ t.Typ = ty := by
  refine ⟨[c, d], { Typ := ty, Value := v, Line := l.line, Column := l.column }, ?_, rfl⟩
  subst hv
  simp only [Consumes, Lexer.advance, hr, Lexer.addToken, List.cons_append, List.nil_append,
    List.length_cons, List.length_nil, true_and, ne_eq, not_false_eq_true,
    List.mem_cons, List.mem_nil_iff, or_false, forall_eq_or_imp, forall_eq, hc, hd, h1, h2,
    and_true, List.append_cancel_left_eq, List.cons.injEq, Token.mk.injEq, reduceCtorEq]
  have h3 : (String.mk [c, d]).length = 2 := rfl
  rw [h3]
  push_cast
  omega

theorem peek_cons (l : Lexer) (c : Char) (r : List Char) (hr : l.rest = c :: r) :
    l.peek = c ∧ l.isAtEnd = false ∧ l.advance.rest = r ∧
      l.advance.isAtEnd = r.isEmpty ∧ l.advance.peek = r.headD (Char.ofNat 0) := by
  simp [Lexer.peek, Lexer.isAtEnd, Lexer.advance, hr]

theorem ok_one (l : Lexer) (c : Char) (r : List Char) (ty : TokenType) (v : String)
    (hr : l.rest = c :: r) (hc : c ≠ '\n') (hv : v = String.mk [c]) (h1 : ty ≠ .EOF)
    (h2 : ty ≠ .NEWLINE) (h3 : ty ≠ .NUMBER) :
    ∃ l1 w t, (Except.ok (l.advance.addToken ty v) : Res Lexer) = .ok l1 ∧ Consumes l l1 w t ∧
      t.Typ ≠ .NUMBER := by
  obtain ⟨w, t, h, ht⟩ := consumes_one l c r ty v hr hc hv h1 h2
  exact ⟨_, w, t, rfl, h, by rw [ht]; exact h3⟩

theorem ok_two (l : Lexer) (c d : Char) (r : List Char) (ty : TokenType) (v : String)
    (hr : l.rest = c :: d :: r) (hc : c ≠ '\n') (hd : d ≠ '\n') (hv : v = String.mk [c, d])
    (h1 : ty ≠ .EOF) (h2 : ty ≠ .NEWLINE) (h3 : ty ≠ .NUMBER) :
    ∃ l1 w t, (Except.ok (l.advance.advance.addToken ty v) : Res Lexer) = .ok l1 ∧
      Consumes l l1 w t ∧ t.Typ ≠ .NUMBER := by
  obtain ⟨w, t, h, ht⟩ := consumes_two l c d r ty v hr hc hd hv h1 h2
  exact ⟨_, w, t, rfl, h, by rw [ht]; exact h3⟩

/-- An operator byte that is a token by itself whatever follows. -/
theorem scanOperator_single (l : Lexer) (c : Char) (r : List Char) (hr : l.rest = c :: r)
    (hc : c = '+' ∨ c = '-' ∨ c = '*' ∨ c = '/' ∨ c = '(' ∨ c = ')' ∨ c = ',' ∨ c = ';') :
    ∃ l1 w t, l.scanOperator = .ok l1 ∧ Consumes l l1 w t ∧ t.Typ ≠ .NUMBER := by
  obtain ⟨p1, p2, p3, p4, p5⟩ := peek_cons l c r hr
  rcases hc with h | h | h | h | h | h | h | h <;> subst h <;>
    simp only [Lexer.scanOperator, p1, Char.reduceEq, if_true, if_false, reduceIte]
  · exact ok_one l _ r _ _ hr (by decide) rfl (by decide) (by decide) (by decide)
  · exact ok_one l _ r _ _ hr (by decide) rfl (by decide) (by decide) (by decide)
  · exact ok_one l _ r _ _ hr (by decide) rfl (by decide) (by decide) (by decide)
  · exact ok_one l _ r _ _ hr (by decide) rfl (by decide) (by decide) (by decide)
  · exact ok_one l _ r _ _ hr (by decide) rfl (by decide) (by decide) (by decide)
  · exact ok_one l _ r _ _ hr (by decide) rfl (by decide) (by decide) (by decide)
  · exact ok_one l _ r _ _ hr (by decide) rfl (by decide) (by decide) (by decide)
  · exact ok_one l _ r _ _ hr (by decide) rfl (by decide) (by decide) (by decide)

theorem advance_line (l : Lexer) : l.advance.line = l.line := by
  unfold Lexer.advance
  cases l.rest <;> rfl

/-- An operator byte that may take a second byte. -/
theorem scanOperator_compound (l : Lexer) (c : Char) (r : List Char) (hr : l.rest = c :: r)
    (hc : c = ':' ∨ c = '>' ∨ c = '<' ∨ c = '=') :
    ∃ l1 w t, l.scanOperator = .ok l1 ∧ Consumes l l1 w t ∧ t.Typ ≠ .NUMBER := by
  obtain ⟨p1, p2, p3, p4, p5⟩ := peek_cons l c r hr
  cases r with
  | nil =>
    rcases hc with h | h | h | h <;> subst h <;>
      simp only [Lexer.scanOperator, p1, p4, Char.reduceEq, if_true, if_false, reduceIte,
        List.isEmpty_nil, Bool.not_true, Bool.false_eq_true, false_and] <;>
      exact ok_one l _ [] _ _ hr (by decide) rfl (by decide) (by decide) (by decide)
  | cons d r1 =>
    have q4 : l.advance.isAtEnd = false := by rw [p4]; rfl
    have q5 : l.advance.peek = d := by rw [p5]; rfl
    by_cases hd : d = '='
    · subst hd
      rcases hc with h | h | h | h <;> subst h <;>
        simp only [Lexer.scanOperator, p1, q4, q5, Char.reduceEq, if_true, if_false, reduceIte,
          Bool.not_false, true_and] <;>
        exact ok_two l _ _ r1 _ _ hr (by decide) (by decide) rfl (by decide) (by decide) (by decide)
    · by_cases hg : d = '>'
      · subst hg
        rcases hc with h | h | h | h <;> subst h <;>
          simp only [Lexer.scanOperator, p1, q4, q5, Char.reduceEq, if_true, if_false,
            reduceIte, Bool.not_false, true_and, and_false, and_true]
        · exact ok_one l _ _ _ _ hr (by decide) rfl (by decide) (by decide) (by decide)
        · exact ok_one l _ _ _ _ hr (by decide) rfl (by decide) (by decide) (by decide)
        · exact ok_two l _ _ r1 _ _ hr (by decide) (by decide) rfl (by decide) (by decide) (by decide)
        · exact ok_one l _ _ _ _ hr (by decide) rfl (by decide) (by decide) (by decide)
      · rcases hc with h | h | h | h <;> subst h <;>
          simp only [Lexer.scanOperator, p1, q4, q5, Char.reduceEq, if_true, if_false,
            reduceIte, Bool.not_false, true_and, hd, hg, and_false] <;>
          exact ok_one l _ _ _ _ hr (by decide) rfl (by decide) (by decide) (by decide)

/-- The byte `!`. -/
theorem scanOperator_bang (l : Lexer) (r : List Char) (hr : l.rest = '!' :: r) :
    (r.head? = some '=' →
      ∃ l1 w t, l.scanOperator = .ok l1 ∧ Consumes l l1 w t ∧ t.Typ ≠ .NUMBER) ∧
    (r.head? ≠ some '=' →
      l.scanOperator = .error (.lexer "unexpected character" l.line l.column "!")) := by
  obtain ⟨p1, p2, p3, p4, p5⟩ := peek_cons l '!' r hr
  cases r with
  | nil =>
    refine ⟨fun h => by simp at h, fun _ => ?_⟩
    simp only [Lexer.scanOperator, p1, p4, Char.reduceEq, if_true, if_false, reduceIte,
      List.isEmpty_nil, Bool.not_true, Bool.false_eq_true, false_and, advance_line]
    rfl
  | cons d r1 =>
    have q4 : l.advance.isAtEnd = false := by rw [p4]; rfl
    have q5 : l.advance.peek = d := by rw [p5]; rfl
    constructor
    · intro h
      have hd : d = '=' := by simpa using h
      subst hd
      simp only [Lexer.scanOperator, p1, q4, q5, Char.reduceEq, if_true, if_false, reduceIte,
        Bool.not_false, true_and]
      exact ok_two l _ _ r1 _ _ hr (by decide) (by decide) rfl (by decide) (by decide) (by decide)
    · intro h
      have hd : ¬ d = '=' := by simpa using h
      simp only [Lexer.scanOperator, p1, q4, q5, Char.reduceEq, if_true, if_false, reduceIte,
        Bool.not_false, true_and, hd, advance_line]
      rfl

/-- A byte that starts no token. -/
theorem scanOperator_other (l : Lexer) (c : Char) (r : List Char) (hr : l.rest = c :: r)
    (hs : startsToken c = false) :
    l.scanOperator = .error (.lexer ("unexpected character: " ++ String.mk (utf8Bytes c))
      l.line l.column (String.mk (utf8Bytes c))) := by
  obtain ⟨p1, p2, p3, p4, p5⟩ := peek_cons l c r hr
  simp only [startsToken, Bool.or_eq_false_iff, decide_eq_false_iff_not] at hs
  obtain ⟨⟨⟨⟨⟨⟨⟨⟨⟨⟨⟨⟨⟨⟨⟨_, _⟩, _⟩, h1⟩, h2⟩, h3⟩, h4⟩, h5⟩, h6⟩, h7⟩, h8⟩, h9⟩, h10⟩, h11⟩,
    h12⟩, h13⟩ := hs
  simp only [Lexer.scanOperator, p1, h1, h2, h3, h4, h5, h6, h7, h8, h9, h10, h11, h12, h13,
    if_false, advance_line]

/-- The state `scanNumber` leaves: it passes over the number literal at the start of the
input. -/
theorem scanNumber_rest (l : Lexer) :
    ∃ l1 t, l.scanNumber = .ok l1 ∧ l.rest = numberLiteral l.rest ++ l1.rest ∧
      l1.line = l.line ∧ l1.column = l.column + ((numberLiteral l.rest).length : Nat) ∧
      l1.tokens = l.tokens ++ [t] ∧
      t = { Typ := .NUMBER, Value := String.mk (numberLiteral l.rest), Line := l.line,
            Column := l.column } := by
  have htd := List.takeWhile_append_dropWhile Lexer.isDigit l.rest
  simp only [Lexer.scanNumber, Lexer.advanceWhile, numberLiteral]
  cases h1 : l.rest.dropWhile Lexer.isDigit with
  | nil =>
    rw [h1] at htd
    simp [Lexer.isAtEnd, fracExpLiteral, h1]
    simpa using htd.symm
  | cons d r1 =>
    rw [h1] at htd
    by_cases hdot : d = '.'
    · subst hdot
      have htd2 := List.takeWhile_append_dropWhile Lexer.isDigit r1
      cases h2 : r1.dropWhile Lexer.isDigit with
      | nil =>
        rw [h2] at htd2
        rw [← htd2] at htd
        simp [Lexer.isAtEnd, Lexer.peek, Lexer.advance, fracExpLiteral, expLiteral, h1, h2]
        exact ⟨by simpa using htd.symm, by omega⟩
      | cons e r2 =>
        rw [h2] at htd2
        rw [← htd2] at htd
        by_cases he : e = 'e' ∨ e = 'E'
        · cases r2 with
          | nil =>
            simp [Lexer.isAtEnd, Lexer.peek, Lexer.advance, fracExpLiteral, expLiteral,
              signDigits, h1, h2, he]
            exact ⟨by simpa using htd.symm, by omega⟩
          | cons s r3 =>
            have htd3 := List.takeWhile_append_dropWhile Lexer.isDigit r3
            have htd4 := List.takeWhile_append_dropWhile Lexer.isDigit (s :: r3)
            by_cases hs : s = '+' ∨ s = '-'
            · rw [← htd3] at htd
              simp [Lexer.isAtEnd, Lexer.peek, Lexer.advance, fracExpLiteral, expLiteral,
                signDigits, h1, h2, he, hs]
              exact ⟨by simpa using htd.symm, by omega⟩
            · rw [← htd4] at htd
              simp [Lexer.isAtEnd, Lexer.peek, Lexer.advance, fracExpLiteral, expLiteral,
                signDigits, h1, h2, he, hs]
              exact ⟨by simpa using htd.symm, by omega⟩
        · simp [Lexer.isAtEnd, Lexer.peek, Lexer.advance, fracExpLiteral, expLiteral,
            signDigits, h1, h2, he]
          exact ⟨by simpa using htd.symm, by omega⟩
    · by_cases he : d = 'e' ∨ d = 'E'
      · cases r1 with
        | nil =>
          simp [Lexer.isAtEnd, Lexer.peek, Lexer.advance, fracExpLiteral, expLiteral,
            signDigits, h1, hdot, he]
          exact ⟨by simpa using htd.symm, by omega⟩
        | cons s r3 =>
          have htd3 := List.takeWhile_append_dropWhile Lexer.isDigit r3
          have htd4 := List.takeWhile_append_dropWhile Lexer.isDigit (s :: r3)
          by_cases hs : s = '+' ∨ s = '-'
          · rw [← htd3] at htd
            simp [Lexer.isAtEnd, Lexer.peek, Lexer.advance, fracExpLiteral, expLiteral,
              signDigits, h1, hdot, he, hs]
            exact ⟨by simpa using htd.symm, by omega⟩
          · rw [← htd4] at htd
            simp [Lexer.isAtEnd, Lexer.peek, Lexer.advance, fracExpLiteral, expLiteral,
              signDigits, h1, hdot, he, hs]
            exact ⟨by simpa using htd.symm, by omega⟩
      · simp [Lexer.isAtEnd, Lexer.peek, Lexer.advance, fracExpLiteral, expLiteral,
          signDigits, h1, hdot, he]
        simpa using htd.symm

theorem takeWhile_digit_no_newline (r : List Char) :
    ∀ c ∈ r.takeWhile Lexer.isDigit, c ≠ '\n' := by
  intro c hc
  have h := List.mem_takeWhile_imp hc
  intro he
  subst he
  simp [Lexer.isDigit] at h

theorem signDigits_no_newline (r : List Char) : ∀ c ∈ signDigits r, c ≠ '\n' := by
  intro c hc
  cases r with
  | nil => simp [signDigits] at hc
  | cons s r1 =>
    simp only [signDigits] at hc
    split_ifs at hc with hs
    · rcases List.mem_cons.mp hc with h | h
      · rw [h]
        rcases hs with h2 | h2 <;> rw [h2] <;> decide
      · exact takeWhile_digit_no_newline _ c h
    · exact takeWhile_digit_no_newline _ c hc

theorem expLiteral_no_newline (r : List Char) : ∀ c ∈ expLiteral r, c ≠ '\n' := by
  intro c hc
  cases r with
  | nil => simp [expLiteral] at hc
  | cons e r1 =>
    simp only [expLiteral] at hc
    split_ifs at hc with he
    · rcases List.mem_cons.mp hc with h | h
      · rw [h]
        rcases he with h2 | h2 <;> rw [h2] <;> decide
      · exact signDigits_no_newline _ c h
    · simp at hc

theorem fracExpLiteral_no_newline (r : List Char) : ∀ c ∈ fracExpLiteral r, c ≠ '\n' := by
  intro c hc
  cases r with
  | nil => simp [fracExpLiteral] at hc
  | cons d r1 =>
    simp only [fracExpLiteral] at hc
    split_ifs at hc with hd
    · rcases List.mem_cons.mp hc with h | h
      · rw [h, hd]
        decide
      · rcases List.mem_append.mp h with h2 | h2
        · exact takeWhile_digit_no_newline _ c h2
        · exact expLiteral_no_newline _ c h2
    · exact expLiteral_no_newline _ c hc

theorem numberLiteral_no_newline (r : List Char) : ∀ c ∈ numberLiteral r, c ≠ '\n' := by
  intro c hc
  rcases List.mem_append.mp hc with h | h
  · exact takeWhile_digit_no_newline _ c h
  · exact fracExpLiteral_no_newline _ c h

theorem numberLiteral_ne_nil (c : Char) (r : List Char) (hc : Lexer.isDigit c = true) :
    numberLiteral (c :: r) ≠ [] := by
  simp [numberLiteral, List.takeWhile, hc]

/-- On input that starts with a digit `scanNumber` appends one NUMBER token whose literal is
the number literal at the start of the input. -/
theorem scanNumber_consumes (l : Lexer) (c : Char) (r : List Char) (hr : l.rest = c :: r)
    (hc : Lexer.isDigit c = true) :
    ∃ l1 t, l.scanNumber = .ok l1 ∧ Consumes l l1 (numberLiteral l.rest) t ∧
      t.Typ = .NUMBER := by
  obtain ⟨l1, t, h1, h2, h3, h4, h5, h6⟩ := scanNumber_rest l
  refine ⟨l1, t, h1, ⟨h2, h3, h4, h5, ?_, ?_, ?_, ?_, numberLiteral_no_newline _, ?_, ?_⟩, ?_⟩
  all_goals (try (rw [h6]; done))
  · rw [hr]; exact numberLiteral_ne_nil c r hc
  · rw [h6]; simp
  · rw [h6]; simp

theorem getKeywordType_cases (u : String) :
    Lexer.getKeywordType u ≠ .EOF ∧ Lexer.getKeywordType u ≠ .NEWLINE ∧
      Lexer.getKeywordType u ≠ .NUMBER := by
  unfold Lexer.getKeywordType
  split_ifs <;> simp

/-- On input that starts with a letter or an underscore `scanIdentifier` appends one token
whose literal is the longest run of letters, digits and underscores. -/
theorem scanIdentifier_consumes (l : Lexer) (c : Char) (r : List Char) (hr : l.rest = c :: r)
    (hc : Lexer.isLetter c = true ∨ c = '_') :
    ∃ l1 t, l.scanIdentifier = .ok l1 ∧
      Consumes l l1 (l.rest.takeWhile
        (fun ch => Lexer.isLetter ch ∨ Lexer.isDigit ch ∨ ch = '_')) t ∧
      t.Typ ≠ .NUMBER := by
  have htd := List.takeWhile_append_dropWhile
    (fun ch => decide (Lexer.isLetter ch = true ∨ Lexer.isDigit ch = true ∨ ch = '_')) l.rest
  refine ⟨_, _, rfl, ⟨?_, rfl, rfl, rfl, rfl, rfl, rfl, ?_, ?_, ?_, ?_⟩, ?_⟩
  · exact htd.symm
  · rw [hr]
    have : decide (Lexer.isLetter c = true ∨ Lexer.isDigit c = true ∨ c = '_') = true := by
      rcases hc with h | h
      · simp [h]
      · simp [h]
    simp [List.takeWhile, this]
  · intro x hx
    have h := List.mem_takeWhile_imp hx
    intro he
    subst he
    simp [Lexer.isLetter, Lexer.isDigit] at h
  · exact (getKeywordType_cases _).1
  · exact (getKeywordType_cases _).2.1
  · exact (getKeywordType_cases _).2.2

theorem pos_append (pre w : List Char) (hw : ∀ c ∈ w, c ≠ '\n') :
    lineAt (pre ++ w) = lineAt pre ∧ colAt (pre ++ w) = colAt pre + (w.length : Nat) := by
  induction w generalizing pre with
  | nil => simp
  | cons c w ih =>
    have hc : c ≠ '\n' := hw c (List.mem_cons_self _ _)
    have h1 := ih (pre ++ [c]) (fun x hx => hw x (List.mem_cons_of_mem _ hx))
    simp only [List.append_assoc, List.singleton_append] at h1
    have h2 : lineAt (pre ++ [c]) = lineAt pre := by
      simp [lineAt, List.count_append, List.count_cons, hc]
    have h3 : colAt (pre ++ [c]) = colAt pre + 1 := by
      simp [colAt, List.takeWhile, hc]
      omega
    rw [h1.1, h1.2, h2, h3]
    simp only [List.length_cons, Nat.cast_add, Nat.cast_one, true_and]
    omega

theorem pos_newline (pre : List Char) :
    lineAt (pre ++ ['\n']) = lineAt pre + 1 ∧ colAt (pre ++ ['\n']) = 1 := by
  constructor
  · simp [lineAt, List.count_append]
    omega
  · simp [colAt, List.takeWhile]

theorem pos_start : lineAt [] = 1 ∧ colAt [] = 1 := by
  constructor <;> rfl

theorem pos_ge_one (pre : List Char) : 1 ≤ lineAt pre ∧ 1 ≤ colAt pre := by
  constructor
  · unfold lineAt; omega
  · unfold colAt; omega

theorem takeWhile_space_no_newline (r : List Char) :
    ∀ c ∈ r.takeWhile Lexer.isSpace, c ≠ '\n' := by
  intro c hc
  have h := List.mem_takeWhile_imp hc
  intro he
  subst he
  simp [Lexer.isSpace] at h

theorem dropWhile_space_head (r : List Char) (c : Char) (r1 : List Char)
    (h : r.dropWhile Lexer.isSpace = c :: r1) : Lexer.isSpace c = false := by
  have := List.head_dropWhile_not Lexer.isSpace r (by rw [h]; simp)
  simpa [h] using this

theorem skip_spaces (l : Lexer) :
    (Lexer.advanceWhile Lexer.isSpace l).2.rest = l.rest.dropWhile Lexer.isSpace ∧
    (Lexer.advanceWhile Lexer.isSpace l).2.line = l.line ∧
    (Lexer.advanceWhile Lexer.isSpace l).2.column =
      l.column + ((l.rest.takeWhile Lexer.isSpace).length : Nat) ∧
    (Lexer.advanceWhile Lexer.isSpace l).2.tokens = l.tokens :=
  ⟨rfl, rfl, rfl, rfl⟩

/-- An operator byte, with what follows it, that `scanOperator` accepts. -/
theorem scanOperator_accepts (l : Lexer) (c : Char) (r : List Char) (hr : l.rest = c :: r)
    (hd : Lexer.isDigit c = false) (hl : Lexer.isLetter c = false) (hu : c ≠ '_')
    (hb : badStart (c :: r) = false) (hn : c ≠ '\n') :
    ∃ l1 w t, l.scanOperator = .ok l1 ∧ Consumes l l1 w t ∧ t.Typ ≠ .NUMBER := by
  simp only [badStart, ne_eq, hn, not_false_eq_true, decide_True, Bool.true_and,
    Bool.or_eq_false_iff, Bool.not_eq_false', Bool.and_eq_false_iff, decide_eq_false_iff_not,
    not_not] at hb
  obtain ⟨hs, hbang⟩ := hb
  simp only [startsToken, hd, hl, hu, Bool.false_or, decide_False, Bool.or_eq_true,
    decide_eq_true_eq] at hs
  rcases hs with (((((((((((h | h) | h) | h) | h) | h) | h) | h) | h) | h) | h) | h) | h
  · exact scanOperator_single l c r hr (Or.inl h)
  · exact scanOperator_single l c r hr (Or.inr (Or.inl h))
  · exact scanOperator_single l c r hr (Or.inr (Or.inr (Or.inl h)))
  · exact scanOperator_single l c r hr (Or.inr (Or.inr (Or.inr (Or.inl h))))
  · exact scanOperator_single l c r hr (Or.inr (Or.inr (Or.inr (Or.inr (Or.inl h)))))
  · exact scanOperator_single l c r hr
      (Or.inr (Or.inr (Or.inr (Or.inr (Or.inr (Or.inl h))))))
  · exact scanOperator_single l c r hr
      (Or.inr (Or.inr (Or.inr (Or.inr (Or.inr (Or.inr (Or.inl h)))))))
  · exact scanOperator_single l c r hr
      (Or.inr (Or.inr (Or.inr (Or.inr (Or.inr (Or.inr (Or.inr h)))))))
  · exact scanOperator_compound l c r hr (Or.inl h)
  · exact scanOperator_compound l c r hr (Or.inr (Or.inl h))
  · exact scanOperator_compound l c r hr (Or.inr (Or.inr (Or.inl h)))
  · exact scanOperator_compound l c r hr (Or.inr (Or.inr (Or.inr h)))
  · subst h
    rcases hbang with h2 | h2
    · exact absurd rfl h2
    · exact (scanOperator_bang l r hr).1 h2

/-- A byte, with what follows it, that `scanOperator` rejects. -/
theorem scanOperator_rejects (l : Lexer) (c : Char) (r : List Char) (hr : l.rest = c :: r)
    (hb : badStart (c :: r) = true) :
    l.scanOperator = .error (.lexer
      (if c = '!' then "unexpected character"
       else "unexpected character: " ++ String.mk (utf8Bytes c))
      l.line l.column (String.mk (utf8Bytes c))) := by
  simp only [badStart, ne_eq, Bool.and_eq_true, decide_eq_true_eq, Bool.or_eq_true,
    Bool.not_eq_true', decide_not] at hb
  obtain ⟨_, hb⟩ := hb
  rcases hb with h | ⟨h1, h2⟩
  · have hne : c ≠ '!' := by
      intro he
      subst he
      simp [startsToken] at h
    rw [if_neg hne]
    exact scanOperator_other l c r hr h
  · subst h1
    rw [if_pos rfl]
    exact (scanOperator_bang l r hr).2 (by simpa using h2)

theorem badStart_not_digit_letter (c : Char) (r : List Char) (hb : badStart (c :: r) = true) :
    c ≠ '\n' ∧ Lexer.isDigit c = false ∧ Lexer.isLetter c = false ∧ c ≠ '_' := by
  simp only [badStart, ne_eq, Bool.and_eq_true, decide_eq_true_eq, Bool.or_eq_true,
    Bool.not_eq_true', decide_not] at hb
  obtain ⟨hn, hb⟩ := hb
  refine ⟨by simpa using hn, ?_⟩
  rcases hb with h | ⟨h1, _⟩
  · simp only [startsToken, Bool.or_eq_false_iff, decide_eq_false_iff_not] at h
    obtain ⟨⟨⟨⟨⟨⟨⟨⟨⟨⟨⟨⟨⟨⟨⟨a1, a2⟩, a3⟩, _⟩, _⟩, _⟩, _⟩, _⟩, _⟩, _⟩, _⟩, _⟩, _⟩, _⟩, _⟩, _⟩ := h
    exact ⟨a1, a2, a3⟩
  · subst h1
    decide

/-- What one call of `scanToken` does, by the first byte after the white space. -/
theorem scanToken_spec (l : Lexer) :
    (l.rest.dropWhile Lexer.isSpace = [] →
      l.scanToken = .ok (Lexer.advanceWhile Lexer.isSpace l).2) ∧
    (∀ r, l.rest.dropWhile Lexer.isSpace = '\n' :: r →
      l.scanToken = .ok
        { rest := r, line := l.line + 1, column := 1,
          tokens := l.tokens ++
            [{ Typ := .NEWLINE, Value := "\n", Line := l.line,
               Column := l.column + ((l.rest.takeWhile Lexer.isSpace).length : Nat) - 1 }] }) ∧
    (∀ c r, l.rest.dropWhile Lexer.isSpace = c :: r → c ≠ '\n' → badStart (c :: r) = false →
      ∃ l1 w t, l.scanToken = .ok l1 ∧
        Consumes (Lexer.advanceWhile Lexer.isSpace l).2 l1 w t ∧
        (t.Typ = .NUMBER → w = numberLiteral (c :: r) ∧ Lexer.isDigit c = true)) ∧
    (∀ c r, l.rest.dropWhile Lexer.isSpace = c :: r → badStart (c :: r) = true →
      l.scanToken = .error (.lexer
        (if c = '!' then "unexpected character"
         else "unexpected character: " ++ String.mk (utf8Bytes c))
        l.line (l.column + ((l.rest.takeWhile Lexer.isSpace).length : Nat))
        (String.mk (utf8Bytes c)))) := by
  obtain ⟨s1, s2, s3, s4⟩ := skip_spaces l
  refine ⟨fun h => ?_, fun r h => ?_, fun c r h hn hb => ?_, fun c r h hb => ?_⟩
  · have h1 : (Lexer.advanceWhile Lexer.isSpace l).2.isAtEnd = true := by
      simp [Lexer.isAtEnd, s1, h]
    simp only [Lexer.scanToken, h1, if_true]
  · have hr : (Lexer.advanceWhile Lexer.isSpace l).2.rest = '\n' :: r := by rw [s1, h]
    obtain ⟨p1, p2, p3, p4, p5⟩ := peek_cons _ _ _ hr
    simp only [Lexer.scanToken, p2, Bool.false_eq_true, if_false, p1, if_true]
    simp only [Lexer.addToken, Lexer.advance, hr, s2, s3, s4]
    rfl
  · have hr : (Lexer.advanceWhile Lexer.isSpace l).2.rest = c :: r := by rw [s1, h]
    obtain ⟨p1, p2, p3, p4, p5⟩ := peek_cons _ _ _ hr
    simp only [Lexer.scanToken, p2, Bool.false_eq_true, if_false, p1, hn]
    by_cases hd : Lexer.isDigit c = true
    · simp only [hd, if_true]
      obtain ⟨l1, t, e1, e2, e3⟩ := scanNumber_consumes _ c r hr hd
      rw [hr] at e2
      exact ⟨l1, _, t, e1, e2, fun _ => ⟨rfl, trivial⟩⟩
    · have hd' : Lexer.isDigit c = false := by simpa using hd
      simp only [hd', Bool.false_eq_true, if_false]
      by_cases hl : Lexer.isLetter c = true ∨ c = '_'
      · simp only [hl, if_true]
        obtain ⟨l1, t, e1, e2, e3⟩ := scanIdentifier_consumes _ c r hr hl
        exact ⟨l1, _, t, e1, e2, fun ht => absurd ht e3⟩
      · simp only [hl, if_false]
        have hl1 : Lexer.isLetter c = false := by
          cases h5 : Lexer.isLetter c
          · rfl
          · exact absurd (Or.inl h5) hl
        have hu : c ≠ '_' := fun h5 => hl (Or.inr h5)
        obtain ⟨l1, w, t, e1, e2, e3⟩ := scanOperator_accepts _ c r hr hd' hl1 hu hb hn
        exact ⟨l1, w, t, e1, e2, fun ht => absurd ht e3⟩
  · have hr : (Lexer.advanceWhile Lexer.isSpace l).2.rest = c :: r := by rw [s1, h]
    obtain ⟨p1, p2, p3, p4, p5⟩ := peek_cons _ _ _ hr
    obtain ⟨hn, hd, hl, hu⟩ := badStart_not_digit_letter c r hb
    have hlu : ¬ (Lexer.isLetter c = true ∨ c = '_') := by
      rintro (h5 | h5)
      · rw [hl] at h5; cases h5
      · exact hu h5
    simp only [Lexer.scanToken, p2, Bool.false_eq_true, if_false, p1, hn, hd, hlu]
    rw [scanOperator_rejects _ c r hr hb, s2, s3]

/-- The state after the white space at the start of the input. -/
theorem lexInv_skip (input : List Char) (l : Lexer) (hinv : LexInv input l) :
    ∃ pre, input = pre ++ l.rest.dropWhile Lexer.isSpace ∧ l.line = lineAt pre ∧
      l.column + ((l.rest.takeWhile Lexer.isSpace).length : Nat) = colAt pre := by
  obtain ⟨⟨pre, h1, h2, h3⟩, _⟩ := hinv
  have hp := pos_append pre (l.rest.takeWhile Lexer.isSpace) (takeWhile_space_no_newline _)
  refine ⟨pre ++ l.rest.takeWhile Lexer.isSpace, ?_, ?_, ?_⟩
  · rw [List.append_assoc, List.takeWhile_append_dropWhile]
    exact h1
  · rw [hp.1, h2]
  · rw [hp.2, h3]

/-- One successful call of `scanToken` on input that is not exhausted keeps the invariant and
shortens the input. -/
theorem scanToken_step (input : List Char) (l l1 : Lexer) (hinv : LexInv input l)
    (hne : l.rest ≠ []) (h : l.scanToken = .ok l1) :
    LexInv input l1 ∧ l1.rest.length < l.rest.length := by
  obtain ⟨pre, h1, h2, h3⟩ := lexInv_skip input l hinv
  obtain ⟨_, htok⟩ := hinv
  obtain ⟨c1, c2, c3, c4⟩ := scanToken_spec l
  obtain ⟨s1, s2, s3, s4⟩ := skip_spaces l
  have hlen : (l.rest.dropWhile Lexer.isSpace).length ≤ l.rest.length :=
    (List.dropWhile_sublist _).length_le
  cases h0 : l.rest.dropWhile Lexer.isSpace with
  | nil =>
    rw [c1 h0] at h
    simp only [Except.ok.injEq] at h
    subst h
    refine ⟨⟨⟨pre, ?_, ?_, ?_⟩, ?_⟩, ?_⟩
    · rw [s1]; exact h1
    · rw [s2]; exact h2
    · rw [s3]; exact h3
    · rw [s4]; exact htok
    · rw [s1, h0]
      exact List.length_pos.mpr hne
  | cons c r =>
    rw [h0] at h1 hlen
    by_cases hn : c = '\n'
    · subst hn
      rw [c2 r h0] at h
      simp only [Except.ok.injEq] at h
      subst h
      have hp := pos_newline pre
      refine ⟨⟨⟨pre ++ ['\n'], ?_, ?_, ?_⟩, ?_⟩, ?_⟩
      · simpa using h1
      · show l.line + 1 = _
        rw [hp.1, h2]
      · show (1 : Int) = _
        rw [hp.2]
      · intro t ht
        rcases List.mem_append.mp ht with h5 | h5
        · exact htok t h5
        · simp only [List.mem_singleton] at h5
          subst h5
          refine ⟨by simp, by simp, pre, r, ?_, h2, ?_, fun h6 => by simp at h6⟩
          · exact h1
          · simp only [if_true]
            rw [h3]
      · simp only [List.length_cons] at hlen ⊢
        omega
    · by_cases hb : badStart (c :: r) = true
      · rw [c4 c r h0 hb] at h
        cases h
      · have hb' : badStart (c :: r) = false := by simpa using hb
        obtain ⟨l2, w, t, e1, e2, e3⟩ := c3 c r h0 hn hb'
        rw [e1] at h
        simp only [Except.ok.injEq] at h
        subst h
        obtain ⟨k1, k2, k3, k4, k5, k6, k7, k8, k9, k10, k11⟩ := e2
        rw [s1, h0] at k1
        have hp := pos_append pre w k9
        refine ⟨⟨⟨pre ++ w, ?_, ?_, ?_⟩, ?_⟩, ?_⟩
        · rw [List.append_assoc, ← k1]
          exact h1
        · rw [k2, s2, hp.1, h2]
        · rw [k3, s3, hp.2, h3]
        · intro x hx
          rw [k4, s4] at hx
          rcases List.mem_append.mp hx with h5 | h5
          · exact htok x h5
          · simp only [List.mem_singleton] at h5
            subst h5
            have hv : x.Value.toList = w := by rw [k7]; rfl
            refine ⟨k10, by rw [hv]; exact k8, pre, l2.rest, ?_, ?_, ?_, fun h6 => ?_⟩
            · rw [hv, ← k1]
              exact h1
            · rw [k5, s2, h2]
            · rw [if_neg k11, k6, s3, h3]
              omega
            · rw [hv, ← k1]
              exact ⟨(e3 h6).1, c, r, rfl, (e3 h6).2⟩
        · have hw : 0 < w.length := List.length_pos.mpr k8
          have : (c :: r).length = w.length + l2.rest.length := by
            rw [k1, List.length_append]
          omega

theorem isAtEnd_iff (l : Lexer) : l.isAtEnd = true ↔ l.rest = [] := by
  simp [Lexer.isAtEnd]

/-- The loop of `Tokenize` with enough fuel: it ends at the end of the input, or at the first
call of `scanToken` that fails. -/
theorem tokenizeLoop_spec (input : List Char) :
    ∀ (fuel : Nat) (l : Lexer), LexInv input l → l.rest.length < fuel →
      (∃ l1 k, Lexer.tokenizeLoop fuel l = .ok l1 ∧ LexInv input l1 ∧ l1.rest = [] ∧
        scanRounds k l = .ok l1) ∨
      (∃ e k l2, Lexer.tokenizeLoop fuel l = .error e ∧ scanRounds k l = .ok l2 ∧
        LexInv input l2 ∧ l2.rest ≠ [] ∧ l2.scanToken = .error e) := by
  intro fuel
  induction fuel with
  | zero => intro l _ h; omega
  | succ fuel ih =>
    intro l hinv hlen
    by_cases hend : l.rest = []
    · left
      have h1 : l.isAtEnd = true := (isAtEnd_iff l).mpr hend
      exact ⟨l, 0, by simp only [Lexer.tokenizeLoop, h1, if_true], hinv, hend, rfl⟩
    · have h1 : l.isAtEnd = false := by
        cases h2 : l.isAtEnd
        · rfl
        · exact absurd ((isAtEnd_iff l).mp h2) hend
      cases hs : l.scanToken with
      | error e =>
        right
        refine ⟨e, 0, l, ?_, rfl, hinv, hend, hs⟩
        simp only [Lexer.tokenizeLoop, h1, Bool.false_eq_true, if_false, hs]
      | ok l1 =>
        obtain ⟨hinv1, hlt⟩ := scanToken_step input l l1 hinv hend hs
        have hstep : Lexer.tokenizeLoop (fuel + 1) l = Lexer.tokenizeLoop fuel l1 := by
          simp only [Lexer.tokenizeLoop, h1, Bool.false_eq_true, if_false, hs]
        have hround : ∀ k, scanRounds (k + 1) l = scanRounds k l1 := by
          intro k
          simp only [scanRounds, h1, Bool.false_eq_true, if_false, hs]
        rcases ih l1 hinv1 (by omega) with ⟨l2, k, e1, e2, e3, e4⟩ | ⟨e, k, l2, e1, e2, e3, e4, e5⟩
        · left
          exact ⟨l2, k + 1, by rw [hstep, e1], e2, e3, by rw [hround, e4]⟩
        · right
          exact ⟨e, k + 1, l2, by rw [hstep, e1], by rw [hround, e2], e3, e4, e5⟩

/-- A failing call of `scanToken` after successful rounds is where the loop of `Tokenize`
ends. -/
theorem tokenizeLoop_of_rounds (input : List Char) :
    ∀ (k fuel : Nat) (l l2 : Lexer) (e : FormulaError), LexInv input l → l.rest.length < fuel →
      scanRounds k l = .ok l2 → l2.rest ≠ [] → l2.scanToken = .error e →
      Lexer.tokenizeLoop fuel l = .error e := by
  intro k
  induction k with
  | zero =>
    intro fuel l l2 e hinv hlen hr hne hs
    simp only [scanRounds, Except.ok.injEq] at hr
    subst hr
    cases fuel with
    | zero => omega
    | succ fuel =>
      have h1 : l.isAtEnd = false := by
        cases h2 : l.isAtEnd
        · rfl
        · exact absurd ((isAtEnd_iff l).mp h2) hne
      simp only [Lexer.tokenizeLoop, h1, Bool.false_eq_true, if_false, hs]
  | succ k ih =>
    intro fuel l l2 e hinv hlen hr hne hs
    cases fuel with
    | zero => omega
    | succ fuel =>
      simp only [scanRounds] at hr
      by_cases h1 : l.isAtEnd = true
      · simp [h1] at hr
      · have h1' : l.isAtEnd = false := by simpa using h1
        simp only [h1', Bool.false_eq_true, if_false] at hr
        cases hs1 : l.scanToken with
        | error e1 => rw [hs1] at hr; cases hr
        | ok l1 =>
          rw [hs1] at hr
          have hend : l.rest ≠ [] := fun h2 => h1 ((isAtEnd_iff l).mpr h2)
          obtain ⟨hinv1, hlt⟩ := scanToken_step input l l1 hinv hend hs1
          simp only [Lexer.tokenizeLoop, h1', Bool.false_eq_true, if_false, hs1]
          exact ih fuel l1 l2 e hinv1 (by omega) hr hne hs

theorem lexInv_start (input : List Char) : LexInv input (NewLexer input) :=
  ⟨⟨[], rfl, pos_start.1.symm, pos_start.2.symm⟩, fun t ht => by simp [NewLexer] at ht⟩

/-- The two outcomes of `Tokenize`: the tokens of the scanning rounds followed by an EOF token
at the end of the input, or the error of the first call of `scanToken` that fails. -/
theorem tokenize_cases (input : List Char) :
    (∃ body, (NewLexer input).Tokenize =
        .ok (body ++ [{ Typ := .EOF, Value := "", Line := lineAt input,
                        Column := colAt input }]) ∧
      ∀ t ∈ body, TokenAt input t) ∨
    (∃ e k l2, (NewLexer input).Tokenize = .error e ∧
      scanRounds k (NewLexer input) = .ok l2 ∧ LexInv input l2 ∧ l2.rest ≠ [] ∧
      l2.scanToken = .error e) := by
  rcases tokenizeLoop_spec input (input.length + 1) (NewLexer input) (lexInv_start input)
    (by simp [NewLexer]) with ⟨l1, k, e1, e2, e3, e4⟩ | ⟨e, k, l2, e1, e2, e3, e4, e5⟩
  · left
    obtain ⟨⟨pre, h1, h2, h3⟩, htok⟩ := e2
    rw [e3, List.append_nil] at h1
    subst h1
    refine ⟨l1.tokens, ?_, htok⟩
    have hl : (NewLexer input).rest.length + 1 = input.length + 1 := rfl
    simp only [Lexer.Tokenize, hl, e1, Lexer.addToken, h2, h3]
    congr 3
  · right
    refine ⟨e, k, l2, ?_, e2, e3, e4, e5⟩
    have hl : (NewLexer input).rest.length + 1 = input.length + 1 := rfl
    simp only [Lexer.Tokenize, hl, e1]

/-- C24.  For every source the lexer accepts, the token sequence is not empty, it ends with a
token of kind EOF, and no token before the last one has kind EOF. -/
theorem C24_eof_last (source : String) (tokens : List Token)
    (h : (NewLexer (goBytes source)).Tokenize = .ok tokens) :
    tokens ≠ [] ∧ tokens.getLast?.map (fun t => t.Typ) = some .EOF ∧
    ∀ t ∈ tokens.dropLast, t.Typ ≠ .EOF := by
  rcases tokenize_cases (goBytes source) with ⟨body, e1, e2⟩ | ⟨e, k, l2, e1, _⟩
  · rw [e1] at h
    simp only [Except.ok.injEq] at h
    subst h
    refine ⟨by simp, by simp, fun t ht => ?_⟩
    rw [List.dropLast_concat] at ht
    exact (e2 t ht).1
  · rw [e1] at h
    cases h

/-- A witness for C24: the tokens of `MA5 := MA(CLOSE, 5)`. -/
theorem C24_eof_last_witness :
    (NewLexer (goBytes "MA5 := MA(CLOSE, 5)")).Tokenize =
      .ok [{ Typ := .IDENTIFIER, Value := "MA5", Line := 1, Column := 1 },
           { Typ := .ASSIGN, Value := ":=", Line := 1, Column := 5 },
           { Typ := .IDENTIFIER, Value := "MA", Line := 1, Column := 8 },
           { Typ := .LPAREN, Value := "(", Line := 1, Column := 10 },
           { Typ := .IDENTIFIER, Value := "CLOSE", Line := 1, Column := 11 },
           { Typ := .COMMA, Value := ",", Line := 1, Column := 16 },
           { Typ := .NUMBER, Value := "5", Line := 1, Column := 18 },
           { Typ := .RPAREN, Value := ")", Line := 1, Column := 19 },
           { Typ := .EOF, Value := "", Line := 1, Column := 20 }] ∧
    ((NewLexer (goBytes "MA5 := MA(CLOSE, 5)")).Tokenize.toOption.map
      (fun ts => ts.getLast?.map (fun t => t.Typ))) = some (some .EOF) := by
  have h : (NewLexer (goBytes "MA5 := MA(CLOSE, 5)")).Tokenize = .ok _ :=
    isOkWith_sound _ _ (by decide! :
      isOkWith (NewLexer (goBytes "MA5 := MA(CLOSE, 5)")).Tokenize
        [{ Typ := .IDENTIFIER, Value := "MA5", Line := 1, Column := 1 },
         { Typ := .ASSIGN, Value := ":=", Line := 1, Column := 5 },
         { Typ := .IDENTIFIER, Value := "MA", Line := 1, Column := 8 },
         { Typ := .LPAREN, Value := "(", Line := 1, Column := 10 },
         { Typ := .IDENTIFIER, Value := "CLOSE", Line := 1, Column := 11 },
         { Typ := .COMMA, Value := ",", Line := 1, Column := 16 },
         { Typ := .NUMBER, Value := "5", Line := 1, Column := 18 },
         { Typ := .RPAREN, Value := ")", Line := 1, Column := 19 },
         { Typ := .EOF, Value := "", Line := 1, Column := 20 }] = true)
  refine ⟨h, ?_⟩
  rw [h]
  exact congrArg some (C24_eof_last "MA5 := MA(CLOSE, 5)" _ h).2.1

theorem scanRounds_inv (input : List Char) :
    ∀ (k : Nat) (l l2 : Lexer), LexInv input l → scanRounds k l = .ok l2 → LexInv input l2 := by
  intro k
  induction k with
  | zero =>
    intro l l2 hinv h
    simp only [scanRounds, Except.ok.injEq] at h
    subst h
    exact hinv
  | succ k ih =>
    intro l l2 hinv h
    simp only [scanRounds] at h
    by_cases h1 : l.isAtEnd = true
    · simp [h1] at h
    · have h1' : l.isAtEnd = false := by simpa using h1
      simp only [h1', Bool.false_eq_true, if_false] at h
      cases hs : l.scanToken with
      | error e => rw [hs] at h; cases h
      | ok l1 =>
        rw [hs] at h
        have hend : l.rest ≠ [] := fun h2 => h1 ((isAtEnd_iff l).mpr h2)
        exact ih l1 l2 (scanToken_step input l l1 hinv hend hs).1 h

/-- A call of `scanToken` that fails stands, after the white space, at a byte that starts no
token, and its error carries that byte and the byte's line and column. -/
theorem scanToken_error (input : List Char) (l : Lexer) (e : FormulaError)
    (hinv : LexInv input l) (h : l.scanToken = .error e) :
    ∃ pre c post, l.rest.dropWhile Lexer.isSpace = c :: post ∧ input = pre ++ c :: post ∧
      badStart (c :: post) = true ∧
      e = .lexer (if c = '!' then "unexpected character"
                  else "unexpected character: " ++ String.mk (utf8Bytes c))
            (lineAt pre) (colAt pre) (String.mk (utf8Bytes c)) := by
  obtain ⟨pre, h1, h2, h3⟩ := lexInv_skip input l hinv
  obtain ⟨c1, c2, c3, c4⟩ := scanToken_spec l
  cases h0 : l.rest.dropWhile Lexer.isSpace with
  | nil => rw [c1 h0] at h; cases h
  | cons c r =>
    by_cases hn : c = '\n'
    · subst hn
      rw [c2 r h0] at h
      cases h
    · by_cases hb : badStart (c :: r) = true
      · rw [c4 c r h0 hb] at h
        simp only [Except.error.injEq] at h
        rw [h0] at h1
        exact ⟨pre, c, r, rfl, h1, hb, by rw [← h, h2, h3]⟩
      · obtain ⟨l1, w, t, e1, _⟩ := c3 c r h0 hn (by simpa using hb)
        rw [e1] at h
        cases h

theorem goBytes_ascii (s : String) (h : ∀ c ∈ s.toList, c.toNat < 128) :
    goBytes s = s.toList := by
  unfold goBytes
  generalize s.toList = l at h
  induction l with
  | nil => rfl
  | cons c l ih =>
    have hc := h c (List.mem_cons_self _ _)
    simp only [List.flatMap_cons, ih (fun x hx => h x (List.mem_cons_of_mem _ hx))]
    simp [utf8Bytes, hc]

/-- C25 (what the code does).  The lexer scans the bytes of the source, each taken as the
character with that code.  `Tokenize` fails with the error `e` exactly when, after some rounds
of `scanToken` that succeeded and the white space that follows, it stands at a byte `c` that
is not a newline, a digit, a letter, an underscore or one of `+ - * / ( ) , ; : > < =`, or at
a `!` that is not followed by `=`; `e` is then the LexError that carries `c` with the line
`1 +` the number of newlines before it and the column `1 +` the number of bytes since the
start of its line, and a failure returns no tokens.  The bytes of a source of ASCII characters
are its characters.  A character of several bytes is not scanned as one character: the source
that is the letter `é` (bytes C3 A9) is rejected at its second byte with the character `©`,
which the source does not contain, and in `ê @`, whose `@` is the third character of the
line, the error carries column 4. -/
theorem C25_lex_error (source : String) (e : FormulaError) :
    ((NewLexer (goBytes source)).Tokenize = .error e ↔
      ∃ k l pre c post, scanRounds k (NewLexer (goBytes source)) = .ok l ∧
        l.rest.dropWhile Lexer.isSpace = c :: post ∧ goBytes source = pre ++ c :: post ∧
        badStart (c :: post) = true ∧
        e = .lexer (if c = '!' then "unexpected character"
                    else "unexpected character: " ++ String.mk (utf8Bytes c))
              (lineAt pre) (colAt pre) (String.mk (utf8Bytes c))) ∧
    ((NewLexer (goBytes source)).Tokenize = .error e →
      ∀ tokens, (NewLexer (goBytes source)).Tokenize ≠ .ok tokens) ∧
    lineAt [] = 1 ∧ colAt [] = 1 ∧
    (∀ pre w : List Char, (∀ c ∈ w, c ≠ '\n') →
      lineAt (pre ++ w) = lineAt pre ∧ colAt (pre ++ w) = colAt pre + (w.length : Nat)) ∧
    (∀ pre : List Char, lineAt (pre ++ ['\n']) = lineAt pre + 1 ∧ colAt (pre ++ ['\n']) = 1) ∧
    (∀ s : String, (∀ c ∈ s.toList, c.toNat < 128) → goBytes s = s.toList) ∧
    (NewLexer (goBytes "A := 1\nB := @")).Tokenize =
      .error (.lexer "unexpected character: @" 2 6 "@") ∧
    (NewLexer (goBytes "a ! b")).Tokenize = .error (.lexer "unexpected character" 1 3 "!") ∧
    (NewLexer (goBytes "é")).Tokenize =
      .error (.lexer (String.mk (goBytes "unexpected character: ©")) 1 2
        (String.mk (goBytes "©"))) ∧
    "é".toList = ['é'] ∧ Lexer.isLetter 'é' = true ∧
    (NewLexer (goBytes "ê @")).Tokenize = .error (.lexer "unexpected character: @" 1 4 "@") ∧
    "ê @".toList = ['ê', ' ', '@'] := by
  refine ⟨⟨fun h => ?_, fun h => ?_⟩, fun h tokens h2 => ?_, pos_start.1, pos_start.2,
    pos_append, pos_newline, goBytes_ascii, isErrorWith_sound _ _ (by decide!),
    isErrorWith_sound _ _ (by decide!), isErrorWith_sound _ _ (by decide!), by decide,
    by decide, isErrorWith_sound _ _ (by decide!), by decide⟩
  · rcases tokenize_cases (goBytes source) with ⟨body, e1, _⟩ | ⟨e0, k, l2, e1, e2, e3, e4, e5⟩
    · rw [e1] at h
      cases h
    · rw [e1] at h
      simp only [Except.error.injEq] at h
      subst h
      obtain ⟨pre, c, post, a1, a2, a3, a4⟩ := scanToken_error _ l2 e0 e3 e5
      exact ⟨k, l2, pre, c, post, e2, a1, a2, a3, a4⟩
  · obtain ⟨k, l, pre, c, post, a1, a2, a3, a4, a5⟩ := h
    have hinv := scanRounds_inv _ k _ l (lexInv_start (goBytes source)) a1
    obtain ⟨pre1, b1, b2, b3⟩ := lexInv_skip _ l hinv
    rw [a2] at b1
    have hpre : pre1 = pre := List.append_cancel_right (b1.symm.trans a3)
    subst hpre
    have hne : l.rest ≠ [] := by
      intro h0
      rw [h0] at a2
      cases a2
    have hs : l.scanToken = .error e := by
      rw [(scanToken_spec l).2.2.2 c post a2 a4, a5, b2, b3]
    have hl := tokenizeLoop_of_rounds (goBytes source) k ((goBytes source).length + 1)
      (NewLexer (goBytes source)) l e (lexInv_start _) (by simp [NewLexer]) a1 hne hs
    have hlen : (NewLexer (goBytes source)).rest.length + 1 = (goBytes source).length + 1 := rfl
    simp only [Lexer.Tokenize, hlen, hl]
  · rw [h] at h2
    cases h2

/-- C26 (what the code does).  Every token of an accepted source stands at a place of the
source where its literal occurs and carries the line of that place, `1 +` the number of
newlines before it; every token but a NEWLINE token carries the column of that place, `1 +`
the number of bytes since the start of the line, so that its line and column are at least 1.
A NEWLINE token is added before its byte is passed and carries that column less one: the
source that is one newline gives a NEWLINE token at column 0, and in `a`, newline, `b` the
NEWLINE token, at column 2 of line 1, carries column 1. -/
theorem C26_token_positions :
    (∀ (source : String) (tokens : List Token),
      (NewLexer (goBytes source)).Tokenize = .ok tokens → ∀ t ∈ tokens,
        1 ≤ t.Line ∧ (t.Typ ≠ .NEWLINE → 1 ≤ t.Column) ∧
        ∃ pre post, goBytes source = pre ++ (t.Value.toList ++ post) ∧ t.Line = lineAt pre ∧
          t.Column = colAt pre - (if t.Typ = .NEWLINE then 1 else 0)) ∧
    (NewLexer (goBytes "\n")).Tokenize =
      .ok [{ Typ := .NEWLINE, Value := "\n", Line := 1, Column := 0 },
           { Typ := .EOF, Value := "", Line := 2, Column := 1 }] ∧
    (NewLexer (goBytes "a\nb")).Tokenize =
      .ok [{ Typ := .IDENTIFIER, Value := "a", Line := 1, Column := 1 },
           { Typ := .NEWLINE, Value := "\n", Line := 1, Column := 1 },
           { Typ := .IDENTIFIER, Value := "b", Line := 2, Column := 1 },
           { Typ := .EOF, Value := "", Line := 2, Column := 2 }] ∧
    lineAt (goBytes "a") = 1 ∧ colAt (goBytes "a") = 2 := by
  refine ⟨fun source tokens h t ht => ?_, isOkWith_sound _ _ (by decide!),
    isOkWith_sound _ _ (by decide!), by decide, by decide⟩
  rcases tokenize_cases (goBytes source) with ⟨body, e1, e2⟩ | ⟨e, k, l2, e1, _⟩
  · rw [e1] at h
    simp only [Except.ok.injEq] at h
    subst h
    rcases List.mem_append.mp ht with h1 | h1
    · obtain ⟨_, _, pre, post, a1, a2, a3, _⟩ := e2 t h1
      have hp := pos_ge_one pre
      refine ⟨by rw [a2]; exact hp.1, fun hn => ?_, pre, post, a1, a2, a3⟩
      rw [a3, if_neg hn]
      have := hp.2
      omega
    · simp only [List.mem_singleton] at h1
      subst h1
      have hp := pos_ge_one (goBytes source)
      refine ⟨hp.1, fun _ => hp.2, goBytes source, [], by simp, rfl, by simp⟩
  · rw [e1] at h
    cases h

/-! ### Number literals -/

theorem takeWhile_append_of_all (p : Char → Bool) (v u : List Char) (h : v.all p = true) :
    (v ++ u).takeWhile p = v ++ u.takeWhile p ∧ (v ++ u).dropWhile p = u.dropWhile p := by
  induction v with
  | nil => simp
  | cons a v ih =>
    simp only [List.all_cons, Bool.and_eq_true] at h
    obtain ⟨i1, i2⟩ := ih h.2
    simp [List.takeWhile, List.dropWhile, h.1, i1, i2]

theorem takeWhile_append_of_stop (p : Char → Bool) (v u : List Char)
    (h : v.dropWhile p ≠ []) :
    (v ++ u).takeWhile p = v.takeWhile p ∧ (v ++ u).dropWhile p = v.dropWhile p ++ u := by
  induction v with
  | nil => simp at h
  | cons a v ih =>
    by_cases ha : p a = true
    · have h2 : v.dropWhile p ≠ [] := by simpa [List.dropWhile, ha] using h
      obtain ⟨i1, i2⟩ := ih h2
      simp [List.takeWhile, List.dropWhile, ha, i1, i2]
    · have ha' : p a = false := by simpa using ha
      simp [List.takeWhile, List.dropWhile, ha']

theorem dropWhile_nil_all (p : Char → Bool) (v : List Char) (h : v.dropWhile p = []) :
    v.all p = true := by
  induction v with
  | nil => rfl
  | cons a v ih =>
    by_cases ha : p a = true
    · simp only [List.dropWhile, ha] at h
      simp [ha, ih h]
    · have ha' : p a = false := by simpa using ha
      simp [List.dropWhile, ha'] at h

theorem all_prefix_takeWhile (p : Char → Bool) (v u : List Char) (h : v.all p = true) :
    v <+: (v ++ u).takeWhile p := by
  rw [(takeWhile_append_of_all p v u h).1]
  exact List.prefix_append _ _

theorem signDigits_greedy (v u : List Char) (h : signDigitsForm false v = true) :
    v <+: signDigits (v ++ u) := by
  cases v with
  | nil => exact List.nil_prefix
  | cons s r =>
    simp only [signDigitsForm] at h
    simp only [List.cons_append, signDigits]
    split_ifs at h ⊢ with hs
    · simp only [Bool.not_false, Bool.true_or, Bool.and_true] at h
      exact (List.prefix_cons_inj s).mpr (all_prefix_takeWhile _ r u h)
    · have := all_prefix_takeWhile Lexer.isDigit (s :: r) u h
      simpa using this

theorem expLiteral_greedy (v u : List Char) (h : expForm false v = true) :
    v <+: expLiteral (v ++ u) := by
  cases v with
  | nil => exact List.nil_prefix
  | cons e r =>
    simp only [expForm, Bool.and_eq_true, Bool.or_eq_true, decide_eq_true_eq] at h
    simp only [List.cons_append, expLiteral, h.1, if_true]
    exact (List.prefix_cons_inj e).mpr (signDigits_greedy r u h.2)

theorem digits_then_exp_greedy (v u : List Char)
    (h : expForm false (v.dropWhile Lexer.isDigit) = true) :
    v <+: (v ++ u).takeWhile Lexer.isDigit ++ expLiteral ((v ++ u).dropWhile Lexer.isDigit) := by
  by_cases hd : v.dropWhile Lexer.isDigit = []
  · exact (all_prefix_takeWhile _ v u (dropWhile_nil_all _ v hd)).trans
      (List.prefix_append _ _)
  · obtain ⟨i1, i2⟩ := takeWhile_append_of_stop Lexer.isDigit v u hd
    rw [i1, i2]
    have h2 := expLiteral_greedy (v.dropWhile Lexer.isDigit) u h
    have h3 : v = v.takeWhile Lexer.isDigit ++ v.dropWhile Lexer.isDigit :=
      (List.takeWhile_append_dropWhile _ _).symm
    conv_lhs => rw [h3]
    exact (List.prefix_append_right_inj _).mpr h2

theorem fracExpLiteral_greedy (v u : List Char) (h : fracExpForm false v = true) :
    v <+: fracExpLiteral (v ++ u) := by
  cases v with
  | nil => exact List.nil_prefix
  | cons d r =>
    simp only [fracExpForm] at h
    simp only [List.cons_append, fracExpLiteral]
    split_ifs at h ⊢ with hd
    · simp only [Bool.not_false, Bool.true_or, Bool.true_and] at h
      exact (List.prefix_cons_inj d).mpr (digits_then_exp_greedy r u h)
    · exact expLiteral_greedy (d :: r) u h

/-- The number literal at the start of the input is its longest prefix of the form of a
number literal. -/
theorem numberLiteral_greedy (v u : List Char) (h : isNumberForm false v = true) :
    v <+: numberLiteral (v ++ u) := by
  simp only [isNumberForm, Bool.and_eq_true] at h
  unfold numberLiteral
  by_cases hd : v.dropWhile Lexer.isDigit = []
  · exact (all_prefix_takeWhile _ v u (dropWhile_nil_all _ v hd)).trans
      (List.prefix_append _ _)
  · obtain ⟨i1, i2⟩ := takeWhile_append_of_stop Lexer.isDigit v u hd
    rw [i1, i2]
    have h2 := fracExpLiteral_greedy (v.dropWhile Lexer.isDigit) u h.2
    have h3 : v = v.takeWhile Lexer.isDigit ++ v.dropWhile Lexer.isDigit :=
      (List.takeWhile_append_dropWhile _ _).symm
    conv_lhs => rw [h3]
    exact (List.prefix_append_right_inj _).mpr h2

theorem takeWhile_append_of_head (p : Char → Bool) (a b : List Char) (ha : a.all p = true)
    (hb : ∀ x r, b = x :: r → p x = false) :
    (a ++ b).takeWhile p = a ∧ (a ++ b).dropWhile p = b := by
  obtain ⟨i1, i2⟩ := takeWhile_append_of_all p a b ha
  cases b with
  | nil => simpa using ha
  | cons x r =>
    have hx := hb x r rfl
    rw [i1, i2]
    simp [List.takeWhile, List.dropWhile, hx]

theorem takeWhile_all (p : Char → Bool) (r : List Char) : (r.takeWhile p).all p = true := by
  rw [List.all_eq_true]
  intro x hx
  exact List.mem_takeWhile_imp hx

theorem signDigits_form (r : List Char) : signDigitsForm false (signDigits r) = true := by
  cases r with
  | nil => rfl
  | cons s r =>
    simp only [signDigits]
    split_ifs with hs
    · simp only [signDigitsForm, hs, if_true, Bool.not_false, Bool.true_or, Bool.and_true]
      exact takeWhile_all _ _
    · by_cases hd : Lexer.isDigit s = true
      · have hs2 : ¬ (s = '+' ∨ s = '-') := hs
        simp only [List.takeWhile, hd, signDigitsForm, hs2, if_false, List.all_cons,
          Bool.true_and]
        exact takeWhile_all _ _
      · have hd' : Lexer.isDigit s = false := by simpa using hd
        simp [List.takeWhile, hd', signDigitsForm]

theorem expLiteral_form (r : List Char) : expForm false (expLiteral r) = true := by
  cases r with
  | nil => rfl
  | cons e r =>
    simp only [expLiteral]
    split_ifs with he
    · simp only [expForm, Bool.and_eq_true, Bool.or_eq_true, decide_eq_true_eq]
      exact ⟨he, signDigits_form r⟩
    · rfl

theorem expLiteral_head (r : List Char) :
    ∀ x t, expLiteral r = x :: t → Lexer.isDigit x = false ∧ x ≠ '.' := by
  intro x t h
  cases r with
  | nil => simp [expLiteral] at h
  | cons e r =>
    simp only [expLiteral] at h
    split_ifs at h with he
    · simp only [List.cons.injEq] at h
      rw [← h.1]
      rcases he with h2 | h2 <;> rw [h2] <;> decide

theorem fracExpLiteral_form (r : List Char) : fracExpForm false (fracExpLiteral r) = true := by
  cases r with
  | nil => rfl
  | cons d r =>
    simp only [fracExpLiteral]
    split_ifs with hd
    · obtain ⟨i1, i2⟩ := takeWhile_append_of_head Lexer.isDigit (r.takeWhile Lexer.isDigit)
        (expLiteral (r.dropWhile Lexer.isDigit)) (takeWhile_all _ _)
        (fun x t h => (expLiteral_head _ x t h).1)
      simp only [fracExpForm, hd, if_true, Bool.not_false, Bool.true_or, Bool.true_and, i2]
      exact expLiteral_form _
    · cases h : expLiteral (d :: r) with
      | nil => rfl
      | cons x t =>
        have hx := (expLiteral_head _ x t h).2
        simp only [fracExpForm, hx, if_false]
        rw [← h]
        exact expLiteral_form _

theorem fracExpLiteral_head (r : List Char) :
    ∀ x t, fracExpLiteral r = x :: t → Lexer.isDigit x = false := by
  intro x t h
  cases r with
  | nil => simp [fracExpLiteral] at h
  | cons d r =>
    simp only [fracExpLiteral] at h
    split_ifs at h with hd
    · simp only [List.cons.injEq] at h
      rw [← h.1, hd]
      decide
    · exact (expLiteral_head _ x t h).1

/-- The number literal at the start of input that starts with a digit has the form of a
number literal. -/
theorem numberLiteral_form (c : Char) (r : List Char) (hc : Lexer.isDigit c = true) :
    isNumberForm false (numberLiteral (c :: r)) = true := by
  obtain ⟨i1, i2⟩ := takeWhile_append_of_head Lexer.isDigit
    ((c :: r).takeWhile Lexer.isDigit) (fracExpLiteral ((c :: r).dropWhile Lexer.isDigit))
    (takeWhile_all _ _) (fracExpLiteral_head _)
  simp only [isNumberForm, numberLiteral, i1, i2, Bool.and_eq_true]
  exact ⟨by simp [List.takeWhile, hc], fracExpLiteral_form _⟩

/-- C27 (amended).  Every NUMBER token of an accepted source has a literal of the form: one or
more digits, optionally `.` and zero or more digits, optionally an exponent of `e` or `E`, an
optional sign and zero or more digits.  The literal stands in the source at the token's line
and column, and it is the longest prefix of that form there: every prefix of the remaining
source that has the form is a prefix of the literal. -/
theorem C27_number_literal (source : String) (tokens : List Token) (t : Token)
    (h : (NewLexer (goBytes source)).Tokenize = .ok tokens) (ht : t ∈ tokens)
    (hn : t.Typ = .NUMBER) :
    isNumberForm false t.Value.toList = true ∧
    ∃ pre post, goBytes source = pre ++ (t.Value.toList ++ post) ∧
      t.Line = lineAt pre ∧ t.Column = colAt pre ∧
      ∀ w, w <+: t.Value.toList ++ post → isNumberForm false w = true →
        w <+: t.Value.toList := by
  rcases tokenize_cases (goBytes source) with ⟨body, e1, e2⟩ | ⟨e, k, l2, e1, _⟩
  · rw [e1] at h
    simp only [Except.ok.injEq] at h
    subst h
    rcases List.mem_append.mp ht with hb | hb
    · obtain ⟨_, _, pre, post, i1, i2, i3, i4⟩ := e2 t hb
      obtain ⟨i5, c, r, i6, i7⟩ := i4 hn
      refine ⟨?_, pre, post, i1, i2, ?_, ?_⟩
      · rw [i5, i6]
        exact numberLiteral_form c r i7
      · rw [i3, hn]
        simp
      · intro w hw hf
        obtain ⟨u, hu⟩ := hw
        have := numberLiteral_greedy w u hf
        rw [hu, ← i5] at this
        exact this
    · simp only [List.mem_singleton] at hb
      rw [hb] at hn
      cases hn
  · rw [e1] at h
    cases h

/-- A witness for C27: the sources `123`, `123.456`, `1.23e10` and `1.23e-5` each give one
NUMBER token with the whole source as its literal, and the literal of `1.23e-5` has the
form and is the longest such prefix. -/
theorem C27_number_literal_witness :
    (NewLexer (goBytes "123")).Tokenize =
      .ok [{ Typ := .NUMBER, Value := "123", Line := 1, Column := 1 },
           { Typ := .EOF, Value := "", Line := 1, Column := 4 }] ∧
    (NewLexer (goBytes "123.456")).Tokenize =
      .ok [{ Typ := .NUMBER, Value := "123.456", Line := 1, Column := 1 },
           { Typ := .EOF, Value := "", Line := 1, Column := 8 }] ∧
    (NewLexer (goBytes "1.23e10")).Tokenize =
      .ok [{ Typ := .NUMBER, Value := "1.23e10", Line := 1, Column := 1 },
           { Typ := .EOF, Value := "", Line := 1, Column := 8 }] ∧
    (NewLexer (goBytes "1.23e-5")).Tokenize =
      .ok [{ Typ := .NUMBER, Value := "1.23e-5", Line := 1, Column := 1 },
           { Typ := .EOF, Value := "", Line := 1, Column := 8 }] ∧
    isNumberForm true "1.23e-5".toList = true ∧
    (isNumberForm false "1.23e-5".toList = true ∧
      ∃ pre post, goBytes "1.23e-5" = pre ++ ("1.23e-5".toList ++ post) ∧
        (1 : Int) = lineAt pre ∧ (1 : Int) = colAt pre ∧
        ∀ w, w <+: "1.23e-5".toList ++ post → isNumberForm false w = true →
          w <+: "1.23e-5".toList) :=
  ⟨isOkWith_sound _ _ (by decide!), isOkWith_sound _ _ (by decide!),
   isOkWith_sound _ _ (by decide!), isOkWith_sound _ _ (by decide!), by decide,
   C27_number_literal "1.23e-5"
     [{ Typ := .NUMBER, Value := "1.23e-5", Line := 1, Column := 1 },
      { Typ := .EOF, Value := "", Line := 1, Column := 8 }]
     { Typ := .NUMBER, Value := "1.23e-5", Line := 1, Column := 1 }
     (isOkWith_sound _ _ (by decide!)) (by simp) rfl⟩

/-- The sources `1.` and `2e+` are accepted, each as one NUMBER token whose literal is the
whole source; neither literal has a digit after the `.` or in the exponent. -/
theorem C27_counterexample :
    (NewLexer (goBytes "1.")).Tokenize =
      .ok [{ Typ := .NUMBER, Value := "1.", Line := 1, Column := 1 },
           { Typ := .EOF, Value := "", Line := 1, Column := 3 }] ∧
    isNumberForm true "1.".toList = false ∧
    (NewLexer (goBytes "2e+")).Tokenize =
      .ok [{ Typ := .NUMBER, Value := "2e+", Line := 1, Column := 1 },
           { Typ := .EOF, Value := "", Line := 1, Column := 4 }] ∧
    isNumberForm true "2e+".toList = false ∧
    isNumberForm true "1".toList = true ∧ isNumberForm true "2".toList = true :=
  ⟨isOkWith_sound _ _ (by decide!), by decide, isOkWith_sound _ _ (by decide!), by decide,
   by decide, by decide⟩

/-! ### The parser on the phrases of the grammar -/

theorem at_new (ts : List Token) : (NewParser ts).At ts := by
  simp [Parser.At, NewParser]

theorem at_current (p : Parser) (t : Token) (r : List Token) (h : p.At (t :: r)) :
    p.current = some t := by
  rw [h.2]
  rfl

theorem at_curType (p : Parser) (t : Token) (r : List Token) (h : p.At (t :: r)) :
    p.curType = some t.Typ := by
  simp [Parser.curType, at_current p t r h]

theorem at_curValue (p : Parser) (t : Token) (r : List Token) (h : p.At (t :: r)) :
    p.curValue = t.Value := by
  simp [Parser.curValue, at_current p t r h]

theorem at_isAtEnd (p : Parser) (t : Token) (r : List Token) (h : p.At (t :: r)) :
    p.isAtEnd = decide (t.Typ = .EOF) := by
  simp [Parser.isAtEnd, at_current p t r h]

theorem at_peek (p : Parser) (t : Token) (r : List Token) (h : p.At (t :: r)) :
    p.peek = r.head? := by
  have h1 := h.1
  have : p.tokens[p.pos + 1]? = (p.tokens.drop p.pos)[1]? := by
    rw [List.getElem?_drop]
  rw [Parser.peek, this, h1]
  cases r <;> simp

theorem at_advance (p : Parser) (t : Token) (r : List Token) (h : p.At (t :: r))
    (ht : t.Typ ≠ .EOF) (hr : r ≠ []) : p.advance.At r := by
  have hpk := at_peek p t r h
  have hend := at_isAtEnd p t r h
  have hlen : p.pos + 1 < p.tokens.length := by
    have h1 := congrArg List.length h.1
    simp only [List.length_drop, List.length_cons] at h1
    have : 0 < r.length := List.length_pos.mpr hr
    omega
  have hdrop : p.tokens.drop (p.pos + 1) = r := by
    have := congrArg (List.drop 1) h.1
    rw [List.drop_drop] at this
    simpa [Nat.add_comm] using this
  simp only [Parser.advance, hend, ht, decide_False, Bool.not_false, if_true, hlen]
  exact ⟨hdrop, hpk⟩

theorem levelOp_level : ∃ f : TokenType → Nat, ∀ k t op, levelOp k t = some op → k = f t := by
  refine ⟨fun t => match t with
    | .OR => 0 | .AND => 1
    | .GT => 2 | .LT => 2 | .GTE => 2 | .LTE => 2 | .EQ => 2 | .NEQ => 2
    | .PLUS => 3 | .MINUS => 3 | .MULTIPLY => 4 | .DIVIDE => 4 | _ => 0, ?_⟩
  intro k t op h
  cases t <;> rcases k with _ | _ | _ | _ | _ | k <;> simp_all [levelOp]

theorem levelOp_unique (j k : Nat) (t : TokenType) (a b : BinaryOperator)
    (h1 : levelOp j t = some a) (h2 : levelOp k t = some b) : j = k := by
  obtain ⟨f, hf⟩ := levelOp_level
  rw [hf j t a h1, hf k t b h2]

theorem levelOp_high (k : Nat) (t : TokenType) (h : 5 ≤ k) : levelOp k t = none := by
  rcases k with _ | _ | _ | _ | _ | k
  · omega
  · omega
  · omega
  · omega
  · omega
  · cases t <;> rfl

theorem levelOp_some_lt (k : Nat) (t : TokenType) (op : BinaryOperator)
    (h : levelOp k t = some op) : k < 5 := by
  by_contra hk
  rw [levelOp_high k t (by omega)] at h
  cases h

theorem levelOp_not_eof (k : Nat) (t : TokenType) (op : BinaryOperator)
    (h : levelOp k t = some op) :
    t ≠ .EOF ∧ t ≠ .LPAREN ∧ t ≠ .RPAREN ∧ t ≠ .COMMA := by
  rcases k with _ | _ | _ | _ | _ | k <;> cases t <;> simp_all [levelOp]

/-- The parsing function of a level below `unary`: the next level, then the loop. -/
theorem parseLevel_succ (k fuel : Nat) (p p1 : Parser) (left : Expression) (hk : k < 5)
    (h : parseLevel (k + 1) fuel p = .ok (left, p1)) :
    parseLevel k (fuel + 1) p = loopLevel k fuel left p1 := by
  rcases k with _ | _ | _ | _ | _ | k
  · simp only [parseLevel] at h
    simp only [parseLevel, loopLevel, Parser.parseLogicalOr, h]
  · simp only [parseLevel] at h
    simp only [parseLevel, loopLevel, Parser.parseLogicalAnd, h]
  · simp only [parseLevel] at h
    simp only [parseLevel, loopLevel, Parser.parseComparison, h]
  · simp only [parseLevel] at h
    simp only [parseLevel, loopLevel, Parser.parseAdditive, h]
  · simp only [parseLevel] at h
    simp only [parseLevel, loopLevel, Parser.parseMultiplicative, h]
  · omega

/-- A round of the loop of a level at an operator of the level. -/
theorem loopLevel_continue (k fuel : Nat) (p p1 : Parser) (o : Token) (r : List Token)
    (op : BinaryOperator) (left right : Expression) (h : p.At (o :: r))
    (hop : levelOp k o.Typ = some op)
    (hr : parseLevel (k + 1) fuel p.advance = .ok (right, p1)) :
    loopLevel k (fuel + 1) left p = loopLevel k fuel (.BinaryExpression left op right) p1 := by
  have hc := at_curType p o r h
  have he := at_isAtEnd p o r h
  have hne := (levelOp_not_eof k o.Typ op hop).1
  rcases k with _ | _ | _ | _ | _ | k
  · have : o.Typ = .OR ∧ op = .OpOr := by
      revert hop; cases o.Typ <;> simp [levelOp]; exact fun h => h.symm
    simp only [parseLevel] at hr
    simp [loopLevel, Parser.parseLogicalOrLoop, hc, he, this.1, this.2, hr]
  · have : o.Typ = .AND ∧ op = .OpAnd := by
      revert hop; cases o.Typ <;> simp [levelOp]; exact fun h => h.symm
    simp only [parseLevel] at hr
    simp [loopLevel, Parser.parseLogicalAndLoop, hc, he, this.1, this.2, hr]
  · have : Parser.comparisonOp (some o.Typ) = some op := by
      revert hop; cases o.Typ <;> simp [levelOp, Parser.comparisonOp]
    simp only [parseLevel] at hr
    simp [loopLevel, Parser.parseComparisonLoop, hc, he, hne, this, hr]
  · have : (o.Typ = .PLUS ∧ op = .OpPlus) ∨ (o.Typ = .MINUS ∧ op = .OpMinus) := by
      revert hop; cases o.Typ <;> simp [levelOp] <;> exact fun h => h.symm
    simp only [parseLevel] at hr
    rcases this with ⟨h1, h2⟩ | ⟨h1, h2⟩ <;>
      simp [loopLevel, Parser.parseAdditiveLoop, hc, he, h1, h2, hr]
  · have : (o.Typ = .MULTIPLY ∧ op = .OpMultiply) ∨ (o.Typ = .DIVIDE ∧ op = .OpDivide) := by
      revert hop; cases o.Typ <;> simp [levelOp] <;> exact fun h => h.symm
    simp only [parseLevel] at hr
    rcases this with ⟨h1, h2⟩ | ⟨h1, h2⟩ <;>
      simp [loopLevel, Parser.parseMultiplicativeLoop, hc, he, h1, h2, hr]
  · have := levelOp_some_lt _ _ _ hop
    omega

/-- The loop of a level stops at a token that is no operator of the level. -/
theorem loopLevel_stop (k fuel : Nat) (p : Parser) (t : Token) (r : List Token)
    (left : Expression) (h : p.At (t :: r)) (hop : levelOp k t.Typ = none) :
    loopLevel k (fuel + 1) left p = .ok (left, p) := by
  have hc := at_curType p t r h
  have he := at_isAtEnd p t r h
  rcases k with _ | _ | _ | _ | _ | k
  · have : t.Typ ≠ .OR := by
      revert hop; cases t.Typ <;> simp [levelOp]
    simp [loopLevel, Parser.parseLogicalOrLoop, hc, this]
  · have : t.Typ ≠ .AND := by
      revert hop; cases t.Typ <;> simp [levelOp]
    simp [loopLevel, Parser.parseLogicalAndLoop, hc, this]
  · have : Parser.comparisonOp (some t.Typ) = none := by
      revert hop; cases t.Typ <;> simp [levelOp, Parser.comparisonOp]
    simp only [loopLevel, Parser.parseComparisonLoop, hc, this]
    split_ifs <;> rfl
  · have : t.Typ ≠ .PLUS ∧ t.Typ ≠ .MINUS := by
      revert hop; cases t.Typ <;> simp [levelOp]
    simp [loopLevel, Parser.parseAdditiveLoop, hc, this.1, this.2]
  · have : t.Typ ≠ .MULTIPLY ∧ t.Typ ≠ .DIVIDE := by
      revert hop; cases t.Typ <;> simp [levelOp]
    simp [loopLevel, Parser.parseMultiplicativeLoop, hc, this.1, this.2]
  · rfl

theorem levelOp_rparen (j : Nat) : levelOp j .RPAREN = none := by
  cases h : levelOp j .RPAREN with
  | none => rfl
  | some op => exact absurd rfl (levelOp_not_eof j _ op h).2.2.1

theorem levelOp_comma (j : Nat) : levelOp j .COMMA = none := by
  cases h : levelOp j .COMMA with
  | none => rfl
  | some op => exact absurd rfl (levelOp_not_eof j _ op h).2.2.2

theorem levelOp_eof (j : Nat) : levelOp j .EOF = none := by
  cases h : levelOp j .EOF with
  | none => rfl
  | some op => exact absurd rfl (levelOp_not_eof j _ op h).1

theorem parsePrimary_number (p : Parser) (t0 : Token) (rest : List Token) (v : F64)
    (f : Nat) (h : p.At (t0 :: rest)) (hr : rest ≠ []) (hty : t0.Typ = .NUMBER)
    (hpf : ParseFloat t0.Value = some v) :
    Parser.parsePrimary (f + 1) p = .ok (.NumberLiteral v, p.advance) ∧ p.advance.At rest := by
  refine ⟨?_, at_advance p t0 rest h (by rw [hty]; decide) hr⟩
  simp [Parser.parsePrimary, at_isAtEnd p t0 rest h, at_curType p t0 rest h, hty,
    Parser.parseNumber, at_curValue p t0 rest h, hpf]

theorem isNameToken_cases (t : Token) (h : isNameToken t = true) :
    t.Typ = .IDENTIFIER ∨ t.Typ = .IF := by
  simpa [isNameToken] using h

theorem parsePrimary_name (p : Parser) (t0 t : Token) (r : List Token) (f : Nat)
    (h : p.At (t0 :: t :: r)) (hn : isNameToken t0 = true) (ht : t.Typ ≠ .LPAREN) :
    Parser.parsePrimary (f + 2) p = .ok (.Identifier t0.Value, p.advance) ∧
      p.advance.At (t :: r) := by
  have hne : t0.Typ ≠ .EOF := by
    rcases isNameToken_cases t0 hn with h1 | h1 <;> rw [h1] <;> decide
  have h1 := at_advance p t0 (t :: r) h hne (by simp)
  refine ⟨?_, h1⟩
  rcases isNameToken_cases t0 hn with h2 | h2 <;>
    simp [Parser.parsePrimary, at_isAtEnd p t0 _ h, at_curType p t0 _ h, h2,
      Parser.parseIdentifierOrCall, at_curValue p t0 _ h, at_curType _ t r h1, ht]

theorem parsePrimary_call (p p2 : Parser) (t0 lp rp : Token) (rest1 rest : List Token)
    (args : List Expression) (f : Nat) (h : p.At (t0 :: lp :: rest1))
    (hn : isNameToken t0 = true) (hlp : lp.Typ = .LPAREN) (hrp : rp.Typ = .RPAREN)
    (hargs : Parser.parseArguments f [] p.advance.advance = .ok (args, p2))
    (h2 : p2.At (rp :: rest)) (hrest : rest ≠ []) :
    Parser.parsePrimary (f + 3) p = .ok (.FunctionCall t0.Value args, p2.advance) ∧
      p2.advance.At rest := by
  have hne : t0.Typ ≠ .EOF := by
    rcases isNameToken_cases t0 hn with h1 | h1 <;> rw [h1] <;> decide
  have ha := at_advance p t0 (lp :: rest1) h hne (by simp)
  refine ⟨?_, at_advance p2 rp rest h2 (by rw [hrp]; decide) hrest⟩
  rcases isNameToken_cases t0 hn with h3 | h3 <;>
    simp [Parser.parsePrimary, at_isAtEnd p t0 _ h, at_curType p t0 _ h, h3,
      Parser.parseIdentifierOrCall, at_curValue p t0 _ h, at_curType _ lp rest1 ha,
      at_isAtEnd _ lp rest1 ha, hlp, Parser.parseFunctionCall, hargs,
      at_curType p2 rp rest h2, hrp]

theorem parsePrimary_group (p p2 : Parser) (lp rp : Token) (rest1 rest : List Token)
    (e : Expression) (f : Nat) (h : p.At (lp :: rest1))
    (hlp : lp.Typ = .LPAREN) (hrp : rp.Typ = .RPAREN)
    (hexpr : Parser.parseExpression f p.advance = .ok (e, p2))
    (h2 : p2.At (rp :: rest)) (hrest : rest ≠ []) :
    Parser.parsePrimary (f + 2) p = .ok (e, p2.advance) ∧ p2.advance.At rest := by
  refine ⟨?_, at_advance p2 rp rest h2 (by rw [hrp]; decide) hrest⟩
  simp [Parser.parsePrimary, at_isAtEnd p lp _ h, at_curType p lp _ h, hlp,
    Parser.parseGroupedExpression, hexpr, at_curType p2 rp rest h2, hrp]

theorem parseArguments_stop (p : Parser) (rp : Token) (rest : List Token)
    (acc : List Expression) (f : Nat) (h : p.At (rp :: rest)) (hrp : rp.Typ = .RPAREN) :
    Parser.parseArguments (f + 1) acc p = .ok (acc, p) := by
  simp [Parser.parseArguments, at_curType p rp rest h, hrp]

theorem parseArguments_comma (p p1 : Parser) (t c : Token) (r r1 : List Token)
    (acc : List Expression) (arg : Expression) (f : Nat) (h : p.At (t :: r))
    (ht1 : t.Typ ≠ .EOF) (ht2 : t.Typ ≠ .RPAREN)
    (hexpr : Parser.parseExpression f p = .ok (arg, p1))
    (h1 : p1.At (c :: r1)) (hc : c.Typ = .COMMA) :
    Parser.parseArguments (f + 1) acc p = Parser.parseArguments f (acc ++ [arg]) p1.advance := by
  simp [Parser.parseArguments, at_curType p t r h, at_isAtEnd p t r h, ht1, ht2, hexpr,
    at_curType p1 c r1 h1, hc]

theorem parseArguments_last (p p1 : Parser) (t rp : Token) (r r1 : List Token)
    (acc : List Expression) (arg : Expression) (f : Nat) (h : p.At (t :: r))
    (ht1 : t.Typ ≠ .EOF) (ht2 : t.Typ ≠ .RPAREN)
    (hexpr : Parser.parseExpression f p = .ok (arg, p1))
    (h1 : p1.At (rp :: r1)) (hrp : rp.Typ = .RPAREN) :
    Parser.parseArguments (f + 1) acc p = Parser.parseArguments f (acc ++ [arg]) p1 := by
  simp [Parser.parseArguments, at_curType p t r h, at_isAtEnd p t r h, ht1, ht2, hexpr,
    at_curType p1 rp r1 h1, hrp]

theorem parseUnary_neg (p p1 : Parser) (m : Token) (r : List Token) (e : Expression)
    (f : Nat) (h : p.At (m :: r)) (hm : m.Typ = .MINUS)
    (hu : Parser.parseUnary f p.advance = .ok (e, p1)) :
    Parser.parseUnary (f + 1) p = .ok (.UnaryExpression .OpUnaryMinus e, p1) := by
  simp [Parser.parseUnary, at_curType p m r h, at_isAtEnd p m r h, hm, hu]

theorem parseUnary_primary (p : Parser) (t : Token) (r : List Token) (f : Nat)
    (h : p.At (t :: r)) (ht : t.Typ ≠ .MINUS) :
    Parser.parseUnary (f + 1) p = Parser.parsePrimary f p := by
  simp [Parser.parseUnary, at_curType p t r h, ht]

/-- A phrase of the grammar starts with a number, a name, `(` or `-`, and a primary does not
start with `-`. -/
theorem derives_head (k : Nat) (ts : List Token) (e : Expression) (h : Derives k ts e) :
    ∃ t r, ts = t :: r ∧
      (t.Typ = .NUMBER ∨ t.Typ = .IDENTIFIER ∨ t.Typ = .IF ∨ t.Typ = .LPAREN ∨
        t.Typ = .MINUS) ∧
      (k = 6 → t.Typ ≠ .MINUS) := by
  induction h with
  | number t v h1 h2 => exact ⟨t, [], rfl, Or.inl h1, fun _ => by rw [h1]; decide⟩
  | name t h1 =>
    refine ⟨t, [], rfl, ?_, fun _ => ?_⟩ <;>
      rcases isNameToken_cases t h1 with h2 | h2 <;> simp [h2]
  | call0 t lp rp h1 h2 h3 =>
    refine ⟨t, _, rfl, ?_, fun _ => ?_⟩ <;>
      rcases isNameToken_cases t h1 with h2 | h2 <;> simp [h2]
  | call t lp rp first e more h1 h2 h3 h4 h5 h6 ih1 ih2 =>
    refine ⟨t, _, rfl, ?_, fun _ => ?_⟩ <;>
      rcases isNameToken_cases t h1 with h2 | h2 <;> simp [h2]
  | group lp rp ts e h1 h2 h3 ih =>
    exact ⟨lp, _, rfl, by simp [h1], fun _ => by rw [h1]; decide⟩
  | neg m ts e h1 h2 ih => exact ⟨m, ts, rfl, by simp [h1], fun h => by omega⟩
  | up k ts e h1 h2 ih =>
    obtain ⟨t, r, i1, i2, i3⟩ := ih
    exact ⟨t, r, i1, i2, fun h => by omega⟩
  | binary k l r o op el er h1 h2 h3 ih1 ih2 =>
    obtain ⟨t, r1, i1, i2, i3⟩ := ih1
    refine ⟨t, r1 ++ o :: r, by rw [i1]; rfl, i2, fun h => ?_⟩
    have := levelOp_some_lt _ _ _ h1
    omega

/-- After the phrase the loop of its level stops when the next token is no operator of the
level either. -/
theorem parsesPhrase_finish (k : Nat) (ts : List Token) (e : Expression)
    (h : ParsesPhrase k ts e) (fuel : Nat) (p : Parser) (t : Token) (r : List Token)
    (hat : p.At (ts ++ t :: r)) (ht : t.Typ ≠ .LPAREN)
    (hop : ∀ j, k ≤ j → levelOp j t.Typ = none) (hf : 16 * ts.length + 14 ≤ fuel + k) :
    ∃ p1, parseLevel k fuel p = .ok (e, p1) ∧ p1.At (t :: r) := by
  obtain ⟨p1, f1, i1, i2, i3⟩ := h fuel p t r hat ht (fun j hj => hop j (by omega)) hf
  refine ⟨p1, ?_, i2⟩
  rw [i1]
  by_cases hk : k < 5
  · obtain ⟨g, rfl⟩ : ∃ g, f1 = g + 1 := ⟨f1 - 1, by omega⟩
    exact loopLevel_stop k g p1 t r e i2 (hop k (le_refl k))
  · rcases k with _ | _ | _ | _ | _ | k
    · omega
    · omega
    · omega
    · omega
    · omega
    · rfl

theorem parseExpression_of_level (e : Expression) (p p1 : Parser) (f : Nat)
    (h : parseLevel 0 f p = .ok (e, p1)) : Parser.parseExpression (f + 1) p = .ok (e, p1) := by
  simpa [Parser.parseExpression, parseLevel] using h

/-- The argument loop on an argument list: a first argument and more arguments, each after a
comma. -/
theorem parseArguments_complete (rp : Token) (rest : List Token) (hrp : rp.Typ = .RPAREN) :
    ∀ (more : List (Token × List Token × Expression)) (ts : List Token) (e : Expression)
      (acc : List Expression) (fuel : Nat) (p : Parser),
      ParsesPhrase 0 ts e → (∀ m ∈ more, m.1.Typ = .COMMA) →
      (∀ m ∈ more, ParsesPhrase 0 m.2.1 m.2.2) →
      (∃ t r, ts = t :: r ∧ t.Typ ≠ .EOF ∧ t.Typ ≠ .RPAREN) →
      (∀ m ∈ more, ∃ t r, m.2.1 = t :: r ∧ t.Typ ≠ .EOF ∧ t.Typ ≠ .RPAREN) →
      p.At (ts ++ (moreTokens more ++ rp :: rest)) →
      16 * (ts.length + (moreTokens more).length) + 16 ≤ fuel →
      ∃ p1, Parser.parseArguments fuel acc p =
          .ok (acc ++ e :: more.map (fun m => m.2.2), p1) ∧ p1.At (rp :: rest) := by
  intro more
  induction more with
  | nil =>
    intro ts e acc fuel p h1 _ _ h4 _ hat hf
    obtain ⟨t, r, i1, i2, i3⟩ := h4
    simp only [moreTokens, List.flatMap_nil, List.nil_append, List.length_nil,
      Nat.add_zero] at hat hf
    obtain ⟨g, rfl⟩ : ∃ g, fuel = g + 3 := ⟨fuel - 3, by omega⟩
    obtain ⟨p1, j1, j2⟩ := parsesPhrase_finish 0 ts e h1 (g + 1) p rp rest hat
      (by rw [hrp]; decide) (fun j _ => by rw [hrp]; exact levelOp_rparen j) (by omega)
    have hexpr := parseExpression_of_level e p p1 (g + 1) j1
    have hat2 : p.At (t :: (r ++ rp :: rest)) := by
      rw [i1] at hat; exact hat
    refine ⟨p1, ?_, j2⟩
    rw [parseArguments_last p p1 t rp _ rest acc e (g + 2) hat2 i2 i3 hexpr j2 hrp,
      parseArguments_stop p1 rp rest _ (g + 1) j2 hrp]
    simp
  | cons m more ih =>
    intro ts e acc fuel p h1 h2 h3 h4 h5 hat hf
    obtain ⟨t, r, i1, i2, i3⟩ := h4
    obtain ⟨c, ts2, e2⟩ := m
    have hc : c.Typ = .COMMA := h2 (c, ts2, e2) (List.mem_cons_self _ _)
    have hmt : moreTokens ((c, ts2, e2) :: more) = c :: (ts2 ++ moreTokens more) := by
      simp [moreTokens]
    rw [hmt] at hat hf
    simp only [List.length_cons, List.length_append] at hf
    obtain ⟨g, rfl⟩ : ∃ g, fuel = g + 3 := ⟨fuel - 3, by omega⟩
    have hat1 : p.At (ts ++ c :: ((ts2 ++ moreTokens more) ++ rp :: rest)) := by
      simpa using hat
    obtain ⟨p1, j1, j2⟩ := parsesPhrase_finish 0 ts e h1 (g + 1) p c _ hat1
      (by rw [hc]; decide) (fun j _ => by rw [hc]; exact levelOp_comma j) (by omega)
    have hexpr := parseExpression_of_level e p p1 (g + 1) j1
    have hat2 : p.At (t :: (r ++ c :: ((ts2 ++ moreTokens more) ++ rp :: rest))) := by
      rw [i1] at hat1; exact hat1
    rw [parseArguments_comma p p1 t c _ _ acc e (g + 2) hat2 i2 i3 hexpr j2 hc]
    obtain ⟨t2, r2, k1, k2, k3⟩ := h5 (c, ts2, e2) (List.mem_cons_self _ _)
    have hat3 : p1.advance.At (ts2 ++ (moreTokens more ++ rp :: rest)) := by
      have := at_advance p1 c _ j2 (by rw [hc]; decide) (by simp)
      simpa using this
    obtain ⟨p2, l1, l2⟩ := ih ts2 e2 (acc ++ [e]) (g + 2) p1.advance
      (h3 (c, ts2, e2) (List.mem_cons_self _ _))
      (fun m hm => h2 m (List.mem_cons_of_mem _ hm))
      (fun m hm => h3 m (List.mem_cons_of_mem _ hm)) ⟨t2, r2, k1, k2, k3⟩
      (fun m hm => h5 m (List.mem_cons_of_mem _ hm)) hat3 (by omega)
    refine ⟨p2, ?_, l2⟩
    rw [l1]
    simp

theorem head_not_end (k : Nat) (ts : List Token) (e : Expression) (h : Derives k ts e) :
    ∃ t r, ts = t :: r ∧ t.Typ ≠ .EOF ∧ t.Typ ≠ .RPAREN := by
  obtain ⟨t, r, i1, i2, _⟩ := derives_head k ts e h
  refine ⟨t, r, i1, ?_, ?_⟩ <;> rcases i2 with h | h | h | h | h <;> rw [h] <;> decide

/-- The parser reads every phrase of the grammar as its tree. -/
theorem derives_parses (k : Nat) (ts : List Token) (e : Expression) (h : Derives k ts e) :
    ParsesPhrase k ts e := by
  induction h with
  | number t0 v h1 h2 =>
    intro fuel p t r hat ht hop hf
    obtain ⟨g, rfl⟩ : ∃ g, fuel = g + 1 := ⟨fuel - 1, by omega⟩
    obtain ⟨i1, i2⟩ := parsePrimary_number p t0 (t :: r) v g hat (by simp) h1 h2
    exact ⟨p.advance, g + 1, i1, i2, by omega⟩
  | name t0 h1 =>
    intro fuel p t r hat ht hop hf
    obtain ⟨g, rfl⟩ : ∃ g, fuel = g + 2 := ⟨fuel - 2, by omega⟩
    obtain ⟨i1, i2⟩ := parsePrimary_name p t0 t r g hat h1 ht
    exact ⟨p.advance, g + 2, i1, i2, by omega⟩
  | call0 t0 lp rp h1 h2 h3 =>
    intro fuel p t r hat ht hop hf
    obtain ⟨g, rfl⟩ : ∃ g, fuel = g + 1 + 3 := ⟨fuel - 4, by omega⟩
    have hne : t0.Typ ≠ .EOF := by
      rcases isNameToken_cases t0 h1 with h | h <;> rw [h] <;> decide
    have hat1 : p.At (t0 :: lp :: rp :: t :: r) := hat
    have a1 := at_advance p t0 _ hat1 hne (by simp)
    have a2 := at_advance _ lp _ a1 (by rw [h2]; decide) (by simp)
    have hargs := parseArguments_stop _ rp (t :: r) [] g a2 h3
    obtain ⟨i1, i2⟩ := parsePrimary_call p _ t0 lp rp _ (t :: r) [] (g + 1) hat1 h1 h2 h3
      hargs a2 (by simp)
    exact ⟨_, g + 1 + 3, i1, i2, by omega⟩
  | call t0 lp rp first e more h1 h2 h3 h4 h5 h6 ih1 ih2 =>
    intro fuel p t r hat ht hop hf
    simp only [List.length_cons, List.length_append, List.length_nil] at hf
    obtain ⟨g, rfl⟩ : ∃ g, fuel = g + 3 := ⟨fuel - 3, by omega⟩
    have hne : t0.Typ ≠ .EOF := by
      rcases isNameToken_cases t0 h1 with h | h <;> rw [h] <;> decide
    have hat1 : p.At (t0 :: lp :: (first ++ (moreTokens more ++ rp :: t :: r))) := by
      simpa using hat
    have a1 := at_advance p t0 _ hat1 hne (by simp)
    have a2 := at_advance _ lp _ a1 (by rw [h2]; decide) (by simp)
    obtain ⟨p2, j1, j2⟩ := parseArguments_complete rp (t :: r) h3 more first e [] g
      p.advance.advance ih1 h5 ih2 (head_not_end 0 first e h4)
      (fun m hm => head_not_end 0 _ _ (h6 m hm)) a2 (by omega)
    obtain ⟨i1, i2⟩ := parsePrimary_call p p2 t0 lp rp _ (t :: r) _ g hat1 h1 h2 h3
      j1 j2 (by simp)
    exact ⟨_, g + 3, i1, i2, by omega⟩
  | group lp rp ts e h1 h2 h3 ih =>
    intro fuel p t r hat ht hop hf
    simp only [List.length_cons, List.length_append, List.length_nil] at hf
    obtain ⟨g, rfl⟩ : ∃ g, fuel = g + 1 + 2 := ⟨fuel - 3, by omega⟩
    have hat1 : p.At (lp :: (ts ++ rp :: t :: r)) := by
      simpa using hat
    have a1 := at_advance p lp _ hat1 (by rw [h1]; decide) (by simp)
    obtain ⟨p2, j1, j2⟩ := parsesPhrase_finish 0 ts e ih g p.advance rp (t :: r) a1
      (by rw [h2]; decide) (fun j _ => by rw [h2]; exact levelOp_rparen j) (by omega)
    have hexpr := parseExpression_of_level e _ p2 g j1
    obtain ⟨i1, i2⟩ := parsePrimary_group p p2 lp rp _ (t :: r) e (g + 1) hat1 h1 h2
      hexpr j2 (by simp)
    exact ⟨_, g + 1 + 2, i1, i2, by omega⟩
  | neg m ts e h1 h2 ih =>
    intro fuel p t r hat ht hop hf
    simp only [List.length_cons] at hf
    obtain ⟨g, rfl⟩ : ∃ g, fuel = g + 1 := ⟨fuel - 1, by omega⟩
    have hat1 : p.At (m :: (ts ++ t :: r)) := hat
    have a1 := at_advance p m _ hat1 (by rw [h1]; decide) (by simp)
    obtain ⟨p2, j1, j2⟩ := parsesPhrase_finish 5 ts e ih g p.advance t r a1 ht
      (fun j hj => by
        rcases Nat.lt_or_ge 5 j with h | h
        · exact hop j h
        · exact levelOp_high j _ (by omega)) (by omega)
    have := parseUnary_neg p p2 m _ e g hat1 h1 j1
    exact ⟨p2, g + 1, this, j2, by omega⟩
  | up k ts e h1 h2 ih =>
    intro fuel p t r hat ht hop hf
    obtain ⟨g, rfl⟩ : ∃ g, fuel = g + 1 := ⟨fuel - 1, by omega⟩
    obtain ⟨t1, r1, e1, e2, e3⟩ := derives_head _ ts e h2
    obtain ⟨p2, j1, j2⟩ := parsesPhrase_finish (k + 1) ts e ih g p t r hat ht
      (fun j hj => hop j (by omega)) (by omega)
    by_cases hk : k < 5
    · exact ⟨p2, g, parseLevel_succ k g p p2 e hk j1, j2, by omega⟩
    · have hk5 : k = 5 := by omega
      subst hk5
      have hat1 : p.At (t1 :: (r1 ++ t :: r)) := by
        rw [e1] at hat; exact hat
      have := parseUnary_primary p t1 _ g hat1 (e3 rfl)
      refine ⟨p2, g, ?_, j2, by omega⟩
      have j1b : Parser.parsePrimary g p = .ok (e, p2) := j1
      show Parser.parseUnary (g + 1) p = .ok (e, p2)
      rw [this, j1b]
  | binary k l r0 o op el er h1 h2 h3 ih1 ih2 =>
    intro fuel p t r hat ht hop hf
    simp only [List.length_cons, List.length_append] at hf
    have hk := levelOp_some_lt _ _ _ h1
    have hat1 : p.At (l ++ o :: (r0 ++ t :: r)) := by
      simpa using hat
    obtain ⟨p1, f1, i1, i2, i3⟩ := ih1 fuel p o (r0 ++ t :: r) hat1
      (levelOp_not_eof _ _ _ h1).2.1
      (fun j hj => by
        cases hjo : levelOp j o.Typ with
        | none => rfl
        | some op2 =>
          have := levelOp_unique _ _ _ _ _ hjo h1
          omega) (by omega)
    obtain ⟨g, rfl⟩ : ∃ g, f1 = g + 1 := ⟨f1 - 1, by omega⟩
    have a1 := at_advance p1 o _ i2 (levelOp_not_eof _ _ _ h1).1 (by simp)
    obtain ⟨p2, j1, j2⟩ := parsesPhrase_finish (k + 1) r0 er ih2 g p1.advance t r a1 ht
      (fun j hj => hop j (by omega)) (by omega)
    refine ⟨p2, g, ?_, j2, by simp only [List.length_append, List.length_cons]; omega⟩
    rw [i1]
    exact loopLevel_continue k g p1 p2 o _ op el er i2 h1 j1

/-- No token of a phrase of the grammar is `:=`, a newline, `;` or the end of the input. -/
theorem derives_tokens (k : Nat) (ts : List Token) (e : Expression) (h : Derives k ts e) :
    ∀ t ∈ ts, t.Typ ≠ .ASSIGN ∧ t.Typ ≠ .EOF ∧ t.Typ ≠ .NEWLINE ∧ t.Typ ≠ .SEMICOLON := by
  induction h with
  | number t v h1 h2 =>
    intro x hx
    simp only [List.mem_singleton] at hx
    rw [hx, h1]
    decide
  | name t h1 =>
    intro x hx
    simp only [List.mem_singleton] at hx
    rcases isNameToken_cases t h1 with h | h <;> rw [hx, h] <;> decide
  | call0 t lp rp h1 h2 h3 =>
    intro x hx
    simp only [List.mem_cons, List.mem_singleton, List.not_mem_nil, or_false] at hx
    rcases hx with hx | hx | hx
    · rcases isNameToken_cases t h1 with h | h <;> rw [hx, h] <;> decide
    · rw [hx, h2]; decide
    · rw [hx, h3]; decide
  | call t lp rp first e more h1 h2 h3 h4 h5 h6 ih1 ih2 =>
    intro x hx
    simp only [List.mem_cons, List.mem_append, List.mem_singleton, List.not_mem_nil,
      or_false, moreTokens, List.mem_flatMap] at hx
    rcases hx with hx | hx | hx | ⟨m, hm, hx | hx⟩ | hx
    · rcases isNameToken_cases t h1 with h | h <;> rw [hx, h] <;> decide
    · rw [hx, h2]; decide
    · exact ih1 x hx
    · rw [hx, h5 m hm]; decide
    · exact ih2 m hm x hx
    · rw [hx, h3]; decide
  | group lp rp ts e h1 h2 h3 ih =>
    intro x hx
    simp only [List.mem_cons, List.mem_append, List.mem_singleton, List.not_mem_nil,
      or_false] at hx
    rcases hx with hx | hx | hx
    · rw [hx, h1]; decide
    · exact ih x hx
    · rw [hx, h2]; decide
  | neg m ts e h1 h2 ih =>
    intro x hx
    simp only [List.mem_cons] at hx
    rcases hx with hx | hx
    · rw [hx, h1]; decide
    · exact ih x hx
  | up k ts e h1 h2 ih => exact ih
  | binary k l r o op el er h1 h2 h3 ih1 ih2 =>
    intro x hx
    simp only [List.mem_cons, List.mem_append] at hx
    rcases hx with hx | hx | hx
    · exact ih1 x hx
    · rw [hx]
      revert h1
      rcases k with _ | _ | _ | _ | _ | k <;> cases o.Typ <;> simp [levelOp]
    · exact ih2 x hx

/-- An expression of the grammar, read by `parseExpression`. -/
theorem parseExpression_complete (ts : List Token) (e : Expression) (h : Derives 0 ts e)
    (fuel : Nat) (p : Parser) (t : Token) (r : List Token) (hat : p.At (ts ++ t :: r))
    (ht : t.Typ ≠ .LPAREN) (hop : ∀ j, levelOp j t.Typ = none)
    (hf : 16 * ts.length + 16 ≤ fuel) :
    ∃ p1, Parser.parseExpression fuel p = .ok (e, p1) ∧ p1.At (t :: r) := by
  obtain ⟨g, rfl⟩ : ∃ g, fuel = g + 1 := ⟨fuel - 1, by omega⟩
  obtain ⟨p1, i1, i2⟩ := parsesPhrase_finish 0 ts e (derives_parses 0 ts e h) g p t r hat ht
    (fun j _ => hop j) (by omega)
  exact ⟨p1, parseExpression_of_level e p p1 g i1, i2⟩

/-- Method `parseStatement` at a declaration: the name, `:=`, and then whatever
`parseExpression` does after the two tokens. -/
theorem parseStatement_declaration (fuel : Nat) (p : Parser) (t a : Token) (r : List Token)
    (hat : p.At (t :: a :: r)) (ht : t.Typ = .IDENTIFIER) (ha : a.Typ = .ASSIGN) :
    (∀ e p2, Parser.parseExpression fuel p.advance.advance = .ok (e, p2) →
      Parser.parseStatement fuel p =
        .ok (.VariableDeclaration t.Value e, Parser.skipTerminator p2)) ∧
    (∀ err, Parser.parseExpression fuel p.advance.advance = .error err →
      Parser.parseStatement fuel p = .error err) := by
  have a1 := at_advance p t _ hat (by rw [ht]; decide) (by simp)
  have hpk : p.peek = some a := by
    rw [at_peek p t _ hat]; rfl
  constructor
  · intro e p2 h
    simp [Parser.parseStatement, at_curType p t _ hat, ht, hpk, ha,
      Parser.parseVariableDeclaration, at_curType _ a r a1, at_curValue p t _ hat, h]
  · intro err h
    simp [Parser.parseStatement, at_curType p t _ hat, ht, hpk, ha,
      Parser.parseVariableDeclaration, at_curType _ a r a1, h]

/-- Method `parseStatement` elsewhere: whatever `parseExpression` does. -/
theorem parseStatement_expression (fuel : Nat) (p : Parser)
    (hno : ¬ (p.curType = some .IDENTIFIER ∧ p.peek.map (fun t => t.Typ) = some .ASSIGN)) :
    (∀ e p2, Parser.parseExpression fuel p = .ok (e, p2) →
      Parser.parseStatement fuel p = .ok (.ExpressionStatement e, Parser.skipTerminator p2)) ∧
    (∀ err, Parser.parseExpression fuel p = .error err →
      Parser.parseStatement fuel p = .error err) := by
  constructor
  · intro e p2 h
    simp only [Parser.parseStatement, hno, if_false, h]
  · intro err h
    simp only [Parser.parseStatement, hno, if_false, h]

theorem skipTerminator_eof (p : Parser) (t : Token) (r : List Token) (h : p.At (t :: r))
    (ht : t.Typ = .EOF) : Parser.skipTerminator p = p := by
  simp [Parser.skipTerminator, at_isAtEnd p t r h, ht]

theorem parseLoop_eof (depth fuel : Nat) (acc : List Statement) (p : Parser) (t : Token)
    (r : List Token) (h : p.At (t :: r)) (ht : t.Typ = .EOF) :
    Parser.parseLoop depth (fuel + 1) acc p = .ok acc := by
  simp [Parser.parseLoop, at_isAtEnd p t r h, ht]

theorem parseLoop_statement (depth fuel : Nat) (acc : List Statement) (p p1 : Parser)
    (t : Token) (r : List Token) (s : Statement) (h : p.At (t :: r)) (ht : t.Typ ≠ .EOF)
    (hn : t.Typ ≠ .NEWLINE) (hs : Parser.parseStatement depth p = .ok (s, p1)) :
    Parser.parseLoop depth (fuel + 1) acc p = Parser.parseLoop depth fuel (acc ++ [s]) p1 := by
  simp [Parser.parseLoop, at_isAtEnd p t r h, ht, at_curType p t r h, hn, hs]

/-- The tokens of an expression of the grammar, followed by the end of the input, parse to the
program of one expression statement with the expression's tree. -/
theorem parse_expression (ts : List Token) (e : Expression) (eof : Token)
    (h : Derives 0 ts e) (heof : eof.Typ = .EOF) :
    (NewParser (ts ++ [eof])).Parse = .ok { Body := [.ExpressionStatement e] } := by
  have hat := at_new (ts ++ [eof])
  obtain ⟨t, r, i1, i2, _⟩ := derives_head 0 ts e h
  have hlen : (NewParser (ts ++ [eof])).tokens.length = ts.length + 1 := by
    simp [NewParser]
  obtain ⟨p1, j1, j2⟩ := parseExpression_complete ts e h (16 * (ts.length + 1 + 1))
    (NewParser (ts ++ [eof])) eof [] hat (by rw [heof]; decide)
    (fun j => by rw [heof]; exact levelOp_eof j) (by omega)
  have hat1 : (NewParser (ts ++ [eof])).At (t :: (r ++ [eof])) := by
    have h2 := hat
    rw [i1] at h2 ⊢
    exact h2
  have hno : ¬ ((NewParser (ts ++ [eof])).curType = some .IDENTIFIER ∧
      (NewParser (ts ++ [eof])).peek.map (fun t => t.Typ) = some .ASSIGN) := by
    rintro ⟨_, h2⟩
    rw [at_peek _ t _ hat1] at h2
    cases r with
    | nil =>
      simp only [List.nil_append, List.head?_cons, Option.map_some'] at h2
      rw [heof] at h2
      cases h2
    | cons x r =>
      simp only [List.cons_append, List.head?_cons, Option.map_some',
        Option.some.injEq] at h2
      exact (derives_tokens 0 ts e h x (by rw [i1]; simp)).1 h2
  have hs := (parseStatement_expression _ _ hno).1 e p1 j1
  rw [skipTerminator_eof p1 eof [] j2 heof] at hs
  have ht1 : t.Typ ≠ .EOF ∧ t.Typ ≠ .NEWLINE := by
    constructor <;> rcases i2 with h | h | h | h | h <;> rw [h] <;> decide
  simp only [Parser.Parse, hlen]
  rw [parseLoop_statement _ (ts.length + 1) [] _ p1 t _ _ hat1 ht1.1 ht1.2 hs,
    parseLoop_eof _ ts.length _ p1 eof [] j2 heof]
  rfl

/-- A name, `:=`, the tokens of an expression of the grammar and the end of the input parse to
the program of one variable declaration with the name's literal and the expression's tree. -/
theorem parse_declaration (name assign : Token) (ts : List Token) (e : Expression)
    (eof : Token) (hname : name.Typ = .IDENTIFIER) (hassign : assign.Typ = .ASSIGN)
    (h : Derives 0 ts e) (heof : eof.Typ = .EOF) :
    (NewParser (name :: assign :: (ts ++ [eof]))).Parse =
      .ok { Body := [.VariableDeclaration name.Value e] } := by
  have hat := at_new (name :: assign :: (ts ++ [eof]))
  have hlen : (NewParser (name :: assign :: (ts ++ [eof]))).tokens.length =
      ts.length + 1 + 1 + 1 := by
    simp [NewParser]
  have a1 := at_advance _ name _ hat (by rw [hname]; decide) (by simp)
  have a2 := at_advance _ assign _ a1 (by rw [hassign]; decide) (by simp)
  obtain ⟨p1, j1, j2⟩ := parseExpression_complete ts e h (16 * (ts.length + 1 + 1 + 1 + 1))
    _ eof [] a2 (by rw [heof]; decide)
    (fun j => by rw [heof]; exact levelOp_eof j) (by omega)
  have hs := (parseStatement_declaration _ _ name assign _ hat hname hassign).1 e p1 j1
  rw [skipTerminator_eof p1 eof [] j2 heof] at hs
  simp only [Parser.Parse, hlen]
  rw [parseLoop_statement _ (ts.length + 1 + 1 + 1) [] _ p1 name _ _ hat
      (by rw [hname]; decide) (by rw [hname]; decide) hs,
    parseLoop_eof _ (ts.length + 1 + 1) _ p1 eof [] j2 heof]
  rfl

/-- A phrase of a level is a phrase of every lower level. -/
theorem derives_lower (j k : Nat) (ts : List Token) (e : Expression) (hk : k ≤ j)
    (hj : j ≤ 6) (h : Derives j ts e) : Derives k ts e := by
  induction j with
  | zero =>
    have : k = 0 := by omega
    rw [this]
    exact h
  | succ j ih =>
    rcases Nat.eq_or_lt_of_le hk with h1 | h1
    · rw [h1]
      exact h
    · exact ih (by omega) (by omega) (Derives.up j ts e (by omega) h)

/-- Two operators of one level: the phrase `a o1 b o2 c` has the tree of `(a o1 b) o2 c`. -/
theorem derives_chain (k : Nat) (a b c : List Token) (ea eb ec : Expression) (o1 o2 : Token)
    (op1 op2 : BinaryOperator) (ha : Derives (k + 1) a ea) (hb : Derives (k + 1) b eb)
    (hc : Derives (k + 1) c ec) (h1 : levelOp k o1.Typ = some op1)
    (h2 : levelOp k o2.Typ = some op2) :
    Derives 0 (a ++ o1 :: (b ++ o2 :: c))
      (.BinaryExpression (.BinaryExpression ea op1 eb) op2 ec) := by
  have hk := levelOp_some_lt _ _ _ h1
  have := Derives.binary k (a ++ o1 :: b) c o2 op2 _ ec h2
    (Derives.binary k a b o1 op1 ea eb h1 (Derives.up k a ea (by omega) ha) hb) hc
  have h3 := derives_lower k 0 _ _ (by omega) (by omega) this
  simpa using h3

/-- An operator of a level and then one of a higher level: the phrase `a o1 b o2 c` has the
tree of `a o1 (b o2 c)`. -/
theorem derives_tighter_right (j k : Nat) (a b c : List Token) (ea eb ec : Expression)
    (o1 o2 : Token) (op1 op2 : BinaryOperator) (hjk : j < k) (ha : Derives 6 a ea)
    (hb : Derives 6 b eb) (hc : Derives 6 c ec) (h1 : levelOp j o1.Typ = some op1)
    (h2 : levelOp k o2.Typ = some op2) :
    Derives 0 (a ++ o1 :: (b ++ o2 :: c))
      (.BinaryExpression ea op1 (.BinaryExpression eb op2 ec)) := by
  have hk := levelOp_some_lt _ _ _ h2
  have hr : Derives k (b ++ o2 :: c) (.BinaryExpression eb op2 ec) :=
    Derives.binary k b c o2 op2 eb ec h2 (derives_lower 6 k _ _ (by omega) (by omega) hb)
      (derives_lower 6 (k + 1) _ _ (by omega) (by omega) hc)
  have := Derives.binary j a _ o1 op1 ea _ h1
    (derives_lower 6 j _ _ (by omega) (by omega) ha)
    (derives_lower k (j + 1) _ _ (by omega) (by omega) hr)
  exact derives_lower j 0 _ _ (by omega) (by omega) this

/-- An operator of a level and then one of a lower level: the phrase `a o1 b o2 c` has the
tree of `(a o1 b) o2 c`. -/
theorem derives_tighter_left (j k : Nat) (a b c : List Token) (ea eb ec : Expression)
    (o1 o2 : Token) (op1 op2 : BinaryOperator) (hjk : k < j) (ha : Derives 6 a ea)
    (hb : Derives 6 b eb) (hc : Derives 6 c ec) (h1 : levelOp j o1.Typ = some op1)
    (h2 : levelOp k o2.Typ = some op2) :
    Derives 0 (a ++ o1 :: (b ++ o2 :: c))
      (.BinaryExpression (.BinaryExpression ea op1 eb) op2 ec) := by
  have hj := levelOp_some_lt _ _ _ h1
  have hl : Derives j (a ++ o1 :: b) (.BinaryExpression ea op1 eb) :=
    Derives.binary j a b o1 op1 ea eb h1 (derives_lower 6 j _ _ (by omega) (by omega) ha)
      (derives_lower 6 (j + 1) _ _ (by omega) (by omega) hb)
  have := Derives.binary k _ c o2 op2 _ ec h2
    (derives_lower j k _ _ (by omega) (by omega) hl)
    (derives_lower 6 (k + 1) _ _ (by omega) (by omega) hc)
  have h3 := derives_lower k 0 _ _ (by omega) (by omega) this
  simpa using h3

theorem advance_declaration (p : Parser) (t a : Token) (r : List Token)
    (hat : p.At (t :: a :: r)) (ht : t.Typ = .IDENTIFIER) (ha : a.Typ = .ASSIGN) :
    p.advance.advance.tokens = p.tokens ∧ p.advance.advance.pos = p.pos + 2 := by
  have a1 := at_advance p t _ hat (by rw [ht]; decide) (by simp)
  have e1 := at_isAtEnd p t _ hat
  have e2 := at_isAtEnd _ a _ a1
  have h1 : p.advance.tokens = p.tokens ∧ p.advance.pos = p.pos + 1 := by
    simp only [Parser.advance, e1, ht]
    split_ifs <;> simp_all
  have h2 : p.advance.advance.tokens = p.advance.tokens ∧
      p.advance.advance.pos = p.advance.pos + 1 := by
    generalize p.advance = q at e2 ⊢
    simp only [Parser.advance, e2, ha]
    split_ifs <;> simp_all
  rw [h2.1, h2.2, h1.1, h1.2]
  exact ⟨rfl, rfl⟩

/-- C28.  Let the parser stand at the start of a statement, before a token `t` and the tokens
`r` after it.  If `t` is an IDENTIFIER and the first token of `r` is ASSIGN, `parseStatement`
returns exactly when `parseExpression` returns on the tokens after the `:=` (two positions
on), and the statement is then the VariableDeclaration with the literal of `t` as its name
and that expression as its value; an error of the expression is the error of the statement.
Otherwise `parseStatement` returns exactly when `parseExpression` returns at `t`, and the
statement is the ExpressionStatement of that expression.  So a parsed statement is a
VariableDeclaration if and only if `t` is an IDENTIFIER and the next token is ASSIGN, and
else it is an ExpressionStatement.  A name, `:=` and an expression of the grammar parse to
one VariableDeclaration; `MA5 := MA(CLOSE, 5)` gives the VariableDeclaration named MA5 of the
FunctionCall MA with the two arguments CLOSE and 5. -/
theorem C28_variable_declaration :
    (∀ (fuel : Nat) (p : Parser) (t : Token) (r : List Token), p.At (t :: r) →
      t.Typ = .IDENTIFIER → r.head?.map (fun a => a.Typ) = some .ASSIGN →
      (∀ s p1, Parser.parseStatement fuel p = .ok (s, p1) ↔
        ∃ e p2, Parser.parseExpression fuel p.advance.advance = .ok (e, p2) ∧
          s = .VariableDeclaration t.Value e ∧ p1 = Parser.skipTerminator p2) ∧
      (∀ err, Parser.parseStatement fuel p = .error err ↔
        Parser.parseExpression fuel p.advance.advance = .error err) ∧
      p.advance.advance.tokens = p.tokens ∧ p.advance.advance.pos = p.pos + 2) ∧
    (∀ (fuel : Nat) (p : Parser) (t : Token) (r : List Token), p.At (t :: r) →
      ¬ (t.Typ = .IDENTIFIER ∧ r.head?.map (fun a => a.Typ) = some .ASSIGN) →
      (∀ s p1, Parser.parseStatement fuel p = .ok (s, p1) ↔
        ∃ e p2, Parser.parseExpression fuel p = .ok (e, p2) ∧
          s = .ExpressionStatement e ∧ p1 = Parser.skipTerminator p2) ∧
      (∀ err, Parser.parseStatement fuel p = .error err ↔
        Parser.parseExpression fuel p = .error err)) ∧
    (∀ (fuel : Nat) (p : Parser) (t : Token) (r : List Token) (s : Statement) (p1 : Parser),
      p.At (t :: r) → Parser.parseStatement fuel p = .ok (s, p1) →
      ((∃ n v, s = .VariableDeclaration n v) ↔
        (t.Typ = .IDENTIFIER ∧ r.head?.map (fun a => a.Typ) = some .ASSIGN)) ∧
      ((∃ n v, s = .VariableDeclaration n v) ∨ ∃ e, s = .ExpressionStatement e)) ∧
    (∀ (name assign eof : Token) (ts : List Token) (e : Expression),
      name.Typ = .IDENTIFIER → assign.Typ = .ASSIGN → eof.Typ = .EOF → Derives 0 ts e →
      (NewParser (name :: assign :: (ts ++ [eof]))).Parse =
        .ok { Body := [.VariableDeclaration name.Value e] }) ∧
    Compile "MA5 := MA(CLOSE, 5)" =
      .ok { Body := [.VariableDeclaration "MA5"
        (.FunctionCall "MA" [.Identifier "CLOSE", .NumberLiteral (F64.ofInt 5)])] } := by
  have part1 : ∀ (fuel : Nat) (p : Parser) (t : Token) (r : List Token), p.At (t :: r) →
      t.Typ = .IDENTIFIER → r.head?.map (fun a => a.Typ) = some .ASSIGN →
      (∀ s p1, Parser.parseStatement fuel p = .ok (s, p1) ↔
        ∃ e p2, Parser.parseExpression fuel p.advance.advance = .ok (e, p2) ∧
          s = .VariableDeclaration t.Value e ∧ p1 = Parser.skipTerminator p2) ∧
      (∀ err, Parser.parseStatement fuel p = .error err ↔
        Parser.parseExpression fuel p.advance.advance = .error err) ∧
      p.advance.advance.tokens = p.tokens ∧ p.advance.advance.pos = p.pos + 2 := by
    intro fuel p t r hat ht hr
    obtain ⟨a, r2, rfl, ha⟩ : ∃ a r2, r = a :: r2 ∧ a.Typ = .ASSIGN := by
      cases r with
      | nil => simp at hr
      | cons a r2 => exact ⟨a, r2, rfl, by simpa using hr⟩
    obtain ⟨i1, i2⟩ := parseStatement_declaration fuel p t a r2 hat ht ha
    refine ⟨?_, ?_, advance_declaration p t a r2 hat ht ha⟩
    · intro s p1
      cases hx : Parser.parseExpression fuel p.advance.advance with
      | error err => simp [i2 err hx]
      | ok v =>
        obtain ⟨e, p2⟩ := v
        rw [i1 e p2 hx]
        constructor
        · intro h
          simp only [Except.ok.injEq, Prod.mk.injEq] at h
          exact ⟨e, p2, rfl, h.1.symm, h.2.symm⟩
        · rintro ⟨e1, p3, h1, h2, h3⟩
          simp only [Except.ok.injEq, Prod.mk.injEq] at h1
          rw [h2, h3, h1.1, h1.2]
    · intro err
      cases hx : Parser.parseExpression fuel p.advance.advance with
      | error err1 => simp [i2 err1 hx]
      | ok v =>
        obtain ⟨e, p2⟩ := v
        simp [i1 e p2 hx]
  have part2 : ∀ (fuel : Nat) (p : Parser) (t : Token) (r : List Token), p.At (t :: r) →
      ¬ (t.Typ = .IDENTIFIER ∧ r.head?.map (fun a => a.Typ) = some .ASSIGN) →
      (∀ s p1, Parser.parseStatement fuel p = .ok (s, p1) ↔
        ∃ e p2, Parser.parseExpression fuel p = .ok (e, p2) ∧
          s = .ExpressionStatement e ∧ p1 = Parser.skipTerminator p2) ∧
      (∀ err, Parser.parseStatement fuel p = .error err ↔
        Parser.parseExpression fuel p = .error err) := by
    intro fuel p t r hat hno
    have hno2 : ¬ (p.curType = some .IDENTIFIER ∧
        p.peek.map (fun t => t.Typ) = some .ASSIGN) := by
      rw [at_curType p t r hat, at_peek p t r hat]
      simpa using hno
    obtain ⟨i1, i2⟩ := parseStatement_expression fuel p hno2
    constructor
    · intro s p1
      cases hx : Parser.parseExpression fuel p with
      | error err => simp [i2 err hx]
      | ok v =>
        obtain ⟨e, p2⟩ := v
        rw [i1 e p2 hx]
        constructor
        · intro h
          simp only [Except.ok.injEq, Prod.mk.injEq] at h
          exact ⟨e, p2, rfl, h.1.symm, h.2.symm⟩
        · rintro ⟨e1, p3, h1, h2, h3⟩
          simp only [Except.ok.injEq, Prod.mk.injEq] at h1
          rw [h2, h3, h1.1, h1.2]
    · intro err
      cases hx : Parser.parseExpression fuel p with
      | error err1 => simp [i2 err1 hx]
      | ok v =>
        obtain ⟨e, p2⟩ := v
        simp [i1 e p2 hx]
  refine ⟨part1, part2, ?_, ?_, compilesTo_sound _ _ (by decide!)⟩
  · intro fuel p t r s p1 hat hs
    by_cases hc : t.Typ = .IDENTIFIER ∧ r.head?.map (fun a => a.Typ) = some .ASSIGN
    · obtain ⟨e, p2, _, h2, _⟩ := ((part1 fuel p t r hat hc.1 hc.2).1 s p1).mp hs
      exact ⟨⟨fun _ => hc, fun _ => ⟨_, _, h2⟩⟩, Or.inl ⟨_, _, h2⟩⟩
    · obtain ⟨e, p2, _, h2, _⟩ := ((part2 fuel p t r hat hc).1 s p1).mp hs
      refine ⟨⟨fun h => ?_, fun h => absurd h hc⟩, Or.inr ⟨_, h2⟩⟩
      obtain ⟨n, v, h3⟩ := h
      rw [h2] at h3
      cases h3
  · intro name assign eof ts e h1 h2 h3 h4
    exact parse_declaration name assign ts e eof h1 h2 h4 h3

/-- A call with two arguments is a primary of the grammar. -/
theorem derives_call2 (t lp rp c : Token) (a b : List Token) (ea eb : Expression)
    (ht : isNameToken t = true) (hlp : lp.Typ = .LPAREN) (hrp : rp.Typ = .RPAREN)
    (hc : c.Typ = .COMMA) (ha : Derives 0 a ea) (hb : Derives 0 b eb) :
    Derives 6 (t :: lp :: (a ++ c :: (b ++ [rp]))) (.FunctionCall t.Value [ea, eb]) := by
  have := Derives.call t lp rp a ea [(c, b, eb)] ht hlp hrp ha
    (by intro m hm; simp only [List.mem_singleton] at hm; rw [hm]; exact hc)
    (by intro m hm; simp only [List.mem_singleton] at hm; rw [hm]; exact hb)
  simpa [moreTokens] using this

/-- A name is an expression of the grammar. -/
theorem derives_name (k : Nat) (t : Token) (hk : k ≤ 6) (ht : isNameToken t = true) :
    Derives k [t] (.Identifier t.Value) :=
  derives_lower 6 k _ _ hk (le_refl 6) (Derives.name t ht)

/-- A number is an expression of the grammar. -/
theorem derives_number (k : Nat) (t : Token) (v : F64) (hk : k ≤ 6) (ht : t.Typ = .NUMBER)
    (hv : ParseFloat t.Value = some v) : Derives k [t] (.NumberLiteral v) :=
  derives_lower 6 k _ _ hk (le_refl 6) (Derives.number t v ht hv)

/-- The tokens of `MA(CLOSE, 5)`, wherever they stand, are a primary of the grammar. -/
theorem derives_ma_close_5 (l1 c1 l2 c2 l3 c3 l4 c4 l5 c5 l6 c6 : Int) :
    Derives 6
      [{ Typ := .IDENTIFIER, Value := "MA", Line := l1, Column := c1 },
       { Typ := .LPAREN, Value := "(", Line := l2, Column := c2 },
       { Typ := .IDENTIFIER, Value := "CLOSE", Line := l3, Column := c3 },
       { Typ := .COMMA, Value := ",", Line := l4, Column := c4 },
       { Typ := .NUMBER, Value := "5", Line := l5, Column := c5 },
       { Typ := .RPAREN, Value := ")", Line := l6, Column := c6 }]
      (.FunctionCall "MA" [.Identifier "CLOSE", .NumberLiteral (F64.ofInt 5)]) :=
  derives_call2 { Typ := .IDENTIFIER, Value := "MA", Line := l1, Column := c1 }
    { Typ := .LPAREN, Value := "(", Line := l2, Column := c2 }
    { Typ := .RPAREN, Value := ")", Line := l6, Column := c6 }
    { Typ := .COMMA, Value := ",", Line := l4, Column := c4 }
    [{ Typ := .IDENTIFIER, Value := "CLOSE", Line := l3, Column := c3 }]
    [{ Typ := .NUMBER, Value := "5", Line := l5, Column := c5 }] _ _ rfl rfl rfl rfl
    (derives_name 0 { Typ := .IDENTIFIER, Value := "CLOSE", Line := l3, Column := c3 }
      (by omega) rfl)
    (derives_number 0 { Typ := .NUMBER, Value := "5", Line := l5, Column := c5 } _
      (by omega) rfl (by decide! : ParseFloat "5" = some (F64.ofInt 5)))

/-- A witness for C28: the tokens of `MA5 := MA(CLOSE, 5)` are an IDENTIFIER, ASSIGN and an
expression of the grammar, and they parse to the one VariableDeclaration; the name keeps
its casing. -/
theorem C28_variable_declaration_witness :
    (NewLexer (goBytes "MA5 := MA(CLOSE, 5)")).Tokenize =
      .ok [{ Typ := .IDENTIFIER, Value := "MA5", Line := 1, Column := 1 },
           { Typ := .ASSIGN, Value := ":=", Line := 1, Column := 5 },
           { Typ := .IDENTIFIER, Value := "MA", Line := 1, Column := 8 },
           { Typ := .LPAREN, Value := "(", Line := 1, Column := 10 },
           { Typ := .IDENTIFIER, Value := "CLOSE", Line := 1, Column := 11 },
           { Typ := .COMMA, Value := ",", Line := 1, Column := 16 },
           { Typ := .NUMBER, Value := "5", Line := 1, Column := 18 },
           { Typ := .RPAREN, Value := ")", Line := 1, Column := 19 },
           { Typ := .EOF, Value := "", Line := 1, Column := 20 }] ∧
    (NewParser
        [{ Typ := .IDENTIFIER, Value := "MA5", Line := 1, Column := 1 },
         { Typ := .ASSIGN, Value := ":=", Line := 1, Column := 5 },
         { Typ := .IDENTIFIER, Value := "MA", Line := 1, Column := 8 },
         { Typ := .LPAREN, Value := "(", Line := 1, Column := 10 },
         { Typ := .IDENTIFIER, Value := "CLOSE", Line := 1, Column := 11 },
         { Typ := .COMMA, Value := ",", Line := 1, Column := 16 },
         { Typ := .NUMBER, Value := "5", Line := 1, Column := 18 },
         { Typ := .RPAREN, Value := ")", Line := 1, Column := 19 },
         { Typ := .EOF, Value := "", Line := 1, Column := 20 }]).Parse =
      .ok { Body := [.VariableDeclaration "MA5"
        (.FunctionCall "MA" [.Identifier "CLOSE", .NumberLiteral (F64.ofInt 5)])] } ∧
    Compile "Ma5 := close" = .ok { Body := [.VariableDeclaration "Ma5" (.Identifier "close")] } :=
  ⟨isOkWith_sound _ _ (by decide!),
   C28_variable_declaration.2.2.2.1
     { Typ := .IDENTIFIER, Value := "MA5", Line := 1, Column := 1 }
     { Typ := .ASSIGN, Value := ":=", Line := 1, Column := 5 }
     { Typ := .EOF, Value := "", Line := 1, Column := 20 } _ _ rfl rfl rfl
     (derives_lower 6 0 _ _ (by omega) (by omega)
       (derives_ma_close_5 1 8 1 10 1 11 1 16 1 18 1 19)),
   compilesTo_sound _ _ (by decide!)⟩

/-- A chain of operators of one level: the phrase `a o1 b1 o2 b2 ...` has the tree that
groups from the left. -/
theorem derives_fold (k : Nat) (items : List (Token × List Token × BinaryOperator × Expression)) :
    ∀ (a : List Token) (ea : Expression), Derives k a ea →
      (∀ it ∈ items, levelOp k it.1.Typ = some it.2.2.1) →
      (∀ it ∈ items, Derives (k + 1) it.2.1 it.2.2.2) →
      Derives k (a ++ items.flatMap (fun it => it.1 :: it.2.1))
        (items.foldl (fun acc it => .BinaryExpression acc it.2.2.1 it.2.2.2) ea) := by
  induction items with
  | nil =>
    intro a ea ha _ _
    simpa using ha
  | cons it items ih =>
    intro a ea ha h1 h2
    have := ih (a ++ it.1 :: it.2.1) (.BinaryExpression ea it.2.2.1 it.2.2.2)
      (Derives.binary k a it.2.1 it.1 it.2.2.1 ea it.2.2.2 (h1 it (List.mem_cons_self _ _)) ha
        (h2 it (List.mem_cons_self _ _)))
      (fun x hx => h1 x (List.mem_cons_of_mem _ hx))
      (fun x hx => h2 x (List.mem_cons_of_mem _ hx))
    simpa using this

/-- C29.  For all primary operands `a`, `b`, `c` of the grammar (token sequences with their
trees), whatever the positions of the operator tokens: `a + b * c` parses as a + (b * c),
`a * b + c` as (a * b) + c, `a > m AND b < n` with numbers `m`, `n` as (a > m) AND (b < n),
`a OR b AND c` as a OR (b AND c), `-a * b` as (-a) * b, and `(a + b) * c` as the product of
the sum with c.  In general, of two operators of different levels (OR, AND, comparison,
additive, multiplicative, from loosest to tightest) in `a o1 b o2 c` the one of the tighter
level takes `b`. -/
theorem C29_precedence (a b c : List Token) (ea eb ec : Expression)
    (ha : Derives 6 a ea) (hb : Derives 6 b eb) (hc : Derives 6 c ec) :
    (∀ tPlus tTimes eof : Token, tPlus.Typ = .PLUS → tTimes.Typ = .MULTIPLY →
      eof.Typ = .EOF →
      (NewParser (a ++ tPlus :: (b ++ tTimes :: (c ++ [eof])))).Parse =
        .ok { Body := [.ExpressionStatement
          (.BinaryExpression ea .OpPlus (.BinaryExpression eb .OpMultiply ec))] }) ∧
    (∀ tTimes tPlus eof : Token, tTimes.Typ = .MULTIPLY → tPlus.Typ = .PLUS →
      eof.Typ = .EOF →
      (NewParser (a ++ tTimes :: (b ++ tPlus :: (c ++ [eof])))).Parse =
        .ok { Body := [.ExpressionStatement
          (.BinaryExpression (.BinaryExpression ea .OpMultiply eb) .OpPlus ec)] }) ∧
    (∀ (tGt m tAnd tLt n eof : Token) (vm vn : F64), tGt.Typ = .GT → m.Typ = .NUMBER →
      ParseFloat m.Value = some vm → tAnd.Typ = .AND → tLt.Typ = .LT → n.Typ = .NUMBER →
      ParseFloat n.Value = some vn → eof.Typ = .EOF →
      (NewParser (a ++ tGt :: m :: tAnd :: (b ++ [tLt, n, eof]))).Parse =
        .ok { Body := [.ExpressionStatement
          (.BinaryExpression (.BinaryExpression ea .OpGreaterThan (.NumberLiteral vm)) .OpAnd
            (.BinaryExpression eb .OpLessThan (.NumberLiteral vn)))] }) ∧
    (∀ tOr tAnd eof : Token, tOr.Typ = .OR → tAnd.Typ = .AND → eof.Typ = .EOF →
      (NewParser (a ++ tOr :: (b ++ tAnd :: (c ++ [eof])))).Parse =
        .ok { Body := [.ExpressionStatement
          (.BinaryExpression ea .OpOr (.BinaryExpression eb .OpAnd ec))] }) ∧
    (∀ tMinus tTimes eof : Token, tMinus.Typ = .MINUS → tTimes.Typ = .MULTIPLY →
      eof.Typ = .EOF →
      (NewParser (tMinus :: (a ++ tTimes :: (b ++ [eof])))).Parse =
        .ok { Body := [.ExpressionStatement
          (.BinaryExpression (.UnaryExpression .OpUnaryMinus ea) .OpMultiply eb)] }) ∧
    (∀ lp tPlus rp tTimes eof : Token, lp.Typ = .LPAREN → tPlus.Typ = .PLUS →
      rp.Typ = .RPAREN → tTimes.Typ = .MULTIPLY → eof.Typ = .EOF →
      (NewParser (lp :: (a ++ tPlus :: (b ++ rp :: tTimes :: (c ++ [eof]))))).Parse =
        .ok { Body := [.ExpressionStatement
          (.BinaryExpression (.BinaryExpression ea .OpPlus eb) .OpMultiply ec)] }) ∧
    (∀ (j k : Nat) (o1 o2 eof : Token) (op1 op2 : BinaryOperator),
      levelOp j o1.Typ = some op1 → levelOp k o2.Typ = some op2 → eof.Typ = .EOF →
      (j < k → (NewParser (a ++ o1 :: (b ++ o2 :: (c ++ [eof])))).Parse =
        .ok { Body := [.ExpressionStatement
          (.BinaryExpression ea op1 (.BinaryExpression eb op2 ec))] }) ∧
      (k < j → (NewParser (a ++ o1 :: (b ++ o2 :: (c ++ [eof])))).Parse =
        .ok { Body := [.ExpressionStatement
          (.BinaryExpression (.BinaryExpression ea op1 eb) op2 ec)] })) := by
  have right : ∀ (j k : Nat) (o1 o2 eof : Token) (op1 op2 : BinaryOperator),
      levelOp j o1.Typ = some op1 → levelOp k o2.Typ = some op2 → eof.Typ = .EOF → j < k →
      (NewParser (a ++ o1 :: (b ++ o2 :: (c ++ [eof])))).Parse =
        .ok { Body := [.ExpressionStatement
          (.BinaryExpression ea op1 (.BinaryExpression eb op2 ec))] } := by
    intro j k o1 o2 eof op1 op2 h1 h2 h3 hjk
    have := parse_expression _ _ eof
      (derives_tighter_right j k a b c ea eb ec o1 o2 op1 op2 hjk ha hb hc h1 h2) h3
    simpa using this
  have left : ∀ (j k : Nat) (o1 o2 eof : Token) (op1 op2 : BinaryOperator),
      levelOp j o1.Typ = some op1 → levelOp k o2.Typ = some op2 → eof.Typ = .EOF → k < j →
      (NewParser (a ++ o1 :: (b ++ o2 :: (c ++ [eof])))).Parse =
        .ok { Body := [.ExpressionStatement
          (.BinaryExpression (.BinaryExpression ea op1 eb) op2 ec)] } := by
    intro j k o1 o2 eof op1 op2 h1 h2 h3 hjk
    have := parse_expression _ _ eof
      (derives_tighter_left j k a b c ea eb ec o1 o2 op1 op2 hjk ha hb hc h1 h2) h3
    simpa using this
  refine ⟨?_, ?_, ?_, ?_, ?_, ?_, ?_⟩
  · intro tPlus tTimes eof h1 h2 h3
    exact right 3 4 tPlus tTimes eof _ _ (by rw [h1]; rfl) (by rw [h2]; rfl) h3 (by omega)
  · intro tTimes tPlus eof h1 h2 h3
    exact left 4 3 tTimes tPlus eof _ _ (by rw [h1]; rfl) (by rw [h2]; rfl) h3 (by omega)
  · intro tGt m tAnd tLt n eof vm vn h1 h2 h3 h4 h5 h6 h7 h8
    have hl : Derives 1 (a ++ tGt :: [m])
        (.BinaryExpression ea .OpGreaterThan (.NumberLiteral vm)) :=
      derives_lower 2 1 _ _ (by omega) (by omega)
        (Derives.binary 2 a [m] tGt .OpGreaterThan ea _ (by rw [h1]; rfl)
          (derives_lower 6 2 _ _ (by omega) (by omega) ha) (derives_number 3 m vm (by omega) h2 h3))
    have hr : Derives 2 (b ++ tLt :: [n])
        (.BinaryExpression eb .OpLessThan (.NumberLiteral vn)) :=
      Derives.binary 2 b [n] tLt .OpLessThan eb _ (by rw [h5]; rfl)
        (derives_lower 6 2 _ _ (by omega) (by omega) hb) (derives_number 3 n vn (by omega) h6 h7)
    have := parse_expression _ _ eof
      (derives_lower 1 0 _ _ (by omega) (by omega)
        (Derives.binary 1 _ _ tAnd .OpAnd _ _ (by rw [h4]; rfl) hl hr)) h8
    simpa using this
  · intro tOr tAnd eof h1 h2 h3
    exact right 0 1 tOr tAnd eof _ _ (by rw [h1]; rfl) (by rw [h2]; rfl) h3 (by omega)
  · intro tMinus tTimes eof h1 h2 h3
    have := parse_expression _ _ eof
      (derives_lower 4 0 _ _ (by omega) (by omega)
        (Derives.binary 4 (tMinus :: a) b tTimes .OpMultiply _ eb (by rw [h2]; rfl)
          (Derives.up 4 _ _ (by omega)
            (Derives.neg tMinus a ea h1 (derives_lower 6 5 _ _ (by omega) (by omega) ha)))
          (derives_lower 6 5 _ _ (by omega) (by omega) hb))) h3
    simpa using this
  · intro lp tPlus rp tTimes eof h1 h2 h3 h4 h5
    have hsum : Derives 0 (a ++ tPlus :: b) (.BinaryExpression ea .OpPlus eb) :=
      derives_lower 3 0 _ _ (by omega) (by omega)
        (Derives.binary 3 a b tPlus .OpPlus ea eb (by rw [h2]; rfl)
          (derives_lower 6 3 _ _ (by omega) (by omega) ha)
          (derives_lower 6 4 _ _ (by omega) (by omega) hb))
    have := parse_expression _ _ eof
      (derives_lower 4 0 _ _ (by omega) (by omega)
        (Derives.binary 4 _ c tTimes .OpMultiply _ ec (by rw [h4]; rfl)
          (derives_lower 6 4 _ _ (by omega) (by omega)
            (Derives.group lp rp _ _ h1 h3 hsum))
          (derives_lower 6 5 _ _ (by omega) (by omega) hc))) h5
    simpa using this
  · intro j k o1 o2 eof op1 op2 h1 h2 h3
    exact ⟨right j k o1 o2 eof op1 op2 h1 h2 h3, left j k o1 o2 eof op1 op2 h1 h2 h3⟩

/-- A witness for C29: in `MA(CLOSE, 5) + x * 2` the operands are the call, `x` and `2`, and
the product is the right operand of the sum. -/
theorem C29_precedence_witness :
    (NewLexer (goBytes "MA(CLOSE, 5) + x * 2")).Tokenize =
      .ok [{ Typ := .IDENTIFIER, Value := "MA", Line := 1, Column := 1 },
           { Typ := .LPAREN, Value := "(", Line := 1, Column := 3 },
           { Typ := .IDENTIFIER, Value := "CLOSE", Line := 1, Column := 4 },
           { Typ := .COMMA, Value := ",", Line := 1, Column := 9 },
           { Typ := .NUMBER, Value := "5", Line := 1, Column := 11 },
           { Typ := .RPAREN, Value := ")", Line := 1, Column := 12 },
           { Typ := .PLUS, Value := "+", Line := 1, Column := 14 },
           { Typ := .IDENTIFIER, Value := "x", Line := 1, Column := 16 },
           { Typ := .MULTIPLY, Value := "*", Line := 1, Column := 18 },
           { Typ := .NUMBER, Value := "2", Line := 1, Column := 20 },
           { Typ := .EOF, Value := "", Line := 1, Column := 21 }] ∧
    Derives 6 [{ Typ := .IDENTIFIER, Value := "x", Line := 1, Column := 16 }]
      (.Identifier "x") ∧
    Derives 6 [{ Typ := .NUMBER, Value := "2", Line := 1, Column := 20 }]
      (.NumberLiteral (F64.ofInt 2)) ∧
    (NewParser
        [{ Typ := .IDENTIFIER, Value := "MA", Line := 1, Column := 1 },
         { Typ := .LPAREN, Value := "(", Line := 1, Column := 3 },
         { Typ := .IDENTIFIER, Value := "CLOSE", Line := 1, Column := 4 },
         { Typ := .COMMA, Value := ",", Line := 1, Column := 9 },
         { Typ := .NUMBER, Value := "5", Line := 1, Column := 11 },
         { Typ := .RPAREN, Value := ")", Line := 1, Column := 12 },
         { Typ := .PLUS, Value := "+", Line := 1, Column := 14 },
         { Typ := .IDENTIFIER, Value := "x", Line := 1, Column := 16 },
         { Typ := .MULTIPLY, Value := "*", Line := 1, Column := 18 },
         { Typ := .NUMBER, Value := "2", Line := 1, Column := 20 },
         { Typ := .EOF, Value := "", Line := 1, Column := 21 }]).Parse =
      .ok { Body := [.ExpressionStatement
        (.BinaryExpression
          (.FunctionCall "MA" [.Identifier "CLOSE", .NumberLiteral (F64.ofInt 5)]) .OpPlus
          (.BinaryExpression (.Identifier "x") .OpMultiply
            (.NumberLiteral (F64.ofInt 2))))] } :=
  ⟨isOkWith_sound _ _ (by decide!),
   derives_name 6 { Typ := .IDENTIFIER, Value := "x", Line := 1, Column := 16 } (le_refl 6) rfl,
   derives_number 6 { Typ := .NUMBER, Value := "2", Line := 1, Column := 20 } _ (le_refl 6)
     rfl (by decide! : ParseFloat "2" = some (F64.ofInt 2)),
   (C29_precedence _ _ _ _ _ _ (derives_ma_close_5 1 1 1 3 1 4 1 9 1 11 1 12)
     (derives_name 6 { Typ := .IDENTIFIER, Value := "x", Line := 1, Column := 16 }
       (le_refl 6) rfl)
     (derives_number 6 { Typ := .NUMBER, Value := "2", Line := 1, Column := 20 } _ (le_refl 6)
       rfl (by decide! : ParseFloat "2" = some (F64.ofInt 2)))).1
     { Typ := .PLUS, Value := "+", Line := 1, Column := 14 }
     { Typ := .MULTIPLY, Value := "*", Line := 1, Column := 18 }
     { Typ := .EOF, Value := "", Line := 1, Column := 21 } rfl rfl rfl⟩

/-- C30.  For all primary operands `a`, `b`, `c` of the grammar, whatever the positions of the
operator tokens: two operators of one level group from the left, so `a o1 b o2 c` parses as
(a o1 b) o2 c; in particular `a - b - c` parses as (a - b) - c, `a / b * c` as (a / b) * c,
and `a > b > c` is accepted and parses as (a > b) > c.  A chain of any number of operators
of one level after `a` is accepted and groups from the left. -/
theorem C30_left_associative (a b c : List Token) (ea eb ec : Expression)
    (ha : Derives 6 a ea) (hb : Derives 6 b eb) (hc : Derives 6 c ec) :
    (∀ (k : Nat) (o1 o2 eof : Token) (op1 op2 : BinaryOperator),
      levelOp k o1.Typ = some op1 → levelOp k o2.Typ = some op2 → eof.Typ = .EOF →
      (NewParser (a ++ o1 :: (b ++ o2 :: (c ++ [eof])))).Parse =
        .ok { Body := [.ExpressionStatement
          (.BinaryExpression (.BinaryExpression ea op1 eb) op2 ec)] }) ∧
    (∀ m1 m2 eof : Token, m1.Typ = .MINUS → m2.Typ = .MINUS → eof.Typ = .EOF →
      (NewParser (a ++ m1 :: (b ++ m2 :: (c ++ [eof])))).Parse =
        .ok { Body := [.ExpressionStatement
          (.BinaryExpression (.BinaryExpression ea .OpMinus eb) .OpMinus ec)] }) ∧
    (∀ d m eof : Token, d.Typ = .DIVIDE → m.Typ = .MULTIPLY → eof.Typ = .EOF →
      (NewParser (a ++ d :: (b ++ m :: (c ++ [eof])))).Parse =
        .ok { Body := [.ExpressionStatement
          (.BinaryExpression (.BinaryExpression ea .OpDivide eb) .OpMultiply ec)] }) ∧
    (∀ g1 g2 eof : Token, g1.Typ = .GT → g2.Typ = .GT → eof.Typ = .EOF →
      (NewParser (a ++ g1 :: (b ++ g2 :: (c ++ [eof])))).Parse =
        .ok { Body := [.ExpressionStatement
          (.BinaryExpression (.BinaryExpression ea .OpGreaterThan eb) .OpGreaterThan ec)] }) ∧
    (∀ (k : Nat) (items : List (Token × List Token × BinaryOperator × Expression))
      (eof : Token), k < 5 → (∀ it ∈ items, levelOp k it.1.Typ = some it.2.2.1) →
      (∀ it ∈ items, Derives 6 it.2.1 it.2.2.2) → eof.Typ = .EOF →
      (NewParser (a ++ (items.flatMap (fun it => it.1 :: it.2.1) ++ [eof]))).Parse =
        .ok { Body := [.ExpressionStatement
          (items.foldl (fun acc it => .BinaryExpression acc it.2.2.1 it.2.2.2) ea)] }) := by
  have chain : ∀ (k : Nat) (o1 o2 eof : Token) (op1 op2 : BinaryOperator),
      levelOp k o1.Typ = some op1 → levelOp k o2.Typ = some op2 → eof.Typ = .EOF →
      (NewParser (a ++ o1 :: (b ++ o2 :: (c ++ [eof])))).Parse =
        .ok { Body := [.ExpressionStatement
          (.BinaryExpression (.BinaryExpression ea op1 eb) op2 ec)] } := by
    intro k o1 o2 eof op1 op2 h1 h2 h3
    have hk := levelOp_some_lt _ _ _ h1
    have := parse_expression _ _ eof
      (derives_chain k a b c ea eb ec o1 o2 op1 op2
        (derives_lower 6 (k + 1) _ _ (by omega) (by omega) ha)
        (derives_lower 6 (k + 1) _ _ (by omega) (by omega) hb)
        (derives_lower 6 (k + 1) _ _ (by omega) (by omega) hc) h1 h2) h3
    simpa using this
  refine ⟨chain, ?_, ?_, ?_, ?_⟩
  · intro m1 m2 eof h1 h2 h3
    exact chain 3 m1 m2 eof _ _ (by rw [h1]; rfl) (by rw [h2]; rfl) h3
  · intro d m eof h1 h2 h3
    exact chain 4 d m eof _ _ (by rw [h1]; rfl) (by rw [h2]; rfl) h3
  · intro g1 g2 eof h1 h2 h3
    exact chain 2 g1 g2 eof _ _ (by rw [h1]; rfl) (by rw [h2]; rfl) h3
  · intro k items eof hk h1 h2 h3
    have := parse_expression _ _ eof
      (derives_lower k 0 _ _ (by omega) (by omega)
        (derives_fold k items a ea (derives_lower 6 k _ _ (by omega) (by omega) ha) h1
          (fun it hit => derives_lower 6 (k + 1) _ _ (by omega) (by omega) (h2 it hit)))) h3
    simpa using this

/-- A witness for C30: in `(x) > MA(CLOSE, 5) > 2` the operands are `(x)`, the call and `2`,
and the first comparison is the left operand of the second. -/
theorem C30_left_associative_witness :
    (NewLexer (goBytes "(x) > MA(CLOSE, 5) > 2")).Tokenize =
      .ok [{ Typ := .LPAREN, Value := "(", Line := 1, Column := 1 },
           { Typ := .IDENTIFIER, Value := "x", Line := 1, Column := 2 },
           { Typ := .RPAREN, Value := ")", Line := 1, Column := 3 },
           { Typ := .GT, Value := ">", Line := 1, Column := 5 },
           { Typ := .IDENTIFIER, Value := "MA", Line := 1, Column := 7 },
           { Typ := .LPAREN, Value := "(", Line := 1, Column := 9 },
           { Typ := .IDENTIFIER, Value := "CLOSE", Line := 1, Column := 10 },
           { Typ := .COMMA, Value := ",", Line := 1, Column := 15 },
           { Typ := .NUMBER, Value := "5", Line := 1, Column := 17 },
           { Typ := .RPAREN, Value := ")", Line := 1, Column := 18 },
           { Typ := .GT, Value := ">", Line := 1, Column := 20 },
           { Typ := .NUMBER, Value := "2", Line := 1, Column := 22 },
           { Typ := .EOF, Value := "", Line := 1, Column := 23 }] ∧
    Derives 6 [{ Typ := .LPAREN, Value := "(", Line := 1, Column := 1 },
               { Typ := .IDENTIFIER, Value := "x", Line := 1, Column := 2 },
               { Typ := .RPAREN, Value := ")", Line := 1, Column := 3 }]
      (.Identifier "x") ∧
    Derives 6 [{ Typ := .NUMBER, Value := "2", Line := 1, Column := 22 }]
      (.NumberLiteral (F64.ofInt 2)) ∧
    (NewParser
        [{ Typ := .LPAREN, Value := "(", Line := 1, Column := 1 },
         { Typ := .IDENTIFIER, Value := "x", Line := 1, Column := 2 },
         { Typ := .RPAREN, Value := ")", Line := 1, Column := 3 },
         { Typ := .GT, Value := ">", Line := 1, Column := 5 },
         { Typ := .IDENTIFIER, Value := "MA", Line := 1, Column := 7 },
         { Typ := .LPAREN, Value := "(", Line := 1, Column := 9 },
         { Typ := .IDENTIFIER, Value := "CLOSE", Line := 1, Column := 10 },
         { Typ := .COMMA, Value := ",", Line := 1, Column := 15 },
         { Typ := .NUMBER, Value := "5", Line := 1, Column := 17 },
         { Typ := .RPAREN, Value := ")", Line := 1, Column := 18 },
         { Typ := .GT, Value := ">", Line := 1, Column := 20 },
         { Typ := .NUMBER, Value := "2", Line := 1, Column := 22 },
         { Typ := .EOF, Value := "", Line := 1, Column := 23 }]).Parse =
      .ok { Body := [.ExpressionStatement
        (.BinaryExpression
          (.BinaryExpression (.Identifier "x") .OpGreaterThan
            (.FunctionCall "MA" [.Identifier "CLOSE", .NumberLiteral (F64.ofInt 5)]))
          .OpGreaterThan (.NumberLiteral (F64.ofInt 2)))] } :=
  ⟨isOkWith_sound _ _ (by decide!),
   Derives.group { Typ := .LPAREN, Value := "(", Line := 1, Column := 1 }
     { Typ := .RPAREN, Value := ")", Line := 1, Column := 3 }
     [{ Typ := .IDENTIFIER, Value := "x", Line := 1, Column := 2 }] _ rfl rfl
     (derives_name 0 { Typ := .IDENTIFIER, Value := "x", Line := 1, Column := 2 }
       (by omega) rfl),
   derives_number 6 { Typ := .NUMBER, Value := "2", Line := 1, Column := 22 } _ (le_refl 6)
     rfl (by decide! : ParseFloat "2" = some (F64.ofInt 2)),
   (C30_left_associative _ _ _ _ _ _
     (Derives.group { Typ := .LPAREN, Value := "(", Line := 1, Column := 1 }
       { Typ := .RPAREN, Value := ")", Line := 1, Column := 3 }
       [{ Typ := .IDENTIFIER, Value := "x", Line := 1, Column := 2 }] _ rfl rfl
       (derives_name 0 { Typ := .IDENTIFIER, Value := "x", Line := 1, Column := 2 }
         (by omega) rfl))
     (derives_ma_close_5 1 7 1 9 1 10 1 15 1 17 1 18)
     (derives_number 6 { Typ := .NUMBER, Value := "2", Line := 1, Column := 22 } _ (le_refl 6)
       rfl (by decide! : ParseFloat "2" = some (F64.ofInt 2)))).2.2.2.1
     { Typ := .GT, Value := ">", Line := 1, Column := 5 }
     { Typ := .GT, Value := ">", Line := 1, Column := 20 }
     { Typ := .EOF, Value := "", Line := 1, Column := 23 } rfl rfl rfl⟩

/-- C31.  For every name token `F` (an IDENTIFIER or the keyword IF) and every argument list of
the grammar, the tokens of `F(e1, ..., ek)` followed by the end of the input parse to the
program of one ExpressionStatement that holds the FunctionCall with the literal of `F` as its
name and the trees of `e1`, ..., `ek` as its arguments, in source order and exactly `k` of
them: none for `F()`, and for a first argument and `n` more arguments, each after a comma,
`n + 1`.  `COUNT()` has 0 arguments, `SUM(prices)` 1, `MA(CLOSE, 5)` 2 and `IF(a > b, a, b)`
3. -/
theorem C31_function_call (t lp rp eof : Token) (ht : isNameToken t = true)
    (hlp : lp.Typ = .LPAREN) (hrp : rp.Typ = .RPAREN) (heof : eof.Typ = .EOF) :
    (NewParser [t, lp, rp, eof]).Parse =
      .ok { Body := [.ExpressionStatement (.FunctionCall t.Value [])] } ∧
    (∀ (first : List Token) (e : Expression) (more : List (Token × List Token × Expression)),
      Derives 0 first e → (∀ m ∈ more, m.1.Typ = .COMMA) →
      (∀ m ∈ more, Derives 0 m.2.1 m.2.2) →
      (NewParser (t :: lp :: (first ++ (moreTokens more ++ [rp, eof])))).Parse =
        .ok { Body := [.ExpressionStatement
          (.FunctionCall t.Value (e :: more.map (fun m => m.2.2)))] } ∧
      (e :: more.map (fun m => m.2.2)).length = more.length + 1) ∧
    Compile "COUNT()" = .ok { Body := [.ExpressionStatement (.FunctionCall "COUNT" [])] } ∧
    Compile "SUM(prices)" =
      .ok { Body := [.ExpressionStatement (.FunctionCall "SUM" [.Identifier "prices"])] } ∧
    Compile "MA(CLOSE, 5)" =
      .ok { Body := [.ExpressionStatement
        (.FunctionCall "MA" [.Identifier "CLOSE", .NumberLiteral (F64.ofInt 5)])] } ∧
    Compile "IF(a > b, a, b)" =
      .ok { Body := [.ExpressionStatement
        (.FunctionCall "IF" [.BinaryExpression (.Identifier "a") .OpGreaterThan (.Identifier "b"),
          .Identifier "a", .Identifier "b"])] } := by
  refine ⟨?_, ?_, compilesTo_sound _ _ (by decide!), compilesTo_sound _ _ (by decide!),
    compilesTo_sound _ _ (by decide!), compilesTo_sound _ _ (by decide!)⟩
  · have := parse_expression _ _ eof
      (derives_lower 6 0 _ _ (by omega) (by omega) (Derives.call0 t lp rp ht hlp hrp)) heof
    simpa using this
  · intro first e more h1 h2 h3
    refine ⟨?_, by simp⟩
    have := parse_expression _ _ eof
      (derives_lower 6 0 _ _ (by omega) (by omega)
        (Derives.call t lp rp first e more ht hlp hrp h1 h2 h3)) heof
    simpa using this

/-- A witness for C31: the tokens of `IF(a > b, a, b)` with the keyword IF as the name, the
first argument `a > b` and two more arguments. -/
theorem C31_function_call_witness :
    (NewLexer (goBytes "IF(a > b, a, b)")).Tokenize =
      .ok [{ Typ := .IF, Value := "IF", Line := 1, Column := 1 },
           { Typ := .LPAREN, Value := "(", Line := 1, Column := 3 },
           { Typ := .IDENTIFIER, Value := "a", Line := 1, Column := 4 },
           { Typ := .GT, Value := ">", Line := 1, Column := 6 },
           { Typ := .IDENTIFIER, Value := "b", Line := 1, Column := 8 },
           { Typ := .COMMA, Value := ",", Line := 1, Column := 9 },
           { Typ := .IDENTIFIER, Value := "a", Line := 1, Column := 11 },
           { Typ := .COMMA, Value := ",", Line := 1, Column := 12 },
           { Typ := .IDENTIFIER, Value := "b", Line := 1, Column := 14 },
           { Typ := .RPAREN, Value := ")", Line := 1, Column := 15 },
           { Typ := .EOF, Value := "", Line := 1, Column := 16 }] ∧
    (NewParser
        [{ Typ := .IF, Value := "IF", Line := 1, Column := 1 },
         { Typ := .LPAREN, Value := "(", Line := 1, Column := 3 },
         { Typ := .IDENTIFIER, Value := "a", Line := 1, Column := 4 },
         { Typ := .GT, Value := ">", Line := 1, Column := 6 },
         { Typ := .IDENTIFIER, Value := "b", Line := 1, Column := 8 },
         { Typ := .COMMA, Value := ",", Line := 1, Column := 9 },
         { Typ := .IDENTIFIER, Value := "a", Line := 1, Column := 11 },
         { Typ := .COMMA, Value := ",", Line := 1, Column := 12 },
         { Typ := .IDENTIFIER, Value := "b", Line := 1, Column := 14 },
         { Typ := .RPAREN, Value := ")", Line := 1, Column := 15 },
         { Typ := .EOF, Value := "", Line := 1, Column := 16 }]).Parse =
      .ok { Body := [.ExpressionStatement
        (.FunctionCall "IF" [.BinaryExpression (.Identifier "a") .OpGreaterThan (.Identifier "b"),
          .Identifier "a", .Identifier "b"])] } :=
  ⟨isOkWith_sound _ _ (by decide!),
   ((C31_function_call { Typ := .IF, Value := "IF", Line := 1, Column := 1 }
      { Typ := .LPAREN, Value := "(", Line := 1, Column := 3 }
      { Typ := .RPAREN, Value := ")", Line := 1, Column := 15 }
      { Typ := .EOF, Value := "", Line := 1, Column := 16 } rfl rfl rfl rfl).2.1
      [{ Typ := .IDENTIFIER, Value := "a", Line := 1, Column := 4 },
       { Typ := .GT, Value := ">", Line := 1, Column := 6 },
       { Typ := .IDENTIFIER, Value := "b", Line := 1, Column := 8 }]
      (.BinaryExpression (.Identifier "a") .OpGreaterThan (.Identifier "b"))
      [({ Typ := .COMMA, Value := ",", Line := 1, Column := 9 },
        [{ Typ := .IDENTIFIER, Value := "a", Line := 1, Column := 11 }], .Identifier "a"),
       ({ Typ := .COMMA, Value := ",", Line := 1, Column := 12 },
        [{ Typ := .IDENTIFIER, Value := "b", Line := 1, Column := 14 }], .Identifier "b")]
      (derives_lower 2 0 _ _ (by omega) (by omega)
        (Derives.binary 2 [{ Typ := .IDENTIFIER, Value := "a", Line := 1, Column := 4 }]
          [{ Typ := .IDENTIFIER, Value := "b", Line := 1, Column := 8 }]
          { Typ := .GT, Value := ">", Line := 1, Column := 6 } .OpGreaterThan _ _ rfl
          (derives_name 2 { Typ := .IDENTIFIER, Value := "a", Line := 1, Column := 4 }
            (by omega) rfl)
          (derives_name 3 { Typ := .IDENTIFIER, Value := "b", Line := 1, Column := 8 }
            (by omega) rfl)))
      (by
        intro m hm
        simp only [List.mem_cons, List.mem_singleton, List.not_mem_nil, or_false] at hm
        rcases hm with h | h <;> rw [h])
      (by
        intro m hm
        simp only [List.mem_cons, List.mem_singleton, List.not_mem_nil, or_false] at hm
        rcases hm with h | h
        · rw [h]
          exact derives_name 0 { Typ := .IDENTIFIER, Value := "a", Line := 1, Column := 11 }
            (by omega) rfl
        · rw [h]
          exact derives_name 0 { Typ := .IDENTIFIER, Value := "b", Line := 1, Column := 14 }
            (by omega) rfl)).1⟩

/-! ### Termination of the parser -/

theorem fail_parseError (p : Parser) (msg : String) : ∃ l c, p.fail msg = .parser msg l c := by
  unfold Parser.fail
  cases p.current with
  | none => exact ⟨0, 0, rfl⟩
  | some t => exact ⟨t.Line, t.Column, rfl⟩

theorem progress_error {α : Type} (s : Bool) (r : List Token) (eof : Token)
    (res : Res (α × Parser)) (p : Parser) (msg : String) (h : res = .error (p.fail msg)) :
    Progress s r eof res := by
  obtain ⟨l, c, hl⟩ := fail_parseError p msg
  exact Or.inr ⟨msg, l, c, by rw [h, hl]⟩

theorem progress_prefix {α : Type} (s s2 : Bool) (w r1 : List Token) (eof : Token)
    (res : Res (α × Parser)) (hs : s = true → w ≠ [] ∨ s2 = true)
    (h : Progress s2 r1 eof res) : Progress s (w ++ r1) eof res := by
  rcases h with ⟨x, p1, w1, r2, h1, h2, h3, h4⟩ | h
  · refine Or.inl ⟨x, p1, w ++ w1, r2, h1, by rw [h2, List.append_assoc], fun hst => ?_, h4⟩
    rcases hs hst with h5 | h5
    · intro h6
      exact h5 (List.append_eq_nil.mp h6).1
    · intro h6
      exact h3 h5 (List.append_eq_nil.mp h6).2
  · exact Or.inr h

/-- The token the parser stands at, before tokens `r` and the end token. -/
theorem at_cases (p : Parser) (r : List Token) (eof : Token) (h : p.At (r ++ [eof])) :
    (r = [] ∧ p.At [eof]) ∨ ∃ t r1, r = t :: r1 ∧ p.At (t :: (r1 ++ [eof])) := by
  cases r with
  | nil => exact Or.inl ⟨rfl, h⟩
  | cons t r1 => exact Or.inr ⟨t, r1, rfl, h⟩

theorem at_advance_end (p : Parser) (t : Token) (r : List Token) (eof : Token)
    (h : p.At (t :: (r ++ [eof]))) (ht : t.Typ ≠ .EOF) : p.advance.At (r ++ [eof]) :=
  at_advance p t _ h ht (by simp)

theorem advance_at_end (p : Parser) (t : Token) (r : List Token) (h : p.At (t :: r))
    (ht : t.Typ = .EOF) : p.advance = p := by
  simp [Parser.advance, at_isAtEnd p t r h, ht]

theorem parseLevel_succ_error (k fuel : Nat) (p : Parser) (e : FormulaError) (hk : k < 5)
    (h : parseLevel (k + 1) fuel p = .error e) : parseLevel k (fuel + 1) p = .error e := by
  rcases k with _ | _ | _ | _ | _ | k
  · simp only [parseLevel] at h
    simp only [parseLevel, Parser.parseLogicalOr, h]
  · simp only [parseLevel] at h
    simp only [parseLevel, Parser.parseLogicalAnd, h]
  · simp only [parseLevel] at h
    simp only [parseLevel, Parser.parseComparison, h]
  · simp only [parseLevel] at h
    simp only [parseLevel, Parser.parseAdditive, h]
  · simp only [parseLevel] at h
    simp only [parseLevel, Parser.parseMultiplicative, h]
  · omega

theorem loopLevel_continue_error (k fuel : Nat) (p : Parser) (o : Token) (r : List Token)
    (op : BinaryOperator) (left : Expression) (e : FormulaError) (h : p.At (o :: r))
    (hop : levelOp k o.Typ = some op)
    (hr : parseLevel (k + 1) fuel p.advance = .error e) :
    loopLevel k (fuel + 1) left p = .error e := by
  have hc := at_curType p o r h
  have he := at_isAtEnd p o r h
  have hne := (levelOp_not_eof k o.Typ op hop).1
  rcases k with _ | _ | _ | _ | _ | k
  · have : o.Typ = .OR ∧ op = .OpOr := by
      revert hop; cases o.Typ <;> simp [levelOp]; exact fun h => h.symm
    simp only [parseLevel] at hr
    simp [loopLevel, Parser.parseLogicalOrLoop, hc, he, this.1, hr]
  · have : o.Typ = .AND ∧ op = .OpAnd := by
      revert hop; cases o.Typ <;> simp [levelOp]; exact fun h => h.symm
    simp only [parseLevel] at hr
    simp [loopLevel, Parser.parseLogicalAndLoop, hc, he, this.1, hr]
  · have : Parser.comparisonOp (some o.Typ) = some op := by
      revert hop; cases o.Typ <;> simp [levelOp, Parser.comparisonOp]
    simp only [parseLevel] at hr
    simp [loopLevel, Parser.parseComparisonLoop, hc, he, hne, this, hr]
  · have : (o.Typ = .PLUS ∧ op = .OpPlus) ∨ (o.Typ = .MINUS ∧ op = .OpMinus) := by
      revert hop; cases o.Typ <;> simp [levelOp] <;> exact fun h => h.symm
    simp only [parseLevel] at hr
    rcases this with ⟨h1, h2⟩ | ⟨h1, h2⟩ <;>
      simp [loopLevel, Parser.parseAdditiveLoop, hc, he, h1, hr]
  · have : (o.Typ = .MULTIPLY ∧ op = .OpMultiply) ∨ (o.Typ = .DIVIDE ∧ op = .OpDivide) := by
      revert hop; cases o.Typ <;> simp [levelOp] <;> exact fun h => h.symm
    simp only [parseLevel] at hr
    rcases this with ⟨h1, h2⟩ | ⟨h1, h2⟩ <;>
      simp [loopLevel, Parser.parseMultiplicativeLoop, hc, he, h1, hr]
  · have := levelOp_some_lt _ _ _ hop
    omega

theorem total_level_lower (fuel : Nat) (ih : ParserTotal fuel) (k : Nat) (hk : k < 5)
    (p : Parser) (r : List Token) (eof : Token) (hat : p.At (r ++ [eof]))
    (heof : eof.Typ = .EOF) (hf : 16 * r.length + 15 ≤ fuel + 1 + k) :
    Progress true r eof (parseLevel k (fuel + 1) p) := by
  rcases ih.level (k + 1) p r eof (by omega) hat heof (by omega) with
    ⟨x, p1, w, r1, h1, h2, h3, h4⟩ | ⟨msg, l, c, h1⟩
  · rw [parseLevel_succ k fuel p p1 x hk h1, h2]
    have hw : 0 < w.length := List.length_pos.mpr (h3 rfl)
    have hlen : r.length = w.length + r1.length := by rw [h2, List.length_append]
    exact progress_prefix true false w r1 eof _ (fun _ => Or.inl (h3 rfl))
      (ih.loop k x p1 r1 eof h4 heof (by omega))
  · exact Or.inr ⟨msg, l, c, parseLevel_succ_error k fuel p _ hk h1⟩

theorem total_loop (fuel : Nat) (ih : ParserTotal fuel) (k : Nat) (left : Expression)
    (p : Parser) (r : List Token) (eof : Token) (hat : p.At (r ++ [eof]))
    (heof : eof.Typ = .EOF) (hf : 16 * r.length + 1 ≤ fuel + 1) :
    Progress false r eof (loopLevel k (fuel + 1) left p) := by
  have stop : ∀ t rest, p.At (t :: rest) → levelOp k t.Typ = none →
      Progress false r eof (loopLevel k (fuel + 1) left p) := by
    intro t rest h1 h2
    rw [loopLevel_stop k fuel p t rest left h1 h2]
    exact Or.inl ⟨left, p, [], r, rfl, rfl, by simp, hat⟩
  rcases at_cases p r eof hat with ⟨_, h1⟩ | ⟨t, r1, h0, h1⟩
  · exact stop eof [] h1 (by rw [heof]; exact levelOp_eof k)
  · cases hop : levelOp k t.Typ with
    | none => exact stop t _ h1 hop
    | some op =>
      have hk := levelOp_some_lt _ _ _ hop
      have hne := (levelOp_not_eof _ _ _ hop).1
      have a1 := at_advance_end p t r1 eof h1 hne
      have hlen : r.length = r1.length + 1 := by rw [h0]; rfl
      rcases ih.level (k + 1) p.advance r1 eof (by omega) a1 heof (by omega) with
        ⟨x, p1, w, r2, e1, e2, e3, e4⟩ | ⟨msg, l, c, e1⟩
      · rw [loopLevel_continue k fuel p p1 t _ op left x h1 hop e1, h0, e2]
        have hlen2 : r1.length = w.length + r2.length := by rw [e2, List.length_append]
        have := ih.loop k (.BinaryExpression left op x) p1 r2 eof e4 heof (by omega)
        have h3 := progress_prefix false false (t :: w) r2 eof _ (by simp) this
        simpa using h3
      · exact Or.inr ⟨msg, l, c, loopLevel_continue_error k fuel p t _ op left _ h1 hop e1⟩

theorem parseUnary_neg_error (p : Parser) (m : Token) (r : List Token) (e : FormulaError)
    (f : Nat) (h : p.At (m :: r)) (hm : m.Typ = .MINUS)
    (hu : Parser.parseUnary f p.advance = .error e) :
    Parser.parseUnary (f + 1) p = .error e := by
  simp [Parser.parseUnary, at_curType p m r h, at_isAtEnd p m r h, hm, hu]

theorem total_unary (fuel : Nat) (ih : ParserTotal fuel) (p : Parser) (r : List Token)
    (eof : Token) (hat : p.At (r ++ [eof])) (heof : eof.Typ = .EOF)
    (hf : 16 * r.length + 15 ≤ fuel + 1 + 5) :
    Progress true r eof (parseLevel 5 (fuel + 1) p) := by
  have prim : ∀ t rest, p.At (t :: rest) → t.Typ ≠ .MINUS →
      Progress true r eof (parseLevel 5 (fuel + 1) p) := by
    intro t rest h1 h2
    have h3 : parseLevel 5 (fuel + 1) p = parseLevel 6 fuel p :=
      parseUnary_primary p t rest fuel h1 h2
    rw [h3]
    exact ih.level 6 p r eof (le_refl 6) hat heof (by omega)
  rcases at_cases p r eof hat with ⟨_, h1⟩ | ⟨t, r1, h0, h1⟩
  · exact prim eof [] h1 (by rw [heof]; decide)
  · by_cases hm : t.Typ = .MINUS
    · have a1 := at_advance_end p t r1 eof h1 (by rw [hm]; decide)
      have hlen : r.length = r1.length + 1 := by rw [h0]; rfl
      rcases ih.level 5 p.advance r1 eof (by omega) a1 heof (by omega) with
        ⟨x, p1, w, r2, e1, e2, e3, e4⟩ | ⟨msg, l, c, e1⟩
      · refine Or.inl ⟨.UnaryExpression .OpUnaryMinus x, p1, t :: w, r2, ?_, ?_, by simp, e4⟩
        · exact parseUnary_neg p p1 t _ x fuel h1 hm e1
        · rw [h0, e2]; rfl
      · exact Or.inr ⟨msg, l, c, parseUnary_neg_error p t _ _ fuel h1 hm e1⟩
    · exact prim t _ h1 hm

theorem total_primary (fuel : Nat) (ih : ParserTotal fuel) (p : Parser) (r : List Token)
    (eof : Token) (hat : p.At (r ++ [eof])) (heof : eof.Typ = .EOF)
    (hf : 16 * r.length + 15 ≤ fuel + 1 + 6) :
    Progress true r eof (parseLevel 6 (fuel + 1) p) := by
  show Progress true r eof (Parser.parsePrimary (fuel + 1) p)
  rcases at_cases p r eof hat with ⟨_, h1⟩ | ⟨t, r1, h0, h1⟩
  · exact progress_error _ _ _ _ p "unexpected end of input"
      (by simp [Parser.parsePrimary, at_isAtEnd p eof [] h1, heof])
  · have hc := at_curType p t _ h1
    have he := at_isAtEnd p t _ h1
    have hlen : r.length = r1.length + 1 := by rw [h0]; rfl
    by_cases hend : t.Typ = .EOF
    · exact progress_error _ _ _ _ p "unexpected end of input"
        (by simp [Parser.parsePrimary, he, hend])
    · have a1 := at_advance_end p t r1 eof h1 hend
      by_cases hnum : t.Typ = .NUMBER
      · cases hpf : ParseFloat t.Value with
        | none =>
          exact progress_error _ _ _ _ p ("invalid number: " ++ t.Value)
            (by simp [Parser.parsePrimary, he, hc, hnum, Parser.parseNumber,
              at_curValue p t _ h1, hpf])
        | some v =>
          refine Or.inl ⟨.NumberLiteral v, p.advance, [t], r1, ?_, by rw [h0]; rfl, by simp, a1⟩
          simp [Parser.parsePrimary, he, hc, hnum, Parser.parseNumber,
            at_curValue p t _ h1, hpf]
      · by_cases hname : isNameToken t = true
        · have h2 : Parser.parsePrimary (fuel + 1) p = Parser.parseIdentifierOrCall fuel p := by
            rcases isNameToken_cases t hname with h | h <;>
              simp [Parser.parsePrimary, he, hc, h]
          rw [h2, h0]
          exact ih.ident p t r1 eof h1 heof hname (by omega)
        · have hn2 : t.Typ ≠ .IDENTIFIER ∧ t.Typ ≠ .IF := by
            simpa [isNameToken] using hname
          by_cases hlp : t.Typ = .LPAREN
          · have h2 : Parser.parsePrimary (fuel + 1) p =
                Parser.parseGroupedExpression fuel p := by
              simp [Parser.parsePrimary, he, hc, hlp]
            rw [h2, h0]
            exact ih.group p t r1 eof h1 heof hlp (by omega)
          · refine progress_error _ _ _ _ p ("unexpected token: " ++ t.Typ.name) ?_
            simp only [Parser.parsePrimary, he, hend, hc]
            revert hend hnum hn2 hlp
            cases t.Typ <;> simp

theorem total_expr (fuel : Nat) (ih : ParserTotal fuel) (p : Parser) (r : List Token)
    (eof : Token) (hat : p.At (r ++ [eof])) (heof : eof.Typ = .EOF)
    (hf : 16 * r.length + 16 ≤ fuel + 1) :
    Progress true r eof (Parser.parseExpression (fuel + 1) p) := by
  have h : Parser.parseExpression (fuel + 1) p = parseLevel 0 fuel p := by
    simp [Parser.parseExpression, parseLevel]
  rw [h]
  exact ih.level 0 p r eof (by omega) hat heof (by omega)

theorem total_ident (fuel : Nat) (ih : ParserTotal fuel) (p : Parser) (t : Token)
    (r : List Token) (eof : Token) (hat : p.At (t :: (r ++ [eof]))) (heof : eof.Typ = .EOF)
    (hname : isNameToken t = true) (hf : 16 * (r.length + 1) + 8 ≤ fuel + 1) :
    Progress true (t :: r) eof (Parser.parseIdentifierOrCall (fuel + 1) p) := by
  have hne : t.Typ ≠ .EOF := by
    rcases isNameToken_cases t hname with h | h <;> rw [h] <;> decide
  have a1 := at_advance_end p t r eof hat hne
  have plain : ∀ t2 rest, p.advance.At (t2 :: rest) → t2.Typ ≠ .LPAREN →
      Progress true (t :: r) eof (Parser.parseIdentifierOrCall (fuel + 1) p) := by
    intro t2 rest h1 h2
    refine Or.inl ⟨.Identifier t.Value, p.advance, [t], r, ?_, rfl, by simp, a1⟩
    simp [Parser.parseIdentifierOrCall, at_curType _ t2 rest h1, h2, at_curValue p t _ hat]
  rcases at_cases p.advance r eof a1 with ⟨_, h1⟩ | ⟨t2, r1, h0, h1⟩
  · exact plain eof [] h1 (by rw [heof]; decide)
  · by_cases hlp : t2.Typ = .LPAREN
    · have h2 : Parser.parseIdentifierOrCall (fuel + 1) p =
          Parser.parseFunctionCall fuel t.Value p.advance := by
        simp [Parser.parseIdentifierOrCall, at_curType _ t2 _ h1, at_isAtEnd _ t2 _ h1, hlp,
          at_curValue p t _ hat]
      rw [h2]
      have hlen : r.length = r1.length + 1 := by rw [h0]; rfl
      have := ih.call t.Value p.advance t2 r1 eof h1 heof hlp (by omega)
      rw [h0]
      exact progress_prefix true true [t] (t2 :: r1) eof _ (fun _ => Or.inr rfl) this
    · exact plain t2 _ h1 hlp

theorem total_call (fuel : Nat) (ih : ParserTotal fuel) (name : String) (p : Parser)
    (lp : Token) (r : List Token) (eof : Token) (hat : p.At (lp :: (r ++ [eof])))
    (heof : eof.Typ = .EOF) (hlp : lp.Typ = .LPAREN)
    (hf : 16 * (r.length + 1) + 2 ≤ fuel + 1) :
    Progress true (lp :: r) eof (Parser.parseFunctionCall (fuel + 1) name p) := by
  have a1 := at_advance_end p lp r eof hat (by rw [hlp]; decide)
  rcases ih.args [] p.advance r eof a1 heof (by omega) with
    ⟨args, p1, w, r1, e1, e2, e3, e4⟩ | ⟨msg, l, c, e1⟩
  · rcases at_cases p1 r1 eof e4 with ⟨_, h1⟩ | ⟨t, r2, h0, h1⟩
    · exact progress_error _ _ _ _ p1 "expected ')' after function arguments"
        (by simp [Parser.parseFunctionCall, e1, at_curType p1 eof [] h1, heof])
    · by_cases hrp : t.Typ = .RPAREN
      · refine Or.inl ⟨.FunctionCall name args, p1.advance, lp :: (w ++ [t]), r2, ?_, ?_,
          by simp, at_advance_end p1 t r2 eof h1 (by rw [hrp]; decide)⟩
        · simp [Parser.parseFunctionCall, e1, at_curType p1 t _ h1, hrp]
        · rw [e2, h0]; simp
      · exact progress_error _ _ _ _ p1 "expected ')' after function arguments"
          (by simp [Parser.parseFunctionCall, e1, at_curType p1 t _ h1, hrp])
  · exact Or.inr ⟨msg, l, c, by simp [Parser.parseFunctionCall, e1]⟩

theorem total_args (fuel : Nat) (ih : ParserTotal fuel) (acc : List Expression) (p : Parser)
    (r : List Token) (eof : Token) (hat : p.At (r ++ [eof])) (heof : eof.Typ = .EOF)
    (hf : 16 * r.length + 17 ≤ fuel + 1) :
    Progress false r eof (Parser.parseArguments (fuel + 1) acc p) := by
  have stop : ∀ t rest, p.At (t :: rest) → (t.Typ = .EOF ∨ t.Typ = .RPAREN) →
      Progress false r eof (Parser.parseArguments (fuel + 1) acc p) := by
    intro t rest h1 h2
    refine Or.inl ⟨acc, p, [], r, ?_, rfl, by simp, hat⟩
    rcases h2 with h2 | h2 <;>
      simp [Parser.parseArguments, at_curType p t rest h1, at_isAtEnd p t rest h1, h2]
  rcases at_cases p r eof hat with ⟨_, h1⟩ | ⟨t, r1, h0, h1⟩
  · exact stop eof [] h1 (Or.inl heof)
  · by_cases hstop : t.Typ = .EOF ∨ t.Typ = .RPAREN
    · exact stop t _ h1 hstop
    · have hs2 : t.Typ ≠ .EOF ∧ t.Typ ≠ .RPAREN := by
        constructor
        · exact fun h => hstop (Or.inl h)
        · exact fun h => hstop (Or.inr h)
      rcases ih.expr p r eof hat heof (by omega) with
        ⟨arg, p1, w, r2, e1, e2, e3, e4⟩ | ⟨msg, l, c, e1⟩
      · have hw : 0 < w.length := List.length_pos.mpr (e3 rfl)
        have hlen : r.length = w.length + r2.length := by rw [e2, List.length_append]
        rcases at_cases p1 r2 eof e4 with ⟨_, h2⟩ | ⟨t2, r3, h3, h2⟩
        · exact progress_error _ _ _ _ p1 "expected ',' or ')' in function call"
            (by simp [Parser.parseArguments, at_curType p t _ h1, at_isAtEnd p t _ h1, hs2.1,
              hs2.2, e1, at_curType p1 eof [] h2, heof])
        · have hlen3 : r2.length = r3.length + 1 := by rw [h3]; rfl
          by_cases hcomma : t2.Typ = .COMMA
          · have h4 : Parser.parseArguments (fuel + 1) acc p =
                Parser.parseArguments fuel (acc ++ [arg]) p1.advance := by
              simp [Parser.parseArguments, at_curType p t _ h1, at_isAtEnd p t _ h1, hs2.1,
                hs2.2, e1, at_curType p1 t2 _ h2, hcomma]
            rw [h4, e2, h3]
            have a2 := at_advance_end p1 t2 r3 eof h2 (by rw [hcomma]; decide)
            have := ih.args (acc ++ [arg]) p1.advance r3 eof a2 heof (by omega)
            have h5 := progress_prefix false false (w ++ [t2]) r3 eof _ (by simp) this
            simpa using h5
          · by_cases hrp : t2.Typ = .RPAREN
            · have h4 : Parser.parseArguments (fuel + 1) acc p =
                  Parser.parseArguments fuel (acc ++ [arg]) p1 := by
                simp [Parser.parseArguments, at_curType p t _ h1, at_isAtEnd p t _ h1, hs2.1,
                  hs2.2, e1, at_curType p1 t2 _ h2, hrp]
              rw [h4, e2]
              have := ih.args (acc ++ [arg]) p1 r2 eof e4 heof (by omega)
              exact progress_prefix false false w r2 eof _ (by simp) this
            · exact progress_error _ _ _ _ p1 "expected ',' or ')' in function call"
                (by simp [Parser.parseArguments, at_curType p t _ h1, at_isAtEnd p t _ h1,
                  hs2.1, hs2.2, e1, at_curType p1 t2 _ h2, hcomma, hrp])
      · exact Or.inr ⟨msg, l, c, by
          simp [Parser.parseArguments, at_curType p t _ h1, at_isAtEnd p t _ h1, hs2.1,
            hs2.2, e1]⟩

theorem total_group (fuel : Nat) (ih : ParserTotal fuel) (p : Parser) (lp : Token)
    (r : List Token) (eof : Token) (hat : p.At (lp :: (r ++ [eof]))) (heof : eof.Typ = .EOF)
    (hlp : lp.Typ = .LPAREN) (hf : 16 * (r.length + 1) + 1 ≤ fuel + 1) :
    Progress true (lp :: r) eof (Parser.parseGroupedExpression (fuel + 1) p) := by
  have a1 := at_advance_end p lp r eof hat (by rw [hlp]; decide)
  rcases ih.expr p.advance r eof a1 heof (by omega) with
    ⟨x, p1, w, r1, e1, e2, e3, e4⟩ | ⟨msg, l, c, e1⟩
  · rcases at_cases p1 r1 eof e4 with ⟨_, h1⟩ | ⟨t, r2, h0, h1⟩
    · exact progress_error _ _ _ _ p1 "expected ')' after expression"
        (by simp [Parser.parseGroupedExpression, e1, at_curType p1 eof [] h1, heof])
    · by_cases hrp : t.Typ = .RPAREN
      · refine Or.inl ⟨x, p1.advance, lp :: (w ++ [t]), r2, ?_, ?_,
          by simp, at_advance_end p1 t r2 eof h1 (by rw [hrp]; decide)⟩
        · simp [Parser.parseGroupedExpression, e1, at_curType p1 t _ h1, hrp]
        · rw [e2, h0]; simp
      · exact progress_error _ _ _ _ p1 "expected ')' after expression"
          (by simp [Parser.parseGroupedExpression, e1, at_curType p1 t _ h1, hrp])
  · exact Or.inr ⟨msg, l, c, by simp [Parser.parseGroupedExpression, e1]⟩

/-- No parsing function uses up its budget: with a budget in proportion to the number of
tokens before it, each returns or fails with a ParseError. -/
theorem parserTotal (fuel : Nat) : ParserTotal fuel := by
  induction fuel with
  | zero =>
    refine ⟨?_, ?_, ?_, ?_, ?_, ?_, ?_⟩
    · intro k p r eof hk _ _ hf; omega
    · intro k left p r eof _ _ hf; omega
    · intro p r eof _ _ hf; omega
    · intro p t r eof _ _ _ hf; omega
    · intro name p lp r eof _ _ _ hf; omega
    · intro acc p r eof _ _ hf; omega
    · intro p lp r eof _ _ _ hf; omega
  | succ fuel ih =>
    refine ⟨?_, total_loop fuel ih, total_expr fuel ih, total_ident fuel ih,
      total_call fuel ih, total_args fuel ih, total_group fuel ih⟩
    intro k p r eof hk hat heof hf
    by_cases h5 : k < 5
    · exact total_level_lower fuel ih k h5 p r eof hat heof hf
    · by_cases h6 : k = 5
      · subst h6
        exact total_unary fuel ih p r eof hat heof hf
      · have h7 : k = 6 := by omega
        subst h7
        exact total_primary fuel ih p r eof hat heof hf

theorem skipTerminator_at (p : Parser) (r : List Token) (eof : Token)
    (h : p.At (r ++ [eof])) (heof : eof.Typ = .EOF) :
    ∃ w r1, r = w ++ r1 ∧ (Parser.skipTerminator p).At (r1 ++ [eof]) := by
  rcases at_cases p r eof h with ⟨h0, h1⟩ | ⟨t, r1, h0, h1⟩
  · refine ⟨[], r, rfl, ?_⟩
    rw [skipTerminator_eof p eof [] h1 heof]
    exact h
  · by_cases hc : !p.isAtEnd ∧ (p.curType = some .SEMICOLON ∨ p.curType = some .NEWLINE)
    · rw [Parser.skipTerminator, if_pos hc]
      have hne : t.Typ ≠ .EOF := by
        have h3 := hc.1
        rw [at_isAtEnd p t _ h1] at h3
        simpa using h3
      exact ⟨[t], r1, h0, at_advance_end p t r1 eof h1 hne⟩
    · rw [Parser.skipTerminator, if_neg hc]
      exact ⟨[], r, rfl, h⟩

theorem progress_skip {α β : Type} (r : List Token) (eof : Token) (heof : eof.Typ = .EOF)
    (res : Res (α × Parser)) (res2 : Res (β × Parser)) (f : α → β)
    (h : Progress true r eof res)
    (hok : ∀ x p1, res = .ok (x, p1) → res2 = .ok (f x, Parser.skipTerminator p1))
    (herr : ∀ e, res = .error e → res2 = .error e) :
    Progress true r eof res2 := by
  rcases h with ⟨x, p1, w, r1, h1, h2, h3, h4⟩ | ⟨msg, l, c, h1⟩
  · obtain ⟨w2, r2, e1, e2⟩ := skipTerminator_at p1 r1 eof h4 heof
    refine Or.inl ⟨f x, _, w ++ w2, r2, hok x p1 h1, by rw [h2, e1, List.append_assoc],
      fun _ h5 => h3 rfl (List.append_eq_nil.mp h5).1, e2⟩
  · exact Or.inr ⟨msg, l, c, herr _ h1⟩

/-- Method `parseStatement` before a token that is not the end: it returns after consuming at
least one token, or fails with a ParseError. -/
theorem parseStatement_total (depth : Nat) (p : Parser) (t : Token) (r : List Token)
    (eof : Token) (hat : p.At (t :: (r ++ [eof]))) (heof : eof.Typ = .EOF)
    (ht : t.Typ ≠ .EOF) (hf : 16 * (r.length + 1) + 16 ≤ depth) :
    Progress true (t :: r) eof (Parser.parseStatement depth p) := by
  by_cases hd : t.Typ = .IDENTIFIER ∧ (r ++ [eof]).head?.map (fun a => a.Typ) = some .ASSIGN
  · obtain ⟨h1, h2⟩ := hd
    obtain ⟨a, r2, h3, ha⟩ : ∃ a r2, r = a :: r2 ∧ a.Typ = .ASSIGN := by
      cases r with
      | nil =>
        simp only [List.nil_append, List.head?_cons, Option.map_some', Option.some.injEq] at h2
        rw [heof] at h2
        cases h2
      | cons a r2 => exact ⟨a, r2, rfl, by simpa using h2⟩
    subst h3
    have hat2 : p.At (t :: a :: (r2 ++ [eof])) := hat
    obtain ⟨i1, i2⟩ := parseStatement_declaration depth p t a _ hat2 h1 ha
    have a1 := at_advance_end p t (a :: r2) eof hat ht
    have a2 := at_advance_end p.advance a r2 eof a1 (by rw [ha]; decide)
    simp only [List.length_cons] at hf
    have h4 := (parserTotal depth).expr p.advance.advance r2 eof a2 heof (by omega)
    have h5 := progress_skip r2 eof heof _ (Parser.parseStatement depth p)
      (fun e => Statement.VariableDeclaration t.Value e) h4 i1 i2
    exact progress_prefix true true [t, a] r2 eof _ (fun _ => Or.inr rfl) h5
  · have hno : ¬ (p.curType = some .IDENTIFIER ∧
        p.peek.map (fun t => t.Typ) = some .ASSIGN) := by
      rw [at_curType p t _ hat, at_peek p t _ hat]
      simpa using hd
    obtain ⟨i1, i2⟩ := parseStatement_expression depth p hno
    have h4 := (parserTotal depth).expr p (t :: r) eof hat heof
      (by simp only [List.length_cons]; omega)
    exact progress_skip (t :: r) eof heof _ (Parser.parseStatement depth p)
      (fun e => Statement.ExpressionStatement e) h4 i1 i2

/-- The statement loop of `Parse` before tokens that are followed by an end token: with one
round of budget per token and one more it returns the statements or fails with a
ParseError. -/
theorem parseLoop_total (depth : Nat) (eof : Token) (heof : eof.Typ = .EOF) :
    ∀ (fuel : Nat) (stmts : List Statement) (p : Parser) (r : List Token),
      p.At (r ++ [eof]) → r.length + 1 ≤ fuel → 16 * r.length + 16 ≤ depth →
      (∃ out, Parser.parseLoop depth fuel stmts p = .ok out) ∨
      (∃ msg l c, Parser.parseLoop depth fuel stmts p = .error (.parser msg l c)) := by
  intro fuel
  induction fuel with
  | zero => intro stmts p r _ h; omega
  | succ fuel ih =>
    intro stmts p r hat hf hd
    rcases at_cases p r eof hat with ⟨_, h1⟩ | ⟨t, r1, h0, h1⟩
    · exact Or.inl ⟨stmts, parseLoop_eof depth fuel stmts p eof [] h1 heof⟩
    · have hlen : r.length = r1.length + 1 := by rw [h0]; rfl
      by_cases hend : t.Typ = .EOF
      · exact Or.inl ⟨stmts, parseLoop_eof depth fuel stmts p t _ h1 hend⟩
      · by_cases hnl : t.Typ = .NEWLINE
        · have h2 : Parser.parseLoop depth (fuel + 1) stmts p =
              Parser.parseLoop depth fuel stmts p.advance := by
            simp [Parser.parseLoop, at_isAtEnd p t _ h1, hend, at_curType p t _ h1, hnl]
          rw [h2]
          exact ih stmts p.advance r1 (at_advance_end p t r1 eof h1 hend) (by omega) (by omega)
        · rcases parseStatement_total depth p t r1 eof h1 heof hend (by omega) with
            ⟨s, p1, w, r2, e1, e2, e3, e4⟩ | ⟨msg, l, c, e1⟩
          · rw [parseLoop_statement depth fuel stmts p p1 t _ s h1 hend hnl e1]
            have hw : 0 < w.length := List.length_pos.mpr (e3 rfl)
            have hlen2 : (t :: r1).length = w.length + r2.length := by
              rw [e2, List.length_append]
            simp only [List.length_cons] at hlen2
            exact ih (stmts ++ [s]) p1 r2 e4 (by omega) (by omega)
          · refine Or.inr ⟨msg, l, c, ?_⟩
            simp [Parser.parseLoop, at_isAtEnd p t _ h1, hend, at_curType p t _ h1, hnl, e1]

/-- Method `Parse` on tokens that end with an EOF token returns a program or fails with a
ParseError. -/
theorem parse_total (r : List Token) (eof : Token) (heof : eof.Typ = .EOF) :
    (∃ prog, (NewParser (r ++ [eof])).Parse = .ok prog) ∨
    (∃ msg l c, (NewParser (r ++ [eof])).Parse = .error (.parser msg l c)) := by
  have hlen : (NewParser (r ++ [eof])).tokens.length = r.length + 1 := by
    simp [NewParser]
  rcases parseLoop_total (16 * (r.length + 1 + 1)) eof heof (r.length + 1 + 1) []
      (NewParser (r ++ [eof])) r (at_new _) (by omega) (by omega) with ⟨out, h⟩ | ⟨msg, l, c, h⟩
  · exact Or.inl ⟨{ Body := out }, by simp only [Parser.Parse, hlen, h]⟩
  · exact Or.inr ⟨msg, l, c, by simp only [Parser.Parse, hlen, h]⟩

/-- Method `Tokenize` returns on every input: tokens that end with an EOF token, or a
LexError. -/
theorem tokenize_total (input : List Char) :
    (∃ body eof, (NewLexer input).Tokenize = .ok (body ++ [eof]) ∧ eof.Typ = .EOF) ∨
    (∃ msg l c ch, (NewLexer input).Tokenize = .error (.lexer msg l c ch)) := by
  rcases tokenize_cases input with ⟨body, e1, _⟩ | ⟨e, k, l2, e1, _, e3, _, e5⟩
  · exact Or.inl ⟨body, _, e1, rfl⟩
  · obtain ⟨pre, c, post, _, _, _, a4⟩ := scanToken_error input l2 e e3 e5
    exact Or.inr ⟨_, _, _, _, by rw [e1, a4]⟩

/-- Method `Compile` returns on every source: a program, a LexError or a ParseError. -/
theorem compile_total (source : String) :
    (∃ prog, Compile source = .ok prog) ∨
    (∃ msg l c ch, Compile source = .error (.lexer msg l c ch)) ∨
    (∃ msg l c, Compile source = .error (.parser msg l c)) := by
  rcases tokenize_total (goBytes source) with ⟨body, eof, h1, h2⟩ | ⟨msg, l, c, ch, h1⟩
  · rcases parse_total body eof h2 with ⟨prog, h3⟩ | ⟨msg, l, c, h3⟩
    · exact Or.inl ⟨prog, by simp only [Compile, h1, h3]⟩
    · exact Or.inr (Or.inr ⟨msg, l, c, by simp only [Compile, h1, h3]⟩)
  · exact Or.inr (Or.inl ⟨msg, l, c, ch, by simp only [Compile, h1]⟩)

/-- C35.  `Compile` terminates on every source with a program, a LexError or a ParseError;
the budgets of the loops and of the recursion, which are in proportion to the length of the
input, are never used up.  In `Tokenize`, every call of `scanToken` on input that is not
exhausted fails or leaves less input than it found, and `Tokenize` returns tokens that end
with an EOF token or a LexError.  For every token sequence that ends with an EOF token
`Parse` returns a Program or a ParseError; a round of its statement loop before a NEWLINE
token passes that token, and before any other token that is not the end `parseStatement`
fails with a ParseError or returns after consuming at least one token. -/
theorem C35_compile_terminates :
    (∀ source : String,
      (∃ prog, Compile source = .ok prog) ∨
      (∃ msg l c ch, Compile source = .error (.lexer msg l c ch)) ∨
      (∃ msg l c, Compile source = .error (.parser msg l c))) ∧
    (∀ (source : String) (k : Nat) (l : Lexer),
      scanRounds k (NewLexer (goBytes source)) = .ok l → l.rest ≠ [] →
      (∃ l1, l.scanToken = .ok l1 ∧ l1.rest.length < l.rest.length) ∨
      (∃ msg line col ch, l.scanToken = .error (.lexer msg line col ch))) ∧
    (∀ input : List Char,
      (∃ body eof, (NewLexer input).Tokenize = .ok (body ++ [eof]) ∧ eof.Typ = .EOF) ∨
      (∃ msg l c ch, (NewLexer input).Tokenize = .error (.lexer msg l c ch))) ∧
    (∀ (r : List Token) (eof : Token), eof.Typ = .EOF →
      (∃ prog, (NewParser (r ++ [eof])).Parse = .ok prog) ∨
      (∃ msg l c, (NewParser (r ++ [eof])).Parse = .error (.parser msg l c))) ∧
    (∀ (p : Parser) (t : Token) (r : List Token) (eof : Token),
      p.At (t :: (r ++ [eof])) → eof.Typ = .EOF → t.Typ = .NEWLINE →
      p.advance.At (r ++ [eof])) ∧
    (∀ (p : Parser) (t : Token) (r : List Token) (eof : Token),
      p.At (t :: (r ++ [eof])) → eof.Typ = .EOF → t.Typ ≠ .EOF →
      Progress true (t :: r) eof
        (Parser.parseStatement (16 * (p.tokens.length + 1)) p)) := by
  refine ⟨compile_total, ?_, tokenize_total, parse_total, ?_, ?_⟩
  · intro source k l h1 h2
    have hinv := scanRounds_inv _ k _ l (lexInv_start (goBytes source)) h1
    cases h3 : l.scanToken with
    | ok l1 => exact Or.inl ⟨l1, rfl, (scanToken_step _ l l1 hinv h2 h3).2⟩
    | error e =>
      obtain ⟨pre, c, post, _, _, _, a4⟩ := scanToken_error _ l e hinv h3
      exact Or.inr ⟨_, _, _, _, by rw [a4]⟩
  · intro p t r eof hat _ ht
    exact at_advance_end p t r eof hat (by rw [ht]; decide)
  · intro p t r eof hat heof ht
    have hlen : r.length + 1 + 1 ≤ p.tokens.length := by
      have h1 := congrArg List.length hat.1
      simp only [List.length_drop, List.length_cons, List.length_append,
        List.length_nil] at h1
      omega
    exact parseStatement_total _ p t r eof hat heof ht (by omega)

/-- A witness for C35: the source `A := (1 +` is compiled to a ParseError at the end of the
input, and the statement of `A := 1` is parsed with all its three tokens consumed. -/
theorem C35_compile_terminates_witness :
    Compile "A := (1 +" = .error (.parser "unexpected end of input" 1 10) ∧
    ((∃ prog, Compile "A := (1 +" = .ok prog) ∨
      (∃ msg l c ch, Compile "A := (1 +" = .error (.lexer msg l c ch)) ∨
      (∃ msg l c, Compile "A := (1 +" = .error (.parser msg l c))) ∧
    Progress true
      [{ Typ := .IDENTIFIER, Value := "A", Line := 1, Column := 1 },
       { Typ := .ASSIGN, Value := ":=", Line := 1, Column := 3 },
       { Typ := .NUMBER, Value := "1", Line := 1, Column := 6 }]
      { Typ := .EOF, Value := "", Line := 1, Column := 7 }
      (Parser.parseStatement 80
        (NewParser [{ Typ := .IDENTIFIER, Value := "A", Line := 1, Column := 1 },
          { Typ := .ASSIGN, Value := ":=", Line := 1, Column := 3 },
          { Typ := .NUMBER, Value := "1", Line := 1, Column := 6 },
          { Typ := .EOF, Value := "", Line := 1, Column := 7 }])) :=
  ⟨isErrorWith_sound _ _ (by decide!), C35_compile_terminates.1 "A := (1 +",
   C35_compile_terminates.2.2.2.2.2
     (NewParser [{ Typ := .IDENTIFIER, Value := "A", Line := 1, Column := 1 },
        { Typ := .ASSIGN, Value := ":=", Line := 1, Column := 3 },
        { Typ := .NUMBER, Value := "1", Line := 1, Column := 6 },
        { Typ := .EOF, Value := "", Line := 1, Column := 7 }])
     { Typ := .IDENTIFIER, Value := "A", Line := 1, Column := 1 }
     [{ Typ := .ASSIGN, Value := ":=", Line := 1, Column := 3 },
      { Typ := .NUMBER, Value := "1", Line := 1, Column := 6 }]
     { Typ := .EOF, Value := "", Line := 1, Column := 7 } (at_new _) rfl (by decide)⟩

/-- A statement that `parseStatement` returns is a VariableDeclaration or an
ExpressionStatement. -/
theorem parseStatement_kind (fuel : Nat) (p p1 : Parser) (s : Statement)
    (h : Parser.parseStatement fuel p = .ok (s, p1)) :
    (∃ n v, s = .VariableDeclaration n v) ∨ ∃ e, s = .ExpressionStatement e := by
  unfold Parser.parseStatement at h
  split_ifs at h with hc
  · unfold Parser.parseVariableDeclaration at h
    simp only at h
    split_ifs at h with h2
    cases hx : Parser.parseExpression fuel p.advance.advance with
    | error e => rw [hx] at h; cases h
    | ok v =>
      obtain ⟨e, p2⟩ := v
      rw [hx] at h
      simp only [Except.ok.injEq, Prod.mk.injEq] at h
      exact Or.inl ⟨_, e, h.1.symm⟩
  · cases hx : Parser.parseExpression fuel p with
    | error e => rw [hx] at h; cases h
    | ok v =>
      obtain ⟨e, p2⟩ := v
      rw [hx] at h
      simp only [Except.ok.injEq, Prod.mk.injEq] at h
      exact Or.inr ⟨e, h.1.symm⟩

theorem parseLoop_kind (depth : Nat) :
    ∀ (fuel : Nat) (stmts : List Statement) (p : Parser) (out : List Statement),
      Parser.parseLoop depth fuel stmts p = .ok out →
      (∀ s ∈ stmts, (∃ n v, s = .VariableDeclaration n v) ∨ ∃ e, s = .ExpressionStatement e) →
      ∀ s ∈ out, (∃ n v, s = .VariableDeclaration n v) ∨ ∃ e, s = .ExpressionStatement e := by
  intro fuel
  induction fuel with
  | zero =>
    intro stmts p out h
    simp [Parser.parseLoop] at h
  | succ fuel ih =>
    intro stmts p out h hs
    unfold Parser.parseLoop at h
    split_ifs at h with h1 h2
    · exact ih stmts p.advance out h hs
    · cases hx : Parser.parseStatement depth p with
      | error e => rw [hx] at h; cases h
      | ok v =>
        obtain ⟨s1, p1⟩ := v
        rw [hx] at h
        refine ih (stmts ++ [s1]) p1 out h (fun s hm => ?_)
        rcases List.mem_append.mp hm with h3 | h3
        · exact hs s h3
        · simp only [List.mem_singleton] at h3
          rw [h3]
          exact parseStatement_kind depth p p1 s1 hx
    · simp only [Except.ok.injEq] at h
      rw [← h]
      exact hs

/-- Method `parseExpression` before a token with which no expression starts: the ParseError
for that token. -/
theorem parseExpression_unexpected (f : Nat) (p : Parser) (t : Token) (r : List Token)
    (h : p.At (t :: r)) (h1 : t.Typ ≠ .EOF) (h2 : t.Typ ≠ .MINUS) (h3 : t.Typ ≠ .NUMBER)
    (h4 : t.Typ ≠ .IDENTIFIER) (h5 : t.Typ ≠ .IF) (h6 : t.Typ ≠ .LPAREN) :
    Parser.parseExpression (f + 8) p =
      .error (.parser ("unexpected token: " ++ t.Typ.name) t.Line t.Column) := by
  have hc := at_curType p t r h
  have he := at_isAtEnd p t r h
  have hcur := at_current p t r h
  have hp : Parser.parsePrimary (f + 1) p =
      .error (.parser ("unexpected token: " ++ t.Typ.name) t.Line t.Column) := by
    simp only [Parser.parsePrimary, he, h1, hc, Parser.fail, hcur]
    revert h1 h2 h3 h4 h5 h6
    cases t.Typ <;> simp
  simp [Parser.parseExpression, Parser.parseLogicalOr, Parser.parseLogicalAnd,
    Parser.parseComparison, Parser.parseAdditive, Parser.parseMultiplicative,
    Parser.parseUnary, hc, h2, hp]

/-- C40.  Whatever the tokens, every statement of a program that `Parse` returns is a
VariableDeclaration or an ExpressionStatement, never an OutputDeclaration.  An IDENTIFIER
followed by a COLON token is parsed as an expression statement of the name, and the next
statement fails at the colon: the tokens of `NAME : ...` are rejected with the ParseError
`unexpected token: COLON` that carries the line and column of the colon token; the source
`X : CLOSE` is rejected at line 1, column 3. -/
theorem C40_no_output_declaration :
    (∀ (p : Parser) (prog : Program), p.Parse = .ok prog → ∀ s ∈ prog.Body,
      s.isOutputDeclaration = false ∧
      ((∃ n v, s = .VariableDeclaration n v) ∨ ∃ e, s = .ExpressionStatement e)) ∧
    (∀ (name colon : Token) (rest : List Token), name.Typ = .IDENTIFIER →
      colon.Typ = .COLON →
      (NewParser (name :: colon :: rest)).Parse =
        .error (.parser "unexpected token: COLON" colon.Line colon.Column)) ∧
    (NewLexer (goBytes "X : CLOSE")).Tokenize =
      .ok [{ Typ := .IDENTIFIER, Value := "X", Line := 1, Column := 1 },
           { Typ := .COLON, Value := ":", Line := 1, Column := 3 },
           { Typ := .IDENTIFIER, Value := "CLOSE", Line := 1, Column := 5 },
           { Typ := .EOF, Value := "", Line := 1, Column := 10 }] ∧
    Compile "X : CLOSE" = .error (.parser "unexpected token: COLON" 1 3) := by
  refine ⟨?_, ?_, isOkWith_sound _ _ (by decide!), isErrorWith_sound _ _ (by decide!)⟩
  · intro p prog h s hs
    unfold Parser.Parse at h
    cases hx : Parser.parseLoop (16 * (p.tokens.length + 1)) (p.tokens.length + 1) [] p with
    | error e => rw [hx] at h; cases h
    | ok out =>
      rw [hx] at h
      simp only [Except.ok.injEq] at h
      rw [← h] at hs
      have := parseLoop_kind _ _ [] p out hx (by simp) s hs
      refine ⟨?_, this⟩
      rcases this with ⟨n, v, h1⟩ | ⟨e, h1⟩ <;> rw [h1] <;> rfl
  · intro name colon rest hn hc
    have hat := at_new (name :: colon :: rest)
    have hlen : (NewParser (name :: colon :: rest)).tokens.length = rest.length + 1 + 1 := by
      simp [NewParser]
    have hcol : ∀ j, levelOp j colon.Typ = none := by
      intro j
      rw [hc]
      rcases j with _ | _ | _ | _ | _ | j <;> rfl
    obtain ⟨p1, j1, j2⟩ := parseExpression_complete [name] _ (derives_name 0 name (by omega)
      (by simp [isNameToken, hn])) (16 * (rest.length + 1 + 1 + 1)) _ colon rest hat
      (by rw [hc]; decide) hcol (by simp only [List.length_singleton]; omega)
    have hno : ¬ ((NewParser (name :: colon :: rest)).curType = some .IDENTIFIER ∧
        (NewParser (name :: colon :: rest)).peek.map (fun t => t.Typ) = some .ASSIGN) := by
      rintro ⟨_, h2⟩
      rw [at_peek _ name _ hat] at h2
      simp only [List.head?_cons, Option.map_some', Option.some.injEq] at h2
      rw [hc] at h2
      cases h2
    have hs := (parseStatement_expression _ _ hno).1 _ p1 j1
    have hskip : Parser.skipTerminator p1 = p1 := by
      simp [Parser.skipTerminator, at_curType p1 colon rest j2, hc]
    rw [hskip] at hs
    have hno2 : ¬ (p1.curType = some .IDENTIFIER ∧
        p1.peek.map (fun t => t.Typ) = some .ASSIGN) := by
      rintro ⟨h2, _⟩
      rw [at_curType p1 colon rest j2, hc] at h2
      cases h2
    have hx := parseExpression_unexpected (16 * (rest.length + 1 + 1 + 1) - 8) p1 colon rest
      j2 (by rw [hc]; decide) (by rw [hc]; decide) (by rw [hc]; decide) (by rw [hc]; decide)
      (by rw [hc]; decide) (by rw [hc]; decide)
    have hfu : 16 * (rest.length + 1 + 1 + 1) - 8 + 8 = 16 * (rest.length + 1 + 1 + 1) := by
      omega
    rw [hfu, hc] at hx
    have hs2 := (parseStatement_expression _ _ hno2).2 _ hx
    simp only [Parser.Parse, hlen]
    rw [parseLoop_statement _ (rest.length + 1 + 1) [] _ p1 name _ _ hat
      (by rw [hn]; decide) (by rw [hn]; decide) hs]
    simp [Parser.parseLoop, at_isAtEnd p1 colon rest j2, hc, at_curType p1 colon rest j2, hs2]
    rfl

/-- A witness for C40: the tokens of `X : CLOSE` are rejected at the colon. -/
theorem C40_no_output_declaration_witness :
    (NewParser
        [{ Typ := .IDENTIFIER, Value := "X", Line := 1, Column := 1 },
         { Typ := .COLON, Value := ":", Line := 1, Column := 3 },
         { Typ := .IDENTIFIER, Value := "CLOSE", Line := 1, Column := 5 },
         { Typ := .EOF, Value := "", Line := 1, Column := 10 }]).Parse =
      .error (.parser "unexpected token: COLON" 1 3) :=
  C40_no_output_declaration.2.1 { Typ := .IDENTIFIER, Value := "X", Line := 1, Column := 1 }
    { Typ := .COLON, Value := ":", Line := 1, Column := 3 }
    [{ Typ := .IDENTIFIER, Value := "CLOSE", Line := 1, Column := 5 },
     { Typ := .EOF, Value := "", Line := 1, Column := 10 }] rfl rfl

theorem commasFollowed_append (x y : List Token) :
    ∀ prev : Bool, x ≠ [] → commasFollowed prev x = true →
      commasFollowed prev (x ++ y) = commasFollowed false y := by
  induction x with
  | nil => intro prev h; exact absurd rfl h
  | cons t r ih =>
    intro prev _ h
    simp only [commasFollowed, Bool.and_eq_true] at h
    cases r with
    | nil =>
      simp only [commasFollowed, Bool.not_eq_true', decide_eq_false_iff_not] at h
      have ht : decide (t.Typ = .COMMA) = false := by simpa using h.2
      simp [commasFollowed, h.1, ht]
    | cons t2 r2 =>
      have := ih (decide (t.Typ = .COMMA)) (by simp) h.2
      simp only [List.cons_append, commasFollowed, h.1, Bool.true_and] at this ⊢
      exact this

theorem commasFollowed_start (y : List Token) (t : Token) (r : List Token)
    (hy : y = t :: r) (ht : t.Typ ≠ .RPAREN) :
    commasFollowed true y = commasFollowed false y := by
  subst hy
  simp [commasFollowed, ht]

theorem head_not_rparen (k : Nat) (ts : List Token) (e : Expression) (h : Derives k ts e) :
    ∃ t r, ts = t :: r ∧ t.Typ ≠ .RPAREN ∧ t.Typ ≠ .COMMA := by
  obtain ⟨t, r, i1, i2, _⟩ := derives_head k ts e h
  refine ⟨t, r, i1, ?_, ?_⟩ <;> rcases i2 with h | h | h | h | h <;> rw [h] <;> decide

theorem commasFollowed_more (more : List (Token × List Token × Expression))
    (h1 : ∀ m ∈ more, m.1.Typ = .COMMA)
    (h2 : ∀ m ∈ more, ∃ t r, m.2.1 = t :: r ∧ t.Typ ≠ .RPAREN ∧ t.Typ ≠ .COMMA)
    (h3 : ∀ m ∈ more, commasFollowed false m.2.1 = true) (rp : Token)
    (hrp : rp.Typ = .RPAREN) :
    commasFollowed false (moreTokens more ++ [rp]) = true := by
  induction more with
  | nil => simp [moreTokens, commasFollowed, hrp]
  | cons m more ih =>
    obtain ⟨c, ts, e⟩ := m
    have hc : c.Typ = .COMMA := h1 (c, ts, e) (List.mem_cons_self _ _)
    obtain ⟨t, r, i1, i2, i3⟩ := h2 (c, ts, e) (List.mem_cons_self _ _)
    have i1 : ts = t :: r := i1
    have i4 : commasFollowed false ts = true := h3 (c, ts, e) (List.mem_cons_self _ _)
    have hmt : moreTokens ((c, ts, e) :: more) ++ [rp] =
        c :: (ts ++ (moreTokens more ++ [rp])) := by
      simp [moreTokens]
    rw [hmt]
    simp only [commasFollowed, hc, Bool.false_and, Bool.not_false, Bool.true_and,
      decide_True]
    have h5 : ts ++ (moreTokens more ++ [rp]) = t :: (r ++ (moreTokens more ++ [rp])) := by
      rw [i1]; rfl
    rw [commasFollowed_start _ t _ h5 i2,
      commasFollowed_append ts _ false (by rw [i1]; simp) i4]
    exact ih (fun m hm => h1 m (List.mem_cons_of_mem _ hm))
      (fun m hm => h2 m (List.mem_cons_of_mem _ hm))
      (fun m hm => h3 m (List.mem_cons_of_mem _ hm))

/-- In a phrase of the grammar no comma is directly followed by `)`. -/
theorem derives_commas (k : Nat) (ts : List Token) (e : Expression) (h : Derives k ts e) :
    commasFollowed false ts = true := by
  induction h with
  | number t v h1 h2 => simp [commasFollowed, h1]
  | name t h1 =>
    rcases isNameToken_cases t h1 with h | h <;> simp [commasFollowed, h]
  | call0 t lp rp h1 h2 h3 =>
    rcases isNameToken_cases t h1 with h | h <;> simp [commasFollowed, h, h2, h3]
  | call t lp rp first e more h1 h2 h3 h4 h5 h6 ih1 ih2 =>
    obtain ⟨t1, r1, i1, _, _⟩ := head_not_rparen 0 first e h4
    have hm := commasFollowed_more more h5 (fun m hm => head_not_rparen 0 _ _ (h6 m hm)) ih2
      rp h3
    have ht : t.Typ ≠ .COMMA := by
      rcases isNameToken_cases t h1 with h | h <;> rw [h] <;> decide
    have hd : decide (TokenType.LPAREN = TokenType.COMMA) = false := by decide
    simp only [commasFollowed, Bool.false_and, Bool.not_false, Bool.true_and, ht,
      decide_False, h2, hd]
    rw [commasFollowed_append first _ false (by rw [i1]; simp) ih1]
    exact hm
  | group lp rp ts e h1 h2 h3 ih =>
    obtain ⟨t1, r1, i1, _, _⟩ := head_not_rparen 0 ts e h3
    have hd : decide (TokenType.LPAREN = TokenType.COMMA) = false := by decide
    simp only [commasFollowed, Bool.false_and, Bool.not_false, Bool.true_and, h1, hd]
    rw [commasFollowed_append ts _ false (by rw [i1]; simp) ih]
    simp [commasFollowed, h2]
  | neg m ts e h1 h2 ih =>
    simp only [commasFollowed, Bool.false_and, Bool.not_false, Bool.true_and, h1]
    exact ih
  | up k ts e h1 h2 ih => exact ih
  | binary k l r o op el er h1 h2 h3 ih1 ih2 =>
    obtain ⟨t1, r1, i1, _, _⟩ := head_not_rparen k l el h2
    rw [commasFollowed_append l _ false (by rw [i1]; simp) ih1]
    have ho := (levelOp_not_eof _ _ _ h1).2.2.2
    simp only [commasFollowed, Bool.false_and, Bool.not_false, Bool.true_and, ho,
      decide_False]
    exact ih2

/-- C39 (what the code does).  In a phrase of the grammar no comma is directly followed by
`)`, so the tokens of `F(a,)` are no phrase of any level.  The parser accepts them all the
same: after a comma the argument loop tests for `)` before it asks for an argument, so
`F(a,)` compiles to the call of `F` with the one argument `a`, as `F(a)` does, and
`MA(CLOSE, 5,)` to the call with two arguments.  A comma that is followed by another comma
or that follows `(` is rejected with a ParseError. -/
theorem C39_trailing_comma :
    (NewLexer (goBytes "F(a,)")).Tokenize =
      .ok [{ Typ := .IDENTIFIER, Value := "F", Line := 1, Column := 1 },
           { Typ := .LPAREN, Value := "(", Line := 1, Column := 2 },
           { Typ := .IDENTIFIER, Value := "a", Line := 1, Column := 3 },
           { Typ := .COMMA, Value := ",", Line := 1, Column := 4 },
           { Typ := .RPAREN, Value := ")", Line := 1, Column := 5 },
           { Typ := .EOF, Value := "", Line := 1, Column := 6 }] ∧
    (∀ (k : Nat) (ts : List Token) (e : Expression), Derives k ts e →
      commasFollowed false ts = true) ∧
    (∀ (k : Nat) (e : Expression),
      ¬ Derives k [{ Typ := .IDENTIFIER, Value := "F", Line := 1, Column := 1 },
                   { Typ := .LPAREN, Value := "(", Line := 1, Column := 2 },
                   { Typ := .IDENTIFIER, Value := "a", Line := 1, Column := 3 },
                   { Typ := .COMMA, Value := ",", Line := 1, Column := 4 },
                   { Typ := .RPAREN, Value := ")", Line := 1, Column := 5 }] e) ∧
    Compile "F(a,)" =
      .ok { Body := [.ExpressionStatement (.FunctionCall "F" [.Identifier "a"])] } ∧
    Compile "F(a)" =
      .ok { Body := [.ExpressionStatement (.FunctionCall "F" [.Identifier "a"])] } ∧
    Compile "MA(CLOSE, 5,)" =
      .ok { Body := [.ExpressionStatement
        (.FunctionCall "MA" [.Identifier "CLOSE", .NumberLiteral (F64.ofInt 5)])] } ∧
    Compile "F(,)" = .error (.parser "unexpected token: COMMA" 1 3) ∧
    Compile "F(,a)" = .error (.parser "unexpected token: COMMA" 1 3) ∧
    Compile "F(a,,b)" = .error (.parser "unexpected token: COMMA" 1 5) := by
  refine ⟨isOkWith_sound _ _ (by decide!), derives_commas, fun k e h => ?_,
    compilesTo_sound _ _ (by decide!), compilesTo_sound _ _ (by decide!),
    compilesTo_sound _ _ (by decide!), isErrorWith_sound _ _ (by decide!),
    isErrorWith_sound _ _ (by decide!), isErrorWith_sound _ _ (by decide!)⟩
  have := derives_commas k _ e h
  revert this
  decide

/-- C34 (what the code does).  `Execute` does not reset the list of recorded names: a second
call on the same Interpreter appends the names of the program to those the first call left.
For the program `A := CLOSE` over the ten test bars the first call returns one output line
named A, and the second call on the same Interpreter returns two output lines named A, each
with the closes. -/
theorem C34_execute_twice :
    ((NewInterpreter exampleBars).Execute
        { Body := [.VariableDeclaration "A" (.Identifier "CLOSE")] }).1 =
      .ok { Outputs := [{ Name := "A", Data := exampleBars.map (fun d => d.Close), Style := none }],
            Variables := [] } ∧
    (((NewInterpreter exampleBars).Execute
        { Body := [.VariableDeclaration "A" (.Identifier "CLOSE")] }).2.Execute
        { Body := [.VariableDeclaration "A" (.Identifier "CLOSE")] }).1 =
      .ok { Outputs := [{ Name := "A", Data := exampleBars.map (fun d => d.Close), Style := none },
                        { Name := "A", Data := exampleBars.map (fun d => d.Close), Style := none }],
            Variables := [] } ∧
    ((NewInterpreter exampleBars).Execute
        { Body := [.VariableDeclaration "A" (.Identifier "CLOSE")] }).1 ≠
      (((NewInterpreter exampleBars).Execute
        { Body := [.VariableDeclaration "A" (.Identifier "CLOSE")] }).2.Execute
        { Body := [.VariableDeclaration "A" (.Identifier "CLOSE")] }).1 ∧
    ((NewInterpreter exampleBars).Execute
        { Body := [.VariableDeclaration "A" (.Identifier "CLOSE")] }).2.userVars = ["A"] ∧
    (((NewInterpreter exampleBars).Execute
        { Body := [.VariableDeclaration "A" (.Identifier "CLOSE")] }).2.Execute
        { Body := [.VariableDeclaration "A" (.Identifier "CLOSE")] }).2.userVars = ["A", "A"] := by
  have h1 : ((NewInterpreter exampleBars).Execute
        { Body := [.VariableDeclaration "A" (.Identifier "CLOSE")] }).1 =
      .ok { Outputs := [{ Name := "A", Data := exampleBars.map (fun d => d.Close), Style := none }],
            Variables := [] } := isOkWith_sound _ _ (by decide!)
  have h2 : (((NewInterpreter exampleBars).Execute
        { Body := [.VariableDeclaration "A" (.Identifier "CLOSE")] }).2.Execute
        { Body := [.VariableDeclaration "A" (.Identifier "CLOSE")] }).1 =
      .ok { Outputs := [{ Name := "A", Data := exampleBars.map (fun d => d.Close), Style := none },
                        { Name := "A", Data := exampleBars.map (fun d => d.Close), Style := none }],
            Variables := [] } := isOkWith_sound _ _ (by decide!)
  refine ⟨h1, h2, ?_, by decide!, by decide!⟩
  rw [h1, h2]
  intro h
  simp only [Except.ok.injEq, FormulaResult.mk.injEq, List.cons.injEq, and_true] at h
  exact absurd h.2 (by simp)

/-- What `fnCROSS` returns on two series of equal length `L >= 1`. -/
theorem cross_spec (a b : List F64) (md : List MarketData) (hlen : a.length = b.length)
    (hpos : 1 ≤ a.length) :
    ∃ out, fnCROSS [NewArrayValue a, NewArrayValue b] md = .ok (NewArrayValue out) ∧
      out.length = a.length ∧ out[0]? = some F64.zero ∧
      (∀ i : Nat, 1 ≤ i → i < a.length →
        out[i]? = some (if F64.le (a.getD (i - 1) F64.zero) (b.getD (i - 1) F64.zero) = true ∧
          F64.gt (a.getD i F64.zero) (b.getD i F64.zero) = true then F64.one else F64.zero)) := by
  have hg : ¬ (a.length ≠ b.length) := by simpa using hlen
  simp only [fnCROSS, NewArrayValue, hg, Bool.not_true, Bool.false_eq_true, or_self, if_false]
  have hs : store (makeSlice a.length) 0 F64.zero = .ok (makeSlice a.length) := by
    rw [store_ok F64.zero (le_refl _) (by rw [makeSlice_length]; exact_mod_cast hpos)]
    congr 1
    apply list_eq_of_getElem? (by simp)
    intro i hi
    rw [makeSlice_length] at hi
    by_cases h0 : i = 0
    · subst h0
      simp [makeSlice, List.getElem?_replicate, hi]
    · rw [List.getElem?_set_ne (by simpa using (Ne.symm h0))]
  rw [hs, ok_bind]
  obtain ⟨r1, h1, hl1, hg1⟩ := forLoop_fill (fun i r => do
      let a0 ← index a (i - 1)
      let b0 ← index b (i - 1)
      let a1 ← index a i
      let b1 ← index b i
      if F64.le a0 b0 ∧ F64.gt a1 b1 then store r i F64.one else store r i F64.zero)
    (fun i => if F64.le (a.getD (i - 1) F64.zero) (b.getD (i - 1) F64.zero) = true ∧
      F64.gt (a.getD i F64.zero) (b.getD i F64.zero) = true then F64.one else F64.zero)
    1 a.length (makeSlice a.length) hpos (by rw [makeSlice_length])
    (fun i r hi1 hi2 _ => cross_body a b i r hi1 hi2 (by omega))
  simp only [Nat.cast_one] at h1
  rw [h1, ok_bind]
  rw [makeSlice_length] at hl1
  refine ⟨r1, rfl, hl1, ?_, fun i hi1 hi2 => ?_⟩
  · rw [hg1 0, if_neg (by omega)]
    have hp : 0 < a.length := hpos
    simp [makeSlice, List.getElem?_replicate, hp]
  · rw [hg1 i, if_pos ⟨hi1, hi2⟩]

/-- What `fnCROSS` does on two series that are empty or of different lengths. -/
theorem cross_fails (a b : List F64) (md : List MarketData)
    (h : a.length ≠ b.length ∨ a.length = 0) :
    ∀ v, fnCROSS [NewArrayValue a, NewArrayValue b] md ≠ .ok v := by
  intro v
  by_cases hg : a.length ≠ b.length
  · simp [fnCROSS, NewArrayValue, hg]
  · have h0 : a.length = 0 := by
      rcases h with h | h
      · exact absurd h hg
      · exact h
    have ha : a = [] := List.length_eq_zero.mp h0
    have hb : b = [] := by
      apply List.length_eq_zero.mp
      have : a.length = b.length := by simpa using hg
      omega
    subst ha hb
    intro h2
    have h3 : fnCROSS [NewArrayValue [], NewArrayValue []] md =
        .error (.goPanic "index out of range") := by rfl
    rw [h3] at h2
    cases h2

theorem F64.not_le_of_gt (a b : F64) (h : F64.gt a b = true) : F64.le a b = false := by
  unfold F64.gt at h
  cases a with
  | nan => cases b <;> simp [F64.lt] at h
  | inf s =>
    cases b with
    | nan => simp [F64.lt] at h
    | inf t => cases s <;> cases t <;> simp [F64.lt, F64.le] at h ⊢
    | fin k => cases s <;> simp [F64.lt, F64.le] at h ⊢
  | fin j =>
    cases b with
    | nan => simp [F64.lt] at h
    | inf t => cases t <;> simp [F64.lt, F64.le] at h ⊢
    | fin k =>
      simp only [F64.lt, decide_eq_true_eq] at h
      simp only [F64.le, decide_eq_false_iff_not]
      omega

/-- C36.  Whenever `CROSS(a, b)` returns a series, an entry 1 is followed by an entry 0: if
`output[i] = 1` and `i + 1` is an index of the output then `output[i+1] = 0`.  The function
returns a series of the common length for every two series of equal length `L >= 1`. -/
theorem C36_cross_no_consecutive (a b out : List F64) (md : List MarketData)
    (h : fnCROSS [NewArrayValue a, NewArrayValue b] md = .ok (NewArrayValue out)) :
    (∀ i : Nat, out[i]? = some F64.one → i + 1 < out.length → out[i + 1]? = some F64.zero) ∧
    (∀ i : Nat, out[i]? = some F64.one → out[i + 1]? ≠ some F64.one) ∧
    a.length = b.length ∧ 1 ≤ a.length ∧ out.length = a.length := by
  have hlen : a.length = b.length := by
    by_contra hc
    exact cross_fails a b md (Or.inl hc) _ h
  have hpos : 1 ≤ a.length := by
    by_contra hc
    exact cross_fails a b md (Or.inr (by omega)) _ h
  obtain ⟨out1, e1, e2, e3, e4⟩ := cross_spec a b md hlen hpos
  rw [e1] at h
  simp only [Except.ok.injEq, NewArrayValue, Value.mk.injEq, and_true, true_and] at h
  subst h
  have key : ∀ i : Nat, out1[i]? = some F64.one → i + 1 < out1.length →
      out1[i + 1]? = some F64.zero := by
    intro i hi hi2
    rw [e2] at hi2
    have hi0 : 1 ≤ i := by
      by_contra hc
      have : i = 0 := by omega
      subst this
      rw [e3] at hi
      exact absurd hi (by decide)
    rw [e4 i hi0 (by omega)] at hi
    have hgt : F64.gt (a.getD i F64.zero) (b.getD i F64.zero) = true := by
      by_contra hc
      rw [if_neg (fun h => hc h.2)] at hi
      exact absurd hi (by decide)
    rw [e4 (i + 1) (by omega) hi2]
    simp only [Nat.add_sub_cancel]
    rw [if_neg (fun h => by
      rw [F64.not_le_of_gt _ _ hgt] at h
      exact absurd h.1 (by simp))]
  refine ⟨key, fun i hi => ?_, hlen, hpos, e2⟩
  by_cases hi2 : i + 1 < out1.length
  · rw [key i hi hi2]
    decide
  · rw [List.getElem?_eq_none (by omega)]
    simp

/-- A witness for C36: `CROSS([4,6,7,3,8], [5,5,5,5,5]) = [0,1,0,0,1]`. -/
theorem C36_cross_no_consecutive_witness :
    fnCROSS [NewArrayValue [F64.ofInt 4, F64.ofInt 6, F64.ofInt 7, F64.ofInt 3, F64.ofInt 8],
        NewArrayValue [F64.ofInt 5, F64.ofInt 5, F64.ofInt 5, F64.ofInt 5, F64.ofInt 5]] [] =
      .ok (NewArrayValue [F64.zero, F64.one, F64.zero, F64.zero, F64.one]) ∧
    (∀ i : Nat, [F64.zero, F64.one, F64.zero, F64.zero, F64.one][i]? = some F64.one →
      i + 1 < [F64.zero, F64.one, F64.zero, F64.zero, F64.one].length →
      [F64.zero, F64.one, F64.zero, F64.zero, F64.one][i + 1]? = some F64.zero) :=
  ⟨isOkWith_sound _ _ (by decide!),
   (C36_cross_no_consecutive
      [F64.ofInt 4, F64.ofInt 6, F64.ofInt 7, F64.ofInt 3, F64.ofInt 8]
      [F64.ofInt 5, F64.ofInt 5, F64.ofInt 5, F64.ofInt 5, F64.ofInt 5]
      [F64.zero, F64.one, F64.zero, F64.zero, F64.one] []
      (isOkWith_sound _ _ (by decide!))).1⟩

/-- What `fnREF` returns for a shift `n = int(p) >= 0`. -/
theorem ref_spec (x : List F64) (p : F64) (md : List MarketData) (h0 : 0 ≤ p.toInt) :
    ∃ out, fnREF [NewArrayValue x, NewSingleValue p] md = .ok (NewArrayValue out) ∧
      out.length = x.length ∧
      (∀ i : Nat, i < p.toInt.toNat → i < x.length → out[i]? = some F64.nan) ∧
      (∀ i : Nat, p.toInt.toNat ≤ i → i < x.length → out[i]? = x[i - p.toInt.toNat]?) := by
  obtain ⟨m, hp⟩ := Int.eq_ofNat_of_zero_le h0
  have hg : ¬ ((m : Int) < 0) := by omega
  simp only [fnREF, NewArrayValue, NewSingleValue, hp, hg, Bool.not_true,
    Bool.false_eq_true, if_false, Int.toNat_ofNat, makeSlice_length]
  exact ref_loops x m

/-- C37 (amended).  For every series `x` and shifts `a = int(pa) >= 0`, `b = int(pb) >= 0`,
and for `pc` with `int(pc) = a + b` (there is one only when `a + b < 2^63`): `REF(x, pa)`
returns a series `y`, and `REF(y, pb)` and `REF(x, pc)` return the same series, NaN at the
positions below `a + b` and `x[i - a - b]` from there on; when `a + b` is at least the length
of `x` every entry of it is NaN, and the two sides are then equal for every `pc` with `int(pc)`
at least the length of `x`. -/
theorem C37_ref_composes (x : List F64) (pa pb pc : F64) (md : List MarketData)
    (ha : 0 ≤ pa.toInt) (hb : 0 ≤ pb.toInt)
    (hc : pc.toInt = pa.toInt + pb.toInt ∨
      ((x.length : Int) ≤ pa.toInt + pb.toInt ∧ (x.length : Int) ≤ pc.toInt)) :
    ∃ y out, fnREF [NewArrayValue x, NewSingleValue pa] md = .ok (NewArrayValue y) ∧
      fnREF [NewArrayValue y, NewSingleValue pb] md = .ok (NewArrayValue out) ∧
      fnREF [NewArrayValue x, NewSingleValue pc] md = .ok (NewArrayValue out) ∧
      out.length = x.length ∧
      (∀ i : Nat, (i : Int) < pa.toInt + pb.toInt → i < x.length → out[i]? = some F64.nan) ∧
      (∀ i : Nat, pa.toInt + pb.toInt ≤ (i : Int) → i < x.length →
        out[i]? = x[i - (pa.toInt + pb.toInt).toNat]?) ∧
      ((x.length : Int) ≤ pa.toInt + pb.toInt → ∀ i : Nat, i < x.length →
        out[i]? = some F64.nan) := by
  obtain ⟨y, y1, y2, y3, y4⟩ := ref_spec x pa md ha
  obtain ⟨o1, a1, a2, a3, a4⟩ := ref_spec y pb md hb
  obtain ⟨o2, b1, b2, b3, b4⟩ := ref_spec x pc md (by omega)
  obtain ⟨m, hm⟩ := Int.eq_ofNat_of_zero_le ha
  obtain ⟨n, hn⟩ := Int.eq_ofNat_of_zero_le hb
  obtain ⟨k, hk⟩ := Int.eq_ofNat_of_zero_le (by omega : 0 ≤ pc.toInt)
  rw [hm, hn, hk] at hc
  rw [hm] at y3 y4
  rw [hn] at a3 a4
  rw [hk] at b3 b4
  simp only [Int.toNat_ofNat] at y3 y4 a3 a4 b3 b4
  have hmn : ((m : Int) + (n : Int)).toNat = m + n := by omega
  have hval : ∀ i : Nat, i < x.length →
      o1[i]? = if i < m + n then some F64.nan else x[i - (m + n)]? := by
    intro i hi
    by_cases h1 : i < n
    · rw [a3 i h1 (by omega), if_pos (by omega)]
    · rw [a4 i (by omega) (by omega)]
      by_cases h2 : i - n < m
      · rw [y3 (i - n) h2 (by omega), if_pos (by omega)]
      · rw [y4 (i - n) (by omega) (by omega), if_neg (by omega)]
        congr 1
        omega
  have heq : o1 = o2 := by
    apply list_eq_of_getElem? (by rw [a2, b2, y2])
    intro i hi
    rw [b2] at hi
    rw [hval i hi]
    rcases hc with hc | ⟨hc1, hc2⟩
    · have hkmn : k = m + n := by omega
      subst hkmn
      by_cases h1 : i < m + n
      · rw [if_pos h1, b3 i h1 hi]
      · rw [if_neg h1, b4 i (by omega) hi]
    · rw [if_pos (by omega), b3 i (by omega) hi]
  subst heq
  rw [hm, hn, hmn]
  refine ⟨y, o1, y1, a1, b1, by rw [a2, y2], fun i h1 h2 => ?_, fun i h1 h2 => ?_,
    fun h1 i h2 => ?_⟩
  · rw [hval i h2, if_pos (by omega)]
  · rw [hval i h2, if_neg (by omega)]
  · rw [hval i h2, if_pos (by omega)]

/-- A witness for C37: over the ten test bars `REF(REF(CLOSE, 1), 2)`, `REF(CLOSE, 3)` and
`REF(CLOSE, 1 + 2)` give the same result, and so do the two sides for shifts 7 and 8. -/
theorem C37_ref_composes_witness :
    Run "R := REF(REF(CLOSE, 1), 2)" exampleBars = Run "R := REF(CLOSE, 3)" exampleBars ∧
    Run "R := REF(CLOSE, 1 + 2)" exampleBars = Run "R := REF(CLOSE, 3)" exampleBars ∧
    Run "R := REF(REF(CLOSE, 7), 8)" exampleBars = Run "R := REF(CLOSE, 15)" exampleBars ∧
    (∃ y out, fnREF [NewArrayValue exampleCloses, NewSingleValue F64.one] [] =
        .ok (NewArrayValue y) ∧
      fnREF [NewArrayValue y, NewSingleValue (F64.ofInt 2)] [] = .ok (NewArrayValue out) ∧
      fnREF [NewArrayValue exampleCloses, NewSingleValue (F64.ofInt 3)] [] =
        .ok (NewArrayValue out)) :=
  ⟨sameResult_sound _ _ (by decide!), sameResult_sound _ _ (by decide!),
   sameResult_sound _ _ (by decide!),
   (C37_ref_composes exampleCloses F64.one (F64.ofInt 2) (F64.ofInt 3) [] (by decide)
      (by decide) (Or.inl (by decide))).imp
     (fun _ h => h.imp (fun _ h2 => ⟨h2.1, h2.2.1, h2.2.2.1⟩))⟩

/-- C37 as stated fails when `a + b` reaches `2^63`: for
`a = b = 2^62` the two shifts are served one after the other and `REF(REF(x, a), b)` is the
all-NaN series, but `a + b = 2^63` converts to the negative `int` `-2^63` and `REF(x, a + b)`
is the RuntimeError "REF period must be non-negative".  The same happens for `a = 2^62` and
`b = 2^62 - 512`, whose sum is below `2^63` and is rounded to the `float64` `2^63`. -/
theorem C37_counterexample :
    (0 : Int) ≤ (F64.ofInt 4611686018427387904).toInt ∧
    (F64.ofInt 4611686018427387904).toInt = 4611686018427387904 ∧
    fnREF [NewArrayValue [F64.ofInt 100, F64.ofInt 105, F64.ofInt 103],
      NewSingleValue (F64.ofInt 4611686018427387904)] [] =
      .ok (NewArrayValue [F64.nan, F64.nan, F64.nan]) ∧
    fnREF [NewArrayValue [F64.nan, F64.nan, F64.nan],
      NewSingleValue (F64.ofInt 4611686018427387904)] [] =
      .ok (NewArrayValue [F64.nan, F64.nan, F64.nan]) ∧
    F64.add (F64.ofInt 4611686018427387904) (F64.ofInt 4611686018427387904) =
      F64.ofInt 9223372036854775808 ∧
    fnREF [NewArrayValue [F64.ofInt 100, F64.ofInt 105, F64.ofInt 103],
      NewSingleValue (F64.add (F64.ofInt 4611686018427387904)
        (F64.ofInt 4611686018427387904))] [] =
      .error (.runtime "REF period must be non-negative") ∧
    Run "R := REF(REF(CLOSE, 4611686018427387904), 4611686018427387904)" exampleBars =
      Run "R := REF(CLOSE, 10)" exampleBars ∧
    Run "R := REF(CLOSE, 4611686018427387904 + 4611686018427387904)" exampleBars =
      .error (.runtime "REF period must be non-negative") ∧
    Run "R := REF(CLOSE, 9223372036854775808)" exampleBars =
      .error (.runtime "REF period must be non-negative") ∧
    Run "R := REF(REF(CLOSE, 4611686018427387904), 4611686018427387392)" exampleBars =
      Run "R := REF(CLOSE, 10)" exampleBars ∧
    Run "R := REF(CLOSE, 4611686018427387904 + 4611686018427387392)" exampleBars =
      .error (.runtime "REF period must be non-negative") ∧
    Run "R := REF(CLOSE, 9223372036854775296)" exampleBars =
      .error (.runtime "REF period must be non-negative") :=
  ⟨by decide!, by decide!, isOkWith_sound _ _ (by decide!), isOkWith_sound _ _ (by decide!),
   by decide!, isErrorWith_sound _ _ (by decide!), sameResult_sound _ _ (by decide!),
   isErrorWith_sound _ _ (by decide!), isErrorWith_sound _ _ (by decide!),
   sameResult_sound _ _ (by decide!), isErrorWith_sound _ _ (by decide!),
   isErrorWith_sound _ _ (by decide!)⟩

/-! ### The words of the source: the lexer without its positions -/

theorem operatorWord_cases (c : Char) (r : List Char) (ty : TokenType) (w : List Char)
    (h : operatorWord (c :: r) = some (ty, w)) :
    c = '+' ∨ c = '-' ∨ c = '*' ∨ c = '/' ∨ c = '(' ∨ c = ')' ∨ c = ',' ∨ c = ';' ∨ c = ':' ∨
      c = '>' ∨ c = '<' ∨ c = '=' ∨ c = '!' := by
  by_contra hn
  simp only [not_or] at hn
  obtain ⟨h1, h2, h3, h4, h5, h6, h7, h8, h9, h10, h11, h12, h13⟩ := hn
  rw [operatorWord] at h
  rw [if_neg h1, if_neg h2, if_neg h3, if_neg h4, if_neg h5, if_neg h6, if_neg h7, if_neg h8,
    if_neg h9, if_neg h10, if_neg h11, if_neg h12, if_neg h13] at h
  cases h

theorem word_one (l : Lexer) (c : Char) (r : List Char) (ty : TokenType) (v : String)
    (hr : l.rest = c :: r) (hv : v = String.mk [c]) :
    ∃ l1 t, (Except.ok (l.advance.addToken ty v) : Res Lexer) = .ok l1 ∧
      c :: r = [c] ++ l1.rest ∧ l1.tokens = l.tokens ++ [t] ∧ t.Typ = ty ∧
      t.Value = String.mk [c] := by
  subst hv
  refine ⟨_, ⟨ty, String.mk [c], l.advance.line, l.advance.column - (String.mk [c]).length⟩,
    rfl, ?_, ?_, rfl, rfl⟩
  · simp [Lexer.addToken, Lexer.advance, hr]
  · simp [Lexer.addToken, Lexer.advance, hr]

theorem word_two (l : Lexer) (c d : Char) (r : List Char) (ty : TokenType) (v : String)
    (hr : l.rest = c :: d :: r) (hv : v = String.mk [c, d]) :
    ∃ l1 t, (Except.ok (l.advance.advance.addToken ty v) : Res Lexer) = .ok l1 ∧
      c :: d :: r = [c, d] ++ l1.rest ∧ l1.tokens = l.tokens ++ [t] ∧ t.Typ = ty ∧
      t.Value = String.mk [c, d] := by
  subst hv
  refine ⟨_, ⟨ty, String.mk [c, d], l.advance.advance.line,
    l.advance.advance.column - (String.mk [c, d]).length⟩, rfl, ?_, ?_, rfl, rfl⟩
  · simp [Lexer.addToken, Lexer.advance, hr]
  · simp [Lexer.addToken, Lexer.advance, hr]

/-- The operator `scanOperator` appends is the operator word at the start of the input. -/
theorem scanOperator_word (l : Lexer) (c : Char) (r : List Char) (ty : TokenType)
    (w : List Char) (hr : l.rest = c :: r) (h : operatorWord (c :: r) = some (ty, w)) :
    ∃ l1 t, l.scanOperator = .ok l1 ∧ c :: r = w ++ l1.rest ∧ l1.tokens = l.tokens ++ [t] ∧
      t.Typ = ty ∧ t.Value = String.mk w := by
  obtain ⟨p1, p2, p3, p4, p5⟩ := peek_cons l c r hr
  have hc := operatorWord_cases c r ty w h
  cases r with
  | nil =>
    rcases hc with e | e | e | e | e | e | e | e | e | e | e | e | e <;> subst e <;>
      simp only [operatorWord, Char.reduceEq, if_true, if_false, reduceIte, List.head?_nil,
        reduceCtorEq, Option.some.injEq, Prod.mk.injEq] at h <;>
      (try obtain ⟨h1, h2⟩ := h) <;> (try subst h1) <;> (try subst h2) <;>
      simp only [Lexer.scanOperator, p1, p4, Char.reduceEq, if_true, if_false, reduceIte,
        List.isEmpty_nil, Bool.not_true, Bool.false_eq_true, false_and] <;>
      exact word_one l _ [] _ _ hr rfl
  | cons d r1 =>
    have q4 : l.advance.isAtEnd = false := by rw [p4]; rfl
    have q5 : l.advance.peek = d := by rw [p5]; rfl
    by_cases hd : d = '='
    · subst hd
      rcases hc with e | e | e | e | e | e | e | e | e | e | e | e | e <;> subst e <;>
        simp only [operatorWord, Char.reduceEq, if_true, if_false, reduceIte, List.head?_cons,
          reduceCtorEq, Option.some.injEq, Prod.mk.injEq] at h <;>
        (try obtain ⟨h1, h2⟩ := h) <;> (try subst h1) <;> (try subst h2) <;>
        simp only [Lexer.scanOperator, p1, q4, q5, Char.reduceEq, if_true, if_false, reduceIte,
          Bool.not_false, true_and] <;>
        first
        | exact word_one l _ _ _ _ hr rfl
        | exact word_two l _ _ r1 _ _ hr rfl
    · by_cases hg : d = '>'
      · subst hg
        rcases hc with e | e | e | e | e | e | e | e | e | e | e | e | e <;> subst e <;>
          simp only [operatorWord, Char.reduceEq, if_true, if_false, reduceIte, List.head?_cons,
            reduceCtorEq, Option.some.injEq, Prod.mk.injEq] at h <;>
          (try obtain ⟨h1, h2⟩ := h) <;> (try subst h1) <;> (try subst h2) <;>
          simp only [Lexer.scanOperator, p1, q4, q5, Char.reduceEq, if_true, if_false,
            reduceIte, Bool.not_false, true_and, and_false, and_true] <;>
          first
          | exact word_one l _ _ _ _ hr rfl
          | exact word_two l _ _ r1 _ _ hr rfl
      · rcases hc with e | e | e | e | e | e | e | e | e | e | e | e | e <;> subst e <;>
          simp only [operatorWord, Char.reduceEq, if_true, if_false, reduceIte, List.head?_cons,
            reduceCtorEq, Option.some.injEq, Prod.mk.injEq, hd, hg] at h <;>
          (try obtain ⟨h1, h2⟩ := h) <;> (try subst h1) <;> (try subst h2) <;>
          simp only [Lexer.scanOperator, p1, q4, q5, Char.reduceEq, if_true, if_false,
            reduceIte, Bool.not_false, true_and, hd, hg, and_false] <;>
          exact word_one l _ _ _ _ hr rfl

/-- Where the input starts with no operator word `scanOperator` fails. -/
theorem scanOperator_no_word (l : Lexer) (c : Char) (r : List Char) (hr : l.rest = c :: r)
    (h : operatorWord (c :: r) = none) :
    ∃ m ln col ch, l.scanOperator = .error (.lexer m ln col ch) := by
  obtain ⟨p1, p2, p3, p4, p5⟩ := peek_cons l c r hr
  by_cases hb : c = '!'
  · subst hb
    by_cases he : r.head? = some '='
    · simp only [operatorWord, Char.reduceEq, if_true, if_false, reduceIte, he, reduceCtorEq] at h
    · exact ⟨_, _, _, _, (scanOperator_bang l r hr).2 he⟩
  · rw [operatorWord] at h
    by_cases h1 : c = '+'
    · rw [if_pos h1] at h; cases h
    by_cases h2 : c = '-'
    · rw [if_neg h1, if_pos h2] at h; cases h
    by_cases h3 : c = '*'
    · rw [if_neg h1, if_neg h2, if_pos h3] at h; cases h
    by_cases h4 : c = '/'
    · rw [if_neg h1, if_neg h2, if_neg h3, if_pos h4] at h; cases h
    by_cases h5 : c = '('
    · rw [if_neg h1, if_neg h2, if_neg h3, if_neg h4, if_pos h5] at h; cases h
    by_cases h6 : c = ')'
    · rw [if_neg h1, if_neg h2, if_neg h3, if_neg h4, if_neg h5, if_pos h6] at h; cases h
    by_cases h7 : c = ','
    · rw [if_neg h1, if_neg h2, if_neg h3, if_neg h4, if_neg h5, if_neg h6, if_pos h7] at h
      cases h
    by_cases h8 : c = ';'
    · rw [if_neg h1, if_neg h2, if_neg h3, if_neg h4, if_neg h5, if_neg h6, if_neg h7,
        if_pos h8] at h
      cases h
    by_cases h9 : c = ':'
    · rw [if_neg h1, if_neg h2, if_neg h3, if_neg h4, if_neg h5, if_neg h6, if_neg h7,
        if_neg h8, if_pos h9] at h
      split_ifs at h
    by_cases h10 : c = '>'
    · rw [if_neg h1, if_neg h2, if_neg h3, if_neg h4, if_neg h5, if_neg h6, if_neg h7,
        if_neg h8, if_neg h9, if_pos h10] at h
      split_ifs at h
    by_cases h11 : c = '<'
    · rw [if_neg h1, if_neg h2, if_neg h3, if_neg h4, if_neg h5, if_neg h6, if_neg h7,
        if_neg h8, if_neg h9, if_neg h10, if_pos h11] at h
      split_ifs at h
    by_cases h12 : c = '='
    · rw [if_neg h1, if_neg h2, if_neg h3, if_neg h4, if_neg h5, if_neg h6, if_neg h7,
        if_neg h8, if_neg h9, if_neg h10, if_neg h11, if_pos h12] at h
      split_ifs at h
    have e : l.scanOperator = .error (.lexer ("unexpected character: " ++
        String.mk (utf8Bytes c)) l.advance.line l.column (String.mk (utf8Bytes c))) := by
      simp only [Lexer.scanOperator, p1, h1, h2, h3, h4, h5, h6, h7, h8, h9, h10, h11, h12, hb,
        if_false]
    exact ⟨_, _, _, _, e⟩

/-- The state `scanIdentifier` leaves: it passes over the longest run of letters, digits and
underscores. -/
theorem scanIdentifier_word (l : Lexer) :
    ∃ l1 t, l.scanIdentifier = .ok l1 ∧ l.rest = l.rest.takeWhile isWordByte ++ l1.rest ∧
      l1.tokens = l.tokens ++ [t] ∧
      t = { Typ := Lexer.getKeywordType (goToUpper (String.mk (l.rest.takeWhile isWordByte))),
            Value := String.mk (l.rest.takeWhile isWordByte), Line := l.line,
            Column := l.column } :=
  ⟨_, { Typ := Lexer.getKeywordType (goToUpper (String.mk (l.rest.takeWhile isWordByte))),
        Value := String.mk (l.rest.takeWhile isWordByte), Line := l.line, Column := l.column },
    rfl, (List.takeWhile_append_dropWhile isWordByte l.rest).symm, rfl, rfl⟩

/-- One round of the lexer on input with a token ahead: `scanToken` appends the token whose
kind and literal are the word at the start of the input after the white space, and fails where
there is no word. -/
theorem scanToken_word (l : Lexer) (c : Char) (r : List Char)
    (hd : l.rest.dropWhile Lexer.isSpace = c :: r) :
    (∀ ty w, tokenWord (c :: r) = some (ty, w) →
      ∃ l1 t, l.scanToken = .ok l1 ∧ c :: r = w ++ l1.rest ∧ l1.tokens = l.tokens ++ [t] ∧
        t.Typ = ty ∧ t.Value = String.mk w) ∧
    (tokenWord (c :: r) = none → ∃ m ln col ch, l.scanToken = .error (.lexer m ln col ch)) := by
  obtain ⟨s1, s2, s3, s4⟩ := skip_spaces l
  have hr : (Lexer.advanceWhile Lexer.isSpace l).2.rest = c :: r := by rw [s1, hd]
  obtain ⟨p1, p2, p3, p4, p5⟩ := peek_cons _ _ _ hr
  by_cases hn : c = '\n'
  · subst hn
    constructor
    · intro ty w h
      simp only [tokenWord, if_true, Option.some.injEq, Prod.mk.injEq] at h
      obtain ⟨h1, h2⟩ := h
      subst h1
      subst h2
      rw [(scanToken_spec l).2.1 r hd]
      exact ⟨_, _, rfl, rfl, rfl, rfl, rfl⟩
    · intro h
      simp [tokenWord] at h
  · by_cases hdg : Lexer.isDigit c = true
    · constructor
      · intro ty w h
        simp only [tokenWord, hn, if_false, hdg, if_true, Option.some.injEq, Prod.mk.injEq] at h
        obtain ⟨h1, h2⟩ := h
        subst h1
        subst h2
        simp only [Lexer.scanToken, p2, Bool.false_eq_true, if_false, p1, hn, hdg, if_true]
        obtain ⟨l1, t, e1, e2, e3, e4, e5, e6⟩ := scanNumber_rest (Lexer.advanceWhile Lexer.isSpace l).2
        rw [hr] at e2 e6
        rw [s4] at e5
        exact ⟨l1, t, e1, e2, e5, by rw [e6], by rw [e6]⟩
      · intro h
        simp [tokenWord, hn, hdg] at h
    · have hd' : Lexer.isDigit c = false := by simpa using hdg
      by_cases hl : Lexer.isLetter c = true ∨ c = '_'
      · constructor
        · intro ty w h
          simp only [tokenWord, hn, if_false, hd', Bool.false_eq_true, hl, if_true,
            Option.some.injEq, Prod.mk.injEq] at h
          obtain ⟨h1, h2⟩ := h
          subst h1
          subst h2
          simp only [Lexer.scanToken, p2, Bool.false_eq_true, if_false, p1, hn, hd', hl, if_true]
          obtain ⟨l1, t, e1, e2, e3, e4⟩ := scanIdentifier_word (Lexer.advanceWhile Lexer.isSpace l).2
          rw [hr] at e2 e4
          rw [s4] at e3
          exact ⟨l1, t, e1, e2, e3, by rw [e4], by rw [e4]⟩
        · intro h
          simp [tokenWord, hn, hd', hl] at h
      · have e : tokenWord (c :: r) = operatorWord (c :: r) := by
          simp only [tokenWord, hn, if_false, hd', Bool.false_eq_true, hl]
        rw [e]
        have e2 : l.scanToken = (Lexer.advanceWhile Lexer.isSpace l).2.scanOperator := by
          simp only [Lexer.scanToken, p2, Bool.false_eq_true, if_false, p1, hn, hd', hl]
        rw [e2]
        constructor
        · intro ty w h
          obtain ⟨l1, t, a1, a2, a3, a4, a5⟩ := scanOperator_word _ c r ty w hr h
          rw [s4] at a3
          exact ⟨l1, t, a1, a2, a3, a4, a5⟩
        · intro h
          exact scanOperator_no_word _ c r hr h

theorem space_cases (c : Char) (h : Lexer.isSpace c = true) : c = ' ' ∨ c = '\t' ∨ c = '\r' := by
  simpa [Lexer.isSpace] using h

/-- No white-space byte and no newline is a letter, a digit or an underscore. -/
theorem wordByte_not_space (c : Char) (h : isWordByte c = true) :
    Lexer.isSpace c = false ∧ c ≠ '\n' := by
  constructor
  · cases hs : Lexer.isSpace c
    · rfl
    · exfalso
      rcases space_cases c hs with e | e | e <;> subst e <;>
        simp [isWordByte, Lexer.isLetter, Lexer.isDigit] at h
  · intro e
    subst e
    simp [isWordByte, Lexer.isLetter, Lexer.isDigit] at h

theorem digit_wordByte (c : Char) (h : Lexer.isDigit c = true) : isWordByte c = true := by
  simp [isWordByte, h]

/-- The bytes of a number literal: digits, the point, the exponent letters and the signs. -/
theorem signDigits_bytes (r : List Char) :
    ∀ c ∈ signDigits r, Lexer.isDigit c = true ∨ c = '+' ∨ c = '-' := by
  intro c hc
  cases r with
  | nil => simp [signDigits] at hc
  | cons s r1 =>
    simp only [signDigits] at hc
    split_ifs at hc with hs
    · rcases List.mem_cons.mp hc with h | h
      · rw [h]
        exact Or.inr hs
      · exact Or.inl (List.mem_takeWhile_imp h)
    · exact Or.inl (List.mem_takeWhile_imp hc)

theorem expLiteral_bytes (r : List Char) :
    ∀ c ∈ expLiteral r, Lexer.isDigit c = true ∨ c = '+' ∨ c = '-' ∨ c = 'e' ∨ c = 'E' := by
  intro c hc
  cases r with
  | nil => simp [expLiteral] at hc
  | cons e r1 =>
    simp only [expLiteral] at hc
    split_ifs at hc with he
    · rcases List.mem_cons.mp hc with h | h
      · rw [h]
        exact Or.inr (Or.inr (Or.inr he))
      · rcases signDigits_bytes _ c h with h2 | h2 | h2 <;> simp [h2]
    · simp at hc

theorem fracExpLiteral_bytes (r : List Char) :
    ∀ c ∈ fracExpLiteral r,
      Lexer.isDigit c = true ∨ c = '+' ∨ c = '-' ∨ c = 'e' ∨ c = 'E' ∨ c = '.' := by
  intro c hc
  have hexp : ∀ x, c ∈ expLiteral x →
      Lexer.isDigit c = true ∨ c = '+' ∨ c = '-' ∨ c = 'e' ∨ c = 'E' ∨ c = '.' := by
    intro x hx
    rcases expLiteral_bytes _ c hx with h | h | h | h | h <;> simp [h]
  cases r with
  | nil => simp [fracExpLiteral] at hc
  | cons d r1 =>
    simp only [fracExpLiteral] at hc
    split_ifs at hc with hd
    · rcases List.mem_cons.mp hc with h | h
      · rw [h, hd]
        simp
      · rcases List.mem_append.mp h with h2 | h2
        · exact Or.inl (List.mem_takeWhile_imp h2)
        · exact hexp _ h2
    · exact hexp _ hc

theorem numberLiteral_bytes (r : List Char) :
    ∀ c ∈ numberLiteral r,
      Lexer.isDigit c = true ∨ c = '+' ∨ c = '-' ∨ c = 'e' ∨ c = 'E' ∨ c = '.' := by
  intro c hc
  rcases List.mem_append.mp hc with h | h
  · exact Or.inl (List.mem_takeWhile_imp h)
  · exact fracExpLiteral_bytes _ c h

theorem numberLiteral_no_space (r : List Char) :
    ∀ c ∈ numberLiteral r, Lexer.isSpace c = false := by
  intro c hc
  rcases numberLiteral_bytes r c hc with h | h | h | h | h | h
  · exact (wordByte_not_space c (digit_wordByte c h)).1
  all_goals (subst h; decide)

/-- The number literal at the start of the input is a prefix of the input. -/
theorem numberLiteral_prefix (r : List Char) :
    r = numberLiteral r ++ r.drop (numberLiteral r).length := by
  obtain ⟨l1, t, h1, h2, _⟩ := scanNumber_rest (NewLexer r)
  have h3 : r = numberLiteral r ++ l1.rest := h2
  have h4 : r.drop (numberLiteral r).length = l1.rest := by
    have h5 := congrArg (List.drop (numberLiteral r).length) h3
    simpa using h5
  rw [h4]
  exact h3

/-- The operator words: one or two bytes at the start of the input, none of them white
space or a newline. -/
theorem operatorWord_spec (c : Char) (r : List Char) (ty : TokenType) (w : List Char)
    (h : operatorWord (c :: r) = some (ty, w)) :
    w ≠ [] ∧ c :: r = w ++ (c :: r).drop w.length ∧
      (∀ x ∈ w, Lexer.isSpace x = false ∧ x ≠ '\n') ∧ ty ≠ .EOF ∧ ty ≠ .NEWLINE ∧
      ty ≠ .NUMBER ∧ ty ≠ .IDENTIFIER := by
  obtain ⟨l1, t, a1, a2, a3, a4, a5⟩ := scanOperator_word (NewLexer (c :: r)) c r ty w rfl h
  have hp : c :: r = w ++ (c :: r).drop w.length := by
    have h4 : (c :: r).drop w.length = l1.rest := by
      have h5 := congrArg (List.drop w.length) a2
      simpa using h5
    rw [h4]
    exact a2
  have hc := operatorWord_cases c r ty w h
  have key : w ≠ [] ∧ (∀ x ∈ w, Lexer.isSpace x = false ∧ x ≠ '\n') ∧ ty ≠ .EOF ∧
      ty ≠ .NEWLINE ∧ ty ≠ .NUMBER ∧ ty ≠ .IDENTIFIER := by
    rcases hc with e | e | e | e | e | e | e | e | e | e | e | e | e <;> subst e <;>
      simp only [operatorWord, Char.reduceEq, if_true, if_false, reduceIte] at h <;>
      (try split_ifs at h) <;>
      simp only [Option.some.injEq, Prod.mk.injEq, reduceCtorEq] at h <;>
      obtain ⟨h1, h2⟩ := h <;> subst h1 <;> subst h2 <;> decide
  exact ⟨key.1, hp, key.2⟩

theorem drop_of_append {α : Type} (a b x : List α) (h : x = a ++ b) : x.drop a.length = b := by
  subst h
  simp

/-- The word at the start of the input: a non-empty prefix of the input without white space,
and never the end-of-input kind. -/
theorem tokenWord_spec (c : Char) (r : List Char) (ty : TokenType) (w : List Char)
    (h : tokenWord (c :: r) = some (ty, w)) :
    w ≠ [] ∧ c :: r = w ++ (c :: r).drop w.length ∧ (∀ x ∈ w, Lexer.isSpace x = false) ∧
      ty ≠ .EOF := by
  by_cases hn : c = '\n'
  · subst hn
    simp only [tokenWord, if_true, Option.some.injEq, Prod.mk.injEq] at h
    obtain ⟨h1, h2⟩ := h
    subst h1
    subst h2
    refine ⟨by simp, by simp, by decide, by decide⟩
  · by_cases hdg : Lexer.isDigit c = true
    · simp only [tokenWord, hn, if_false, hdg, if_true, Option.some.injEq, Prod.mk.injEq] at h
      obtain ⟨h1, h2⟩ := h
      subst h1
      subst h2
      exact ⟨numberLiteral_ne_nil c r hdg, numberLiteral_prefix _, numberLiteral_no_space _,
        by decide⟩
    · have hd' : Lexer.isDigit c = false := by simpa using hdg
      by_cases hl : Lexer.isLetter c = true ∨ c = '_'
      · simp only [tokenWord, hn, if_false, hd', Bool.false_eq_true, hl, if_true,
          Option.some.injEq, Prod.mk.injEq] at h
        obtain ⟨h1, h2⟩ := h
        subst h1
        subst h2
        have hw : isWordByte c = true := by
          rcases hl with e | e
          · simp [isWordByte, e]
          · simp [isWordByte, e]
        refine ⟨?_, ?_, ?_, (getKeywordType_cases _).1⟩
        · simp [List.takeWhile, hw]
        · have h3 := (List.takeWhile_append_dropWhile isWordByte (c :: r)).symm
          rw [drop_of_append _ _ _ h3]
          exact h3
        · intro x hx
          exact (wordByte_not_space x (List.mem_takeWhile_imp hx)).1
      · have e : tokenWord (c :: r) = operatorWord (c :: r) := by
          simp only [tokenWord, hn, if_false, hd', Bool.false_eq_true, hl]
        rw [e] at h
        obtain ⟨a1, a2, a3, a4, _⟩ := operatorWord_spec c r ty w h
        exact ⟨a1, a2, fun x hx => (a3 x hx).1, a4⟩

theorem withoutSpaces_append (a b : List Char) :
    withoutSpaces (a ++ b) = withoutSpaces a ++ withoutSpaces b := by
  simp [withoutSpaces]

theorem withoutSpaces_id (w : List Char) (h : ∀ x ∈ w, Lexer.isSpace x = false) :
    withoutSpaces w = w := by
  simp only [withoutSpaces, List.filter_eq_self]
  intro x hx
  simp [h x hx]

theorem withoutSpaces_spaces (r : List Char) :
    withoutSpaces (r.takeWhile Lexer.isSpace) = [] := by
  simp only [withoutSpaces, List.filter_eq_nil_iff]
  intro x hx
  simp [List.mem_takeWhile_imp hx]

theorem withoutSpaces_skip (r : List Char) :
    withoutSpaces r = withoutSpaces (r.dropWhile Lexer.isSpace) := by
  conv_lhs => rw [← List.takeWhile_append_dropWhile Lexer.isSpace r]
  rw [withoutSpaces_append, withoutSpaces_spaces, List.nil_append]

/-- The literals of the words of an input, one after the other, are the input without its
white space. -/
theorem lexWords_spelled : ∀ (fuel : Nat) (r : List Char) (ws : List (TokenType × List Char)),
    lexWords fuel r = some ws → ws.flatMap Prod.snd = withoutSpaces r := by
  intro fuel
  induction fuel with
  | zero =>
    intro r ws h
    simp [lexWords] at h
  | succ n ih =>
    intro r ws h
    rw [withoutSpaces_skip]
    cases hd : r.dropWhile Lexer.isSpace with
    | nil =>
      simp only [lexWords, hd, Option.some.injEq] at h
      subst h
      rfl
    | cons c r1 =>
      cases hw : tokenWord (c :: r1) with
      | none => simp [lexWords, hd, hw] at h
      | some tw =>
        obtain ⟨ty, w⟩ := tw
        simp only [lexWords, hd, hw] at h
        cases h1 : lexWords n ((c :: r1).drop w.length) with
        | none => simp [h1] at h
        | some ws1 =>
        simp only [h1, Option.map_some', Option.some.injEq] at h
        subst h
        obtain ⟨a1, a2, a3, a4⟩ := tokenWord_spec c r1 ty w hw
        have h3 := ih _ _ h1
        conv_rhs => rw [a2]
        rw [withoutSpaces_append, withoutSpaces_id w a3, ← h3]
        simp

/-- The scan loop and the words of the input: on input with words `ws` the loop returns with
a token for each word, in order, and it fails on input that has no words. -/
theorem tokenizeLoop_words : ∀ (fuel : Nat) (l : Lexer), l.rest.length < fuel →
    (∀ ws, lexWords fuel l.rest = some ws →
      ∃ l1, Lexer.tokenizeLoop fuel l = .ok l1 ∧
        l1.tokens.map Token.word = l.tokens.map Token.word ++ ws) ∧
    (lexWords fuel l.rest = none →
      ∃ m ln col ch, Lexer.tokenizeLoop fuel l = .error (.lexer m ln col ch)) := by
  intro fuel
  induction fuel with
  | zero =>
    intro l hl
    omega
  | succ n ih =>
    intro l hl
    obtain ⟨s1, s2, s3, s4⟩ := skip_spaces l
    cases hrest : l.rest with
    | nil =>
      have he : l.isAtEnd = true := by simp [Lexer.isAtEnd, hrest]
      constructor
      · intro ws h
        simp only [lexWords, List.dropWhile_nil, Option.some.injEq] at h
        subst h
        exact ⟨l, by simp only [Lexer.tokenizeLoop, he, if_true], by simp⟩
      · intro h
        simp [lexWords] at h
    | cons c0 r0 =>
      have he : l.isAtEnd = false := by simp [Lexer.isAtEnd, hrest]
      rw [← hrest]
      have hlen : (l.rest.dropWhile Lexer.isSpace).length ≤ l.rest.length := by
        have h5 := congrArg List.length (List.takeWhile_append_dropWhile Lexer.isSpace l.rest)
        simp only [List.length_append] at h5
        omega
      cases hd : l.rest.dropWhile Lexer.isSpace with
      | nil =>
        have e1 := (scanToken_spec l).1 hd
        have hn : 0 < n := by
          rw [hrest] at hl
          simp only [List.length_cons] at hl
          omega
        obtain ⟨m, hm⟩ : ∃ m, n = m + 1 := ⟨n - 1, by omega⟩
        have e2 : (Lexer.advanceWhile Lexer.isSpace l).2.isAtEnd = true := by
          simp [Lexer.isAtEnd, s1, hd]
        constructor
        · intro ws h
          simp only [lexWords, hd, Option.some.injEq] at h
          subst h
          refine ⟨(Lexer.advanceWhile Lexer.isSpace l).2, ?_, by simp [s4]⟩
          simp only [Lexer.tokenizeLoop, he, Bool.false_eq_true, if_false, e1]
          rw [hm]
          simp only [Lexer.tokenizeLoop, e2, if_true]
        · intro h
          simp [lexWords, hd] at h
      | cons c r =>
        rw [hd] at hlen
        obtain ⟨w1, w2⟩ := scanToken_word l c r hd
        cases hw : tokenWord (c :: r) with
        | none =>
          obtain ⟨m, ln, col, ch, e⟩ := w2 hw
          constructor
          · intro ws h
            simp [lexWords, hd, hw] at h
          · intro _
            exact ⟨m, ln, col, ch, by
              simp only [Lexer.tokenizeLoop, he, Bool.false_eq_true, if_false, e]⟩
        | some tw =>
          obtain ⟨ty, w⟩ := tw
          obtain ⟨l1, t, e1, e2, e3, e4, e5⟩ := w1 ty w hw
          obtain ⟨a1, a2, a3, a4⟩ := tokenWord_spec c r ty w hw
          have hdrop : (c :: r).drop w.length = l1.rest := drop_of_append _ _ _ e2
          have hlen1 : l1.rest.length < n := by
            have h5 := congrArg List.length e2
            simp only [List.length_append] at h5
            have h6 : 0 < w.length := List.length_pos.mpr a1
            omega
          obtain ⟨i1, i2⟩ := ih l1 hlen1
          have hloop : Lexer.tokenizeLoop (n + 1) l = Lexer.tokenizeLoop n l1 := by
            simp only [Lexer.tokenizeLoop, he, Bool.false_eq_true, if_false, e1]
          have hword : Token.word t = (ty, w) := by
            simp [Token.word, e4, e5]
          rw [hloop]
          constructor
          · intro ws h
            simp only [lexWords, hd, hw, hdrop] at h
            cases h1 : lexWords n l1.rest with
            | none => simp [h1] at h
            | some ws1 =>
              simp only [h1, Option.map_some', Option.some.injEq] at h
              subst h
              obtain ⟨l2, b1, b2⟩ := i1 ws1 h1
              exact ⟨l2, b1, by rw [b2, e3]; simp [hword]⟩
          · intro h
            simp only [lexWords, hd, hw, hdrop] at h
            cases h1 : lexWords n l1.rest with
            | none => exact i2 h1
            | some ws1 => simp [h1] at h

/-- The tokens of a source and its words: `Tokenize` returns a token for each word of the
input, in order and with the word's kind and literal, then the EOF token with the empty
literal; it fails with a LexError on input that has no words. -/
theorem tokenize_words (input : List Char) :
    (∀ ws, lexWords (input.length + 1) input = some ws →
      ∃ tokens, (NewLexer input).Tokenize = .ok tokens ∧
        tokens.map Token.word = ws ++ [(.EOF, [])]) ∧
    (lexWords (input.length + 1) input = none →
      ∃ m ln col ch, (NewLexer input).Tokenize = .error (.lexer m ln col ch)) := by
  obtain ⟨i1, i2⟩ := tokenizeLoop_words (input.length + 1) (NewLexer input)
    (by simp [NewLexer])
  have hr : (NewLexer input).rest = input := rfl
  rw [hr] at i1 i2
  constructor
  · intro ws h
    obtain ⟨l1, b1, b2⟩ := i1 ws h
    refine ⟨(l1.addToken .EOF "").tokens, ?_, ?_⟩
    · simp only [Lexer.Tokenize, hr, b1]
    · simp only [Lexer.addToken, List.map_append, b2]
      simp [NewLexer, Token.word]
  · intro h
    obtain ⟨m, ln, col, ch, e⟩ := i2 h
    exact ⟨m, ln, col, ch, by simp only [Lexer.Tokenize, hr, e]⟩

/-- Every source has words or has none, so the two cases of `tokenize_words` cover it: the
tokens of an accepted source are its words. -/
theorem tokenize_accepts (input : List Char) (tokens : List Token)
    (h : (NewLexer input).Tokenize = .ok tokens) :
    ∃ ws, lexWords (input.length + 1) input = some ws ∧
      tokens.map Token.word = ws ++ [(.EOF, [])] := by
  obtain ⟨i1, i2⟩ := tokenize_words input
  cases hw : lexWords (input.length + 1) input with
  | none =>
    obtain ⟨m, ln, col, ch, e⟩ := i2 hw
    rw [e] at h
    cases h
  | some ws =>
    obtain ⟨tokens1, e1, e2⟩ := i1 ws hw
    rw [e1] at h
    cases h
    exact ⟨ws, rfl, e2⟩

/-! ### A token is scanned from its own bytes and the byte after it -/

theorem all_of_prefix (p : Char → Bool) (v u : List Char) (hp : v <+: u)
    (h : u.all p = true) : v.all p = true := by
  rw [List.all_eq_true] at h ⊢
  intro x hx
  exact h x (hp.subset hx)

theorem signDigitsForm_prefix (v u : List Char) (hp : v <+: u)
    (h : signDigitsForm false u = true) : signDigitsForm false v = true := by
  cases v with
  | nil => rfl
  | cons s v1 =>
    obtain ⟨t, ht⟩ := hp
    subst ht
    simp only [List.cons_append, signDigitsForm] at h ⊢
    split_ifs at h ⊢ with hs
    · simp only [Bool.not_false, Bool.true_or, Bool.and_true] at h ⊢
      exact all_of_prefix _ v1 (v1 ++ t) (List.prefix_append _ _) h
    · exact all_of_prefix _ (s :: v1) (s :: (v1 ++ t)) ⟨t, rfl⟩ h

theorem expForm_prefix (v u : List Char) (hp : v <+: u) (h : expForm false u = true) :
    expForm false v = true := by
  cases v with
  | nil => rfl
  | cons e v1 =>
    obtain ⟨t, ht⟩ := hp
    subst ht
    simp only [List.cons_append, expForm, Bool.and_eq_true] at h ⊢
    exact ⟨h.1, signDigitsForm_prefix v1 (v1 ++ t) (List.prefix_append _ _) h.2⟩

/-- Digits followed by an exponent: a prefix is digits followed by a prefix of the exponent. -/
theorem digitsExp_prefix (v t : List Char)
    (h : expForm false ((v ++ t).dropWhile Lexer.isDigit) = true) :
    expForm false (v.dropWhile Lexer.isDigit) = true := by
  by_cases hd : v.dropWhile Lexer.isDigit = []
  · rw [hd]
    rfl
  · obtain ⟨i1, i2⟩ := takeWhile_append_of_stop Lexer.isDigit v t hd
    rw [i2] at h
    exact expForm_prefix _ _ (List.prefix_append _ _) h

theorem fracExpForm_prefix (v u : List Char) (hp : v <+: u)
    (h : fracExpForm false u = true) : fracExpForm false v = true := by
  cases v with
  | nil => rfl
  | cons d v1 =>
    obtain ⟨t, ht⟩ := hp
    subst ht
    simp only [List.cons_append, fracExpForm] at h ⊢
    split_ifs at h ⊢ with hd
    · simp only [Bool.not_false, Bool.true_or, Bool.true_and] at h ⊢
      exact digitsExp_prefix v1 t h
    · exact expForm_prefix (d :: v1) (d :: (v1 ++ t)) ⟨t, rfl⟩ h

/-- Every non-empty prefix of a number literal has the form of a number literal. -/
theorem isNumberForm_prefix (v u : List Char) (hp : v <+: u) (hv : v ≠ [])
    (h : isNumberForm false u = true) : isNumberForm false v = true := by
  obtain ⟨t, ht⟩ := hp
  subst ht
  simp only [isNumberForm, Bool.and_eq_true] at h ⊢
  obtain ⟨h1, h2⟩ := h
  cases v with
  | nil => exact absurd rfl hv
  | cons c v1 =>
    have hc : Lexer.isDigit c = true := by
      by_contra hn
      simp [List.takeWhile, hn] at h1
    constructor
    · simp [List.takeWhile, hc]
    · by_cases hd : (c :: v1).dropWhile Lexer.isDigit = []
      · rw [hd]
        rfl
      · obtain ⟨i1, i2⟩ := takeWhile_append_of_stop Lexer.isDigit (c :: v1) t hd
        rw [i2] at h2
        exact fracExpForm_prefix _ _ (List.prefix_append _ _) h2

/-- Where a number literal ends depends on the literal and on the byte that follows it only,
and it ends before white space and before a newline. -/
theorem numberLiteral_local (c : Char) (w1 t1 t2 : List Char) (hc : Lexer.isDigit c = true)
    (h : numberLiteral (c :: w1 ++ t1) = c :: w1)
    (ht : t2.head? = t1.head? ∨
      ∃ s, t2.head? = some s ∧ (Lexer.isSpace s = true ∨ s = '\n')) :
    numberLiteral (c :: w1 ++ t2) = c :: w1 := by
  have hform : isNumberForm false (c :: w1) = true := by
    have h1 := numberLiteral_form c (w1 ++ t1) hc
    rw [← List.cons_append, h] at h1
    exact h1
  have hu := numberLiteral_form c (w1 ++ t2) hc
  rw [← List.cons_append] at hu
  obtain ⟨x, hx⟩ := numberLiteral_greedy (c :: w1) t2 hform
  have hpre := numberLiteral_prefix (c :: w1 ++ t2)
  rw [← hx] at hpre hu ⊢
  cases x with
  | nil => simp
  | cons d x1 =>
    exfalso
    rw [List.append_assoc] at hpre
    have e2 := List.append_cancel_left hpre
    have hhead : t2.head? = some d := by rw [e2]; rfl
    rcases ht with e | ⟨s, e, hs⟩
    · rw [hhead] at e
      cases t1 with
      | nil => simp at e
      | cons d1 t3 =>
        simp only [List.head?_cons, Option.some.injEq] at e
        subst e
        have hf2 : isNumberForm false (c :: w1 ++ [d]) = true :=
          isNumberForm_prefix _ _ ⟨x1, by simp⟩ (by simp) hu
        obtain ⟨y, hy⟩ := numberLiteral_greedy (c :: w1 ++ [d]) t3 hf2
        have e3 : c :: w1 ++ [d] ++ t3 = c :: w1 ++ d :: t3 := by simp
        rw [e3, h] at hy
        have e4 := congrArg List.length hy
        simp at e4
    · rw [hhead] at e
      simp only [Option.some.injEq] at e
      subst e
      have hmem : d ∈ numberLiteral (c :: w1 ++ t2) := by
        rw [← hx]
        simp
      rcases hs with hs | hs
      · have h5 := numberLiteral_no_space _ d hmem
        rw [hs] at h5
        cases h5
      · exact numberLiteral_no_newline _ d hmem hs

theorem head_local (r t1 t2 : List Char) (x : Char) (hx : Lexer.isSpace x = false)
    (hn : x ≠ '\n') (hr : r = t1) (g : ¬ r.head? = some x)
    (ht : t2.head? = t1.head? ∨
      ∃ s, t2.head? = some s ∧ (Lexer.isSpace s = true ∨ s = '\n')) :
    ¬ t2.head? = some x := by
  subst hr
  rcases ht with e | ⟨s, e, hs⟩
  · rw [e]
    exact g
  · rw [e]
    intro h
    simp only [Option.some.injEq] at h
    subst h
    rcases hs with hs | hs
    · rw [hx] at hs
      cases hs
    · exact hn hs

/-- An operator is recognised from its own bytes and the byte after it, and white space or
a newline ends it. -/
theorem operatorWord_local (c : Char) (r : List Char) (ty : TokenType) (w t1 t2 : List Char)
    (h1 : c :: r = w ++ t1) (h : operatorWord (c :: r) = some (ty, w))
    (ht : t2.head? = t1.head? ∨
      ∃ s, t2.head? = some s ∧ (Lexer.isSpace s = true ∨ s = '\n')) :
    operatorWord (w ++ t2) = some (ty, w) := by
  have hc := operatorWord_cases c r ty w h
  rcases hc with e | e | e | e | e | e | e | e | e | e | e | e | e <;> subst e <;>
    simp only [operatorWord, Char.reduceEq, if_true, if_false, reduceIte] at h <;>
    (try split_ifs at h with g1 g2) <;>
    simp only [Option.some.injEq, Prod.mk.injEq, reduceCtorEq] at h <;>
    obtain ⟨a, b⟩ := h <;> subst a <;> subst b <;>
    first
    | (simp [operatorWord]; done)
    | (have hr : r = t1 := by simpa using h1
       have n1 := head_local r t1 t2 '=' (by decide) (by decide) hr g1 ht
       simp [operatorWord, n1]
       done)
    | (have hr : r = t1 := by simpa using h1
       have n1 := head_local r t1 t2 '=' (by decide) (by decide) hr g1 ht
       have n2 := head_local r t1 t2 '>' (by decide) (by decide) hr g2 ht
       simp [operatorWord, n1, n2]
       done)

/-- A token is recognised from its own bytes and the byte after it, and white space or a
newline ends it: when the input `w ++ t1` starts with the word `w`, so does `w ++ t2` for
every `t2` that starts with the same byte as `t1`, with white space or with a newline. -/
theorem tokenWord_local (c : Char) (r : List Char) (ty : TokenType) (w t1 t2 : List Char)
    (h1 : c :: r = w ++ t1) (h : tokenWord (c :: r) = some (ty, w))
    (ht : t2.head? = t1.head? ∨
      ∃ s, t2.head? = some s ∧ (Lexer.isSpace s = true ∨ s = '\n')) :
    tokenWord (w ++ t2) = some (ty, w) := by
  obtain ⟨a1, a2, a3, a4⟩ := tokenWord_spec c r ty w h
  cases w with
  | nil => exact absurd rfl a1
  | cons c1 w1 =>
    have hc : c1 = c := by
      have h2 := h1
      simp only [List.cons_append, List.cons.injEq] at h2
      exact h2.1.symm
    subst hc
    have hr : r = w1 ++ t1 := by
      have h2 := h1
      simp only [List.cons_append, List.cons.injEq, true_and] at h2
      exact h2
    subst hr
    by_cases hn : c1 = '\n'
    · subst hn
      simp only [tokenWord, if_true, Option.some.injEq, Prod.mk.injEq] at h
      obtain ⟨h3, h4⟩ := h
      subst h3
      rw [← h4]
      simp [tokenWord]
    · by_cases hdg : Lexer.isDigit c1 = true
      · simp only [tokenWord, hn, if_false, hdg, if_true, Option.some.injEq,
          Prod.mk.injEq] at h
        obtain ⟨h3, h4⟩ := h
        subst h3
        have h5 := numberLiteral_local c1 w1 t1 t2 hdg h4 ht
        simp only [List.cons_append, tokenWord, hn, if_false, hdg, if_true, Option.some.injEq,
          Prod.mk.injEq, true_and]
        exact h5
      · have hd' : Lexer.isDigit c1 = false := by simpa using hdg
        by_cases hl : Lexer.isLetter c1 = true ∨ c1 = '_'
        · simp only [tokenWord, hn, if_false, hd', Bool.false_eq_true, hl, if_true,
            Option.some.injEq, Prod.mk.injEq] at h
          obtain ⟨h3, h4⟩ := h
          have hall : (c1 :: w1).all isWordByte = true := by
            rw [← h4]
            exact takeWhile_all _ _
          have hstop1 : ∀ x y, t1 = x :: y → isWordByte x = false := by
            intro x y e
            subst e
            cases hx : isWordByte x
            · rfl
            · exfalso
              have h6 := (takeWhile_append_of_all isWordByte (c1 :: w1) (x :: y) hall).1
              rw [List.cons_append, h4] at h6
              simp [List.takeWhile, hx] at h6
          have hstop2 : ∀ x y, t2 = x :: y → isWordByte x = false := by
            intro x y e
            subst e
            rcases ht with e | ⟨s, e, hs⟩
            · cases t1 with
              | nil => simp at e
              | cons x1 y1 =>
                simp only [List.head?_cons, Option.some.injEq] at e
                subst e
                exact hstop1 _ _ rfl
            · simp only [List.head?_cons, Option.some.injEq] at e
              subst e
              cases hx : isWordByte x
              · rfl
              · rcases hs with hs | hs
                · rw [(wordByte_not_space x hx).1] at hs
                  cases hs
                · exact absurd hs (wordByte_not_space x hx).2
          have h7 := (takeWhile_append_of_head isWordByte (c1 :: w1) t2 hall hstop2).1
          rw [List.cons_append] at h7
          simp only [List.cons_append, tokenWord, hn, if_false, hd', Bool.false_eq_true, hl,
            if_true, h7, Option.some.injEq, Prod.mk.injEq, and_true]
          rw [← h3, h4]
        · have e : ∀ x, tokenWord (c1 :: x) = operatorWord (c1 :: x) := by
            intro x
            simp only [tokenWord, hn, if_false, hd', Bool.false_eq_true, hl]
          rw [e] at h
          rw [List.cons_append, e, ← List.cons_append]
          exact operatorWord_local c1 (w1 ++ t1) ty (c1 :: w1) t1 t2 rfl h ht

/-! ### White space added between tokens -/

theorem tokenWord_drop_length (c : Char) (r : List Char) (ty : TokenType) (w : List Char)
    (h : tokenWord (c :: r) = some (ty, w)) :
    ((c :: r).drop w.length).length + w.length = (c :: r).length ∧ 0 < w.length := by
  obtain ⟨a1, a2, _, _⟩ := tokenWord_spec c r ty w h
  have h1 := congrArg List.length a2
  rw [List.length_append] at h1
  exact ⟨by omega, List.length_pos.mpr a1⟩

theorem dropWhile_length_le (p : Char → Bool) (r : List Char) :
    (r.dropWhile p).length ≤ r.length := by
  have h5 := congrArg List.length (List.takeWhile_append_dropWhile p r)
  simp only [List.length_append] at h5
  omega

/-- The words of an input do not depend on the budget of rounds, once it exceeds the length
of the input. -/
theorem lexWords_fuel : ∀ (f : Nat) (r : List Char), r.length < f →
    ∀ f1, r.length < f1 → lexWords f r = lexWords f1 r := by
  intro f
  induction f with
  | zero =>
    intro r h
    omega
  | succ n ih =>
    intro r h f1 h1
    obtain ⟨m, hm⟩ : ∃ m, f1 = m + 1 := ⟨f1 - 1, by omega⟩
    subst hm
    have hlen := dropWhile_length_le Lexer.isSpace r
    cases hd : r.dropWhile Lexer.isSpace with
    | nil => simp only [lexWords, hd]
    | cons c r1 =>
      rw [hd] at hlen
      cases hw : tokenWord (c :: r1) with
      | none => simp only [lexWords, hd, hw]
      | some tw =>
        obtain ⟨ty, w⟩ := tw
        obtain ⟨b1, b2⟩ := tokenWord_drop_length c r1 ty w hw
        simp only [lexWords, hd, hw]
        rw [ih _ (by omega) m (by omega)]

theorem lexWords_congr (f : Nat) (x y : List Char)
    (h : x.dropWhile Lexer.isSpace = y.dropWhile Lexer.isSpace) :
    lexWords (f + 1) x = lexWords (f + 1) y := by
  simp only [lexWords, h]

/-- The input with added white space starts with the byte the input starts with, or with
white space. -/
theorem spaceAfter_head (gap : List Char) (hg : gap.all Lexer.isSpace = true) (k : Nat)
    (r : List Char) :
    (spaceAfter gap k r).head? = r.head? ∨
      ∃ s, (spaceAfter gap k r).head? = some s ∧ Lexer.isSpace s = true := by
  cases k with
  | zero =>
    cases gap with
    | nil => exact Or.inl rfl
    | cons s g =>
      simp only [List.all_cons, Bool.and_eq_true] at hg
      exact Or.inr ⟨s, rfl, hg.1⟩
  | succ k =>
    cases hd : r.dropWhile Lexer.isSpace with
    | nil => exact Or.inl (by simp only [spaceAfter, hd])
    | cons c r1 =>
      cases hw : tokenWord (c :: r1) with
      | none => exact Or.inl (by simp only [spaceAfter, hd, hw])
      | some tw =>
        obtain ⟨ty, w⟩ := tw
        obtain ⟨a1, a2, _, _⟩ := tokenWord_spec c r1 ty w hw
        left
        simp only [spaceAfter, hd, hw]
        have h1 := (List.takeWhile_append_dropWhile Lexer.isSpace r).symm
        rw [hd, a2] at h1
        conv_rhs => rw [h1]
        cases r.takeWhile Lexer.isSpace with
        | nil =>
          cases w with
          | nil => exact absurd rfl a1
          | cons c1 w1 => rfl
        | cons s g => rfl

theorem dropWhile_space_append (g x : List Char) (hg : g.all Lexer.isSpace = true) :
    (g ++ x).dropWhile Lexer.isSpace = x.dropWhile Lexer.isSpace :=
  (takeWhile_append_of_all Lexer.isSpace g x hg).2

/-- White space added after the first `k` tokens of an input does not change its words, and
it does not turn a rejected input into an accepted one. -/
theorem lexWords_spaceAfter (gap : List Char) (hg : gap.all Lexer.isSpace = true) :
    ∀ (k : Nat) (r : List Char) (f f1 : Nat), r.length < f →
      (spaceAfter gap k r).length < f1 → lexWords f1 (spaceAfter gap k r) = lexWords f r := by
  intro k
  induction k with
  | zero =>
    intro r f f1 h h1
    obtain ⟨m, hm⟩ : ∃ m, f1 = m + 1 := ⟨f1 - 1, by omega⟩
    subst hm
    simp only [spaceAfter] at h1 ⊢
    rw [lexWords_congr m (gap ++ r) r (dropWhile_space_append gap r hg)]
    simp only [List.length_append] at h1
    exact lexWords_fuel _ r (by omega) f h
  | succ k ih =>
    intro r f f1 h h1
    cases hd : r.dropWhile Lexer.isSpace with
    | nil =>
      simp only [spaceAfter, hd] at h1 ⊢
      exact lexWords_fuel _ r h1 f h
    | cons c r1 =>
      cases hw : tokenWord (c :: r1) with
      | none =>
        simp only [spaceAfter, hd, hw] at h1 ⊢
        exact lexWords_fuel _ r h1 f h
      | some tw =>
        obtain ⟨ty, w⟩ := tw
        obtain ⟨a1, a2, a3, a4⟩ := tokenWord_spec c r1 ty w hw
        obtain ⟨b1, b2⟩ := tokenWord_drop_length c r1 ty w hw
        have hlen := dropWhile_length_le Lexer.isSpace r
        rw [hd] at hlen
        obtain ⟨m, hm⟩ : ∃ m, f1 = m + 1 := ⟨f1 - 1, by omega⟩
        obtain ⟨n, hn⟩ : ∃ n, f = n + 1 := ⟨f - 1, by omega⟩
        subst hm
        subst hn
        simp only [spaceAfter, hd, hw] at h1 ⊢
        simp only [List.length_append] at h1
        have hloc := tokenWord_local c r1 ty w ((c :: r1).drop w.length)
          (spaceAfter gap k ((c :: r1).drop w.length)) a2 hw
          ((spaceAfter_head gap hg k _).imp id (fun ⟨s, a, b⟩ => ⟨s, a, Or.inl b⟩))
        have hdrop : (r.takeWhile Lexer.isSpace ++
            (w ++ spaceAfter gap k ((c :: r1).drop w.length))).dropWhile Lexer.isSpace =
            w ++ spaceAfter gap k ((c :: r1).drop w.length) := by
          refine (takeWhile_append_of_head Lexer.isSpace _ _ (takeWhile_all _ _) ?_).2
          intro x y e
          cases w with
          | nil => exact absurd rfl a1
          | cons c1 w1 =>
            simp only [List.cons_append, List.cons.injEq] at e
            rw [← e.1]
            exact a3 c1 (List.mem_cons_self _ _)
        cases w with
        | nil => exact absurd rfl a1
        | cons c1 w1 =>
          have hstep : lexWords (m + 1) (r.takeWhile Lexer.isSpace ++
              (c1 :: w1 ++ spaceAfter gap k ((c :: r1).drop (c1 :: w1).length))) =
              (lexWords m (spaceAfter gap k ((c :: r1).drop (c1 :: w1).length))).map
                (fun ws => (ty, c1 :: w1) :: ws) := by
            rw [lexWords, hdrop]
            simp only [List.cons_append] at hloc ⊢
            simp only [hloc]
            have e5 : (c1 :: (w1 ++ spaceAfter gap k ((c :: r1).drop (c1 :: w1).length))).drop
                (c1 :: w1).length = spaceAfter gap k ((c :: r1).drop (c1 :: w1).length) :=
              drop_of_append (c1 :: w1) _ _ rfl
            rw [e5]
          rw [hstep]
          simp only [lexWords, hd, hw]
          rw [ih _ n m (by omega) (by simp only [List.length_cons] at h1 b2 ⊢; omega)]

/-- White space is added at one place of the input, if at all. -/
theorem spaceAfter_spec (gap : List Char) : ∀ (k : Nat) (r : List Char),
    spaceAfter gap k r = r ∨
      ∃ pre post, r = pre ++ post ∧ spaceAfter gap k r = pre ++ (gap ++ post) := by
  intro k
  induction k with
  | zero =>
    intro r
    exact Or.inr ⟨[], r, rfl, rfl⟩
  | succ k ih =>
    intro r
    cases hd : r.dropWhile Lexer.isSpace with
    | nil => exact Or.inl (by simp only [spaceAfter, hd])
    | cons c r1 =>
      cases hw : tokenWord (c :: r1) with
      | none => exact Or.inl (by simp only [spaceAfter, hd, hw])
      | some tw =>
        obtain ⟨ty, w⟩ := tw
        obtain ⟨a1, a2, _, _⟩ := tokenWord_spec c r1 ty w hw
        have h1 := (List.takeWhile_append_dropWhile Lexer.isSpace r).symm
        rw [hd, a2] at h1
        simp only [spaceAfter, hd, hw]
        rcases ih ((c :: r1).drop w.length) with e | ⟨pre, post, e1, e2⟩
        · left
          rw [e]
          exact h1.symm
        · right
          refine ⟨r.takeWhile Lexer.isSpace ++ (w ++ pre), post, ?_, ?_⟩
          · rw [e1] at h1
            simp only [List.append_assoc]
            exact h1
          · rw [e2]
            simp

/-- The literals of the tokens of an accepted source, one after the other, are the source
without its spaces, tabs and carriage returns. -/
theorem tokenize_spelled (input : List Char) (tokens : List Token)
    (h : (NewLexer input).Tokenize = .ok tokens) :
    tokens.flatMap (fun t => t.Value.toList) = withoutSpaces input := by
  obtain ⟨ws, h1, h2⟩ := tokenize_accepts input tokens h
  have h3 := lexWords_spelled _ _ _ h1
  have h4 : tokens.flatMap (fun t => t.Value.toList) =
      (tokens.map Token.word).flatMap Prod.snd := by
    simp [List.flatMap, List.map_map, Function.comp_def, Token.word]
  rw [h4, h2, ← h3]
  simp [List.flatMap]

/-- White space added after the first `k` tokens of a source changes neither whether the
source is accepted nor the kinds and literals of its tokens. -/
theorem tokenize_spaceAfter (gap : List Char) (k : Nat) (input : List Char)
    (hg : gap.all Lexer.isSpace = true) :
    (∀ tokens, (NewLexer input).Tokenize = .ok tokens →
      ∃ tokens1, (NewLexer (spaceAfter gap k input)).Tokenize = .ok tokens1 ∧
        tokens1.map Token.word = tokens.map Token.word) ∧
    (∀ e, (NewLexer input).Tokenize = .error e →
      ∃ e1, (NewLexer (spaceAfter gap k input)).Tokenize = .error e1) := by
  have hw := lexWords_spaceAfter gap hg k input (input.length + 1)
    ((spaceAfter gap k input).length + 1) (by omega) (by omega)
  obtain ⟨i1, i2⟩ := tokenize_words (spaceAfter gap k input)
  rw [hw] at i1 i2
  constructor
  · intro tokens h
    obtain ⟨ws, h1, h2⟩ := tokenize_accepts input tokens h
    obtain ⟨tokens1, e1, e2⟩ := i1 ws h1
    exact ⟨tokens1, e1, by rw [e2, h2]⟩
  · intro e h
    cases h1 : lexWords (input.length + 1) input with
    | none =>
      obtain ⟨m, ln, col, ch, e2⟩ := i2 h1
      exact ⟨_, e2⟩
    | some ws =>
      obtain ⟨tokens, e1, _⟩ := (tokenize_words input).1 ws h1
      rw [e1] at h
      cases h

/-- C38 (amended).  For every source the lexer accepts, the literals of the returned tokens,
one after the other, are the bytes of the source with every space, tab and carriage return
removed (every other byte, each newline included, is kept in place).  White space added at
the start of the source or right after any one of its tokens changes neither whether the
source is accepted nor the kinds and literals of its tokens. -/
theorem C38_literals_spell_source :
    (∀ (source : String) (tokens : List Token),
      (NewLexer (goBytes source)).Tokenize = .ok tokens →
        tokens.flatMap (fun t => t.Value.toList) = withoutSpaces (goBytes source)) ∧
    (∀ (gap : List Char) (k : Nat) (input : List Char), gap.all Lexer.isSpace = true →
      (∀ tokens, (NewLexer input).Tokenize = .ok tokens →
        ∃ tokens1, (NewLexer (spaceAfter gap k input)).Tokenize = .ok tokens1 ∧
          tokens1.map Token.word = tokens.map Token.word) ∧
      (∀ e, (NewLexer input).Tokenize = .error e →
        ∃ e1, (NewLexer (spaceAfter gap k input)).Tokenize = .error e1)) ∧
    (∀ (gap : List Char) (k : Nat) (input : List Char),
      spaceAfter gap k input = input ∨
        ∃ pre post, input = pre ++ post ∧ spaceAfter gap k input = pre ++ (gap ++ post)) ∧
    spaceAfter [' '] 0 "a+b".toList = " a+b".toList ∧
    spaceAfter [' '] 1 "a+b".toList = "a +b".toList ∧
    spaceAfter ['\t', ' '] 2 "a+b".toList = "a+\t b".toList ∧
    spaceAfter [' '] 3 "a+b".toList = "a+b ".toList ∧
    spaceAfter [' '] 1 "x1:=MA(C,5)".toList = "x1 :=MA(C,5)".toList :=
  ⟨fun source tokens h => tokenize_spelled _ tokens h,
   fun gap k input hg => tokenize_spaceAfter gap k input hg,
   fun gap k input => spaceAfter_spec gap k input,
   by decide, by decide, by decide, by decide, by decide⟩

theorem C38_literals_spell_source_witness :
    ([{ Typ := .IDENTIFIER, Value := "A", Line := 1, Column := 1 },
      { Typ := .ASSIGN, Value := ":=", Line := 1, Column := 3 },
      { Typ := .IDENTIFIER, Value := "B", Line := 1, Column := 6 },
      { Typ := .PLUS, Value := "+", Line := 1, Column := 8 },
      { Typ := .NUMBER, Value := "1", Line := 1, Column := 10 },
      { Typ := .NEWLINE, Value := "\n", Line := 1, Column := 11 },
      { Typ := .IDENTIFIER, Value := "C", Line := 2, Column := 1 },
      { Typ := .EOF, Value := "", Line := 2, Column := 2 }] : List Token).flatMap
        (fun t => t.Value.toList) = withoutSpaces (goBytes "A := B +\t1\r\nC") ∧
    withoutSpaces (goBytes "A := B +\t1\r\nC") = "A:=B+1\nC".toList ∧
    (∃ tokens1, (NewLexer (spaceAfter [' ', '\t'] 1 (goBytes "a+b"))).Tokenize = .ok tokens1 ∧
      tokens1.map Token.word =
        ([{ Typ := .IDENTIFIER, Value := "a", Line := 1, Column := 1 },
          { Typ := .PLUS, Value := "+", Line := 1, Column := 2 },
          { Typ := .IDENTIFIER, Value := "b", Line := 1, Column := 3 },
          { Typ := .EOF, Value := "", Line := 1, Column := 4 }] : List Token).map Token.word) ∧
    spaceAfter [' ', '\t'] 1 (goBytes "a+b") = "a \t+b".toList :=
  ⟨C38_literals_spell_source.1 "A := B +\t1\r\nC" _ (isOkWith_sound _ _ (by decide!)),
   by decide,
   ((C38_literals_spell_source.2.1 [' ', '\t'] 1 (goBytes "a+b") (by decide)).1 _
     (isOkWith_sound _ _ (by decide!))),
   by decide⟩

/-- Removing the space between two tokens can change the tokens: `a b` has the two
IDENTIFIER tokens `a` and `b`, `ab` the one IDENTIFIER token `ab`; `: =` has a COLON and an
EQ token, `:=` one ASSIGN token; `1 2` has two NUMBER tokens, `12` one.  In each pair both
sources are accepted and their literals spell the same bytes. -/
theorem C38_counterexample :
    (NewLexer (goBytes "a b")).Tokenize =
      .ok [{ Typ := .IDENTIFIER, Value := "a", Line := 1, Column := 1 },
           { Typ := .IDENTIFIER, Value := "b", Line := 1, Column := 3 },
           { Typ := .EOF, Value := "", Line := 1, Column := 4 }] ∧
    (NewLexer (goBytes "ab")).Tokenize =
      .ok [{ Typ := .IDENTIFIER, Value := "ab", Line := 1, Column := 1 },
           { Typ := .EOF, Value := "", Line := 1, Column := 3 }] ∧
    (NewLexer (goBytes ": =")).Tokenize =
      .ok [{ Typ := .COLON, Value := ":", Line := 1, Column := 1 },
           { Typ := .EQ, Value := "=", Line := 1, Column := 3 },
           { Typ := .EOF, Value := "", Line := 1, Column := 4 }] ∧
    (NewLexer (goBytes ":=")).Tokenize =
      .ok [{ Typ := .ASSIGN, Value := ":=", Line := 1, Column := 1 },
           { Typ := .EOF, Value := "", Line := 1, Column := 3 }] ∧
    (NewLexer (goBytes "1 2")).Tokenize =
      .ok [{ Typ := .NUMBER, Value := "1", Line := 1, Column := 1 },
           { Typ := .NUMBER, Value := "2", Line := 1, Column := 3 },
           { Typ := .EOF, Value := "", Line := 1, Column := 4 }] ∧
    (NewLexer (goBytes "12")).Tokenize =
      .ok [{ Typ := .NUMBER, Value := "12", Line := 1, Column := 1 },
           { Typ := .EOF, Value := "", Line := 1, Column := 3 }] ∧
    withoutSpaces (goBytes "a b") = goBytes "ab" ∧
    withoutSpaces (goBytes ": =") = goBytes ":=" ∧
    withoutSpaces (goBytes "1 2") = goBytes "12" :=
  ⟨isOkWith_sound _ _ (by decide!), isOkWith_sound _ _ (by decide!),
   isOkWith_sound _ _ (by decide!), isOkWith_sound _ _ (by decide!),
   isOkWith_sound _ _ (by decide!), isOkWith_sound _ _ (by decide!),
   by decide, by decide, by decide⟩

/-! ### Safety: no index out of range -/

theorem safe_error {α : Type} (P : α → Prop) (s : String) :
    Safe P (.error (.runtime s)) := Or.inr ⟨s, rfl⟩

theorem safe_ok {α : Type} (P : α → Prop) (x : α) (h : P x) : Safe P (.ok x) :=
  Or.inl ⟨x, rfl, h⟩

theorem safe_pure {α : Type} (P : α → Prop) (x : α) (h : P x) : Safe P (pure x : Res α) :=
  Or.inl ⟨x, rfl, h⟩

theorem safe_bind {α β : Type} (Q : α → Prop) (P : β → Prop) (m : Res α) (f : α → Res β)
    (hm : Safe Q m) (hf : ∀ x, Q x → Safe P (f x)) : Safe P (m >>= f) := by
  rcases hm with ⟨x, e, hx⟩ | ⟨s, e⟩
  · subst e
    exact hf x hx
  · subst e
    exact Or.inr ⟨s, rfl⟩

theorem safe_bind_list {β : Type} (N : Nat) (P : β → Prop) (m : Res (List F64))
    (f : List F64 → Res β) (hm : Safe (fun r => r.length = N) m)
    (hf : ∀ r, r.length = N → Safe P (f r)) : Safe P (m >>= f) :=
  safe_bind _ P m f hm hf

theorem safe_bind_state {β σ : Type} (N : Nat) (P : β → Prop) (m : Res (List F64 × σ))
    (f : List F64 × σ → Res β) (hm : Safe (fun st => st.1.length = N) m)
    (hf : ∀ st, st.1.length = N → Safe P (f st)) : Safe P (m >>= f) :=
  safe_bind _ P m f hm hf

theorem safe_bind_any {α β : Type} (P : β → Prop) (m : Res α) (f : α → Res β)
    (hm : Safe (fun _ => True) m) (hf : ∀ x, Safe P (f x)) : Safe P (m >>= f) :=
  safe_bind _ P m f hm (fun x _ => hf x)

theorem safe_ite {α : Type} (P : α → Prop) (c : Prop) [Decidable c] (a b : Res α)
    (ha : c → Safe P a) (hb : ¬ c → Safe P b) : Safe P (if c then a else b) := by
  split_ifs with h
  · exact ha h
  · exact hb h

theorem safe_index (a : List F64) (i : Int) (h : 0 ≤ i ∧ i < (a.length : Int)) :
    Safe (fun _ => True) (index a i) := by
  unfold index
  rw [if_pos h]
  exact Or.inl ⟨_, rfl, trivial⟩

theorem safe_store (N : Nat) (r : List F64) (i : Int) (v : F64) (hr : r.length = N)
    (h : 0 ≤ i ∧ i < (N : Int)) : Safe (fun r1 => r1.length = N) (store r i v) := by
  unfold store
  rw [if_pos (by rw [hr]; exact h)]
  exact Or.inl ⟨_, rfl, by simp only [List.length_set, hr]⟩

theorem safe_forLoopAux {σ : Type} (I : σ → Prop) (body : Int → σ → Res σ) :
    ∀ (k : Nat) (lo : Int) (s : σ), I s →
      (∀ i s1, lo ≤ i → i < lo + k → I s1 → Safe I (body i s1)) →
      Safe I (forLoopAux body k lo s) := by
  intro k
  induction k with
  | zero =>
    intro lo s hs _
    exact Or.inl ⟨s, rfl, hs⟩
  | succ k ih =>
    intro lo s hs hb
    rcases hb lo s (le_refl _) (by push_cast; omega) hs with ⟨s1, e, h1⟩ | ⟨m, e⟩
    · simp only [forLoopAux, e]
      exact ih (lo + 1) s1 h1 (fun i s2 h2 h3 h4 => hb i s2 (by omega) (by push_cast; omega) h4)
    · simp only [forLoopAux, e]
      exact Or.inr ⟨m, rfl⟩

/-- A counted loop whose body is safe at every index of its range keeps the invariant of its
state. -/
theorem safe_forLoop {σ : Type} (I : σ → Prop) (lo hi : Int) (body : Int → σ → Res σ)
    (init : σ) (h0 : I init) (hb : ∀ i s, lo ≤ i → i < hi → I s → Safe I (body i s)) :
    Safe I (forLoop lo hi body init) :=
  safe_forLoopAux I body _ lo init h0 (fun i s h1 h2 h3 => hb i s h1 (by omega) h3)

theorem safe_forBreakAux {σ : Type} (I : σ → Prop) (body : Int → σ → Res (σ × Bool)) :
    ∀ (k : Nat) (lo : Int) (s : σ), I s →
      (∀ i s1, lo ≤ i → i < lo + k → I s1 → Safe (fun st => I st.1) (body i s1)) →
      Safe I (forBreakAux body k lo s) := by
  intro k
  induction k with
  | zero =>
    intro lo s hs _
    exact Or.inl ⟨s, rfl, hs⟩
  | succ k ih =>
    intro lo s hs hb
    rcases hb lo s (le_refl _) (by push_cast; omega) hs with ⟨⟨s1, b⟩, e, h1⟩ | ⟨m, e⟩
    · cases b with
      | true =>
        simp only [forBreakAux, e]
        exact Or.inl ⟨s1, rfl, h1⟩
      | false =>
        simp only [forBreakAux, e]
        exact ih (lo + 1) s1 h1
          (fun i s2 h2 h3 h4 => hb i s2 (by omega) (by push_cast; omega) h4)
    · simp only [forBreakAux, e]
      exact Or.inr ⟨m, rfl⟩

theorem safe_forBreak {σ : Type} (I : σ → Prop) (lo hi : Int)
    (body : Int → σ → Res (σ × Bool)) (init : σ) (h0 : I init)
    (hb : ∀ i s, lo ≤ i → i < hi → I s → Safe (fun st => I st.1) (body i s)) :
    Safe I (forBreak lo hi body init) :=
  safe_forBreakAux I body _ lo init h0 (fun i s h1 h2 h3 => hb i s h1 (by omega) h3)

theorem sized_single (N : Nat) (x : F64) : Sized N (NewSingleValue x) := by
  intro h
  simp [NewSingleValue] at h

theorem sized_array (N : Nat) (r : List F64) (h : r.length = N) (hN : 0 < N) :
    Sized N (NewArrayValue r) := fun _ => ⟨h, hN⟩

/-! Every built-in is safe on the values of a run: it indexes no series out of range. -/

theorem safeFn_fnMA (N : Nat) : SafeFn N fnMA := by
  intro args md hargs
  rcases args with _ | ⟨a, _ | ⟨b, _ | ⟨c, _ | ⟨d, rest⟩⟩⟩⟩ <;> simp only [fnMA] <;>
    (try with_reducible exact safe_error _ _)
  simp only [List.mem_cons, List.mem_nil_iff, or_false, forall_eq_or_imp, forall_eq] at hargs
  repeat' (first
    | with_reducible exact safe_error _ _
    | with_reducible apply safe_ite
    | with_reducible apply safe_bind_list N
    | with_reducible apply safe_bind_state N
    | with_reducible apply safe_bind_any
    | with_reducible apply safe_forLoop
    | with_reducible apply safe_forBreak
    | with_reducible apply safe_store N
    | with_reducible apply safe_index
    | with_reducible apply safe_pure
    | with_reducible apply safe_ok
    | intro _)
  all_goals first
    | trivial
    | assumption
    | (simp_all [Sized, makeSlice_length, NewArrayValue, NewSingleValue] <;> omega)

theorem safeFn_fnEMA (N : Nat) : SafeFn N fnEMA := by
  intro args md hargs
  rcases args with _ | ⟨a, _ | ⟨b, _ | ⟨c, _ | ⟨d, rest⟩⟩⟩⟩ <;> simp only [fnEMA] <;>
    (try with_reducible exact safe_error _ _)
  simp only [List.mem_cons, List.mem_nil_iff, or_false, forall_eq_or_imp, forall_eq] at hargs
  repeat' (first
    | with_reducible exact safe_error _ _
    | with_reducible apply safe_ite
    | with_reducible apply safe_bind_list N
    | with_reducible apply safe_bind_state N
    | with_reducible apply safe_bind_any
    | with_reducible apply safe_forLoop
    | with_reducible apply safe_forBreak
    | with_reducible apply safe_store N
    | with_reducible apply safe_index
    | with_reducible apply safe_pure
    | with_reducible apply safe_ok
    | intro _)
  all_goals first
    | trivial
    | assumption
    | (simp_all [Sized, makeSlice_length, NewArrayValue, NewSingleValue] <;> omega)

theorem safeFn_fnSUM (N : Nat) : SafeFn N fnSUM := by
  intro args md hargs
  rcases args with _ | ⟨a, _ | ⟨b, _ | ⟨c, _ | ⟨d, rest⟩⟩⟩⟩ <;> simp only [fnSUM] <;>
    (try with_reducible exact safe_error _ _)
  simp only [List.mem_cons, List.mem_nil_iff, or_false, forall_eq_or_imp, forall_eq] at hargs
  repeat' (first
    | with_reducible exact safe_error _ _
    | with_reducible apply safe_ite
    | with_reducible apply safe_bind_list N
    | with_reducible apply safe_bind_state N
    | with_reducible apply safe_bind_any
    | with_reducible apply safe_forLoop
    | with_reducible apply safe_forBreak
    | with_reducible apply safe_store N
    | with_reducible apply safe_index
    | with_reducible apply safe_pure
    | with_reducible apply safe_ok
    | intro _)
  all_goals first
    | trivial
    | assumption
    | (simp_all [Sized, makeSlice_length, NewArrayValue, NewSingleValue] <;> omega)

theorem safeFn_fnMAX (N : Nat) : SafeFn N fnMAX := by
  intro args md hargs
  rcases args with _ | ⟨a, _ | ⟨b, _ | ⟨c, _ | ⟨d, rest⟩⟩⟩⟩ <;> simp only [fnMAX] <;>
    (try with_reducible exact safe_error _ _)
  simp only [List.mem_cons, List.mem_nil_iff, or_false, forall_eq_or_imp, forall_eq] at hargs
  repeat' (first
    | with_reducible exact safe_error _ _
    | with_reducible apply safe_ite
    | with_reducible apply safe_bind_list N
    | with_reducible apply safe_bind_state N
    | with_reducible apply safe_bind_any
    | with_reducible apply safe_forLoop
    | with_reducible apply safe_forBreak
    | with_reducible apply safe_store N
    | with_reducible apply safe_index
    | with_reducible apply safe_pure
    | with_reducible apply safe_ok
    | intro _)
  all_goals first
    | trivial
    | assumption
    | (simp_all [Sized, makeSlice_length, NewArrayValue, NewSingleValue])

theorem safeFn_fnMIN (N : Nat) : SafeFn N fnMIN := by
  intro args md hargs
  rcases args with _ | ⟨a, _ | ⟨b, _ | ⟨c, _ | ⟨d, rest⟩⟩⟩⟩ <;> simp only [fnMIN] <;>
    (try with_reducible exact safe_error _ _)
  simp only [List.mem_cons, List.mem_nil_iff, or_false, forall_eq_or_imp, forall_eq] at hargs
  repeat' (first
    | with_reducible exact safe_error _ _
    | with_reducible apply safe_ite
    | with_reducible apply safe_bind_list N
    | with_reducible apply safe_bind_state N
    | with_reducible apply safe_bind_any
    | with_reducible apply safe_forLoop
    | with_reducible apply safe_forBreak
    | with_reducible apply safe_store N
    | with_reducible apply safe_index
    | with_reducible apply safe_pure
    | with_reducible apply safe_ok
    | intro _)
  all_goals first
    | trivial
    | assumption
    | (simp_all [Sized, makeSlice_length, NewArrayValue, NewSingleValue])

theorem safeFn_fnABS (N : Nat) : SafeFn N fnABS := by
  intro args md hargs
  rcases args with _ | ⟨a, _ | ⟨b, _ | ⟨c, _ | ⟨d, rest⟩⟩⟩⟩ <;> simp only [fnABS] <;>
    (try with_reducible exact safe_error _ _)
  simp only [List.mem_cons, List.mem_nil_iff, or_false, forall_eq_or_imp, forall_eq] at hargs
  repeat' (first
    | with_reducible exact safe_error _ _
    | with_reducible apply safe_ite
    | with_reducible apply safe_bind_list N
    | with_reducible apply safe_bind_state N
    | with_reducible apply safe_bind_any
    | with_reducible apply safe_forLoop
    | with_reducible apply safe_forBreak
    | with_reducible apply safe_store N
    | with_reducible apply safe_index
    | with_reducible apply safe_pure
    | with_reducible apply safe_ok
    | intro _)
  all_goals first
    | trivial
    | assumption
    | (simp_all [Sized, makeSlice_length, NewArrayValue, NewSingleValue])

theorem safeFn_fnSQRT (N : Nat) : SafeFn N fnSQRT := by
  intro args md hargs
  rcases args with _ | ⟨a, _ | ⟨b, _ | ⟨c, _ | ⟨d, rest⟩⟩⟩⟩ <;> simp only [fnSQRT] <;>
    (try with_reducible exact safe_error _ _)
  simp only [List.mem_cons, List.mem_nil_iff, or_false, forall_eq_or_imp, forall_eq] at hargs
  repeat' (first
    | with_reducible exact safe_error _ _
    | with_reducible apply safe_ite
    | with_reducible apply safe_bind_list N
    | with_reducible apply safe_bind_state N
    | with_reducible apply safe_bind_any
    | with_reducible apply safe_forLoop
    | with_reducible apply safe_forBreak
    | with_reducible apply safe_store N
    | with_reducible apply safe_index
    | with_reducible apply safe_pure
    | with_reducible apply safe_ok
    | intro _)
  all_goals first
    | trivial
    | assumption
    | (simp_all [Sized, makeSlice_length, NewArrayValue, NewSingleValue])

theorem safeFn_fnREF (N : Nat) : SafeFn N fnREF := by
  intro args md hargs
  rcases args with _ | ⟨a, _ | ⟨b, _ | ⟨c, _ | ⟨d, rest⟩⟩⟩⟩ <;> simp only [fnREF] <;>
    (try with_reducible exact safe_error _ _)
  simp only [List.mem_cons, List.mem_nil_iff, or_false, forall_eq_or_imp, forall_eq] at hargs
  repeat' (first
    | with_reducible exact safe_error _ _
    | with_reducible apply safe_ite
    | with_reducible apply safe_bind_list N
    | with_reducible apply safe_bind_state N
    | with_reducible apply safe_bind_any
    | with_reducible apply safe_forLoop
    | with_reducible apply safe_forBreak
    | with_reducible apply safe_store N
    | with_reducible apply safe_index
    | with_reducible apply safe_pure
    | with_reducible apply safe_ok
    | intro _)
  all_goals first
    | trivial
    | assumption
    | (simp_all [Sized, makeSlice_length, NewArrayValue, NewSingleValue] <;> omega)

theorem safeFn_fnHHV (N : Nat) : SafeFn N fnHHV := by
  intro args md hargs
  rcases args with _ | ⟨a, _ | ⟨b, _ | ⟨c, _ | ⟨d, rest⟩⟩⟩⟩ <;> simp only [fnHHV] <;>
    (try with_reducible exact safe_error _ _)
  simp only [List.mem_cons, List.mem_nil_iff, or_false, forall_eq_or_imp, forall_eq] at hargs
  repeat' (first
    | with_reducible exact safe_error _ _
    | with_reducible apply safe_ite
    | with_reducible apply safe_bind_list N
    | with_reducible apply safe_bind_state N
    | with_reducible apply safe_bind_any
    | with_reducible apply safe_forLoop
    | with_reducible apply safe_forBreak
    | with_reducible apply safe_store N
    | with_reducible apply safe_index
    | with_reducible apply safe_pure
    | with_reducible apply safe_ok
    | intro _)
  all_goals first
    | trivial
    | assumption
    | (simp_all [Sized, makeSlice_length, NewArrayValue, NewSingleValue] <;> omega)

theorem safeFn_fnLLV (N : Nat) : SafeFn N fnLLV := by
  intro args md hargs
  rcases args with _ | ⟨a, _ | ⟨b, _ | ⟨c, _ | ⟨d, rest⟩⟩⟩⟩ <;> simp only [fnLLV] <;>
    (try with_reducible exact safe_error _ _)
  simp only [List.mem_cons, List.mem_nil_iff, or_false, forall_eq_or_imp, forall_eq] at hargs
  repeat' (first
    | with_reducible exact safe_error _ _
    | with_reducible apply safe_ite
    | with_reducible apply safe_bind_list N
    | with_reducible apply safe_bind_state N
    | with_reducible apply safe_bind_any
    | with_reducible apply safe_forLoop
    | with_reducible apply safe_forBreak
    | with_reducible apply safe_store N
    | with_reducible apply safe_index
    | with_reducible apply safe_pure
    | with_reducible apply safe_ok
    | intro _)
  all_goals first
    | trivial
    | assumption
    | (simp_all [Sized, makeSlice_length, NewArrayValue, NewSingleValue] <;> omega)

theorem safeFn_fnIF (N : Nat) : SafeFn N fnIF := by
  intro args md hargs
  rcases args with _ | ⟨a, _ | ⟨b, _ | ⟨c, _ | ⟨d, rest⟩⟩⟩⟩ <;> simp only [fnIF] <;>
    (try with_reducible exact safe_error _ _)
  simp only [List.mem_cons, List.mem_nil_iff, or_false, forall_eq_or_imp, forall_eq] at hargs
  repeat' (first
    | with_reducible exact safe_error _ _
    | with_reducible apply safe_ite
    | with_reducible apply safe_bind_list N
    | with_reducible apply safe_bind_state N
    | with_reducible apply safe_bind_any
    | with_reducible apply safe_forLoop
    | with_reducible apply safe_forBreak
    | with_reducible apply safe_store N
    | with_reducible apply safe_index
    | with_reducible apply safe_pure
    | with_reducible apply safe_ok
    | intro _)
  all_goals first
    | trivial
    | assumption
    | (simp_all [Sized, makeSlice_length, NewArrayValue, NewSingleValue])

theorem safeFn_fnCROSS (N : Nat) : SafeFn N fnCROSS := by
  intro args md hargs
  rcases args with _ | ⟨a, _ | ⟨b, _ | ⟨c, _ | ⟨d, rest⟩⟩⟩⟩ <;> simp only [fnCROSS] <;>
    (try with_reducible exact safe_error _ _)
  simp only [List.mem_cons, List.mem_nil_iff, or_false, forall_eq_or_imp, forall_eq] at hargs
  repeat' (first
    | with_reducible exact safe_error _ _
    | with_reducible apply safe_ite
    | with_reducible apply safe_bind_list N
    | with_reducible apply safe_bind_state N
    | with_reducible apply safe_bind_any
    | with_reducible apply safe_forLoop
    | with_reducible apply safe_forBreak
    | with_reducible apply safe_store N
    | with_reducible apply safe_index
    | with_reducible apply safe_pure
    | with_reducible apply safe_ok
    | intro _)
  all_goals first
    | trivial
    | assumption
    | (simp_all [Sized, makeSlice_length, NewArrayValue, NewSingleValue] <;> omega)

theorem safeFn_fnSTD (N : Nat) : SafeFn N fnSTD := by
  intro args md hargs
  rcases args with _ | ⟨a, _ | ⟨b, _ | ⟨c, _ | ⟨d, rest⟩⟩⟩⟩ <;> simp only [fnSTD] <;>
    (try with_reducible exact safe_error _ _)
  simp only [List.mem_cons, List.mem_nil_iff, or_false, forall_eq_or_imp, forall_eq] at hargs
  repeat' (first
    | with_reducible exact safe_error _ _
    | with_reducible apply safe_ite
    | with_reducible apply safe_bind_list N
    | with_reducible apply safe_bind_state N
    | with_reducible apply safe_bind_any
    | with_reducible apply safe_forLoop
    | with_reducible apply safe_forBreak
    | with_reducible apply safe_store N
    | with_reducible apply safe_index
    | with_reducible apply safe_pure
    | with_reducible apply safe_ok
    | intro _)
  all_goals first
    | trivial
    | assumption
    | (simp_all [Sized, makeSlice_length, NewArrayValue, NewSingleValue] <;> omega)

theorem safeFn_fnVAR (N : Nat) : SafeFn N fnVAR := by
  intro args md hargs
  rcases args with _ | ⟨a, _ | ⟨b, _ | ⟨c, _ | ⟨d, rest⟩⟩⟩⟩ <;> simp only [fnVAR] <;>
    (try with_reducible exact safe_error _ _)
  simp only [List.mem_cons, List.mem_nil_iff, or_false, forall_eq_or_imp, forall_eq] at hargs
  repeat' (first
    | with_reducible exact safe_error _ _
    | with_reducible apply safe_ite
    | with_reducible apply safe_bind_list N
    | with_reducible apply safe_bind_state N
    | with_reducible apply safe_bind_any
    | with_reducible apply safe_forLoop
    | with_reducible apply safe_forBreak
    | with_reducible apply safe_store N
    | with_reducible apply safe_index
    | with_reducible apply safe_pure
    | with_reducible apply safe_ok
    | intro _)
  all_goals first
    | trivial
    | assumption
    | (simp_all [Sized, makeSlice_length, NewArrayValue, NewSingleValue] <;> omega)

theorem safeFn_fnWMA (N : Nat) : SafeFn N fnWMA := by
  intro args md hargs
  rcases args with _ | ⟨a, _ | ⟨b, _ | ⟨c, _ | ⟨d, rest⟩⟩⟩⟩ <;> simp only [fnWMA] <;>
    (try with_reducible exact safe_error _ _)
  simp only [List.mem_cons, List.mem_nil_iff, or_false, forall_eq_or_imp, forall_eq] at hargs
  repeat' (first
    | with_reducible exact safe_error _ _
    | with_reducible apply safe_ite
    | with_reducible apply safe_bind_list N
    | with_reducible apply safe_bind_state N
    | with_reducible apply safe_bind_any
    | with_reducible apply safe_forLoop
    | with_reducible apply safe_forBreak
    | with_reducible apply safe_store N
    | with_reducible apply safe_index
    | with_reducible apply safe_pure
    | with_reducible apply safe_ok
    | intro _)
  all_goals first
    | trivial
    | assumption
    | (simp_all [Sized, makeSlice_length, NewArrayValue, NewSingleValue] <;> omega)

theorem safeFn_fnCOUNT (N : Nat) : SafeFn N fnCOUNT := by
  intro args md hargs
  rcases args with _ | ⟨a, _ | ⟨b, _ | ⟨c, _ | ⟨d, rest⟩⟩⟩⟩ <;> simp only [fnCOUNT] <;>
    (try with_reducible exact safe_error _ _)
  simp only [List.mem_cons, List.mem_nil_iff, or_false, forall_eq_or_imp, forall_eq] at hargs
  repeat' (first
    | with_reducible exact safe_error _ _
    | with_reducible apply safe_ite
    | with_reducible apply safe_bind_list N
    | with_reducible apply safe_bind_state N
    | with_reducible apply safe_bind_any
    | with_reducible apply safe_forLoop
    | with_reducible apply safe_forBreak
    | with_reducible apply safe_store N
    | with_reducible apply safe_index
    | with_reducible apply safe_pure
    | with_reducible apply safe_ok
    | intro _)
  all_goals first
    | trivial
    | assumption
    | (simp_all [Sized, makeSlice_length, NewArrayValue, NewSingleValue] <;> omega)

theorem safeFn_fnEVERY (N : Nat) : SafeFn N fnEVERY := by
  intro args md hargs
  rcases args with _ | ⟨a, _ | ⟨b, _ | ⟨c, _ | ⟨d, rest⟩⟩⟩⟩ <;> simp only [fnEVERY] <;>
    (try with_reducible exact safe_error _ _)
  simp only [List.mem_cons, List.mem_nil_iff, or_false, forall_eq_or_imp, forall_eq] at hargs
  repeat' (first
    | with_reducible exact safe_error _ _
    | with_reducible apply safe_ite
    | with_reducible apply safe_bind_list N
    | with_reducible apply safe_bind_state N
    | with_reducible apply safe_bind_any
    | with_reducible apply safe_forLoop
    | with_reducible apply safe_forBreak
    | with_reducible apply safe_store N
    | with_reducible apply safe_index
    | with_reducible apply safe_pure
    | with_reducible apply safe_ok
    | intro _)
  all_goals first
    | trivial
    | assumption
    | (simp_all [Sized, makeSlice_length, NewArrayValue, NewSingleValue] <;> omega)

theorem safeFn_fnEXIST (N : Nat) : SafeFn N fnEXIST := by
  intro args md hargs
  rcases args with _ | ⟨a, _ | ⟨b, _ | ⟨c, _ | ⟨d, rest⟩⟩⟩⟩ <;> simp only [fnEXIST] <;>
    (try with_reducible exact safe_error _ _)
  simp only [List.mem_cons, List.mem_nil_iff, or_false, forall_eq_or_imp, forall_eq] at hargs
  repeat' (first
    | with_reducible exact safe_error _ _
    | with_reducible apply safe_ite
    | with_reducible apply safe_bind_list N
    | with_reducible apply safe_bind_state N
    | with_reducible apply safe_bind_any
    | with_reducible apply safe_forLoop
    | with_reducible apply safe_forBreak
    | with_reducible apply safe_store N
    | with_reducible apply safe_index
    | with_reducible apply safe_pure
    | with_reducible apply safe_ok
    | intro _)
  all_goals first
    | trivial
    | assumption
    | (simp_all [Sized, makeSlice_length, NewArrayValue, NewSingleValue] <;> omega)

theorem safeFn_fnBARSLAST (N : Nat) : SafeFn N fnBARSLAST := by
  intro args md hargs
  rcases args with _ | ⟨a, _ | ⟨b, _ | ⟨c, _ | ⟨d, rest⟩⟩⟩⟩ <;> simp only [fnBARSLAST] <;>
    (try with_reducible exact safe_error _ _)
  simp only [List.mem_cons, List.mem_nil_iff, or_false, forall_eq_or_imp, forall_eq] at hargs
  repeat' (first
    | with_reducible exact safe_error _ _
    | with_reducible apply safe_ite
    | with_reducible apply safe_bind_list N
    | with_reducible apply safe_bind_state N
    | with_reducible apply safe_bind_any
    | with_reducible apply safe_forLoop
    | with_reducible apply safe_forBreak
    | with_reducible apply safe_store N
    | with_reducible apply safe_index
    | with_reducible apply safe_pure
    | with_reducible apply safe_ok
    | intro _)
  all_goals first
    | trivial
    | assumption
    | (simp_all [Sized, makeSlice_length, NewArrayValue, NewSingleValue])

theorem safeFn_fnAVEDEV (N : Nat) : SafeFn N fnAVEDEV := by
  intro args md hargs
  rcases args with _ | ⟨a, _ | ⟨b, _ | ⟨c, _ | ⟨d, rest⟩⟩⟩⟩ <;> simp only [fnAVEDEV] <;>
    (try with_reducible exact safe_error _ _)
  simp only [List.mem_cons, List.mem_nil_iff, or_false, forall_eq_or_imp, forall_eq] at hargs
  repeat' (first
    | with_reducible exact safe_error _ _
    | with_reducible apply safe_ite
    | with_reducible apply safe_bind_list N
    | with_reducible apply safe_bind_state N
    | with_reducible apply safe_bind_any
    | with_reducible apply safe_forLoop
    | with_reducible apply safe_forBreak
    | with_reducible apply safe_store N
    | with_reducible apply safe_index
    | with_reducible apply safe_pure
    | with_reducible apply safe_ok
    | intro _)
  all_goals first
    | trivial
    | assumption
    | (simp_all [Sized, makeSlice_length, NewArrayValue, NewSingleValue] <;> omega)

theorem safeFn_fnFILTER (N : Nat) : SafeFn N fnFILTER := by
  intro args md hargs
  rcases args with _ | ⟨a, _ | ⟨b, _ | ⟨c, _ | ⟨d, rest⟩⟩⟩⟩ <;> simp only [fnFILTER] <;>
    (try with_reducible exact safe_error _ _)
  simp only [List.mem_cons, List.mem_nil_iff, or_false, forall_eq_or_imp, forall_eq] at hargs
  repeat' (first
    | with_reducible exact safe_error _ _
    | with_reducible apply safe_ite
    | with_reducible apply safe_bind_list N
    | with_reducible apply safe_bind_state N
    | with_reducible apply safe_bind_any
    | with_reducible apply safe_forLoop
    | with_reducible apply safe_forBreak
    | with_reducible apply safe_store N
    | with_reducible apply safe_index
    | with_reducible apply safe_pure
    | with_reducible apply safe_ok
    | intro _)
  all_goals first
    | trivial
    | assumption
    | (simp_all [Sized, makeSlice_length, NewArrayValue, NewSingleValue])

theorem safeFn_fnBETWEEN (N : Nat) : SafeFn N fnBETWEEN := by
  intro args md hargs
  rcases args with _ | ⟨a, _ | ⟨b, _ | ⟨c, _ | ⟨d, rest⟩⟩⟩⟩ <;> simp only [fnBETWEEN] <;>
    (try with_reducible exact safe_error _ _)
  simp only [List.mem_cons, List.mem_nil_iff, or_false, forall_eq_or_imp, forall_eq] at hargs
  repeat' (first
    | with_reducible exact safe_error _ _
    | with_reducible apply safe_ite
    | with_reducible apply safe_bind_list N
    | with_reducible apply safe_bind_state N
    | with_reducible apply safe_bind_any
    | with_reducible apply safe_forLoop
    | with_reducible apply safe_forBreak
    | with_reducible apply safe_store N
    | with_reducible apply safe_index
    | with_reducible apply safe_pure
    | with_reducible apply safe_ok
    | intro _)
  all_goals first
    | trivial
    | assumption
    | (simp_all [Sized, makeSlice_length, NewArrayValue, NewSingleValue])

theorem safeFn_fnSMA (N : Nat) : SafeFn N fnSMA :=
  fun args md h => safeFn_fnMA N args md h

theorem safe_mono {α : Type} (P Q : α → Prop) (m : Res α) (h : ∀ x, P x → Q x)
    (hm : Safe P m) : Safe Q m := by
  rcases hm with ⟨x, e, hx⟩ | ⟨s, e⟩
  · exact Or.inl ⟨x, e, h x hx⟩
  · exact Or.inr ⟨s, e⟩

theorem binaryOpScalarScalar_safe (op : BinaryOperator) (a b : F64) :
    Safe (fun v => v.IsArray = false) (binaryOpScalarScalar op a b) := by
  cases op <;> simp only [binaryOpScalarScalar] <;>
    first
      | exact safe_ok _ _ rfl
      | exact safe_error _ _
      | (split_ifs
         · exact safe_error _ _
         · exact safe_ok _ _ rfl)

theorem binaryOp_safe (N : Nat) (op : BinaryOperator) (l r : Value) (hl : Sized N l)
    (hr : Sized N r) : Safe (Sized N) (binaryOp op l r) := by
  simp only [binaryOp, binaryOpArrayArray, binaryOpArrayScalar, binaryOpScalarArray]
  have hs : ∀ a b, Safe (fun _ => True) (binaryOpScalarScalar op a b) :=
    fun a b => safe_mono _ _ _ (fun _ _ => trivial) (binaryOpScalarScalar_safe op a b)
  have hs2 : ∀ a b, Safe (Sized N) (binaryOpScalarScalar op a b) :=
    fun a b => safe_mono _ _ _ (fun v hv h => by rw [hv] at h; cases h)
      (binaryOpScalarScalar_safe op a b)
  repeat' (first
    | with_reducible exact safe_error _ _
    | with_reducible exact hs _ _
    | with_reducible exact hs2 _ _
    | with_reducible apply safe_ite
    | with_reducible apply safe_bind_list N
    | with_reducible apply safe_bind_any
    | with_reducible apply safe_forLoop
    | with_reducible apply safe_store N
    | with_reducible apply safe_index
    | with_reducible apply safe_pure
    | with_reducible apply safe_ok
    | intro _)
  all_goals first
    | trivial
    | assumption
    | (simp_all [Sized, makeSlice_length, NewArrayValue, NewSingleValue])

theorem unaryOp_safe (N : Nat) (op : UnaryOperator) (v : Value) (hv : Sized N v) :
    Safe (Sized N) (unaryOp op v) := by
  simp only [unaryOp]
  repeat' (first
    | with_reducible exact safe_error _ _
    | with_reducible apply safe_ite
    | with_reducible apply safe_bind_list N
    | with_reducible apply safe_bind_any
    | with_reducible apply safe_forLoop
    | with_reducible apply safe_store N
    | with_reducible apply safe_index
    | with_reducible apply safe_pure
    | with_reducible apply safe_ok
    | intro _)
  all_goals first
    | trivial
    | assumption
    | (simp_all [Sized, makeSlice_length, NewArrayValue, NewSingleValue])

/-- Every registered built-in is safe on the values of a run. -/
theorem registry_safe (N : Nat) : ∀ e ∈ NewFunctionRegistry.functions, SafeFn N e.2 := by
  intro e he
  simp only [NewFunctionRegistry, FunctionRegistry.registerBuiltinFunctions,
    FunctionRegistry.Register, List.mem_cons, List.mem_nil_iff, or_false] at he
  rcases he with h | h | h | h | h | h | h | h | h | h | h | h | h | h | h | h | h | h | h | h |
    h | h | h <;> rw [h]
  · exact safeFn_fnBETWEEN N
  · exact safeFn_fnFILTER N
  · exact safeFn_fnAVEDEV N
  · exact safeFn_fnBARSLAST N
  · exact safeFn_fnEXIST N
  · exact safeFn_fnEVERY N
  · exact safeFn_fnCOUNT N
  · exact safeFn_fnWMA N
  · exact safeFn_fnSMA N
  · exact safeFn_fnVAR N
  · exact safeFn_fnSTD N
  · exact safeFn_fnCROSS N
  · exact safeFn_fnIF N
  · exact safeFn_fnLLV N
  · exact safeFn_fnHHV N
  · exact safeFn_fnREF N
  · exact safeFn_fnSQRT N
  · exact safeFn_fnABS N
  · exact safeFn_fnMIN N
  · exact safeFn_fnMAX N
  · exact safeFn_fnSUM N
  · exact safeFn_fnEMA N
  · exact safeFn_fnMA N

theorem call_safe (N : Nat) (r : FunctionRegistry) (hr : ∀ e ∈ r.functions, SafeFn N e.2)
    (name : String) (args : List Value) (md : List MarketData)
    (hargs : ∀ a ∈ args, Sized N a) : Safe (Sized N) (r.Call name args md) := by
  simp only [FunctionRegistry.Call]
  cases hl : r.functions.lookup (goToUpper name) with
  | none => exact safe_error _ _
  | some fn => exact hr _ (mem_of_lookup _ _ _ hl) args md hargs

mutual

/-- Evaluating an expression over the values of a run does not panic: it returns such a
value or a RuntimeError. -/
theorem evaluateExpression_safe (N : Nat) (interp : Interpreter)
    (hv : ∀ e ∈ interp.vars, Sized N e.2)
    (hf : ∀ e ∈ interp.functions.functions, SafeFn N e.2) :
    ∀ (e : Expression), Safe (Sized N) (interp.evaluateExpression e)
  | .NumberLiteral x => by
    simp only [Interpreter.evaluateExpression]
    exact safe_ok _ _ (sized_single N x)
  | .Identifier n => by
    simp only [Interpreter.evaluateExpression, Interpreter.evaluateIdentifier]
    cases hl : interp.vars.lookup n with
    | none => exact safe_error _ _
    | some v => exact safe_ok _ v (hv _ (mem_of_lookup _ _ _ hl))
  | .BinaryExpression l op r => by
    simp only [Interpreter.evaluateExpression]
    rcases evaluateExpression_safe N interp hv hf l with ⟨lv, h1, h2⟩ | ⟨s, h1⟩
    · rcases evaluateExpression_safe N interp hv hf r with ⟨rv, h3, h4⟩ | ⟨s, h3⟩
      · rw [h1, h3]
        exact binaryOp_safe N op lv rv h2 h4
      · rw [h1, h3]
        exact safe_error _ _
    · rw [h1]
      exact safe_error _ _
  | .UnaryExpression op e => by
    simp only [Interpreter.evaluateExpression]
    rcases evaluateExpression_safe N interp hv hf e with ⟨v, h1, h2⟩ | ⟨s, h1⟩
    · rw [h1]
      exact unaryOp_safe N op v h2
    · rw [h1]
      exact safe_error _ _
  | .FunctionCall name args => by
    simp only [Interpreter.evaluateExpression]
    rcases evaluateArguments_safe N interp hv hf args with ⟨vs, h1, h2⟩ | ⟨s, h1⟩
    · rw [h1]
      exact call_safe N interp.functions hf name vs interp.marketData h2
    · rw [h1]
      exact safe_error _ _
  | .ConditionalExpression _ _ _ => by
    simp only [Interpreter.evaluateExpression]
    exact safe_error _ _

/-- See `evaluateExpression_safe`. -/
theorem evaluateArguments_safe (N : Nat) (interp : Interpreter)
    (hv : ∀ e ∈ interp.vars, Sized N e.2)
    (hf : ∀ e ∈ interp.functions.functions, SafeFn N e.2) :
    ∀ (args : List Expression),
      Safe (fun vs => ∀ a ∈ vs, Sized N a) (interp.evaluateArguments args)
  | [] => by
    simp only [Interpreter.evaluateArguments]
    exact safe_ok _ _ (fun a ha => by cases ha)
  | e :: rest => by
    simp only [Interpreter.evaluateArguments]
    rcases evaluateExpression_safe N interp hv hf e with ⟨v, h1, h2⟩ | ⟨s, h1⟩
    · rcases evaluateArguments_safe N interp hv hf rest with ⟨ws, h3, h4⟩ | ⟨s, h3⟩
      · rw [h1, h3]
        refine safe_ok _ _ ?_
        intro a ha
        rcases List.mem_cons.mp ha with h5 | h5
        · rw [h5]
          exact h2
        · exact h4 a h5
      · rw [h1, h3]
        exact safe_error _ _
    · rw [h1]
      exact safe_error _ _

end

/-- The start state of a run over `md`: the six market series, each with one entry per bar,
when there is a bar, and no variable when there is none. -/
theorem startState_safe (md : List MarketData) :
    (∀ e ∈ (startState md).vars, Sized md.length e.2) ∧
    (startState md).functions = NewFunctionRegistry ∧ (startState md).userVars = [] ∧
    (startState md).marketData = md := by
  by_cases h : md.length = 0
  · simp [startState, Interpreter.initMarketDataVariables, NewInterpreter, h]
  · refine ⟨?_, ?_, ?_, ?_⟩
    · intro e he
      simp only [startState, Interpreter.initMarketDataVariables, NewInterpreter, h, if_false,
        Interpreter.setVariable, List.mem_cons, List.mem_nil_iff, or_false] at he
      rcases he with h1 | h1 | h1 | h1 | h1 | h1 <;> rw [h1] <;> intro _ <;>
        exact ⟨by simp [NewArrayValue], by omega⟩
    · simp [startState, Interpreter.initMarketDataVariables, NewInterpreter, h,
        Interpreter.setVariable]
    · simp [startState, Interpreter.initMarketDataVariables, NewInterpreter, h,
        Interpreter.setVariable]
    · simp [startState, Interpreter.initMarketDataVariables, NewInterpreter, h,
        Interpreter.setVariable]

/-- The statements of a run do not panic: the loop ends after the last statement or at the
first RuntimeError, in a state whose series have one entry per bar and whose recorded names
are all bound. -/
theorem executeStatements_safe (N : Nat) (stmts : List Statement) :
    ∀ interp : Interpreter, (∀ e ∈ interp.vars, Sized N e.2) →
      (∀ e ∈ interp.functions.functions, SafeFn N e.2) →
      (∀ n ∈ interp.userVars, n ∈ interp.vars.map Prod.fst) →
      ∃ interp1 err, interp.executeStatements stmts = (interp1, err) ∧
        (∀ e ∈ interp1.vars, Sized N e.2) ∧
        (∀ n ∈ interp1.userVars, n ∈ interp1.vars.map Prod.fst) ∧
        (err = none ∨ ∃ s, err = some (.runtime s)) ∧
        interp1.functions = interp.functions := by
  induction stmts with
  | nil =>
    intro interp hv _ hu
    exact ⟨interp, none, rfl, hv, hu, Or.inl rfl, rfl⟩
  | cons stmt rest ih =>
    intro interp hv hf hu
    simp only [Interpreter.executeStatements]
    cases hb : stmt.binding with
    | none =>
      have e1 : interp.executeStatement stmt =
          .error (.runtime "unknown statement type: *ast.Program") := by
        rw [executeStatement_binding, hb]
      rw [e1]
      exact ⟨interp, _, rfl, hv, hu, Or.inr ⟨_, rfl⟩, rfl⟩
    | some b =>
      obtain ⟨name, e, recorded⟩ := b
      rcases evaluateExpression_safe N interp hv hf e with ⟨v, h1, h2⟩ | ⟨s, h1⟩
      · have e1 : interp.executeStatement stmt = .ok { interp.setVariable name v with
            userVars := if recorded then interp.userVars ++ [name] else interp.userVars } := by
          rw [executeStatement_binding, hb]
          simp only [h1]
        rw [e1]
        have hv2 : ∀ x ∈ ({ interp.setVariable name v with
            userVars := if recorded then interp.userVars ++ [name] else interp.userVars } :
              Interpreter).vars, Sized N x.2 := by
          intro x hx
          rcases List.mem_cons.mp hx with h3 | h3
          · rw [h3]
            exact h2
          · exact hv x h3
        have hu2 : ∀ n ∈ ({ interp.setVariable name v with
            userVars := if recorded then interp.userVars ++ [name] else interp.userVars } :
              Interpreter).userVars, n ∈ ({ interp.setVariable name v with
            userVars := if recorded then interp.userVars ++ [name] else interp.userVars } :
              Interpreter).vars.map Prod.fst := by
          intro n hn
          simp only [Interpreter.setVariable, List.map_cons, List.mem_cons]
          cases recorded with
          | true =>
            simp only [if_true, List.mem_append, List.mem_singleton] at hn
            rcases hn with h3 | h3
            · exact Or.inr (hu n h3)
            · exact Or.inl h3
          | false =>
            simp only [Bool.false_eq_true, if_false] at hn
            exact Or.inr (hu n hn)
        obtain ⟨i1, err, a1, a2, a3, a4, a5⟩ := ih _ hv2 hf hu2
        exact ⟨i1, err, a1, a2, a3, a4, a5⟩
      · have e1 : interp.executeStatement stmt = .error (.runtime s) := by
          rw [executeStatement_binding, hb]
          simp only [h1]
        rw [e1]
        exact ⟨interp, _, rfl, hv, hu, Or.inr ⟨_, rfl⟩, rfl⟩

/-- The result is built without a nil dereference when every recorded name is bound. -/
theorem buildResult_total (vars : List (String × Value)) :
    ∀ (names : List String), (∀ n ∈ names, n ∈ vars.map Prod.fst) →
      ∀ acc : FormulaResult, ∃ result,
        names.foldlM (fun (result : FormulaResult) name =>
          match vars.lookup name with
          | none => (.error (.goPanic "nil pointer dereference") : Res FormulaResult)
          | some value =>
            if value.IsArray then .ok (result.AddOutput name value.Array none)
            else .ok (result.SetVariable name value.Single)) acc = .ok result := by
  intro names
  induction names with
  | nil =>
    intro _ acc
    exact ⟨acc, rfl⟩
  | cons name rest ih =>
    intro hn acc
    obtain ⟨v, hl⟩ := lookup_isSome_of_mem vars name (hn name (List.mem_cons_self _ _))
    simp only [List.foldlM, hl]
    by_cases ha : v.IsArray = true
    · simp only [ha, if_true]
      exact ih (fun n h => hn n (List.mem_cons_of_mem _ h)) _
    · simp only [ha, Bool.false_eq_true, if_false]
      exact ih (fun n h => hn n (List.mem_cons_of_mem _ h)) _

/-- Executing any program over any bars returns a result or a RuntimeError. -/
theorem execute_safe (program : Program) (md : List MarketData) :
    (∃ result, Execute program md = .ok result) ∨
      ∃ s, Execute program md = .error (.runtime s) := by
  obtain ⟨h1, h2, h3, _⟩ := startState_safe md
  obtain ⟨interp1, err, e1, e2, e3, e4, _⟩ := executeStatements_safe md.length program.Body
    (startState md) h1 (by rw [h2]; exact registry_safe md.length) (by rw [h3]; simp)
  rw [execute_eq, e1]
  rcases e4 with e | ⟨s, e⟩
  · subst e
    obtain ⟨result, hr⟩ := buildResult_total interp1.vars interp1.userVars e3 NewFormulaResult
    exact Or.inl ⟨result, hr⟩
  · subst e
    exact Or.inr ⟨s, rfl⟩

/-- Running any formula over any bars returns a result, a LexError, a ParseError or a
RuntimeError. -/
theorem run_total (formula : String) (md : List MarketData) :
    (∃ result, Run formula md = .ok result) ∨
    (∃ msg l c ch, Run formula md = .error (.lexer msg l c ch)) ∨
    (∃ msg l c, Run formula md = .error (.parser msg l c)) ∨
    (∃ s, Run formula md = .error (.runtime s)) := by
  rcases compile_total formula with ⟨prog, h⟩ | ⟨msg, l, c, ch, h⟩ | ⟨msg, l, c, h⟩
  · rcases execute_safe prog md with ⟨result, h1⟩ | ⟨s, h1⟩
    · exact Or.inl ⟨result, by simp only [Run, h, h1]⟩
    · exact Or.inr (Or.inr (Or.inr ⟨s, by simp only [Run, h, h1]⟩))
  · exact Or.inr (Or.inl ⟨msg, l, c, ch, by simp only [Run, h]⟩)
  · exact Or.inr (Or.inr (Or.inl ⟨msg, l, c, by simp only [Run, h]⟩))

/-- C33.  For every formula text and every bar sequence, the empty one included, `Run` returns
a result or an error (a LexError, a ParseError or a RuntimeError): it does not panic, so no
built-in reached through the interpreter reads or writes a series index out of range.  Every
registered built-in, called on scalars and series of one common length `N` that is at least
one (the only values an interpreter run over `N` bars produces; none is a series when there
is no bar), returns such a value or a RuntimeError; so do the operators and every expression
evaluated in a state of a run. -/
theorem C33_run_total :
    (∀ (formula : String) (md : List MarketData),
      (∃ result, Run formula md = .ok result) ∨
      (∃ msg l c ch, Run formula md = .error (.lexer msg l c ch)) ∨
      (∃ msg l c, Run formula md = .error (.parser msg l c)) ∨
      (∃ s, Run formula md = .error (.runtime s))) ∧
    (∀ (N : Nat) (e : String × Function), e ∈ NewFunctionRegistry.functions →
      ∀ (args : List Value) (md : List MarketData), (∀ a ∈ args, Sized N a) →
        (∃ v, e.2 args md = .ok v ∧ Sized N v) ∨ ∃ s, e.2 args md = .error (.runtime s)) ∧
    (∀ (md : List MarketData) (stmts : List Statement),
      ∃ interp err, (startState md).executeStatements stmts = (interp, err) ∧
        (err = none ∨ ∃ s, err = some (.runtime s)) ∧
        (∀ b ∈ interp.vars, Sized md.length b.2) ∧
        ∀ e : Expression, (∃ v, interp.evaluateExpression e = .ok v ∧ Sized md.length v) ∨
          ∃ s, interp.evaluateExpression e = .error (.runtime s)) ∧
    (∀ (program : Program) (md : List MarketData),
      (∃ result, Execute program md = .ok result) ∨
        ∃ s, Execute program md = .error (.runtime s)) := by
  refine ⟨run_total, fun N e he args md hargs => registry_safe N e he args md hargs, ?_,
    execute_safe⟩
  intro md stmts
  obtain ⟨h1, h2, h3, _⟩ := startState_safe md
  have hreg : ∀ e ∈ (startState md).functions.functions, SafeFn md.length e.2 := by
    rw [h2]
    exact registry_safe md.length
  obtain ⟨interp1, err, e1, e2, e3, e4, hfn⟩ := executeStatements_safe md.length stmts
    (startState md) h1 hreg (by rw [h3]; intro n hn; cases hn)
  exact ⟨interp1, err, e1, e4, e2, fun e =>
    evaluateExpression_safe md.length interp1 e2 (by rw [hfn]; exact hreg) e⟩

theorem C33_run_total_witness :
    ((∃ result, Run "X := CROSS(CLOSE, MA(CLOSE, 3))" [] = .ok result) ∨
      (∃ msg l c ch, Run "X := CROSS(CLOSE, MA(CLOSE, 3))" [] = .error (.lexer msg l c ch)) ∨
      (∃ msg l c, Run "X := CROSS(CLOSE, MA(CLOSE, 3))" [] = .error (.parser msg l c)) ∨
      (∃ s, Run "X := CROSS(CLOSE, MA(CLOSE, 3))" [] = .error (.runtime s))) ∧
    Run "X := CROSS(CLOSE, MA(CLOSE, 3))" [] = .error (.runtime "undefined variable: CLOSE") ∧
    Run "X := CROSS(1, 2)" [] = .error (.runtime "CROSS requires array arguments") ∧
    Run "X := CROSS(CLOSE, OPEN)" (exampleBars.take 1) =
      .ok { Outputs := [{ Name := "X", Data := [F64.zero], Style := none }], Variables := [] } ∧
    Run "X := MA(CLOSE, 0)" exampleBars =
      .error (.runtime "MA period must be between 1 and 10") ∧
    ((∃ v, fnCROSS [NewArrayValue [F64.ofInt 1], NewArrayValue [F64.ofInt 2]] [] = .ok v ∧
        Sized 1 v) ∨
      ∃ s, fnCROSS [NewArrayValue [F64.ofInt 1], NewArrayValue [F64.ofInt 2]] [] =
        .error (.runtime s)) :=
  ⟨C33_run_total.1 "X := CROSS(CLOSE, MA(CLOSE, 3))" [],
   isErrorWith_sound _ _ (by decide!), isErrorWith_sound _ _ (by decide!),
   isOkWith_sound _ _ (by decide!), isErrorWith_sound _ _ (by decide!),
   C33_run_total.2.1 1 (goToUpper "CROSS", fnCROSS)
     (by simp [NewFunctionRegistry, FunctionRegistry.registerBuiltinFunctions,
       FunctionRegistry.Register])
     [NewArrayValue [F64.ofInt 1], NewArrayValue [F64.ofInt 2]] []
     (by
       intro a ha
       simp only [List.mem_cons, List.mem_nil_iff, or_false] at ha
       rcases ha with h | h <;> rw [h] <;> intro _ <;> exact ⟨rfl, by decide⟩)⟩

/-! ### A `;` replaced by a newline: the lexer -/

theorem swapChar_space (a b : Char) (h : swapChar a b) : Lexer.isSpace a = Lexer.isSpace b := by
  rcases h with h | ⟨h1, h2⟩
  · rw [h]
  · rw [h1, h2]
    decide

theorem swapped_dropWhile : ∀ (x y : List Char), Swapped x y →
    Swapped (x.dropWhile Lexer.isSpace) (y.dropWhile Lexer.isSpace) := by
  intro x y h
  induction h with
  | nil => exact List.Forall₂.nil
  | @cons a b x1 y1 hab hxy ih =>
    have hs := swapChar_space a b hab
    cases ha : Lexer.isSpace a with
    | true =>
      rw [ha] at hs
      simp only [List.dropWhile, ha, ← hs]
      exact ih
    | false =>
      rw [ha] at hs
      simp only [List.dropWhile, ha, ← hs]
      exact List.Forall₂.cons hab hxy

theorem swapped_length (x y : List Char) (h : Swapped x y) : x.length = y.length :=
  List.Forall₂.length_eq h

/-- A word holds no `;` after its first byte. -/
theorem tokenWord_tail (c : Char) (r : List Char) (ty : TokenType) (w : List Char)
    (h : tokenWord (c :: r) = some (ty, w)) : ∀ x ∈ w.tail, x ≠ ';' := by
  by_cases hn : c = '\n'
  · subst hn
    simp only [tokenWord, if_true, Option.some.injEq, Prod.mk.injEq] at h
    rw [← h.2]
    simp
  · by_cases hdg : Lexer.isDigit c = true
    · simp only [tokenWord, hn, if_false, hdg, if_true, Option.some.injEq, Prod.mk.injEq] at h
      rw [← h.2]
      intro x hx he
      subst he
      rcases numberLiteral_bytes _ _ (List.mem_of_mem_tail hx) with e | e | e | e | e | e <;>
        revert e <;> decide
    · have hd' : Lexer.isDigit c = false := by simpa using hdg
      by_cases hl : Lexer.isLetter c = true ∨ c = '_'
      · simp only [tokenWord, hn, if_false, hd', Bool.false_eq_true, hl, if_true,
          Option.some.injEq, Prod.mk.injEq] at h
        rw [← h.2]
        intro x hx he
        subst he
        have h2 := List.mem_takeWhile_imp (List.mem_of_mem_tail hx)
        revert h2
        decide
      · have e : tokenWord (c :: r) = operatorWord (c :: r) := by
          simp only [tokenWord, hn, if_false, hd', Bool.false_eq_true, hl]
        rw [e] at h
        have hc := operatorWord_cases c r ty w h
        rcases hc with e | e | e | e | e | e | e | e | e | e | e | e | e <;> subst e <;>
          simp only [operatorWord, Char.reduceEq, if_true, if_false, reduceIte] at h <;>
          (try split_ifs at h) <;>
          simp only [Option.some.injEq, Prod.mk.injEq, reduceCtorEq] at h <;>
          obtain ⟨h1, h2⟩ := h <;> subst h1 <;> subst h2 <;> decide

theorem swapped_eq_of_no_semicolon : ∀ (w w1 : List Char), Swapped w w1 →
    (∀ x ∈ w, x ≠ ';') → w1 = w := by
  intro w w1 h
  induction h with
  | nil => intro _; rfl
  | @cons a b x1 y1 hab _ ih =>
    intro hw
    have h1 : b = a := by
      rcases hab with e | ⟨e, _⟩
      · exact e.symm
      · exact absurd e (hw a (List.mem_cons_self _ _))
    rw [h1, ih (fun x hx => hw x (List.mem_cons_of_mem _ hx))]

theorem swapped_head (t1 t2 : List Char) (h : Swapped t1 t2) :
    t2.head? = t1.head? ∨ ∃ s, t2.head? = some s ∧ (Lexer.isSpace s = true ∨ s = '\n') := by
  cases h with
  | nil => exact Or.inl rfl
  | @cons a b x1 y1 hab _ =>
    rcases hab with e | ⟨_, e⟩
    · subst e
      exact Or.inl rfl
    · exact Or.inr ⟨b, rfl, Or.inr e⟩

/-- The words of an input in which some `;` are replaced by newlines: the same words, with
a NEWLINE word for each SEMICOLON word whose `;` was replaced. -/
theorem lexWords_swapped : ∀ (f : Nat) (x y : List Char) (ws : List (TokenType × List Char)),
    Swapped x y → lexWords f x = some ws →
    ∃ ws1, lexWords f y = some ws1 ∧ List.Forall₂ swapWord ws ws1 := by
  intro f
  induction f with
  | zero =>
    intro x y ws _ h
    simp [lexWords] at h
  | succ n ih =>
    intro x y ws hxy h
    have hd := swapped_dropWhile x y hxy
    cases hx : x.dropWhile Lexer.isSpace with
    | nil =>
      rw [hx] at hd
      have hy : y.dropWhile Lexer.isSpace = [] := by
        cases hyy : y.dropWhile Lexer.isSpace with
        | nil => rfl
        | cons c1 r1 =>
          rw [hyy] at hd
          cases hd
      simp only [lexWords, hx, Option.some.injEq] at h
      subst h
      exact ⟨[], by simp only [lexWords, hy], List.Forall₂.nil⟩
    | cons c r =>
      rw [hx] at hd
      cases hy : y.dropWhile Lexer.isSpace with
      | nil =>
        rw [hy] at hd
        cases hd
      | cons c1 r1 =>
        rw [hy] at hd
        cases hd with
        | cons hc hr =>
          cases hw : tokenWord (c :: r) with
          | none => simp [lexWords, hx, hw] at h
          | some tw =>
            obtain ⟨ty, w⟩ := tw
            simp only [lexWords, hx, hw] at h
            cases h1 : lexWords n ((c :: r).drop w.length) with
            | none => simp [h1] at h
            | some ws0 =>
              simp only [h1, Option.map_some', Option.some.injEq] at h
              subst h
              rcases hc with e | ⟨e1, e2⟩
              · subst e
                obtain ⟨a1, a2, a3, a4⟩ := tokenWord_spec c r ty w hw
                have hsw : Swapped (c :: r) (c :: r1) := List.Forall₂.cons (Or.inl rfl) hr
                have htk : Swapped ((c :: r).take w.length) ((c :: r1).take w.length) :=
                  List.forall₂_take _ hsw
                have hdr : Swapped ((c :: r).drop w.length) ((c :: r1).drop w.length) :=
                  List.forall₂_drop _ hsw
                have htake : (c :: r).take w.length = w := by
                  conv_lhs => rw [a2]
                  simp
                rw [htake] at htk
                have hw1 : (c :: r1).take w.length = w := by
                  cases w with
                  | nil => exact absurd rfl a1
                  | cons c0 w0 =>
                    have hc0 : c0 = c := by
                      have h5 := a2
                      simp only [List.cons_append, List.cons.injEq] at h5
                      exact h5.1.symm
                    subst hc0
                    simp only [List.length_cons, List.take_succ_cons, List.cons.injEq,
                      true_and] at htk ⊢
                    cases htk with
                    | cons _ h6 =>
                      exact swapped_eq_of_no_semicolon _ _ h6 (tokenWord_tail c0 r ty _ hw)
                have hsplit : c :: r1 = w ++ (c :: r1).drop w.length := by
                  conv_lhs => rw [← List.take_append_drop w.length (c :: r1), hw1]
                have hloc := tokenWord_local c r ty w _ ((c :: r1).drop w.length) a2 hw
                  (swapped_head _ _ hdr)
                rw [← hsplit] at hloc
                obtain ⟨ws1, i1, i2⟩ := ih _ _ ws0 hdr h1
                refine ⟨(ty, w) :: ws1, ?_, List.Forall₂.cons (Or.inl rfl) i2⟩
                simp only [lexWords, hy, hloc, i1, Option.map_some']
              · subst e1
                subst e2
                have hw2 : tokenWord (';' :: r) = some (.SEMICOLON, [';']) := by
                  simp [tokenWord, operatorWord, Lexer.isDigit, Lexer.isLetter]
                have hw3 : tokenWord ('\n' :: r1) = some (.NEWLINE, ['\n']) := by
                  simp [tokenWord]
                rw [hw2] at hw
                simp only [Option.some.injEq, Prod.mk.injEq] at hw
                obtain ⟨e3, e4⟩ := hw
                subst e3
                subst e4
                have hdr : Swapped r r1 := hr
                simp only [List.length_singleton, List.drop_succ_cons, List.drop_zero] at h1
                obtain ⟨ws1, i1, i2⟩ := ih _ _ ws0 hdr h1
                refine ⟨(.NEWLINE, ['\n']) :: ws1, ?_,
                  List.Forall₂.cons (Or.inr ⟨rfl, rfl⟩) i2⟩
                simp only [lexWords, hy, hw3, List.length_singleton, List.drop_succ_cons,
                  List.drop_zero, i1, Option.map_some']

theorem map_snoc_split {α β : Type} (f : α → β) : ∀ (ws : List β) (l : List α) (e : β),
    l.map f = ws ++ [e] → ∃ r a, l = r ++ [a] ∧ r.map f = ws ∧ f a = e := by
  intro ws
  induction ws with
  | nil =>
    intro l e h
    cases l with
    | nil => simp at h
    | cons a l1 =>
      cases l1 with
      | nil =>
        simp only [List.map_cons, List.map_nil, List.nil_append, List.cons.injEq, and_true] at h
        exact ⟨[], a, rfl, rfl, h⟩
      | cons b l2 => simp at h
  | cons w ws ih =>
    intro l e h
    cases l with
    | nil => simp at h
    | cons a l1 =>
      simp only [List.map_cons, List.cons_append, List.cons.injEq] at h
      obtain ⟨r, b, h1, h2, h3⟩ := ih l1 e h.2
      exact ⟨a :: r, b, by rw [h1]; rfl, by simp [h.1, h2], h3⟩

theorem swapToken_of_word (t t1 : Token) (h : swapWord t.word t1.word) : swapToken t t1 := by
  rcases h with h | ⟨h1, h2⟩
  · simp only [Token.word, Prod.mk.injEq] at h
    exact Or.inl ⟨h.1, String.ext h.2⟩
  · simp only [Token.word, Prod.mk.injEq] at h1 h2
    exact Or.inr ⟨h1.1, h2.1⟩

theorem swapToken_of_words : ∀ (r r1 : List Token),
    List.Forall₂ swapWord (r.map Token.word) (r1.map Token.word) →
    List.Forall₂ swapToken r r1 := by
  intro r
  induction r with
  | nil =>
    intro r1 h
    cases r1 with
    | nil => exact List.Forall₂.nil
    | cons b r2 => cases h
  | cons a r ih =>
    intro r1 h
    cases r1 with
    | nil => cases h
    | cons b r2 =>
      simp only [List.map_cons] at h
      cases h with
      | cons h1 h2 => exact List.Forall₂.cons (swapToken_of_word a b h1) (ih r2 h2)

/-- The tokens of a source in which some `;` are replaced by newlines: when the source is
accepted, so is the other, with tokens of the same kinds and literals except for a NEWLINE
token in the place of each SEMICOLON token whose `;` was replaced. -/
theorem tokenize_swapped (x y : List Char) (tokens : List Token) (hxy : Swapped x y)
    (h : (NewLexer x).Tokenize = .ok tokens) :
    ∃ r r1 eof eof1, tokens = r ++ [eof] ∧ (NewLexer y).Tokenize = .ok (r1 ++ [eof1]) ∧
      List.Forall₂ swapToken r r1 ∧ eof.Typ = .EOF ∧ eof1.Typ = .EOF := by
  obtain ⟨ws, h1, h2⟩ := tokenize_accepts x tokens h
  obtain ⟨ws1, h3, h4⟩ := lexWords_swapped _ x y ws hxy h1
  rw [swapped_length x y hxy] at h3
  obtain ⟨tokens1, h5, h6⟩ := (tokenize_words y).1 ws1 h3
  obtain ⟨r, eof, e1, e2, e3⟩ := map_snoc_split Token.word ws tokens _ h2
  obtain ⟨r1, eof1, e4, e5, e6⟩ := map_snoc_split Token.word ws1 tokens1 _ h6
  refine ⟨r, r1, eof, eof1, e1, by rw [h5, e4], ?_, ?_, ?_⟩
  · rw [← e2, ← e5] at h4
    exact swapToken_of_words r r1 h4
  · simp only [Token.word, Prod.mk.injEq] at e3
    exact e3.1
  · simp only [Token.word, Prod.mk.injEq] at e6
    exact e6.1

/-! ### A `;` replaced by a newline: the parser -/

theorem levelOp_terminator (k : Nat) :
    levelOp k .SEMICOLON = none ∧ levelOp k .NEWLINE = none := by
  constructor
  · cases h : levelOp k .SEMICOLON with
    | none => rfl
    | some op =>
      rcases k with _ | _ | _ | _ | _ | k <;> simp [levelOp] at h
  · cases h : levelOp k .NEWLINE with
    | none => rfl
    | some op =>
      rcases k with _ | _ | _ | _ | _ | k <;> simp [levelOp] at h

theorem swapToken_levelOp (k : Nat) (t t1 : Token) (h : swapToken t t1) :
    levelOp k t1.Typ = levelOp k t.Typ := by
  rcases h with ⟨h1, _⟩ | ⟨h1, h2⟩
  · rw [h1]
  · rw [h1, h2, (levelOp_terminator k).1, (levelOp_terminator k).2]

theorem alike_cases (p q : Parser) (h : p.Alike q) :
    (∃ eof eof1, p.At [eof] ∧ q.At [eof1] ∧ eof.Typ = .EOF ∧ eof1.Typ = .EOF) ∨
    (∃ t r t1 r1 eof eof1, p.At (t :: (r ++ [eof])) ∧ q.At (t1 :: (r1 ++ [eof1])) ∧
      swapToken t t1 ∧ List.Forall₂ swapToken r r1 ∧ eof.Typ = .EOF ∧ eof1.Typ = .EOF) := by
  obtain ⟨r, r1, eof, eof1, h1, h2, h3, h4, h5⟩ := h
  cases h3 with
  | nil => exact Or.inl ⟨eof, eof1, h1, h2, h4, h5⟩
  | @cons t t1 x y ht hr => exact Or.inr ⟨t, x, t1, y, eof, eof1, h1, h2, ht, hr, h4, h5⟩

theorem swapToken_eof (t t1 : Token) (h : swapToken t t1) : t1.Typ = .EOF ↔ t.Typ = .EOF := by
  rcases h with ⟨h1, _⟩ | ⟨h1, h2⟩
  · rw [h1]
  · rw [h1, h2]
    simp

theorem alike_advance (p q : Parser) (h : p.Alike q) : p.advance.Alike q.advance := by
  rcases alike_cases p q h with ⟨eof, eof1, h1, h2, h3, h4⟩ |
    ⟨t, r, t1, r1, eof, eof1, h1, h2, h3, h4, h5, h6⟩
  · rw [advance_at_end p eof [] h1 h3, advance_at_end q eof1 [] h2 h4]
    exact h
  · by_cases he : t.Typ = .EOF
    · rw [advance_at_end p t _ h1 he,
        advance_at_end q t1 _ h2 ((swapToken_eof t t1 h3).mpr he)]
      exact h
    · have he1 : t1.Typ ≠ .EOF := fun e => he ((swapToken_eof t t1 h3).mp e)
      exact ⟨r, r1, eof, eof1, at_advance_end p t r eof h1 he,
        at_advance_end q t1 r1 eof1 h2 he1, h4, h5, h6⟩

/-- What two parsers that are alike see: both are at the end or neither is; the kinds of
their current tokens are equal, and so are the literals before the end, or the one stands at
a SEMICOLON and the other at a NEWLINE. -/
theorem alike_view (p q : Parser) (h : p.Alike q) :
    q.isAtEnd = p.isAtEnd ∧
    ((q.curType = p.curType ∧ (p.isAtEnd = false → q.curValue = p.curValue)) ∨
      (p.isAtEnd = false ∧ p.curType = some .SEMICOLON ∧ q.curType = some .NEWLINE)) := by
  rcases alike_cases p q h with ⟨eof, eof1, h1, h2, h3, h4⟩ |
    ⟨t, r, t1, r1, eof, eof1, h1, h2, h3, h4, h5, h6⟩
  · rw [at_isAtEnd p eof [] h1, at_isAtEnd q eof1 [] h2, at_curType p eof [] h1,
      at_curType q eof1 [] h2, h3, h4]
    exact ⟨rfl, Or.inl ⟨rfl, by simp⟩⟩
  · rw [at_isAtEnd p t _ h1, at_isAtEnd q t1 _ h2, at_curType p t _ h1, at_curType q t1 _ h2,
      at_curValue p t _ h1, at_curValue q t1 _ h2]
    rcases h3 with ⟨e1, e2⟩ | ⟨e1, e2⟩
    · rw [e1, e2]
      exact ⟨rfl, Or.inl ⟨rfl, fun _ => rfl⟩⟩
    · rw [e1, e2]
      exact ⟨by decide, Or.inr ⟨by decide, rfl, rfl⟩⟩

theorem alike_level_lower (fuel : Nat) (ih : ParserAlike fuel) (k : Nat) (hk : k < 5)
    (p q : Parser) (e : Expression) (p1 : Parser) (ha : p.Alike q)
    (h : parseLevel k (fuel + 1) p = .ok (e, p1)) :
    ∃ q1, parseLevel k (fuel + 1) q = .ok (e, q1) ∧ p1.Alike q1 := by
  cases hs : parseLevel (k + 1) fuel p with
  | error err =>
    rw [parseLevel_succ_error k fuel p err hk hs] at h
    cases h
  | ok xp =>
    obtain ⟨x, p2⟩ := xp
    obtain ⟨q2, hq, a2⟩ := ih.level (k + 1) p q x p2 (by omega) ha hs
    rw [parseLevel_succ k fuel p p2 x hk hs] at h
    obtain ⟨q1, hq1, a1⟩ := ih.loop k x p2 q2 e p1 a2 h
    exact ⟨q1, by rw [parseLevel_succ k fuel q q2 x hk hq]; exact hq1, a1⟩

theorem alike_loop (fuel : Nat) (ih : ParserAlike fuel) (k : Nat) (left : Expression)
    (p q : Parser) (e : Expression) (p1 : Parser) (ha : p.Alike q)
    (h : loopLevel k (fuel + 1) left p = .ok (e, p1)) :
    ∃ q1, loopLevel k (fuel + 1) left q = .ok (e, q1) ∧ p1.Alike q1 := by
  have stop : ∀ t rest t1 rest1, p.At (t :: rest) → q.At (t1 :: rest1) →
      levelOp k t.Typ = none → levelOp k t1.Typ = none →
      ∃ q1, loopLevel k (fuel + 1) left q = .ok (e, q1) ∧ p1.Alike q1 := by
    intro t rest t1 rest1 h1 h2 h3 h4
    rw [loopLevel_stop k fuel p t rest left h1 h3] at h
    simp only [Except.ok.injEq, Prod.mk.injEq] at h
    obtain ⟨e1, e2⟩ := h
    subst e1
    subst e2
    exact ⟨q, loopLevel_stop k fuel q t1 rest1 left h2 h4, ha⟩
  rcases alike_cases p q ha with ⟨eof, eof1, h1, h2, h3, h4⟩ |
    ⟨t, r, t1, r1, eof, eof1, h1, h2, h3, h4, h5, h6⟩
  · exact stop eof [] eof1 [] h1 h2 (by rw [h3]; exact levelOp_eof k)
      (by rw [h4]; exact levelOp_eof k)
  · have hl := swapToken_levelOp k t t1 h3
    cases hop : levelOp k t.Typ with
    | none => exact stop t _ t1 _ h1 h2 hop (by rw [hl, hop])
    | some op =>
      have hop1 : levelOp k t1.Typ = some op := by rw [hl, hop]
      cases hs : parseLevel (k + 1) fuel p.advance with
      | error err =>
        rw [loopLevel_continue_error k fuel p t _ op left err h1 hop hs] at h
        cases h
      | ok xp =>
        obtain ⟨x, p2⟩ := xp
        have hk := levelOp_some_lt _ _ _ hop
        obtain ⟨q2, hq, a2⟩ := ih.level (k + 1) p.advance q.advance x p2 (by omega)
          (alike_advance p q ha) hs
        rw [loopLevel_continue k fuel p p2 t _ op left x h1 hop hs] at h
        obtain ⟨q1, hq1, a1⟩ := ih.loop k (.BinaryExpression left op x) p2 q2 e p1 a2 h
        exact ⟨q1, by rw [loopLevel_continue k fuel q q2 t1 _ op left x h2 hop1 hq]; exact hq1,
          a1⟩

theorem alike_unary (fuel : Nat) (ih : ParserAlike fuel) (p q : Parser) (e : Expression)
    (p1 : Parser) (ha : p.Alike q) (h : parseLevel 5 (fuel + 1) p = .ok (e, p1)) :
    ∃ q1, parseLevel 5 (fuel + 1) q = .ok (e, q1) ∧ p1.Alike q1 := by
  have prim : ∀ t rest t1 rest1, p.At (t :: rest) → q.At (t1 :: rest1) →
      t.Typ ≠ .MINUS → t1.Typ ≠ .MINUS →
      ∃ q1, parseLevel 5 (fuel + 1) q = .ok (e, q1) ∧ p1.Alike q1 := by
    intro t rest t1 rest1 h1 h2 h3 h4
    have e1 : parseLevel 5 (fuel + 1) p = parseLevel 6 fuel p :=
      parseUnary_primary p t rest fuel h1 h3
    have e2 : parseLevel 5 (fuel + 1) q = parseLevel 6 fuel q :=
      parseUnary_primary q t1 rest1 fuel h2 h4
    rw [e1] at h
    rw [e2]
    exact ih.level 6 p q e p1 (le_refl 6) ha h
  rcases alike_cases p q ha with ⟨eof, eof1, h1, h2, h3, h4⟩ |
    ⟨t, r, t1, r1, eof, eof1, h1, h2, h3, h4, h5, h6⟩
  · exact prim eof [] eof1 [] h1 h2 (by rw [h3]; decide) (by rw [h4]; decide)
  · by_cases hm : t.Typ = .MINUS
    · have hm1 : t1.Typ = .MINUS := by
        rcases h3 with ⟨e1, _⟩ | ⟨e1, _⟩
        · rw [← e1, hm]
        · rw [hm] at e1
          cases e1
      cases hs : parseLevel 5 fuel p.advance with
      | error err =>
        have e1 : parseLevel 5 (fuel + 1) p = .error err :=
          parseUnary_neg_error p t _ err fuel h1 hm hs
        rw [e1] at h
        cases h
      | ok xp =>
        obtain ⟨x, p2⟩ := xp
        obtain ⟨q2, hq, a2⟩ := ih.level 5 p.advance q.advance x p2 (by omega)
          (alike_advance p q ha) hs
        have e1 : parseLevel 5 (fuel + 1) p = .ok (.UnaryExpression .OpUnaryMinus x, p2) :=
          parseUnary_neg p p2 t _ x fuel h1 hm hs
        have e2 : parseLevel 5 (fuel + 1) q = .ok (.UnaryExpression .OpUnaryMinus x, q2) :=
          parseUnary_neg q q2 t1 _ x fuel h2 hm1 hq
        rw [e1] at h
        simp only [Except.ok.injEq, Prod.mk.injEq] at h
        obtain ⟨e3, e4⟩ := h
        subst e3
        subst e4
        exact ⟨q2, e2, a2⟩
    · have hm1 : t1.Typ ≠ .MINUS := by
        rcases h3 with ⟨e1, _⟩ | ⟨_, e1⟩
        · rw [← e1]
          exact hm
        · rw [e1]
          decide
      exact prim t _ t1 _ h1 h2 hm hm1

theorem alike_primary (fuel : Nat) (ih : ParserAlike fuel) (p q : Parser) (e : Expression)
    (p1 : Parser) (ha : p.Alike q) (h : parseLevel 6 (fuel + 1) p = .ok (e, p1)) :
    ∃ q1, parseLevel 6 (fuel + 1) q = .ok (e, q1) ∧ p1.Alike q1 := by
  have h0 : Parser.parsePrimary (fuel + 1) p = .ok (e, p1) := h
  show ∃ q1, Parser.parsePrimary (fuel + 1) q = .ok (e, q1) ∧ p1.Alike q1
  obtain ⟨v1, v2⟩ := alike_view p q ha
  cases hend : p.isAtEnd with
  | true => simp [Parser.parsePrimary, hend] at h0
  | false =>
    rw [hend] at v1
    rcases v2 with ⟨v3, v4⟩ | ⟨_, v3, _⟩
    · have v5 := v4 hend
      simp only [Parser.parsePrimary, hend, Bool.false_eq_true, if_false] at h0
      simp only [Parser.parsePrimary, v1, Bool.false_eq_true, if_false, v3]
      cases hct : p.curType with
      | none => simp [hct] at h0
      | some ty =>
        rw [hct] at h0
        cases ty <;> simp only [reduceCtorEq] at h0 ⊢
        · simp only [Parser.parseNumber] at h0 ⊢
          rw [v5]
          cases hpf : ParseFloat p.curValue with
          | none => simp [hpf] at h0
          | some v =>
            simp only [hpf, Except.ok.injEq, Prod.mk.injEq] at h0 ⊢
            obtain ⟨e1, e2⟩ := h0
            subst e1
            subst e2
            exact ⟨q.advance, ⟨rfl, rfl⟩, alike_advance p q ha⟩
        · exact ih.ident p q e p1 ha v5 h0
        · exact ih.group p q e p1 ha h0
        · exact ih.ident p q e p1 ha v5 h0
    · simp [Parser.parsePrimary, hend, v3] at h0

theorem alike_expr (fuel : Nat) (ih : ParserAlike fuel) (p q : Parser) (e : Expression)
    (p1 : Parser) (ha : p.Alike q) (h : Parser.parseExpression (fuel + 1) p = .ok (e, p1)) :
    ∃ q1, Parser.parseExpression (fuel + 1) q = .ok (e, q1) ∧ p1.Alike q1 := by
  have e1 : ∀ x, Parser.parseExpression (fuel + 1) x = parseLevel 0 fuel x := by
    intro x
    simp [Parser.parseExpression, parseLevel]
  rw [e1] at h ⊢
  exact ih.level 0 p q e p1 (by omega) ha h

theorem alike_ident (fuel : Nat) (ih : ParserAlike fuel) (p q : Parser) (e : Expression)
    (p1 : Parser) (ha : p.Alike q) (hv : q.curValue = p.curValue)
    (h : Parser.parseIdentifierOrCall (fuel + 1) p = .ok (e, p1)) :
    ∃ q1, Parser.parseIdentifierOrCall (fuel + 1) q = .ok (e, q1) ∧ p1.Alike q1 := by
  have a1 := alike_advance p q ha
  obtain ⟨v1, v2⟩ := alike_view p.advance q.advance a1
  simp only [Parser.parseIdentifierOrCall] at h ⊢
  rw [hv, v1]
  by_cases hc : !p.advance.isAtEnd ∧ p.advance.curType = some .LPAREN
  · have hc1 : !p.advance.isAtEnd ∧ q.advance.curType = some .LPAREN := by
      rcases v2 with ⟨v3, _⟩ | ⟨_, v3, _⟩
      · rw [v3]
        exact hc
      · rw [v3] at hc
        simp at hc
    rw [if_pos hc] at h
    rw [if_pos hc1]
    exact ih.call _ p.advance q.advance e p1 a1 h
  · have hc1 : ¬ (!p.advance.isAtEnd ∧ q.advance.curType = some .LPAREN) := by
      rcases v2 with ⟨v3, _⟩ | ⟨_, _, v3⟩
      · rw [v3]
        exact hc
      · rw [v3]
        simp
    rw [if_neg hc] at h
    rw [if_neg hc1]
    simp only [Except.ok.injEq, Prod.mk.injEq] at h ⊢
    obtain ⟨e1, e2⟩ := h
    subst e1
    subst e2
    exact ⟨q.advance, ⟨rfl, rfl⟩, a1⟩

theorem alike_rparen (p q : Parser) (ha : p.Alike q) :
    q.curType = some .RPAREN ↔ p.curType = some .RPAREN := by
  obtain ⟨_, v2⟩ := alike_view p q ha
  rcases v2 with ⟨v3, _⟩ | ⟨_, v3, v4⟩
  · rw [v3]
  · rw [v3, v4]
    simp

theorem alike_comma (p q : Parser) (ha : p.Alike q) :
    q.curType = some .COMMA ↔ p.curType = some .COMMA := by
  obtain ⟨_, v2⟩ := alike_view p q ha
  rcases v2 with ⟨v3, _⟩ | ⟨_, v3, v4⟩
  · rw [v3]
  · rw [v3, v4]
    simp

theorem alike_call (fuel : Nat) (ih : ParserAlike fuel) (name : String) (p q : Parser)
    (e : Expression) (p1 : Parser) (ha : p.Alike q)
    (h : Parser.parseFunctionCall (fuel + 1) name p = .ok (e, p1)) :
    ∃ q1, Parser.parseFunctionCall (fuel + 1) name q = .ok (e, q1) ∧ p1.Alike q1 := by
  simp only [Parser.parseFunctionCall] at h ⊢
  cases hs : Parser.parseArguments fuel [] p.advance with
  | error err => simp [hs] at h
  | ok xp =>
    obtain ⟨args, p2⟩ := xp
    obtain ⟨q2, hq, a2⟩ := ih.args [] p.advance q.advance args p2 (alike_advance p q ha) hs
    simp only [hs, hq] at h ⊢
    by_cases hr : p2.curType = some .RPAREN
    · have hr1 := (alike_rparen p2 q2 a2).mpr hr
      simp only [hr, ne_eq, not_true_eq_false, if_false, Except.ok.injEq, Prod.mk.injEq] at h
      simp only [hr1, ne_eq, not_true_eq_false, if_false, Except.ok.injEq, Prod.mk.injEq]
      obtain ⟨e1, e2⟩ := h
      subst e1
      subst e2
      exact ⟨q2.advance, ⟨rfl, rfl⟩, alike_advance p2 q2 a2⟩
    · simp [hr] at h

theorem alike_group (fuel : Nat) (ih : ParserAlike fuel) (p q : Parser) (e : Expression)
    (p1 : Parser) (ha : p.Alike q)
    (h : Parser.parseGroupedExpression (fuel + 1) p = .ok (e, p1)) :
    ∃ q1, Parser.parseGroupedExpression (fuel + 1) q = .ok (e, q1) ∧ p1.Alike q1 := by
  simp only [Parser.parseGroupedExpression] at h ⊢
  cases hs : Parser.parseExpression fuel p.advance with
  | error err => simp [hs] at h
  | ok xp =>
    obtain ⟨x, p2⟩ := xp
    obtain ⟨q2, hq, a2⟩ := ih.expr p.advance q.advance x p2 (alike_advance p q ha) hs
    simp only [hs, hq] at h ⊢
    by_cases hr : p2.curType = some .RPAREN
    · have hr1 := (alike_rparen p2 q2 a2).mpr hr
      simp only [hr, ne_eq, not_true_eq_false, if_false, Except.ok.injEq, Prod.mk.injEq] at h
      simp only [hr1, ne_eq, not_true_eq_false, if_false, Except.ok.injEq, Prod.mk.injEq]
      obtain ⟨e1, e2⟩ := h
      subst e1
      subst e2
      exact ⟨q2.advance, ⟨rfl, rfl⟩, alike_advance p2 q2 a2⟩
    · simp [hr] at h

theorem alike_args (fuel : Nat) (ih : ParserAlike fuel) (acc : List Expression)
    (p q : Parser) (out : List Expression) (p1 : Parser) (ha : p.Alike q)
    (h : Parser.parseArguments (fuel + 1) acc p = .ok (out, p1)) :
    ∃ q1, Parser.parseArguments (fuel + 1) acc q = .ok (out, q1) ∧ p1.Alike q1 := by
  obtain ⟨v1, _⟩ := alike_view p q ha
  have hr0 := alike_rparen p q ha
  simp only [Parser.parseArguments] at h ⊢
  rw [v1]
  by_cases hc : !p.isAtEnd ∧ p.curType ≠ some .RPAREN
  · have hc1 : !p.isAtEnd ∧ q.curType ≠ some .RPAREN :=
      ⟨hc.1, fun h5 => hc.2 (hr0.mp h5)⟩
    rw [if_pos hc] at h
    rw [if_pos hc1]
    cases hs : Parser.parseExpression fuel p with
    | error err => simp [hs] at h
    | ok xp =>
      obtain ⟨x, p2⟩ := xp
      obtain ⟨q2, hq, a2⟩ := ih.expr p q x p2 ha hs
      simp only [hs, hq] at h ⊢
      by_cases hcm : p2.curType = some .COMMA
      · have hcm1 := (alike_comma p2 q2 a2).mpr hcm
        rw [if_pos hcm] at h
        rw [if_pos hcm1]
        exact ih.args _ p2.advance q2.advance out p1 (alike_advance p2 q2 a2) h
      · have hcm1 : ¬ q2.curType = some .COMMA := fun h5 => hcm ((alike_comma p2 q2 a2).mp h5)
        rw [if_neg hcm] at h
        rw [if_neg hcm1]
        by_cases hr : p2.curType = some .RPAREN
        · have hr1 := (alike_rparen p2 q2 a2).mpr hr
          simp only [hr, ne_eq, not_true_eq_false, if_false] at h
          simp only [hr1, ne_eq, not_true_eq_false, if_false]
          exact ih.args _ p2 q2 out p1 a2 h
        · simp [hr] at h
  · have hc1 : ¬ (!p.isAtEnd ∧ q.curType ≠ some .RPAREN) := by
      intro h5
      exact hc ⟨h5.1, fun h6 => h5.2 (hr0.mpr h6)⟩
    rw [if_neg hc] at h
    rw [if_neg hc1]
    simp only [Except.ok.injEq, Prod.mk.injEq] at h ⊢
    obtain ⟨e1, e2⟩ := h
    subst e1
    subst e2
    exact ⟨q, ⟨rfl, rfl⟩, ha⟩

/-- Every parsing function of an expression returns the same tree on two parsers that are
alike. -/
theorem parserAlike (fuel : Nat) : ParserAlike fuel := by
  induction fuel with
  | zero =>
    refine ⟨?_, ?_, ?_, ?_, ?_, ?_, ?_⟩
    · intro k p q e p1 hk _ h
      rcases k with _ | _ | _ | _ | _ | _ | _ | k <;>
        simp [parseLevel, Parser.parseLogicalOr, Parser.parseLogicalAnd,
          Parser.parseComparison, Parser.parseAdditive, Parser.parseMultiplicative,
          Parser.parseUnary, Parser.parsePrimary] at h
    · intro k left p q e p1 ha h
      rcases k with _ | _ | _ | _ | _ | k
      · simp [loopLevel, Parser.parseLogicalOrLoop] at h
      · simp [loopLevel, Parser.parseLogicalAndLoop] at h
      · simp [loopLevel, Parser.parseComparisonLoop] at h
      · simp [loopLevel, Parser.parseAdditiveLoop] at h
      · simp [loopLevel, Parser.parseMultiplicativeLoop] at h
      · simp only [loopLevel, Except.ok.injEq, Prod.mk.injEq] at h ⊢
        obtain ⟨e1, e2⟩ := h
        subst e1
        subst e2
        exact ⟨q, ⟨rfl, rfl⟩, ha⟩
    · intro p q e p1 _ h
      simp [Parser.parseExpression] at h
    · intro p q e p1 _ _ h
      simp [Parser.parseIdentifierOrCall] at h
    · intro name p q e p1 _ h
      simp [Parser.parseFunctionCall] at h
    · intro acc p q out p1 _ h
      simp [Parser.parseArguments] at h
    · intro p q e p1 _ h
      simp [Parser.parseGroupedExpression] at h
  | succ fuel ih =>
    refine ⟨?_, alike_loop fuel ih, alike_expr fuel ih, alike_ident fuel ih,
      alike_call fuel ih, alike_args fuel ih, alike_group fuel ih⟩
    intro k p q e p1 hk ha h
    by_cases h5 : k < 5
    · exact alike_level_lower fuel ih k h5 p q e p1 ha h
    · by_cases h6 : k = 5
      · subst h6
        exact alike_unary fuel ih p q e p1 ha h
      · have h7 : k = 6 := by omega
        subst h7
        exact alike_primary fuel ih p q e p1 ha h

theorem alike_skip (p q : Parser) (ha : p.Alike q) :
    (Parser.skipTerminator p).Alike (Parser.skipTerminator q) := by
  obtain ⟨v1, v2⟩ := alike_view p q ha
  simp only [Parser.skipTerminator]
  rw [v1]
  rcases v2 with ⟨v3, _⟩ | ⟨v3, v4, v5⟩
  · rw [v3]
    split_ifs
    · exact alike_advance p q ha
    · exact ha
  · simp only [v3, v4, v5, Bool.not_false, true_and, true_or, or_true, if_true,
      reduceCtorEq, or_false, false_or]
    exact alike_advance p q ha

theorem alike_peek (p q : Parser) (ha : p.Alike q) :
    q.peek.map (fun t => t.Typ) = some .ASSIGN ↔ p.peek.map (fun t => t.Typ) = some .ASSIGN := by
  rcases alike_cases p q ha with ⟨eof, eof1, h1, h2, h3, h4⟩ |
    ⟨t, r, t1, r1, eof, eof1, h1, h2, h3, h4, h5, h6⟩
  · rw [at_peek p eof [] h1, at_peek q eof1 [] h2]
  · rw [at_peek p t _ h1, at_peek q t1 _ h2]
    cases h4 with
    | nil => simp [h5, h6]
    | @cons a b x y hab _ =>
      simp only [List.cons_append, List.head?_cons, Option.map_some', Option.some.injEq]
      rcases hab with ⟨e1, _⟩ | ⟨e1, e2⟩
      · rw [e1]
      · rw [e1, e2]
        simp

theorem curType_not_end (p : Parser) (ty : TokenType) (h : p.curType = some ty)
    (hne : ty ≠ .EOF) : p.isAtEnd = false := by
  unfold Parser.curType at h
  unfold Parser.isAtEnd
  cases hc : p.current with
  | none => simp [hc] at h
  | some t =>
    simp only [hc, Option.map_some', Option.some.injEq] at h
    simp [h, hne]

/-- Method `parseStatement` returns the same statement on two parsers that are alike. -/
theorem alike_statement (fuel : Nat) (p q : Parser) (s : Statement) (p1 : Parser)
    (ha : p.Alike q) (h : Parser.parseStatement fuel p = .ok (s, p1)) :
    ∃ q1, Parser.parseStatement fuel q = .ok (s, q1) ∧ p1.Alike q1 := by
  obtain ⟨v1, v2⟩ := alike_view p q ha
  have hpk := alike_peek p q ha
  by_cases hd : p.curType = some .IDENTIFIER ∧ p.peek.map (fun t => t.Typ) = some .ASSIGN
  · have hne := curType_not_end p _ hd.1 (by decide)
    have hq : q.curType = some .IDENTIFIER ∧ q.curValue = p.curValue := by
      rcases v2 with ⟨v3, v4⟩ | ⟨_, v3, _⟩
      · exact ⟨by rw [v3]; exact hd.1, v4 hne⟩
      · rw [hd.1] at v3
        cases v3
    have hd1 : q.curType = some .IDENTIFIER ∧ q.peek.map (fun t => t.Typ) = some .ASSIGN :=
      ⟨hq.1, hpk.mpr hd.2⟩
    have a1 := alike_advance p q ha
    have a2 := alike_advance _ _ a1
    obtain ⟨w1, w2⟩ := alike_view _ _ a1
    simp only [Parser.parseStatement, hd, and_self, if_true,
      Parser.parseVariableDeclaration] at h
    simp only [Parser.parseStatement, hd1, and_self, if_true, Parser.parseVariableDeclaration,
      hq.2]
    by_cases hasg : p.advance.curType = some .ASSIGN
    · have hasg1 : q.advance.curType = some .ASSIGN := by
        rcases w2 with ⟨w3, _⟩ | ⟨_, w3, _⟩
        · rw [w3]
          exact hasg
        · rw [hasg] at w3
          cases w3
      simp only [hasg, ne_eq, not_true_eq_false, if_false] at h
      simp only [hasg1, ne_eq, not_true_eq_false, if_false]
      cases hs : Parser.parseExpression fuel p.advance.advance with
      | error err => simp [hs] at h
      | ok xp =>
        obtain ⟨x, p2⟩ := xp
        obtain ⟨q2, hq2, a3⟩ := (parserAlike fuel).expr _ _ x p2 a2 hs
        simp only [hs, hq2, Except.ok.injEq, Prod.mk.injEq] at h ⊢
        obtain ⟨e1, e2⟩ := h
        subst e1
        subst e2
        exact ⟨_, ⟨rfl, rfl⟩, alike_skip p2 q2 a3⟩
    · simp [hasg] at h
  · have hd1 : ¬ (q.curType = some .IDENTIFIER ∧
        q.peek.map (fun t => t.Typ) = some .ASSIGN) := by
      intro h5
      apply hd
      refine ⟨?_, hpk.mp h5.2⟩
      rcases v2 with ⟨v3, _⟩ | ⟨_, _, v3⟩
      · rw [← v3]
        exact h5.1
      · rw [h5.1] at v3
        cases v3
    obtain ⟨i1, i2⟩ := parseStatement_expression fuel p hd
    obtain ⟨j1, _⟩ := parseStatement_expression fuel q hd1
    cases hs : Parser.parseExpression fuel p with
    | error err =>
      rw [i2 err hs] at h
      cases h
    | ok xp =>
      obtain ⟨x, p2⟩ := xp
      obtain ⟨q2, hq2, a3⟩ := (parserAlike fuel).expr p q x p2 ha hs
      rw [i1 x p2 hs] at h
      simp only [Except.ok.injEq, Prod.mk.injEq] at h
      obtain ⟨e1, e2⟩ := h
      subst e1
      subst e2
      exact ⟨_, j1 x q2 hq2, alike_skip p2 q2 a3⟩

/-- The statement loop of `Parse` returns the same statements on two parsers that are alike:
where the one skips a NEWLINE so does the other, and a statement never starts at a
SEMICOLON. -/
theorem alike_parseLoop (depth : Nat) (hdepth : 8 ≤ depth) :
    ∀ (fuel : Nat) (stmts : List Statement) (p q : Parser) (out : List Statement),
      p.Alike q → Parser.parseLoop depth fuel stmts p = .ok out →
      Parser.parseLoop depth fuel stmts q = .ok out := by
  intro fuel
  induction fuel with
  | zero =>
    intro stmts p q out _ h
    simp [Parser.parseLoop] at h
  | succ fuel ih =>
    intro stmts p q out ha h
    rcases alike_cases p q ha with ⟨eof, eof1, h1, h2, h3, h4⟩ |
      ⟨t, r, t1, r1, eof, eof1, h1, h2, h3, h4, h5, h6⟩
    · rw [parseLoop_eof depth fuel stmts p eof [] h1 h3] at h
      rw [parseLoop_eof depth fuel stmts q eof1 [] h2 h4]
      exact h
    · by_cases hend : t.Typ = .EOF
      · rw [parseLoop_eof depth fuel stmts p t _ h1 hend] at h
        rw [parseLoop_eof depth fuel stmts q t1 _ h2 ((swapToken_eof t t1 h3).mpr hend)]
        exact h
      · have hend1 : t1.Typ ≠ .EOF := fun e => hend ((swapToken_eof t t1 h3).mp e)
        by_cases hnl : t.Typ = .NEWLINE
        · have hnl1 : t1.Typ = .NEWLINE := by
            rcases h3 with ⟨e1, _⟩ | ⟨_, e1⟩
            · rw [← e1]
              exact hnl
            · exact e1
          have e1 : Parser.parseLoop depth (fuel + 1) stmts p =
              Parser.parseLoop depth fuel stmts p.advance := by
            simp [Parser.parseLoop, at_isAtEnd p t _ h1, hend, at_curType p t _ h1, hnl]
          have e2 : Parser.parseLoop depth (fuel + 1) stmts q =
              Parser.parseLoop depth fuel stmts q.advance := by
            simp [Parser.parseLoop, at_isAtEnd q t1 _ h2, hend1, at_curType q t1 _ h2, hnl1]
          rw [e1] at h
          rw [e2]
          exact ih stmts p.advance q.advance out (alike_advance p q ha) h
        · cases hs : Parser.parseStatement depth p with
          | error err =>
            simp [Parser.parseLoop, at_isAtEnd p t _ h1, hend, at_curType p t _ h1, hnl,
              hs] at h
          | ok sp =>
            obtain ⟨s, p2⟩ := sp
            rcases h3 with ⟨e1, e2⟩ | ⟨e1, e2⟩
            · have hnl1 : t1.Typ ≠ .NEWLINE := by
                rw [← e1]
                exact hnl
              obtain ⟨q2, hq2, a2⟩ := alike_statement depth p q s p2 ha hs
              rw [parseLoop_statement depth fuel stmts p p2 t _ s h1 hend hnl hs] at h
              rw [parseLoop_statement depth fuel stmts q q2 t1 _ s h2 hend1 hnl1 hq2]
              exact ih _ p2 q2 out a2 h
            · exfalso
              have hno : ¬ (p.curType = some .IDENTIFIER ∧
                  p.peek.map (fun t => t.Typ) = some .ASSIGN) := by
                rw [at_curType p t _ h1, e1]
                simp
              obtain ⟨d, hd⟩ : ∃ d, depth = d + 8 := ⟨depth - 8, by omega⟩
              have herr := parseExpression_unexpected d p t _ h1 (by rw [e1]; decide)
                (by rw [e1]; decide) (by rw [e1]; decide) (by rw [e1]; decide)
                (by rw [e1]; decide) (by rw [e1]; decide)
              rw [← hd] at herr
              rw [(parseStatement_expression depth p hno).2 _ herr] at hs
              cases hs

/-- Method `Parse` on two token lists that are alike up to positions and to SEMICOLON tokens
replaced by NEWLINE tokens: when the first is accepted, so is the second, with the same
program. -/
theorem parse_swapped (r r1 : List Token) (eof eof1 : Token) (prog : Program)
    (hr : List.Forall₂ swapToken r r1) (he : eof.Typ = .EOF) (he1 : eof1.Typ = .EOF)
    (h : (NewParser (r ++ [eof])).Parse = .ok prog) :
    (NewParser (r1 ++ [eof1])).Parse = .ok prog := by
  have ha : (NewParser (r ++ [eof])).Alike (NewParser (r1 ++ [eof1])) :=
    ⟨r, r1, eof, eof1, at_new _, at_new _, hr, he, he1⟩
  have hlen : (NewParser (r1 ++ [eof1])).tokens.length =
      (NewParser (r ++ [eof])).tokens.length := by
    simp [NewParser, List.Forall₂.length_eq hr]
  simp only [Parser.Parse] at h ⊢
  rw [hlen]
  cases hs : Parser.parseLoop (16 * ((NewParser (r ++ [eof])).tokens.length + 1))
      ((NewParser (r ++ [eof])).tokens.length + 1) [] (NewParser (r ++ [eof])) with
  | error err => simp [hs] at h
  | ok out =>
    rw [alike_parseLoop _ (by omega) _ [] _ _ out ha hs]
    simp only [hs] at h
    exact h

theorem swapped_refl : ∀ (x : List Char), Swapped x x := by
  intro x
  induction x with
  | nil => exact List.Forall₂.nil
  | cons a x ih => exact List.Forall₂.cons (Or.inl rfl) ih

theorem swapped_append : ∀ (a b c d : List Char), Swapped a b → Swapped c d →
    Swapped (a ++ c) (b ++ d) := by
  intro a b c d h
  induction h with
  | nil => intro h2; exact h2
  | @cons x y a1 b1 hxy _ ih =>
    intro h2
    exact List.Forall₂.cons hxy (ih h2)

/-- The bytes of a source in which some `;` are replaced by newlines. -/
theorem swapped_bytes : ∀ (x y : List Char), Swapped x y →
    Swapped (x.flatMap utf8Bytes) (y.flatMap utf8Bytes) := by
  intro x y h
  induction h with
  | nil => exact List.Forall₂.nil
  | @cons a b x1 y1 hab _ ih =>
    simp only [List.flatMap_cons]
    refine swapped_append _ _ _ _ ?_ ih
    rcases hab with e | ⟨e1, e2⟩
    · rw [e]
      exact swapped_refl _
    · rw [e1, e2]
      exact List.Forall₂.cons (Or.inr ⟨rfl, rfl⟩) List.Forall₂.nil

/-- Compilation of a source in which some `;` are replaced by newlines: when the source is
accepted, so is the other, with the same program. -/
theorem compile_swapped (s s1 : String) (prog : Program) (hs : Swapped s.toList s1.toList)
    (h : Compile s = .ok prog) : Compile s1 = .ok prog := by
  have hb : Swapped (goBytes s) (goBytes s1) := swapped_bytes _ _ hs
  simp only [Compile] at h ⊢
  cases ht : (NewLexer (goBytes s)).Tokenize with
  | error err => simp [ht] at h
  | ok tokens =>
    obtain ⟨r, r1, eof, eof1, e1, e2, e3, e4, e5⟩ := tokenize_swapped _ _ tokens hb ht
    simp only [ht] at h
    rw [e1] at h
    simp only [e2]
    exact parse_swapped r r1 eof eof1 prog e3 e4 e5 h

/-- C32 (amended).  Replacing any `;` of a source by a newline does not change an accepted
source's outcome: the new source is accepted with an equal program.  (Where a statement ends
a newline and a `;` are equivalent: `a;b` and the source with a newline in the place of
the `;` compile to the same two statements.) -/
theorem C32_semicolon_to_newline (s s1 : String) (prog : Program)
    (hs : Swapped s.toList s1.toList) (h : Compile s = .ok prog) :
    Compile s1 = .ok prog ∧ s1.length = s.length ∧
      ∀ tokens, (NewLexer (goBytes s)).Tokenize = .ok tokens →
        ∃ r r1 eof eof1, tokens = r ++ [eof] ∧
          (NewLexer (goBytes s1)).Tokenize = .ok (r1 ++ [eof1]) ∧
          List.Forall₂ swapToken r r1 ∧ eof.Typ = .EOF ∧ eof1.Typ = .EOF :=
  ⟨compile_swapped s s1 prog hs h, (List.Forall₂.length_eq hs).symm,
    fun tokens ht => tokenize_swapped _ _ tokens (swapped_bytes _ _ hs) ht⟩

theorem C32_semicolon_to_newline_witness :
    Compile "a;b; c" = .ok { Body := [.ExpressionStatement (.Identifier "a"),
      .ExpressionStatement (.Identifier "b"), .ExpressionStatement (.Identifier "c")] } ∧
    Swapped "a;b; c".toList "a\nb; c".toList ∧
    Compile "a\nb; c" = .ok { Body := [.ExpressionStatement (.Identifier "a"),
      .ExpressionStatement (.Identifier "b"), .ExpressionStatement (.Identifier "c")] } :=
  ⟨compilesTo_sound _ _ (by decide!),
   by simp [Swapped, swapChar],
   (C32_semicolon_to_newline "a;b; c" "a\nb; c" _ (by simp [Swapped, swapChar])
     (compilesTo_sound _ _ (by decide!))).1⟩

/-- Replacing a newline by `;` can turn an accepted source into a rejected one: a newline is
skipped at the start of the source and after a statement terminator, a `;` there is
rejected. -/
theorem C32_counterexample :
    Compile "a\n\nb" = .ok { Body := [.ExpressionStatement (.Identifier "a"),
      .ExpressionStatement (.Identifier "b")] } ∧
    Compile "a;;b" = .error (.parser "unexpected token: SEMICOLON" 1 3) ∧
    Compile "\na" = .ok { Body := [.ExpressionStatement (.Identifier "a")] } ∧
    Compile ";a" = .error (.parser "unexpected token: SEMICOLON" 1 1) ∧
    Compile "a;\nb" = .ok { Body := [.ExpressionStatement (.Identifier "a"),
      .ExpressionStatement (.Identifier "b")] } ∧
    Compile "a\n;b" = .error (.parser "unexpected token: SEMICOLON" 2 1) :=
  ⟨compilesTo_sound _ _ (by decide!), isErrorWith_sound _ _ (by decide!),
   compilesTo_sound _ _ (by decide!), isErrorWith_sound _ _ (by decide!),
   compilesTo_sound _ _ (by decide!), isErrorWith_sound _ _ (by decide!)⟩

end FormulaGo
